import Mathlib

/-!
# The reactor core of muduo: a shallow embedding

The development follows the sources under `muduo/net`:
`Channel.{h,cc}`, `EventLoop.{h,cc}`, `EventLoopThreadPool.{h,cc}`,
`Timer.{h,cc}`, `TimerId.h`, `TimerQueue.{h,cc}`, `Poller.h` and
`poller/PollPoller.{h,cc}`.

Conventions of the embedding.

* Objects live in heaps indexed by their address (`ChannelPtr`, `TimerPtr`):
  a heap is a function from addresses to `Option`, `none` being "no live
  object at this address".
* A member function is a function on the world state.  It returns `Option`
  whenever the C++ body can fail to return normally: a failed `assert`, a
  `LOG_FATAL` (process abort), or the use of a pointer with no live object
  behind it.  `none` is that outcome.
* A `std::function` is represented by an identifier; what a user supplied
  function does when called is given by an environment `Env`, an arbitrary
  (possibly failing) state transformer for each call.  The bound member
  functions that the library itself queues (`std::bind(&TimerQueue::..., ...)`)
  are constructors of `Functor` and are run by the model.
* Values the operating system supplies (`Timestamp::now()`, the thread id of
  the caller, the result of `poll`) are parameters.
-/

namespace Muduo

/-! ## Basic types -/

/-- `Timestamp`: the number of microseconds since the epoch
(`microSecondsSinceEpoch_`). -/
abbrev Timestamp := Int

/-- `pid_t`, as returned by `CurrentThread::tid()`. -/
abbrev ThreadId := Int

/-- Address of a `Channel`. -/
abbrev ChannelPtr := Nat

/-- Address of a `Timer`. -/
abbrev TimerPtr := Nat

/-- Address of an object managed by a `shared_ptr` (the owner a channel is tied to). -/
abbrev OwnerPtr := Nat

/-- Identity of a user supplied `std::function` target. -/
abbrev CbId := Nat

/-! ### `<poll.h>` event bits (Linux values) -/

def POLLIN : Nat := 0x001
def POLLPRI : Nat := 0x002
def POLLOUT : Nat := 0x004
def POLLERR : Nat := 0x008
def POLLHUP : Nat := 0x010
def POLLNVAL : Nat := 0x020
def POLLRDHUP : Nat := 0x2000

/-- `TimerId`: the pair (timer pointer, sequence number). -/
structure TimerId where
  timer : TimerPtr
  sequence : Int
deriving DecidableEq, Repr

/-- `EventLoop::Functor`, a `std::function<void()>` queued for the loop thread.
`user cb` is a function supplied by user code; the other two are the closures
`std::bind(&TimerQueue::addTimerInLoop, this, timer)` and
`std::bind(&TimerQueue::cancelInLoop, this, timerId)` built in `TimerQueue.cc`. -/
inductive Functor where
  | user (cb : CbId)
  | addTimerInLoop (timer : TimerPtr)
  | cancelInLoop (timerId : TimerId)
deriving DecidableEq, Repr

/-- One invocation of a user supplied function object. -/
inductive Call where
  /-- `EventCallback` (`std::function<void()>`) of a channel: `cb()`. -/
  | event (cb : CbId)
  /-- `ReadEventCallback` of a channel: `cb(receiveTime)`. -/
  | read (cb : CbId) (receiveTime : Timestamp)
  /-- A user `Functor` run by the loop: `cb()`. -/
  | functor (cb : CbId)
  /-- `TimerCallback` run by `Timer::run`: `cb()`. -/
  | timer (cb : CbId)
deriving DecidableEq, Repr

/-! ## Data model -/

/-- Data members of `class Channel` (`Channel.h`); `loop_` is left out, the
world below holds the one loop the channels belong to. -/
structure Channel where
  fd_ : Int
  events_ : Nat
  revents_ : Nat
  index_ : Int
  logHup_ : Bool
  /-- `tie_`: `none` is the empty `weak_ptr`. -/
  tie_ : Option OwnerPtr
  tied_ : Bool
  eventHandling_ : Bool
  addedToLoop_ : Bool
  readCallback_ : Option CbId
  writeCallback_ : Option CbId
  closeCallback_ : Option CbId
  errorCallback_ : Option CbId
deriving DecidableEq, Repr

/-- Data members of `class Timer` (`Timer.h`).  `interval` is the interval in
microseconds, the amount `addTime(now, interval_)` adds to `now`. -/
structure Timer where
  callback_ : CbId
  expiration_ : Timestamp
  interval_ : Int
  repeat_ : Bool
  sequence_ : Int
deriving DecidableEq, Repr

/-- `TimerQueue::Entry`, `std::pair<Timestamp, Timer*>`. -/
abbrev Entry := Timestamp × TimerPtr

/-- `TimerQueue::ActiveTimer`, `std::pair<Timer*, int64_t>`. -/
abbrev ActiveTimer := TimerPtr × Int

/-- Data members of `class TimerQueue` (`TimerQueue.h`).  The two `std::set`s
are kept as strictly increasing lists (the iteration order of the set).
`timerfdArmed` records the kernel timer: the last expiration handed to
`resetTimerfd`, `none` before the first call. -/
structure TimerQueue where
  timers_ : List Entry
  activeTimers_ : List ActiveTimer
  callingExpiredTimers_ : Bool
  cancelingTimers_ : List ActiveTimer
  timerfdArmed : Option Timestamp
deriving DecidableEq, Repr

/-- Data members of `class EventLoop` (`EventLoop.h`) that the reactor
iteration and the task queue use. -/
structure EventLoop where
  looping_ : Bool
  quit_ : Bool
  eventHandling_ : Bool
  callingPendingFunctors_ : Bool
  iteration_ : Int
  threadId_ : ThreadId
  pollReturnTime_ : Timestamp
  activeChannels_ : List ChannelPtr
  currentActiveChannel_ : Option ChannelPtr
  pendingFunctors_ : List Functor
deriving DecidableEq, Repr

/-- The state one event loop and the code running on it can see.

* `user`: whatever state the user's callbacks own;
* `channels`, `timerHeap`: the live `Channel` and `Timer` objects;
* `alive o`: whether `weak_ptr::lock` on a `weak_ptr` to `o` succeeds;
* `numCreated`: `Timer::s_numCreated_`;
* `wakeupWrites`: the number of 8-byte writes made to `wakeupFd_`;
* `timerRuns`: a history variable that no code reads, the timers (pointer and
  sequence number) on which `Timer::run` has been called, in order. -/
structure World (U : Type) where
  user : U
  channels : ChannelPtr → Option Channel
  alive : OwnerPtr → Bool
  loop : EventLoop
  timerQueue : TimerQueue
  timerHeap : TimerPtr → Option Timer
  numCreated : Int
  wakeupWrites : Nat
  timerRuns : List TimerId

/-- What user supplied function objects do when called. -/
abbrev Env (U : Type) := Call → World U → Option (World U)

variable {U : Type}

/-! ## `Channel.cc` -/

namespace Channel

/-- Write through a `Channel*`: fails when no channel lives at `self`. -/
def modify (self : ChannelPtr) (f : Channel → Channel) (w : World U) : Option (World U) :=
  match w.channels self with
  | none => none
  | some c => some { w with channels := fun p => if p = self then some (f c) else w.channels p }

/-- `if (cb) cb();` for an `EventCallback` slot. -/
def callEvent (env : Env U) (slot : Option CbId) (w : World U) : Option (World U) :=
  match slot with
  | some cb => env (Call.event cb) w
  | none => some w

/-- `if (cb) cb(receiveTime);` for the `ReadEventCallback` slot. -/
def callRead (env : Env U) (slot : Option CbId) (receiveTime : Timestamp) (w : World U) :
    Option (World U) :=
  match slot with
  | some cb => env (Call.read cb receiveTime) w
  | none => some w

/-- Lines 103-110 of `Channel.cc`:
`if ((revents_ & POLLHUP) && !(revents_ & POLLIN)) { ...; if (closeCallback_) closeCallback_(); }`.
The log statement has no effect on the state. -/
def closeBlock (env : Env U) (self : ChannelPtr) (w : World U) : Option (World U) := do
  let c ← w.channels self
  if c.revents_ &&& POLLHUP ≠ 0 ∧ ¬ (c.revents_ &&& POLLIN ≠ 0)
    then callEvent env c.closeCallback_ w else some w

/-- Lines 113-122 of `Channel.cc`: the `POLLNVAL` test only logs, then
`if (revents_ & (POLLERR | POLLNVAL)) { if (errorCallback_) errorCallback_(); }`. -/
def errorBlock (env : Env U) (self : ChannelPtr) (w : World U) : Option (World U) := do
  let c ← w.channels self
  if c.revents_ &&& (POLLERR ||| POLLNVAL) ≠ 0
    then callEvent env c.errorCallback_ w else some w

/-- Lines 124-127 of `Channel.cc`:
`if (revents_ & (POLLIN | POLLPRI | POLLRDHUP)) { if (readCallback_) readCallback_(receiveTime); }`. -/
def readBlock (env : Env U) (self : ChannelPtr) (receiveTime : Timestamp) (w : World U) :
    Option (World U) := do
  let c ← w.channels self
  if c.revents_ &&& (POLLIN ||| POLLPRI ||| POLLRDHUP) ≠ 0
    then callRead env c.readCallback_ receiveTime w else some w

/-- Lines 129-132 of `Channel.cc`:
`if (revents_ & POLLOUT) { if (writeCallback_) writeCallback_(); }`. -/
def writeBlock (env : Env U) (self : ChannelPtr) (w : World U) : Option (World U) := do
  let c ← w.channels self
  if c.revents_ &&& POLLOUT ≠ 0
    then callEvent env c.writeCallback_ w else some w

/-- `Channel::handleEventWithGuard` (`Channel.cc`, lines 93-135): the four
guarded blocks in the order of the source, between the two assignments to
`eventHandling_`.  Each block reads `revents_` and its callback slot from the
channel as it is when the block is reached, after the callbacks that ran
before. -/
def handleEventWithGuard (env : Env U) (self : ChannelPtr) (receiveTime : Timestamp)
    (w : World U) : Option (World U) := do
  let w ← modify self (fun c => { c with eventHandling_ := true }) w
  let w ← closeBlock env self w
  let w ← errorBlock env self w
  let w ← readBlock env self receiveTime w
  let w ← writeBlock env self w
  modify self (fun c => { c with eventHandling_ := false }) w

/-- `Channel::handleEvent` (`Channel.cc`, lines 75-90): `tie_.lock()` yields a
non-null guard exactly when the owner is still alive. -/
def handleEvent (env : Env U) (self : ChannelPtr) (receiveTime : Timestamp)
    (w : World U) : Option (World U) := do
  let c ← w.channels self
  if c.tied_ then
    let guard : Bool := match c.tie_ with
      | some o => w.alive o
      | none => false
    if guard then handleEventWithGuard env self receiveTime w else some w
  else handleEventWithGuard env self receiveTime w

/-- `Channel::tie`. -/
def tie (self : ChannelPtr) (obj : Option OwnerPtr) (w : World U) : Option (World U) :=
  modify self (fun c => { c with tie_ := obj, tied_ := true }) w

end Channel

/-- The C `assert(cond)`: the call does not return when `cond` is false. -/
def assertThat (cond : Bool) : Option Unit :=
  if cond then some () else none

/-! ## `EventLoop.h`: thread affinity -/

namespace EventLoop

/-- `EventLoop::isInLoopThread`; `tid` is `CurrentThread::tid()` of the caller. -/
def isInLoopThread (tid : ThreadId) (w : World U) : Bool :=
  w.loop.threadId_ == tid

/-- `EventLoop::assertInLoopThread`: `abortNotInLoopThread` is a `LOG_FATAL`,
the call does not return when the caller is another thread. -/
def assertInLoopThread (tid : ThreadId) (w : World U) : Option Unit :=
  assertThat (isInLoopThread tid w)

end EventLoop

/-! ## `std::set` as a strictly increasing list -/

/-- `operator<` of a `std::pair`: lexicographic. -/
def pairLt {α β : Type} [LT α] [LT β] [DecidableRel (α := α) (· < ·)]
    [DecidableRel (α := β) (· < ·)] [DecidableEq α] (a b : α × β) : Bool :=
  decide (a.1 < b.1) || (decide (a.1 = b.1) && decide (a.2 < b.2))

namespace OrdSet

variable {α : Type} [DecidableEq α]

/-- Position of a new key: before the first element it is less than. -/
def place (lt : α → α → Bool) (x : α) : List α → List α
  | [] => [x]
  | y :: ys => if lt x y then x :: y :: ys else y :: place lt x ys

/-- `std::set::insert(x)`: the new set and the `second` of the returned pair
(whether the insertion took place). -/
def insert (lt : α → α → Bool) (x : α) (s : List α) : List α × Bool :=
  if x ∈ s then (s, false) else (place lt x s, true)

/-- `std::set::erase(key)`: the new set and the returned count. -/
def erase (x : α) (s : List α) : List α × Nat :=
  if x ∈ s then (s.erase x, 1) else (s, 0)

end OrdSet

/-! ## `Timestamp` -/

/-- Modelled from the spec: `Timestamp::valid` (`muduo/base/Timestamp.h` is not
among the sources).  Expiries are counts of microseconds since the epoch; the
default constructed timestamp, which `Timestamp::invalid()` returns, has count
0 and a valid one is positive. -/
def Timestamp.valid (t : Timestamp) : Bool := decide (0 < t)

/-- Modelled from the spec: `Timestamp::invalid()`, see `Timestamp.valid`. -/
def Timestamp.invalid : Timestamp := 0

/-- Modelled from the spec: `addTime(timestamp, seconds)`
(`muduo/base/Timestamp.h` is not among the sources): "reset its expiry to
`now + interval`", the interval taken in microseconds. -/
def addTime (timestamp : Timestamp) (interval : Int) : Timestamp := timestamp + interval

/-! ## `Timer.cc` -/

namespace Timer

/-- The constructor `Timer(cb, when, interval)` (`Timer.h`); `sequence` is the
value `s_numCreated_.incrementAndGet()` returns. -/
def construct (cb : CbId) (when : Timestamp) (interval : Int) (sequence : Int) : Timer :=
  { callback_ := cb, expiration_ := when, interval_ := interval,
    repeat_ := decide (interval > 0), sequence_ := sequence }

/-- `Timer::restart` on the timer object itself. -/
def restartObj (now : Timestamp) (t : Timer) : Timer :=
  if t.repeat_ then { t with expiration_ := addTime now t.interval_ }
  else { t with expiration_ := Timestamp.invalid }

/-- `Timer::restart` through a `Timer*`. -/
def restart (self : TimerPtr) (now : Timestamp) (w : World U) : Option (World U) :=
  match w.timerHeap self with
  | none => none
  | some t => some { w with
      timerHeap := fun p => if p = self then some (restartObj now t) else w.timerHeap p }

/-- `Timer::run` (`Timer.h`) through a `Timer*`: `callback_()`; the call is recorded in
the history variable `timerRuns`. -/
def run (env : Env U) (self : TimerPtr) (w : World U) : Option (World U) :=
  (w.timerHeap self).bind fun t =>
    env (Call.timer t.callback_) { w with timerRuns := w.timerRuns ++ [⟨self, t.sequence_⟩] }

/-- `delete timer`. -/
def delete (self : TimerPtr) (w : World U) : World U :=
  { w with timerHeap := fun p => if p = self then none else w.timerHeap p }

end Timer

/-! ## `TimerQueue.cc` -/

/-- `UINTPTR_MAX` on the 64-bit targets muduo supports. -/
def UINTPTR_MAX : Nat := 2 ^ 64 - 1

namespace TimerQueue

/-- `operator<` on `Entry`. -/
def entryLt (a b : Entry) : Bool := pairLt a b

/-- `operator<` on `ActiveTimer`. -/
def activeLt (a b : ActiveTimer) : Bool := pairLt a b

/-- `detail::resetTimerfd(timerfd_, expiration)`: arms the kernel timer for
`expiration`; a failure of `timerfd_settime` is only logged. -/
def resetTimerfd (expiration : Timestamp) (w : World U) : World U :=
  { w with timerQueue := { w.timerQueue with timerfdArmed := some expiration } }

/-- `assert(timers_.size() == activeTimers_.size())`. -/
def assertSizes (w : World U) : Option Unit :=
  assertThat (decide (w.timerQueue.timers_.length = w.timerQueue.activeTimers_.length))

/-- `TimerQueue::insert` (`TimerQueue.cc`, lines 265-294). -/
def insert (tid : ThreadId) (timer : TimerPtr) (w : World U) : Option (Bool × World U) := do
  EventLoop.assertInLoopThread tid w
  assertSizes w
  let t ← w.timerHeap timer
  let when := t.expiration_
  let earliestChanged : Bool :=
    match w.timerQueue.timers_.head? with
    | none => true
    | some it => decide (when < it.1)
  let r₁ := OrdSet.insert entryLt (when, timer) w.timerQueue.timers_
  assertThat r₁.2
  let r₂ := OrdSet.insert activeLt (timer, t.sequence_) w.timerQueue.activeTimers_
  assertThat r₂.2
  let w := { w with timerQueue := { w.timerQueue with timers_ := r₁.1, activeTimers_ := r₂.1 } }
  assertSizes w
  pure (earliestChanged, w)

/-- `TimerQueue::addTimerInLoop` (`TimerQueue.cc`, lines 152-161). -/
def addTimerInLoop (tid : ThreadId) (timer : TimerPtr) (w : World U) : Option (World U) := do
  EventLoop.assertInLoopThread tid w
  let r ← insert tid timer w
  (if r.1 then (r.2.timerHeap timer).map fun t => resetTimerfd t.expiration_ r.2
    else some r.2)

/-- The branch of `cancelInLoop` taken when `find` succeeds (`TimerQueue.cc`,
lines 175-178); `timer` is the element found, `*it`. -/
def cancelFound (timer : ActiveTimer) (w : World U) : Option (World U) := do
  let t ← w.timerHeap timer.1
  let r := OrdSet.erase (t.expiration_, timer.1) w.timerQueue.timers_
  assertThat (decide (r.2 = 1))
  let w := Timer.delete timer.1 w
  pure { w with timerQueue := { w.timerQueue with
    timers_ := r.1, activeTimers_ := (OrdSet.erase timer w.timerQueue.activeTimers_).1 } }

/-- `TimerQueue::cancelInLoop` (`TimerQueue.cc`, lines 164-185). -/
def cancelInLoop (tid : ThreadId) (timerId : TimerId) (w : World U) : Option (World U) := do
  EventLoop.assertInLoopThread tid w
  assertSizes w
  let timer : ActiveTimer := (timerId.timer, timerId.sequence)
  let w ← (if timer ∈ w.timerQueue.activeTimers_ then cancelFound timer w
    else if w.timerQueue.callingExpiredTimers_ then
      some { w with timerQueue := { w.timerQueue with
        cancelingTimers_ := (OrdSet.insert activeLt timer w.timerQueue.cancelingTimers_).1 } }
    else some w)
  assertSizes w
  pure w

/-- The loop of `getExpired` over `expired` (`TimerQueue.cc`, lines 223-228):
`activeTimers_.erase(ActiveTimer(it.second, it.second->sequence()))` with
`assert(n == 1)`. -/
def eraseExpired (heap : TimerPtr → Option Timer) :
    List Entry → List ActiveTimer → Option (List ActiveTimer)
  | [], active => some active
  | it :: rest, active =>
    (heap it.2).bind fun t =>
      (assertThat (decide ((OrdSet.erase (it.2, t.sequence_) active).2 = 1))).bind fun _ =>
        eraseExpired heap rest (OrdSet.erase (it.2, t.sequence_) active).1

/-- `TimerQueue::getExpired` (`TimerQueue.cc`, lines 211-232).  `end` is
`timers_.lower_bound(sentry)`: the elements before it are those less than the
sentry. -/
def getExpired (now : Timestamp) (w : World U) : Option (List Entry × World U) := do
  assertSizes w
  let sentry : Entry := (now, UINTPTR_MAX)
  let expired := w.timerQueue.timers_.takeWhile (fun e => entryLt e sentry)
  let rest := w.timerQueue.timers_.dropWhile (fun e => entryLt e sentry)
  assertThat (match rest.head? with
    | none => true
    | some e => decide (now < e.1))
  let active ← eraseExpired w.timerHeap expired w.timerQueue.activeTimers_
  let w := { w with timerQueue := { w.timerQueue with timers_ := rest, activeTimers_ := active } }
  assertSizes w
  pure (expired, w)

/-- The body of the loop of `reset` for one expired entry (`TimerQueue.cc`,
lines 240-251). -/
def resetOne (tid : ThreadId) (now : Timestamp) (it : Entry) (w : World U) :
    Option (World U) :=
  (w.timerHeap it.2).bind fun t =>
    if t.repeat_ = true ∧ (it.2, t.sequence_) ∉ w.timerQueue.cancelingTimers_ then
      (Timer.restart it.2 now w).bind fun w => (insert tid it.2 w).map fun r => r.2
    else
      some (Timer.delete it.2 w)

/-- The loop of `reset` over `expired`. -/
def resetLoop (tid : ThreadId) (now : Timestamp) : List Entry → World U → Option (World U)
  | [], w => some w
  | it :: rest, w => (resetOne tid now it w).bind (resetLoop tid now rest)

/-- `TimerQueue::reset` (`TimerQueue.cc`, lines 234-263). -/
def reset (tid : ThreadId) (expired : List Entry) (now : Timestamp) (w : World U) :
    Option (World U) := do
  let w ← resetLoop tid now expired w
  let nextExpire : Timestamp ←
    (match w.timerQueue.timers_.head? with
    | none => some Timestamp.invalid
    | some it => (w.timerHeap it.2).map (fun t => t.expiration_))
  pure (if nextExpire.valid then resetTimerfd nextExpire w else w)

/-- The loop of `handleRead` over `expired` (`TimerQueue.cc`, lines 201-204):
`it.second->run()`. -/
def runExpired (env : Env U) : List Entry → World U → Option (World U)
  | [], w => some w
  | it :: rest, w => (Timer.run env it.2 w).bind (runExpired env rest)

/-- `TimerQueue::handleRead` (`TimerQueue.cc`, lines 187-209); `now` is the
value of `Timestamp::now()`.  `readTimerfd` drains the descriptor and logs. -/
def handleRead (env : Env U) (tid : ThreadId) (now : Timestamp) (w : World U) :
    Option (World U) := do
  EventLoop.assertInLoopThread tid w
  let r ← getExpired now w
  let expired := r.1
  let w := { r.2 with timerQueue := { r.2.timerQueue with callingExpiredTimers_ := true } }
  let w := { w with timerQueue := { w.timerQueue with cancelingTimers_ := [] } }
  let w ← runExpired env expired w
  let w := { w with timerQueue := { w.timerQueue with callingExpiredTimers_ := false } }
  reset tid expired now w

end TimerQueue

/-! ## `EventLoop.cc` -/

/-- `kPollTimeMs`. -/
def kPollTimeMs : Int := 10000

namespace EventLoop

/-- `EventLoop::wakeup` (`EventLoop.cc`, lines 284-292): one 8-byte write to
`wakeupFd_`; a short write is only logged. -/
def wakeup (w : World U) : World U :=
  { w with wakeupWrites := w.wakeupWrites + 1 }

/-- `EventLoop::queueInLoop` (`EventLoop.cc`, lines 196-207), called by thread
`tid`. -/
def queueInLoop (tid : ThreadId) (cb : Functor) (w : World U) : World U :=
  let w := { w with loop := { w.loop with pendingFunctors_ := w.loop.pendingFunctors_ ++ [cb] } }
  if !isInLoopThread tid w || w.loop.callingPendingFunctors_ then wakeup w else w

/-- The call `cb()` of a `Functor` by thread `tid`. -/
def runFunctor (env : Env U) (tid : ThreadId) (cb : Functor) (w : World U) : Option (World U) :=
  match cb with
  | Functor.user f => env (Call.functor f) w
  | Functor.addTimerInLoop timer => TimerQueue.addTimerInLoop tid timer w
  | Functor.cancelInLoop timerId => TimerQueue.cancelInLoop tid timerId w

/-- `EventLoop::runInLoop` (`EventLoop.cc`, lines 181-192), called by thread
`tid`. -/
def runInLoop (env : Env U) (tid : ThreadId) (cb : Functor) (w : World U) : Option (World U) :=
  if isInLoopThread tid w then runFunctor env tid cb w
  else some (queueInLoop tid cb w)

/-- The loop of `doPendingFunctors` over the local vector `functors`
(`EventLoop.cc`, lines 318-321). -/
def runFunctors (env : Env U) (tid : ThreadId) : List Functor → World U → Option (World U)
  | [], w => some w
  | functor :: rest, w => (runFunctor env tid functor w).bind (runFunctors env tid rest)

/-- `EventLoop::doPendingFunctors` (`EventLoop.cc`, lines 306-323), run by
thread `tid`.  The local vector `functors` starts empty, so after the swap it
holds the queue and `pendingFunctors_` is empty. -/
def doPendingFunctors (env : Env U) (tid : ThreadId) (w : World U) : Option (World U) := do
  let w := { w with loop := { w.loop with callingPendingFunctors_ := true } }
  let functors := w.loop.pendingFunctors_
  let w := { w with loop := { w.loop with pendingFunctors_ := [] } }
  let w ← runFunctors env tid functors w
  pure { w with loop := { w.loop with callingPendingFunctors_ := false } }

/-- The loop of `EventLoop::loop` over `activeChannels_` (`EventLoop.cc`,
lines 145-149). -/
def handleActiveChannels (env : Env U) : List ChannelPtr → World U → Option (World U)
  | [], w => some w
  | channel :: rest, w =>
    let w := { w with loop := { w.loop with currentActiveChannel_ := some channel } }
    (Channel.handleEvent env channel w.loop.pollReturnTime_ w).bind (handleActiveChannels env rest)

/-- One pass through the body of the `while` of `EventLoop::loop`
(`EventLoop.cc`, lines 131-155), run by thread `tid`.  `poll` is
`poller_->poll`, a virtual call: it returns the timestamp and leaves the
active channels in `activeChannels_`.  The trace output is left out. -/
def loopIteration (env : Env U) (poll : Int → World U → Timestamp × World U) (tid : ThreadId)
    (w : World U) : Option (World U) := do
  let w := { w with loop := { w.loop with activeChannels_ := [] } }
  let r := poll kPollTimeMs w
  let w := { r.2 with loop := { r.2.loop with pollReturnTime_ := r.1 } }
  let w := { w with loop := { w.loop with iteration_ := w.loop.iteration_ + 1 } }
  let w := { w with loop := { w.loop with eventHandling_ := true } }
  let w ← handleActiveChannels env w.loop.activeChannels_ w
  let w := { w with loop := { w.loop with currentActiveChannel_ := none } }
  let w := { w with loop := { w.loop with eventHandling_ := false } }
  doPendingFunctors env tid w

/-- The `while (!quit_)` of `EventLoop::loop`, for at most `fuel` iterations;
`none` also when the fuel runs out. -/
def loopWhile (env : Env U) (poll : Int → World U → Timestamp × World U) (tid : ThreadId) :
    Nat → World U → Option (World U)
  | 0, _ => none
  | fuel + 1, w =>
    if w.loop.quit_ then some w
    else (loopIteration env poll tid w).bind (loopWhile env poll tid fuel)

/-- `EventLoop::loop` (`EventLoop.cc`, lines 121-161), run by thread `tid`. -/
def loop (env : Env U) (poll : Int → World U → Timestamp × World U) (tid : ThreadId)
    (fuel : Nat) (w : World U) : Option (World U) := do
  assertThat (!w.loop.looping_)
  assertInLoopThread tid w
  let w := { w with loop := { w.loop with looping_ := true } }
  let w := { w with loop := { w.loop with quit_ := false } }
  let w ← loopWhile env poll tid fuel w
  pure { w with loop := { w.loop with looping_ := false } }

/-- `EventLoop::quit` (`EventLoop.cc`, lines 164-178), called by thread `tid`. -/
def quit (tid : ThreadId) (w : World U) : World U :=
  let w := { w with loop := { w.loop with quit_ := true } }
  if !isInLoopThread tid w then wakeup w else w

end EventLoop

namespace TimerQueue

/-- `TimerQueue::addTimer` (`TimerQueue.cc`, lines 130-141), called by thread
`tid`.  `addr` is the address `new Timer` returns. -/
def addTimer (env : Env U) (tid : ThreadId) (addr : TimerPtr) (cb : CbId) (when : Timestamp)
    (interval : Int) (w : World U) : Option (TimerId × World U) := do
  let timer := Timer.construct cb when interval (w.numCreated + 1)
  let w := { w with
    numCreated := w.numCreated + 1,
    timerHeap := fun p => if p = addr then some timer else w.timerHeap p }
  let w ← EventLoop.runInLoop env tid (Functor.addTimerInLoop addr) w
  let t ← w.timerHeap addr
  pure (⟨addr, t.sequence_⟩, w)

/-- `TimerQueue::cancel` (`TimerQueue.cc`, lines 144-148), called by thread `tid`. -/
def cancel (env : Env U) (tid : ThreadId) (timerId : TimerId) (w : World U) : Option (World U) :=
  EventLoop.runInLoop env tid (Functor.cancelInLoop timerId) w

end TimerQueue

/-! ## Specification-side definitions -/

/-- Run a list of user calls one after the other, stopping at the first that
does not return. -/
def runCalls (env : Env U) (calls : List Call) (w : World U) : Option (World U) :=
  calls.foldlM (fun w call => env call w) w

/-- The call `call` only appends to the queue of pending functors (what
`queueInLoop` does) whenever it returns. -/
def AppendsToQueue (env : Env U) (call : Call) : Prop :=
  ∀ (w w' : World U), env call w = some w' →
    ∃ more, w'.loop.pendingFunctors_ = w.loop.pendingFunctors_ ++ more

/-- The call `call` leaves `pollReturnTime_`, a private member that only
`EventLoop::loop` assigns, as it is. -/
def KeepsPollReturnTime (env : Env U) (call : Call) : Prop :=
  ∀ (w w' : World U), env call w = some w' →
    w'.loop.pollReturnTime_ = w.loop.pollReturnTime_

namespace Channel

/-- The callbacks the specification of the dispatch lists for a channel with
the fields of `c`, in the order it lists them: close, error, read (with the
receive time), write; a callback whose slot is unset is skipped. -/
def dispatchSpec (c : Channel) (receiveTime : Timestamp) : List Call :=
  (if c.revents_ &&& POLLHUP ≠ 0 ∧ c.revents_ &&& POLLIN = 0
    then c.closeCallback_.toList.map Call.event else [])
  ++ (if c.revents_ &&& POLLERR ≠ 0 ∨ c.revents_ &&& POLLNVAL ≠ 0
    then c.errorCallback_.toList.map Call.event else [])
  ++ (if c.revents_ &&& POLLIN ≠ 0 ∨ c.revents_ &&& POLLPRI ≠ 0 ∨ c.revents_ &&& POLLRDHUP ≠ 0
    then c.readCallback_.toList.map (fun cb => Call.read cb receiveTime) else [])
  ++ (if c.revents_ &&& POLLOUT ≠ 0
    then c.writeCallback_.toList.map Call.event else [])

/-- The channel at `self` in `w` has the ready mask and the callback slots of `c`. -/
def SameDispatch (self : ChannelPtr) (c : Channel) (w : World U) : Prop :=
  ∃ c', w.channels self = some c' ∧ c'.revents_ = c.revents_
    ∧ c'.closeCallback_ = c.closeCallback_ ∧ c'.errorCallback_ = c.errorCallback_
    ∧ c'.readCallback_ = c.readCallback_ ∧ c'.writeCallback_ = c.writeCallback_

/-- The call `call` leaves the channel at `self` alive and does not overwrite
its ready mask (`set_revents` is for pollers) or its callback slots (they are
assigned before the channel is registered). -/
def KeepsDispatch (env : Env U) (call : Call) (self : ChannelPtr) : Prop :=
  ∀ (w w' : World U) (c : Channel), env call w = some w' →
    SameDispatch self c w → SameDispatch self c w'

end Channel

/-! ## Concrete instances -/

namespace Demo

/-- A user environment that records every call, in order, in the user state. -/
def logEnv : Env (List Call) := fun call w => some { w with user := w.user ++ [call] }

/-- A loop owned by thread 1, idle. -/
def idleLoop : EventLoop :=
  { looping_ := false, quit_ := false, eventHandling_ := false, callingPendingFunctors_ := false,
    iteration_ := 0, threadId_ := 1, pollReturnTime_ := 0, activeChannels_ := [],
    currentActiveChannel_ := none, pendingFunctors_ := [] }

/-- A timer queue as the constructor leaves it. -/
def emptyQueue : TimerQueue :=
  { timers_ := [], activeTimers_ := [], callingExpiredTimers_ := false, cancelingTimers_ := [],
    timerfdArmed := none }

/-- An untied channel with read, write and close callbacks (no error
callback) whose ready mask is `POLLIN | POLLOUT | POLLHUP | POLLERR`. -/
def channelA : Channel :=
  { fd_ := 5, events_ := POLLIN ||| POLLPRI ||| POLLOUT,
    revents_ := POLLIN ||| POLLOUT ||| POLLHUP ||| POLLERR,
    index_ := 0, logHup_ := true, tie_ := none, tied_ := false, eventHandling_ := false,
    addedToLoop_ := true, readCallback_ := some 10, writeCallback_ := some 11,
    closeCallback_ := some 12, errorCallback_ := none }

/-- A world with `channelA` at address 7 and nothing else. -/
def worldA : World (List Call) :=
  { user := [], channels := fun p => if p = 7 then some channelA else none,
    alive := fun _ => false, loop := idleLoop, timerQueue := emptyQueue,
    timerHeap := fun _ => none, numCreated := 0, wakeupWrites := 0, timerRuns := [] }

end Demo

namespace Demo

/-- A user environment that records every call and in which the user functor 1
calls `queueInLoop(functor 2)` from the loop thread (thread 1). -/
def queueEnv : Env (List Call) := fun call w =>
  let w := { w with user := w.user ++ [call] }
  match call with
  | Call.functor 1 => some (EventLoop.queueInLoop 1 (Functor.user 2) w)
  | _ => some w

/-- The world `worldA` with the user functors 1 and 3 pending. -/
def worldB : World (List Call) :=
  { worldA with loop := { idleLoop with pendingFunctors_ := [Functor.user 1, Functor.user 3] } }

end Demo

namespace EventLoop

/-- What `poller_->poll(kPollTimeMs, &activeChannels_)` returns in an iteration
that starts in `w`: the timestamp and the state, the active channels in
`activeChannels_`. -/
def polled (poll : Int → World U → Timestamp × World U) (w : World U) : Timestamp × World U :=
  poll kPollTimeMs { w with loop := { w.loop with activeChannels_ := [] } }

/-- The state in which the dispatch of the iteration that starts in `w`
begins: the poll has returned, its timestamp is stored, the iteration is
counted and `eventHandling_` is set. -/
def beforeDispatch (poll : Int → World U → Timestamp × World U) (w : World U) : World U :=
  { (polled poll w).2 with loop := { (polled poll w).2.loop with
      pollReturnTime_ := (polled poll w).1,
      iteration_ := (polled poll w).2.loop.iteration_ + 1,
      eventHandling_ := true } }

/-- The calls `handleEvent(t)`, one for each channel of the list, in the order
of the list, each made with `currentActiveChannel_` pointing to its channel. -/
def dispatchAll (env : Env U) (t : Timestamp) (chans : List ChannelPtr) (w : World U) :
    Option (World U) :=
  chans.foldlM (fun w channel => Channel.handleEvent env channel t
    { w with loop := { w.loop with currentActiveChannel_ := some channel } }) w

/-- The state in which `doPendingFunctors` is entered after the dispatch has
ended in `w`. -/
def afterDispatch (w : World U) : World U :=
  { w with loop := { w.loop with currentActiveChannel_ := none, eventHandling_ := false } }

end EventLoop

namespace Demo

/-- A user environment that records every call and in which the read callback
10 calls `queueInLoop(functor 2)` from the loop thread (thread 1). -/
def readyEnv : Env (List Call) := fun call w =>
  let w := { w with user := w.user ++ [call] }
  match call with
  | Call.read 10 _ => some (EventLoop.queueInLoop 1 (Functor.user 2) w)
  | _ => some w

/-- A poll that returns at time 42 and reports the channel at address 7. -/
def pollA : Int → World (List Call) → Timestamp × World (List Call) := fun _ w =>
  (42, { w with loop := { w.loop with activeChannels_ := w.loop.activeChannels_ ++ [7] } })

end Demo

/-! ## `EventLoopThreadPool.cc` -/

/-- Address of an `EventLoop`. -/
abbrev LoopPtr := Nat

/-- The value of an `int` after an arithmetic step (two's complement, 32 bits). -/
def wrapInt32 (n : Int) : Int := (n + 2 ^ 31) % 2 ^ 32 - 2 ^ 31

/-- The conversion `implicit_cast<size_t>(n)` of an `int` (64-bit `size_t`). -/
def toSizeT (n : Int) : Nat := (n % 2 ^ 64).toNat

/-- Data members of `class EventLoopThreadPool` (`EventLoopThreadPool.h`);
`name_` and `threads_`, which the selection of a loop does not read, are left
out. -/
structure EventLoopThreadPool where
  baseLoop_ : LoopPtr
  started_ : Bool
  numThreads_ : Int
  next_ : Int
  loops_ : List LoopPtr
deriving DecidableEq, Repr

namespace EventLoopThreadPool

/-- The constructor `EventLoopThreadPool(baseLoop, nameArg)`
(`EventLoopThreadPool.cc`, lines 20-27). -/
def new (baseLoop : LoopPtr) : EventLoopThreadPool :=
  { baseLoop_ := baseLoop, started_ := false, numThreads_ := 0, next_ := 0, loops_ := [] }

/-- `EventLoopThreadPool::setThreadNum`. -/
def setThreadNum (numThreads : Int) (p : EventLoopThreadPool) : EventLoopThreadPool :=
  { p with numThreads_ := numThreads }

/-- `baseLoop_->assertInLoopThread()` called by thread `tid`; `threadOf` gives
the `threadId_` of the loop at an address. -/
def assertInBaseLoopThread (threadOf : LoopPtr → ThreadId) (tid : ThreadId)
    (p : EventLoopThreadPool) : Option Unit :=
  assertThat (threadOf p.baseLoop_ == tid)

/-- `EventLoopThreadPool::start` (`EventLoopThreadPool.cc`, lines 35-60),
called by thread `tid`.  `startLoop i` is the loop pointer that
`t->startLoop()` returns for the `i`-th thread.  The thread-init callback
runs on the loops, it is not a member of the pool: its calls are left out. -/
def start (threadOf : LoopPtr → ThreadId) (tid : ThreadId) (startLoop : Nat → LoopPtr)
    (p : EventLoopThreadPool) : Option EventLoopThreadPool := do
  assertThat (!p.started_)
  assertInBaseLoopThread threadOf tid p
  pure { p with
    started_ := true,
    loops_ := p.loops_ ++ (List.range p.numThreads_.toNat).map startLoop }

/-- `EventLoopThreadPool::getNextLoop` (`EventLoopThreadPool.cc`, lines 63-87),
called by thread `tid`: the loop returned and the pool afterwards. -/
def getNextLoop (threadOf : LoopPtr → ThreadId) (tid : ThreadId) (p : EventLoopThreadPool) :
    Option (LoopPtr × EventLoopThreadPool) := do
  assertInBaseLoopThread threadOf tid p
  assertThat p.started_
  (if p.loops_.isEmpty then some (p.baseLoop_, p)
    else (p.loops_[toSizeT p.next_]?).map fun loop =>
      (loop, { p with next_ :=
        (if p.loops_.length ≤ toSizeT (wrapInt32 (p.next_ + 1)) then 0
          else wrapInt32 (p.next_ + 1)) }))

/-- `EventLoopThreadPool::getLoopForHash` (`EventLoopThreadPool.cc`, lines
89-101), called by thread `tid`; `hashCode` is a `size_t`. -/
def getLoopForHash (threadOf : LoopPtr → ThreadId) (tid : ThreadId) (hashCode : Nat)
    (p : EventLoopThreadPool) : Option (LoopPtr × EventLoopThreadPool) := do
  assertInBaseLoopThread threadOf tid p
  (if p.loops_.isEmpty then some (p.baseLoop_, p)
    else (p.loops_[hashCode % p.loops_.length]?).map fun loop => (loop, p))

/-- The loops returned by `n` successive calls of `getNextLoop`, in order, and
the pool after them. -/
def getNextLoopTimes (threadOf : LoopPtr → ThreadId) (tid : ThreadId) :
    Nat → EventLoopThreadPool → Option (List LoopPtr × EventLoopThreadPool)
  | 0, p => some ([], p)
  | n + 1, p =>
    (getNextLoop threadOf tid p).bind fun r =>
      (getNextLoopTimes threadOf tid n r.2).map fun rs => (r.1 :: rs.1, rs.2)

end EventLoopThreadPool

namespace OrdSet

/-- The comparison `lt` is a strict total order, as the `operator<` of the key
type of a `std::set` has to be. -/
structure StrictTotal {α : Type} (lt : α → α → Bool) : Prop where
  irrefl : ∀ a, lt a a = false
  trans : ∀ a b c, lt a b = true → lt b c = true → lt a c = true
  total : ∀ a b, a ≠ b → lt a b = true ∨ lt b a = true

/-- The list is strictly increasing: it is the iteration order of a `std::set`. -/
def Sorted {α : Type} (lt : α → α → Bool) (s : List α) : Prop :=
  s.Pairwise (fun a b => lt a b = true)

end OrdSet

namespace TimerQueue

/-- The timer at `p` is live and is in neither `timers_` nor `activeTimers_`:
the state of an expired timer between `getExpired` and `reset`. -/
def Detached (w : World U) (p : TimerPtr) : Prop :=
  (∃ t, w.timerHeap p = some t)
    ∧ (∀ e ∈ w.timerQueue.timers_, e.2 ≠ p) ∧ (∀ a ∈ w.timerQueue.activeTimers_, a.1 ≠ p)

/-- The consistency of a timer queue with the heap of timers.

* `timers_` and `activeTimers_` are `std::set`s (strictly increasing);
* every entry of `timers_` points to a live timer, carries its expiration,
  and that timer is in `activeTimers_` under its sequence number; conversely
  for the entries of `activeTimers_`;
* the two sets have the same size;
* the sequence numbers of the live timers are distinct and none exceeds
  `s_numCreated_`;
* a live timer has a valid address, below `UINTPTR_MAX`. -/
structure Inv (w : World U) : Prop where
  sortedTimers : OrdSet.Sorted entryLt w.timerQueue.timers_
  sortedActive : OrdSet.Sorted activeLt w.timerQueue.activeTimers_
  timersLive : ∀ e ∈ w.timerQueue.timers_, ∃ t, w.timerHeap e.2 = some t
    ∧ t.expiration_ = e.1 ∧ (e.2, t.sequence_) ∈ w.timerQueue.activeTimers_
  activeLive : ∀ a ∈ w.timerQueue.activeTimers_, ∃ t, w.timerHeap a.1 = some t
    ∧ t.sequence_ = a.2 ∧ (t.expiration_, a.1) ∈ w.timerQueue.timers_
  sizes : w.timerQueue.timers_.length = w.timerQueue.activeTimers_.length
  seqBound : ∀ p t, w.timerHeap p = some t → t.sequence_ ≤ w.numCreated
  seqInj : ∀ p q t u, w.timerHeap p = some t → w.timerHeap q = some u →
    t.sequence_ = u.sequence_ → p = q
  ptrBound : ∀ p t, w.timerHeap p = some t → p < UINTPTR_MAX

/-- The state after a successful `insert` of the timer `t` at `timer`. -/
def inserted (timer : TimerPtr) (t : Timer) (w : World U) : World U :=
  { w with timerQueue := { w.timerQueue with
      timers_ := OrdSet.place entryLt (t.expiration_, timer) w.timerQueue.timers_,
      activeTimers_ := OrdSet.place activeLt (timer, t.sequence_) w.timerQueue.activeTimers_ } }

/-- The value `insert` returns: whether the new timer is the earliest. -/
def earliest (t : Timer) (w : World U) : Bool :=
  match w.timerQueue.timers_.head? with
  | none => true
  | some it => decide (t.expiration_ < it.1)

/-- The state after the branch of `cancelInLoop` that found `timer`, the timer
object being `t`: the entry is erased from both sets and the timer deleted. -/
def erased (timer : ActiveTimer) (t : Timer) (w : World U) : World U :=
  { w with
    timerHeap := fun p => if p = timer.1 then none else w.timerHeap p,
    timerQueue := { w.timerQueue with
      timers_ := (OrdSet.erase (t.expiration_, timer.1) w.timerQueue.timers_).1,
      activeTimers_ := (OrdSet.erase timer w.timerQueue.activeTimers_).1 } }

/-- The state after the branch of `cancelInLoop` that did not find `timer`
while an expiry batch is being dispatched. -/
def noted (timer : ActiveTimer) (w : World U) : World U :=
  { w with timerQueue := { w.timerQueue with
      cancelingTimers_ := (OrdSet.insert activeLt timer w.timerQueue.cancelingTimers_).1 } }

end TimerQueue

namespace TimerQueue

/-- The state `getExpired` leaves when the entries of `timers_` before the
`lower_bound` of the sentry are taken out and `active` is what the erase loop
leaves of `activeTimers_`. -/
def expiredOut (now : Timestamp) (active : List ActiveTimer) (w : World U) : World U :=
  { w with timerQueue := { w.timerQueue with
      timers_ := w.timerQueue.timers_.dropWhile (fun e => entryLt e (now, UINTPTR_MAX)),
      activeTimers_ := active } }

end TimerQueue

namespace TimerQueue

/-- What code that runs on the loop thread between two steps of the timer
queue (a timer callback, a channel callback, a pending functor) can do to the
timer queue from `w` to `w'`.  It has no access to the private members: it
can add timers and cancel timers through `addTimer` and `cancel`; it cannot
call `Timer::run` or `Timer::restart`, nor pretend to be another thread.

* the loop's thread and `callingExpiredTimers_` are as before,
  `cancelingTimers_` and `s_numCreated_` have only grown;
* a consistent state stays consistent;
* a timer that was live and in neither set is still so, unchanged;
* a live timer was live before, unchanged, or has been created since. -/
structure Guar (w w' : World U) : Prop where
  thread : w'.loop.threadId_ = w.loop.threadId_
  calling : w'.timerQueue.callingExpiredTimers_ = w.timerQueue.callingExpiredTimers_
  canceling : ∀ a ∈ w.timerQueue.cancelingTimers_, a ∈ w'.timerQueue.cancelingTimers_
  created : w.numCreated ≤ w'.numCreated
  inv : Inv w → Inv w'
  detached : Inv w → ∀ q, Detached w q → Detached w' q ∧ w'.timerHeap q = w.timerHeap q
  fresh : Inv w → ∀ q t, w'.timerHeap q = some t →
    w.timerHeap q = some t ∨ w.numCreated < t.sequence_

/-- Every call of a user supplied function object respects `Guar` and leaves
the record of timer runs, which only `Timer::run` extends, as it is. -/
def Rely (env : Env U) : Prop :=
  ∀ (call : Call) (w w' : World U), env call w = some w' →
    Guar w w' ∧ w'.timerRuns = w.timerRuns

/-- The state after `new Timer(cb, when, interval)` has returned `addr`. -/
def allocated (addr : TimerPtr) (cb : CbId) (when : Timestamp) (interval : Int)
    (w : World U) : World U :=
  { w with
    numCreated := w.numCreated + 1,
    timerHeap := fun p =>
      if p = addr then some (Timer.construct cb when interval (w.numCreated + 1))
      else w.timerHeap p }

end TimerQueue

namespace TimerQueue

/-- The state after `timer->restart(now)` on the timer `t` at `p`. -/
def restarted (now : Timestamp) (p : TimerPtr) (t : Timer) (w : World U) : World U :=
  { w with timerHeap := fun q => if q = p then some (Timer.restartObj now t) else w.timerHeap q }

/-- The state after the body of the loop of `reset` for the expired timer `t`
at `p`: restarted and inserted again if it repeats and was not cancelled
during the batch, deleted otherwise. -/
def resetStep (now : Timestamp) (p : TimerPtr) (t : Timer) (w : World U) : World U :=
  if t.repeat_ = true ∧ (p, t.sequence_) ∉ w.timerQueue.cancelingTimers_ then
    inserted p (Timer.restartObj now t) (restarted now p t w)
  else Timer.delete p w

end TimerQueue

namespace TimerQueue

/-- The test of `reset` on an expired timer `t` at `p`: it repeats and its
identity is not in `cancelingTimers_`. -/
def Keep (w : World U) (p : TimerPtr) (t : Timer) : Prop :=
  t.repeat_ = true ∧ (p, t.sequence_) ∉ w.timerQueue.cancelingTimers_

/-- The state `w'` differs from `w` at most in `timers_`, `activeTimers_`, the
kernel timer and the heap of timers. -/
def SameButTimers (w w' : World U) : Prop :=
  w' = { w with
    timerHeap := w'.timerHeap,
    timerQueue := { w.timerQueue with
      timers_ := w'.timerQueue.timers_,
      activeTimers_ := w'.timerQueue.activeTimers_,
      timerfdArmed := w'.timerQueue.timerfdArmed } }

end TimerQueue

namespace TimerQueue

/-- The state in which the callbacks of a batch start: `callingExpiredTimers_`
set, `cancelingTimers_` cleared. -/
def batchStart (w : World U) : World U :=
  { w with timerQueue := { w.timerQueue with
      callingExpiredTimers_ := true, cancelingTimers_ := [] } }

/-- The state in which `reset` is entered: `callingExpiredTimers_` cleared. -/
def batchEnd (w : World U) : World U :=
  { w with timerQueue := { w.timerQueue with callingExpiredTimers_ := false } }

/-- The identities, pointer and sequence number, of the timers of a batch as
the heap `heap` has them. -/
def batchIds (heap : TimerPtr → Option Timer) (expired : List Entry) : List TimerId :=
  expired.filterMap fun it => (heap it.2).map fun t => ⟨it.2, t.sequence_⟩

/-- The batch of `handleRead` at time `now`: the entries of `timers_` before
the `lower_bound` of the sentry. -/
def batch (now : Timestamp) (w : World U) : List Entry :=
  w.timerQueue.timers_.takeWhile (fun e => entryLt e (now, UINTPTR_MAX))

end TimerQueue

namespace TimerQueue

/-- No live timer bears the sequence number `s`, and `s` has been handed out:
no timer will bear it again. -/
def SeqGone (s : Int) (w : World U) : Prop :=
  (∀ q u, w.timerHeap q = some u → u.sequence_ ≠ s) ∧ s ≤ w.numCreated

/-- The state `w'` comes after `w` in a run of the loop thread: any number of
calls of user function objects, of `addTimer` (the allocator returning a free
valid address) and `cancel` made on the loop thread, and of `handleRead`, each
of which returned. -/
inductive Later (env : Env U) : World U → World U → Prop
  | refl (w : World U) : Later env w w
  | call {w w₁ w' : World U} (c : Call) :
      env c w = some w₁ → Later env w₁ w' → Later env w w'
  | addTimer {w w₁ w' : World U} (addr : TimerPtr) (cb : CbId) (when : Timestamp)
      (interval : Int) (timerId : TimerId) :
      w.timerHeap addr = none → addr < UINTPTR_MAX →
      addTimer env w.loop.threadId_ addr cb when interval w = some (timerId, w₁) →
      Later env w₁ w' → Later env w w'
  | cancel {w w₁ w' : World U} (timerId : TimerId) :
      cancel env w.loop.threadId_ timerId w = some w₁ → Later env w₁ w' → Later env w w'
  | handleRead {w w₁ w' : World U} (now : Timestamp) :
      handleRead env w.loop.threadId_ now w = some w₁ → Later env w₁ w' → Later env w w'

end TimerQueue

namespace Demo

/-- A one-shot timer with callback 20, due at time 500, with sequence number 1. -/
def oneShot : Timer :=
  { callback_ := 20, expiration_ := 500, interval_ := 0, repeat_ := false, sequence_ := 1 }

/-- The world `worldA` with `oneShot` at address 64 in the timer queue. -/
def worldT : World (List Call) :=
  { worldA with
    timerQueue := { emptyQueue with timers_ := [(500, 64)], activeTimers_ := [(64, 1)] },
    timerHeap := fun p => if p = 64 then some oneShot else none,
    numCreated := 1 }

end Demo

namespace TimerQueue

/-- The timer callback `cb` cancels the timer `id` in the `k`-th run of that
timer: whenever it is called while the record of runs shows `k` runs of `id`
(the run in progress included) and returns, it has called `cancel(id)` on the
thread `tid` in between; what it does before and after that call respects
`Guar`. -/
def SelfCancels (env : Env U) (tid : ThreadId) (cb : CbId) (id : TimerId) (k : Nat) : Prop :=
  ∀ w w', env (Call.timer cb) w = some w' → w.timerRuns.count id = k →
    ∃ w₁ w₂, Guar w w₁ ∧ cancel env tid id w₁ = some w₂ ∧ Guar w₂ w'

/-- Every call of a user supplied function object made on the thread `tid` of
the loop in a consistent state returns. -/
def Returns (env : Env U) (tid : ThreadId) : Prop :=
  ∀ (call : Call) (w : World U), Inv w → w.loop.threadId_ = tid → ∃ w', env call w = some w'

end TimerQueue

namespace Demo

/-- A user environment that records every call and in which the timer
callback 30 calls `cancel` on the timer id `(64, 1)` from thread 1 during the
third run of that timer; the number of the run in progress is read off the
record of runs.  `cancel` calls no user function object. -/
def selfCancelEnv : Env (List Call) := fun call w =>
  if call = Call.timer 30 ∧ w.timerRuns.count ⟨64, 1⟩ = 3 then
    TimerQueue.cancel logEnv 1 ⟨64, 1⟩ { w with user := w.user ++ [call] }
  else some { w with user := w.user ++ [call] }

/-- The periodic timer with callback 30, interval 10 and sequence number 1,
due at `expiration`. -/
def periodic (expiration : Timestamp) : Timer :=
  { Timer.construct 30 10 10 1 with expiration_ := expiration }

/-- The world in which `periodic`, at address 64, has run twice and is due
at 30. -/
def worldP : World (List Call) :=
  { worldA with
    user := [Call.timer 30, Call.timer 30],
    timerQueue := { emptyQueue with
      timers_ := [(30, 64)], activeTimers_ := [(64, 1)], timerfdArmed := some 30 },
    timerHeap := fun p => if p = 64 then some (periodic 30) else none,
    numCreated := 1,
    timerRuns := [⟨64, 1⟩, ⟨64, 1⟩] }

/-- The scenario from the start: thread 1 calls `addTimer(cb 30, when 10,
interval 10)` in `worldA`, the allocator returning the address 64, and then
`handleRead` at each of the times `nows`. -/
def scenario (nows : List Timestamp) : Option (World (List Call)) :=
  (TimerQueue.addTimer selfCancelEnv 1 64 30 10 10 worldA).bind fun r =>
    nows.foldlM (fun w now => TimerQueue.handleRead selfCancelEnv 1 now w) r.2

/-- The part of a world the scenario is about: the record of runs, the calls
the user environment has seen, the two sets and the timer at address 64. -/
structure View where
  runs : List TimerId
  calls : List Call
  timers : List Entry
  active : List ActiveTimer
  timer64 : Option Timer
deriving DecidableEq, Repr

/-- The view of a world. -/
def view (w : World (List Call)) : View :=
  { runs := w.timerRuns, calls := w.user, timers := w.timerQueue.timers_,
    active := w.timerQueue.activeTimers_, timer64 := w.timerHeap 64 }

end Demo

namespace Demo

/-- The scenario of a one-shot timer from the start: thread 1 calls
`addTimer(cb 20, when 500, interval 0)` in `worldA`, the allocator returning
the address 64, and then `handleRead` at each of the times `nows`; the user
environment records the calls. -/
def oneShotScenario (nows : List Timestamp) : Option (World (List Call)) :=
  (TimerQueue.addTimer logEnv 1 64 20 500 0 worldA).bind fun r =>
    nows.foldlM (fun w now => TimerQueue.handleRead logEnv 1 now w) r.2

end Demo

namespace TimerQueue

/-- A call the loop thread makes on the timer queue from outside the timer
callbacks: `addTimer` (`addr` is the address `new Timer` returns), `cancel`,
or the `handleRead` that the loop dispatches when the timer descriptor is
readable (`now` is the value of `Timestamp::now()`). -/
inductive Op where
  | addTimer (addr : TimerPtr) (cb : CbId) (when : Timestamp) (interval : Int)
  | cancel (timerId : TimerId)
  | handleRead (now : Timestamp)
deriving DecidableEq, Repr

namespace Op

/-- The call made by thread `tid`. -/
def apply (env : Env U) (tid : ThreadId) : Op → World U → Option (World U)
  | Op.addTimer addr cb when interval, w =>
    (TimerQueue.addTimer env tid addr cb when interval w).map fun r => r.2
  | Op.cancel timerId, w => TimerQueue.cancel env tid timerId w
  | Op.handleRead now, w => TimerQueue.handleRead env tid now w

/-- What the allocator guarantees: the address `new Timer` returns is valid
and not the address of a live timer. -/
def fresh : Op → World U → Bool
  | Op.addTimer addr _ _ _, w => (w.timerHeap addr).isNone && decide (addr < UINTPTR_MAX)
  | _, _ => true

/-- The clock has not run backwards past the epoch: `Timestamp::now()` is not
negative. -/
def timely : Op → Bool
  | Op.handleRead now => decide (0 ≤ now)
  | _ => true

end Op

/-- The calls `ops` made one after the other by thread `tid`; `none` as soon
as one of them does not return. -/
def runOps (env : Env U) (tid : ThreadId) : List Op → World U → Option (World U)
  | [], w => some w
  | op :: rest, w => (op.apply env tid w).bind (runOps env tid rest)

/-- The allocator's guarantee holds at each `addTimer` of `ops`, in the state
in which that call is made. -/
def admissible (env : Env U) (tid : ThreadId) : List Op → World U → Bool
  | [], _ => true
  | op :: rest, w =>
    op.fresh w &&
      (match op.apply env tid w with
      | none => true
      | some w' => admissible env tid rest w')

/-- A timer queue as the constructor leaves it, no `Timer` allocated. -/
def Initial (w : World U) : Prop :=
  w.timerQueue.timers_ = [] ∧ w.timerQueue.activeTimers_ = [] ∧ ∀ p, w.timerHeap p = none

/-- The user environment `env` with `assert(timers_.size() ==
activeTimers_.size())` added on entry to and on return from every call of a
user function object. -/
def checkSizes (env : Env U) : Env U := fun call w =>
  (assertSizes w).bind fun _ =>
    (env call w).bind fun w' =>
      (assertSizes w').bind fun _ => some w'

end TimerQueue

namespace Demo

/-- A user environment that records every call and whose timer callbacks use
the timer queue on thread 1: the callback 30 calls `cancel` on the timer id
`(65, 2)`, and the callback 40 calls `addTimer(cb 41, when 5000, interval 0)`,
the allocator returning the address 70 (the call is left out when thread 1
is not the loop thread or the address is in use). -/
def busyEnv : Env (List Call) := fun call w =>
  if call = Call.timer 30 then
    TimerQueue.cancel logEnv 1 ⟨65, 2⟩ { w with user := w.user ++ [call] }
  else if call = Call.timer 40 ∧ w.loop.threadId_ = 1 ∧ w.timerHeap 70 = none then
    (TimerQueue.addTimer logEnv 1 70 41 5000 0 { w with user := w.user ++ [call] }).map
      fun r => r.2
  else some { w with user := w.user ++ [call] }

/-- Three timers due at 100 are added to the empty queue of `worldA`: a
one-shot timer with callback 30 at 64, a periodic timer with callback 40 at
65, a one-shot timer with callback 42 at 66; then `handleRead` at 100. -/
def busyOps : List TimerQueue.Op :=
  [TimerQueue.Op.addTimer 64 30 100 0, TimerQueue.Op.addTimer 65 40 100 50,
    TimerQueue.Op.addTimer 66 42 100 0, TimerQueue.Op.handleRead 100]

end Demo

namespace TimerQueue

/-- The kernel timer does not fire late: when `timers_` is not empty
`resetTimerfd` has been called, and the expiration it was last called with is
not later than the expiration of any timer in `timers_`. -/
def ArmedLe (w : World U) : Prop :=
  ∀ e ∈ w.timerQueue.timers_, ∃ a, w.timerQueue.timerfdArmed = some a ∧ a ≤ e.1

/-- A live timer that repeats has a positive interval, as the constructor of
`Timer` sets `repeat_`. -/
def Periodic (w : World U) : Prop :=
  ∀ p t, w.timerHeap p = some t → t.repeat_ = true → 0 < t.interval_

/-- The kernel timer is armed for the minimum: when `resetTimerfd` has been
called and `timers_` is not empty, the expiration it was last called with is
the earliest expiration in `timers_`. -/
def ArmedAtMin (w : World U) : Prop :=
  ∀ a, w.timerQueue.timerfdArmed = some a → w.timerQueue.timers_ ≠ [] →
    (∃ e ∈ w.timerQueue.timers_, e.1 = a) ∧ ∀ e ∈ w.timerQueue.timers_, a ≤ e.1

/-- The rely condition on the kernel timer: a call of a user function object
in a consistent state keeps `ArmedLe` and `Periodic` together, as `addTimer`
and `cancel` do. -/
def RelyArmed (env : Env U) : Prop :=
  ∀ (call : Call) (w w' : World U), env call w = some w' → Inv w →
    ArmedLe w ∧ Periodic w → ArmedLe w' ∧ Periodic w'

end TimerQueue

namespace Demo

/-- Two one-shot timers are added to the empty queue of `worldA`, due at 10
(at address 64) and at 20 (at address 65); then the first is cancelled. -/
def staleOps : List TimerQueue.Op :=
  [TimerQueue.Op.addTimer 64 20 10 0, TimerQueue.Op.addTimer 65 21 20 0,
    TimerQueue.Op.cancel ⟨64, 1⟩]

end Demo

/-! ## `PollPoller.cc` -/

/-- `struct pollfd` of `<poll.h>`; `events` and `revents` are `short`. -/
structure PollFd where
  fd : Int
  events : Int
  revents : Int
deriving DecidableEq, Repr

/-- `static_cast<short>(n)` of an `int`: the value modulo `2^16`, in the range
of `short`. -/
def toShort (n : Int) : Int := (n + 2 ^ 15) % 2 ^ 16 - 2 ^ 15

/-- Data members of `class PollPoller` (`PollPoller.h`) and of its base
`Poller` (`Poller.h`): `pollfds_` is the `std::vector<struct pollfd>`,
`channels_` the `std::map<int, Channel*>`; `ownerLoop_` is the one loop of the
world. -/
structure PollPoller where
  pollfds_ : List PollFd
  channels_ : Int → Option ChannelPtr

namespace PollPoller

/-- The loop of `PollPoller::fillActiveChannels` (`PollPoller.cc`, lines
63-81) from the slot at the head of `pfds` on.  A failed `assert` aborts. -/
def fillLoop (channels_ : Int → Option ChannelPtr) :
    List PollFd → Int → List ChannelPtr → World U → Option (List ChannelPtr × World U)
  | [], _, activeChannels, w => some (activeChannels, w)
  | pfd :: rest, numEvents, activeChannels, w =>
    if numEvents > 0 then
      if pfd.revents > 0 then
        (channels_ pfd.fd).bind fun channel =>
          (w.channels channel).bind fun c =>
            (assertThat (decide (c.fd_ = pfd.fd))).bind fun _ =>
              (Channel.modify channel (fun c => { c with revents_ := pfd.revents.toNat }) w).bind
                fun w => fillLoop channels_ rest (numEvents - 1) (activeChannels ++ [channel]) w
      else fillLoop channels_ rest numEvents activeChannels w
    else some (activeChannels, w)

/-- `PollPoller::fillActiveChannels` (`PollPoller.cc`, lines 59-82). -/
def fillActiveChannels (p : PollPoller) (numEvents : Int) (activeChannels : List ChannelPtr)
    (w : World U) : Option (List ChannelPtr × World U) :=
  fillLoop p.channels_ p.pollfds_ numEvents activeChannels w

/-- The branch of `PollPoller::updateChannel` for a new channel
(`PollPoller.cc`, lines 90-103); `c` is `*channel`. -/
def addChannel (channel : ChannelPtr) (c : Channel) (p : PollPoller) (w : World U) :
    Option (PollPoller × World U) := do
  assertThat (p.channels_ c.fd_).isNone
  let pfd : PollFd := { fd := c.fd_, events := toShort c.events_, revents := 0 }
  let pollfds := p.pollfds_ ++ [pfd]
  let idx : Int := wrapInt32 pollfds.length - 1
  let w ← Channel.modify channel (fun c => { c with index_ := idx }) w
  pure ({ pollfds_ := pollfds,
          channels_ := fun fd => if fd = pfd.fd then some channel else p.channels_ fd }, w)

/-- The branch of `PollPoller::updateChannel` for a channel that has an index
(`PollPoller.cc`, lines 107-125); `c` is `*channel`. -/
def rewriteChannel (channel : ChannelPtr) (c : Channel) (p : PollPoller) (w : World U) :
    Option (PollPoller × World U) := do
  assertThat (p.channels_ c.fd_).isSome
  assertThat (decide (p.channels_ c.fd_ = some channel))
  let idx := c.index_
  assertThat (decide (0 ≤ idx ∧ idx < wrapInt32 p.pollfds_.length))
  let old ← p.pollfds_[idx.toNat]?
  assertThat (decide (old.fd = c.fd_ ∨ old.fd = -c.fd_ - 1))
  let pfd : PollFd := { fd := c.fd_, events := toShort c.events_, revents := 0 }
  let pfd : PollFd := if c.events_ = 0 then { pfd with fd := -c.fd_ - 1 } else pfd
  pure ({ p with pollfds_ := p.pollfds_.set idx.toNat pfd }, w)

/-- `PollPoller::updateChannel` (`PollPoller.cc`, lines 84-127), called by
thread `tid`. -/
def updateChannel (tid : ThreadId) (channel : ChannelPtr) (p : PollPoller) (w : World U) :
    Option (PollPoller × World U) := do
  EventLoop.assertInLoopThread tid w
  let c ← w.channels channel
  if c.index_ < 0 then addChannel channel c p w else rewriteChannel channel c p w

/-- `PollPoller::removeChannel` (`PollPoller.cc`, lines 130-163), called by
thread `tid`.  `channels_[channelAtEnd]->set_index(idx)` dereferences a null
pointer when the map has no such key: no result. -/
def removeChannel (tid : ThreadId) (channel : ChannelPtr) (p : PollPoller) (w : World U) :
    Option (PollPoller × World U) := do
  EventLoop.assertInLoopThread tid w
  let c ← w.channels channel
  assertThat (p.channels_ c.fd_).isSome
  assertThat (decide (p.channels_ c.fd_ = some channel))
  assertThat (decide (c.events_ = 0))
  let idx := c.index_
  assertThat (decide (0 ≤ idx ∧ idx < wrapInt32 p.pollfds_.length))
  let pfd ← p.pollfds_[idx.toNat]?
  assertThat (decide (pfd.fd = -c.fd_ - 1 ∧ pfd.events = c.events_))
  let channels : Int → Option ChannelPtr := fun fd => if fd = c.fd_ then none else p.channels_ fd
  if idx.toNat = p.pollfds_.length - 1 then
    pure ({ pollfds_ := p.pollfds_.dropLast, channels_ := channels }, w)
  else
    let last ← p.pollfds_.getLast?
    let channelAtEnd : Int := if last.fd < 0 then -last.fd - 1 else last.fd
    let pollfds := (p.pollfds_.set idx.toNat last).set (p.pollfds_.length - 1) pfd
    let other ← channels channelAtEnd
    let w ← Channel.modify other (fun c => { c with index_ := idx }) w
    pure ({ pollfds_ := pollfds.dropLast, channels_ := channels }, w)

/-- Modelled from the spec: `Poller::hasChannel` (`Poller.cc` is not among the
sources), "channels_ maps its fd to it", called by thread `tid`. -/
def hasChannel (tid : ThreadId) (channel : ChannelPtr) (p : PollPoller) (w : World U) :
    Option Bool := do
  EventLoop.assertInLoopThread tid w
  let c ← w.channels channel
  pure (decide (p.channels_ c.fd_ = some channel))

end PollPoller

namespace EventLoop

/-- `EventLoop::updateChannel` (`EventLoop.cc`, lines 243-248), called by
thread `tid`; every channel of the world belongs to its one loop. -/
def updateChannel (tid : ThreadId) (channel : ChannelPtr) (p : PollPoller) (w : World U) :
    Option (PollPoller × World U) := do
  assertInLoopThread tid w
  PollPoller.updateChannel tid channel p w

/-- `EventLoop::removeChannel` (`EventLoop.cc`, lines 251-263), called by
thread `tid`. -/
def removeChannel (tid : ThreadId) (channel : ChannelPtr) (p : PollPoller) (w : World U) :
    Option (PollPoller × World U) := do
  assertInLoopThread tid w
  assertThat (decide (w.loop.eventHandling_ = true →
    w.loop.currentActiveChannel_ = some channel ∨ channel ∉ w.loop.activeChannels_))
  PollPoller.removeChannel tid channel p w

/-- `EventLoop::hasChannel` (`EventLoop.cc`, lines 266-271), called by thread
`tid`. -/
def hasChannel (tid : ThreadId) (channel : ChannelPtr) (p : PollPoller) (w : World U) :
    Option Bool := do
  assertInLoopThread tid w
  PollPoller.hasChannel tid channel p w

end EventLoop

namespace Channel

/-- `Channel::kNoneEvent`. -/
def kNoneEvent : Nat := 0

/-- `Channel::kReadEvent`. -/
def kReadEvent : Nat := POLLIN ||| POLLPRI

/-- `Channel::kWriteEvent`. -/
def kWriteEvent : Nat := POLLOUT

/-- The value of `x & ~k` for non-negative `int`s `x` and `k`: `x` with the
bits of `k` cleared. -/
def clearBits (x k : Nat) : Nat := x ^^^ (x &&& k)

/-- `Channel::update` (`Channel.cc`, lines 60-64), called by thread `tid`. -/
def update (tid : ThreadId) (self : ChannelPtr) (p : PollPoller) (w : World U) :
    Option (PollPoller × World U) := do
  let w ← modify self (fun c => { c with addedToLoop_ := true }) w
  EventLoop.updateChannel tid self p w

/-- `Channel::remove` (`Channel.cc`, lines 67-72), called by thread `tid`. -/
def remove (tid : ThreadId) (self : ChannelPtr) (p : PollPoller) (w : World U) :
    Option (PollPoller × World U) := do
  let c ← w.channels self
  assertThat (decide (c.events_ = kNoneEvent))
  let w ← modify self (fun c => { c with addedToLoop_ := false }) w
  EventLoop.removeChannel tid self p w

/-- `events_ = f(events_); update();`, the shape of the five interest
operations of `Channel.h`. -/
def setEvents (f : Nat → Nat) (tid : ThreadId) (self : ChannelPtr) (p : PollPoller)
    (w : World U) : Option (PollPoller × World U) := do
  let w ← modify self (fun c => { c with events_ := f c.events_ }) w
  update tid self p w

/-- `Channel::enableReading` (`Channel.h`, line 77). -/
def enableReading (tid : ThreadId) (self : ChannelPtr) (p : PollPoller) (w : World U) :
    Option (PollPoller × World U) :=
  setEvents (fun e => e ||| kReadEvent) tid self p w

/-- `Channel::disableReading` (`Channel.h`, line 79). -/
def disableReading (tid : ThreadId) (self : ChannelPtr) (p : PollPoller) (w : World U) :
    Option (PollPoller × World U) :=
  setEvents (fun e => clearBits e kReadEvent) tid self p w

/-- `Channel::enableWriting` (`Channel.h`, line 81). -/
def enableWriting (tid : ThreadId) (self : ChannelPtr) (p : PollPoller) (w : World U) :
    Option (PollPoller × World U) :=
  setEvents (fun e => e ||| kWriteEvent) tid self p w

/-- `Channel::disableWriting` (`Channel.h`, line 83). -/
def disableWriting (tid : ThreadId) (self : ChannelPtr) (p : PollPoller) (w : World U) :
    Option (PollPoller × World U) :=
  setEvents (fun e => clearBits e kWriteEvent) tid self p w

/-- `Channel::disableAll` (`Channel.h`, line 85). -/
def disableAll (tid : ThreadId) (self : ChannelPtr) (p : PollPoller) (w : World U) :
    Option (PollPoller × World U) :=
  setEvents (fun _ => kNoneEvent) tid self p w

/-- The constructor `Channel(loop, fd)` (`Channel.cc`, lines 28-39); the
callback slots are empty, the `weak_ptr` is empty. -/
def construct (fd : Int) : Channel :=
  { fd_ := fd, events_ := 0, revents_ := 0, index_ := -1, logHup_ := true, tie_ := none,
    tied_ := false, eventHandling_ := false, addedToLoop_ := false, readCallback_ := none,
    writeCallback_ := none, closeCallback_ := none, errorCallback_ := none }

/-- A call of one of the interest operations or of `remove()`. -/
inductive Interest where
  | enableReading
  | disableReading
  | enableWriting
  | disableWriting
  | disableAll
  | remove
deriving DecidableEq, Repr

/-- The call `op` on the channel at `self` by thread `tid`. -/
def Interest.apply (tid : ThreadId) (self : ChannelPtr) :
    Interest → PollPoller → World U → Option (PollPoller × World U)
  | Interest.enableReading, p, w => Channel.enableReading tid self p w
  | Interest.disableReading, p, w => Channel.disableReading tid self p w
  | Interest.enableWriting, p, w => Channel.enableWriting tid self p w
  | Interest.disableWriting, p, w => Channel.disableWriting tid self p w
  | Interest.disableAll, p, w => Channel.disableAll tid self p w
  | Interest.remove, p, w => Channel.remove tid self p w

/-- The calls `ops` on the channel at `self`, one after the other. -/
def runInterest (tid : ThreadId) (self : ChannelPtr) :
    List Interest → PollPoller → World U → Option (PollPoller × World U)
  | [], p, w => some (p, w)
  | op :: rest, p, w => (op.apply tid self p w).bind fun r => runInterest tid self rest r.1 r.2

end Channel

namespace Demo

/-- A poller with no channel. -/
def emptyPoller : PollPoller := { pollfds_ := [], channels_ := fun _ => none }

/-- The world `worldA` with a newly constructed channel for the descriptor 5
at address 8 (next to `channelA`, which is not registered with the poller). -/
def worldN : World (List Call) :=
  { worldA with channels := fun p => if p = 8 then some (Channel.construct 5) else worldA.channels p }

/-- What the poller holds, and the channel at address 8. -/
structure PollView where
  pollfds : List PollFd
  registered5 : Option ChannelPtr
  channel8 : Option Channel
deriving DecidableEq, Repr

/-- The view of a poller and a world. -/
def pollView (r : PollPoller × World (List Call)) : PollView :=
  { pollfds := r.1.pollfds_, registered5 := r.1.channels_ 5, channel8 := r.2.channels 8 }

end Demo

namespace PollPoller

/-- The `pollfd` that `updateChannel` pushes for a new channel `c`. -/
def freshSlot (c : Channel) : PollFd :=
  { fd := c.fd_, events := toShort c.events_, revents := 0 }

/-- The `pollfd` that `updateChannel` writes for a channel `c` that has an
index: the descriptor is replaced by `-fd-1` when the interest mask is empty. -/
def encodedSlot (c : Channel) : PollFd :=
  { fd := if c.events_ = 0 then -c.fd_ - 1 else c.fd_, events := toShort c.events_,
    revents := 0 }

end PollPoller

namespace Demo

/-- A poller in which the channel at address 8 is registered for the
descriptor 5, with the interest mask `POLLIN | POLLPRI`, in slot 0. -/
def pollerR : PollPoller :=
  { pollfds_ := [{ fd := 5, events := 3, revents := 0 }],
    channels_ := fun fd => if fd = 5 then some 8 else none }

/-- The channel of `pollerR` after `events_ = kNoneEvent`. -/
def channelR : Channel :=
  { Channel.construct 5 with index_ := 0, addedToLoop_ := true }

/-- The world `worldA` with `channelR` at address 8. -/
def worldR : World (List Call) :=
  { worldA with channels := fun p => if p = 8 then some channelR else worldA.channels p }

end Demo

namespace Demo

/-- The channel `channelA` tied to the owner 3. -/
def channelT : Channel := { channelA with tie_ := some 3, tied_ := true }

/-- The world `worldA` with `channelT` at address 9; the owner 3 is gone, as is
every owner in `worldA`. -/
def worldG : World (List Call) :=
  { worldA with channels := fun p => if p = 9 then some channelT else worldA.channels p }

/-- The world `worldG` with the owner 3 alive. -/
def worldL : World (List Call) :=
  { worldG with alive := fun o => decide (o = 3) }

/-- Two dispatches on the channel at address 7 with the recording
environment: `handleEvent(100)` with the ready mask the channel has, then
the poller sets the ready mask `POLLHUP`, then `handleEvent(200)`. -/
def twoDispatches (w : World (List Call)) : Option (World (List Call)) :=
  ((Channel.handleEvent logEnv 7 100 w).bind
    (Channel.modify 7 (fun c => { c with revents_ := POLLHUP }))).bind
    (Channel.handleEvent logEnv 7 200)

end Demo

namespace Channel

/-- The call of the error callback the dispatch makes for `c`: `errorCallback_`
when it is set and the ready mask has `POLLERR` or `POLLNVAL`. -/
def errorCalls (c : Channel) : List Call :=
  if c.revents_ &&& POLLERR ≠ 0 ∨ c.revents_ &&& POLLNVAL ≠ 0
    then c.errorCallback_.toList.map Call.event else []

/-- The call of the read callback the dispatch makes for `c`: `readCallback_`
when it is set and the ready mask has `POLLIN`, `POLLPRI` or `POLLRDHUP`. -/
def readCalls (c : Channel) (receiveTime : Timestamp) : List Call :=
  if c.revents_ &&& POLLIN ≠ 0 ∨ c.revents_ &&& POLLPRI ≠ 0 ∨ c.revents_ &&& POLLRDHUP ≠ 0
    then c.readCallback_.toList.map (fun cb => Call.read cb receiveTime) else []

/-- The call of the write callback the dispatch makes for `c`: `writeCallback_`
when it is set and the ready mask has `POLLOUT`. -/
def writeCalls (c : Channel) : List Call :=
  if c.revents_ &&& POLLOUT ≠ 0 then c.writeCallback_.toList.map Call.event else []

end Channel

namespace PollPoller

/-- The slots `fillActiveChannels` reports: the first `numEvents` of the slots
of `pfds` whose `revents` is positive, in the order of `pfds`. -/
def activeSlots (pfds : List PollFd) (numEvents : Int) : List PollFd :=
  (pfds.filter fun pfd => decide (0 < pfd.revents)).take numEvents.toNat

end PollPoller

namespace Demo

/-- A poller with three registered channels, at the addresses 20, 21 and 22,
for the descriptors 3, 4 and 6; `poll` has reported `POLLIN` for the first and
`POLLOUT` for the third. -/
def pollerF : PollPoller :=
  { pollfds_ := [{ fd := 3, events := 3, revents := 1 }, { fd := 4, events := 3, revents := 0 },
      { fd := 6, events := 4, revents := 4 }],
    channels_ := fun fd =>
      if fd = 3 then some 20 else if fd = 4 then some 21 else if fd = 6 then some 22 else none }

/-- The registered channel for the descriptor `fd` in slot `index`. -/
def channelF (fd index : Int) : Channel :=
  { Channel.construct fd with index_ := index, addedToLoop_ := true }

/-- The world `worldA` with the three channels of `pollerF`. -/
def worldF : World (List Call) :=
  { worldA with channels := fun p =>
      if p = 20 then some (channelF 3 0) else if p = 21 then some (channelF 4 1)
      else if p = 22 then some (channelF 6 2) else none }

/-- The active channels and the ready masks of the three channels. -/
def activeView (r : List ChannelPtr × World (List Call)) :
    List ChannelPtr × List (Option Nat) :=
  (r.1, [20, 21, 22].map fun p => (r.2.channels p).map fun c => c.revents_)

end Demo

namespace PollPoller

/-- The descriptor a slot stands for: `fd` itself, or the `fd` of which the
slot holds `-fd-1`. -/
def decodeFd (x : Int) : Int := if x < 0 then -x - 1 else x

/-- The tables of the poller are consistent with the channels:

* `pollfds_` has fewer than `2^31` slots (an index is an `int`);
* a channel registered in `channels_` under a descriptor is live, has that
  descriptor, which is not negative, and has the index of a slot that holds
  the descriptor or its disabled encoding `-fd-1`;
* every slot belongs to a registered channel: `channels_` has a live
  channel under the descriptor the slot stands for, and the index of that
  channel is the position of the slot. -/
structure Consistent (p : PollPoller) (w : World U) : Prop where
  size : p.pollfds_.length < 2 ^ 31
  registered : ∀ fd ch, p.channels_ fd = some ch → ∃ c, w.channels ch = some c ∧ c.fd_ = fd
    ∧ 0 ≤ fd ∧ 0 ≤ c.index_
    ∧ ∃ pfd, p.pollfds_[c.index_.toNat]? = some pfd ∧ (pfd.fd = fd ∨ pfd.fd = -fd - 1)
  slots : ∀ (i : Nat) (pfd : PollFd), p.pollfds_[i]? = some pfd →
    ∃ ch c, p.channels_ (decodeFd pfd.fd) = some ch ∧ w.channels ch = some c ∧ c.index_ = i

/-- The map `channels_` after `channels_.erase(fd)`. -/
def erased (p : PollPoller) (fd : Int) : Int → Option ChannelPtr :=
  fun x => if x = fd then none else p.channels_ x

end PollPoller

namespace PollPoller

/-- What `removeChannel(channel)` has done when it leaves the poller `p'` and
the world `w'`, `c` being the channel object: the descriptor of the channel
is no longer in `channels_`, the other keys are as before, `pollfds_` is one
slot shorter, every other registered channel is as before but for its index
and the slot at its index is the slot it had, the removed channel object and
the rest of the world are as before, and the tables are consistent. -/
structure Removed (channel : ChannelPtr) (c : Channel) (p : PollPoller) (w : World U)
    (p' : PollPoller) (w' : World U) : Prop where
  unregistered : p'.channels_ c.fd_ = none
  others : ∀ fd, fd ≠ c.fd_ → p'.channels_ fd = p.channels_ fd
  shorter : p'.pollfds_.length + 1 = p.pollfds_.length
  slotsKept : ∀ fd ch' c', fd ≠ c.fd_ → p.channels_ fd = some ch' → w.channels ch' = some c' →
    ∃ c'' slot, w'.channels ch' = some c'' ∧ c'' = { c' with index_ := c''.index_ }
      ∧ p.pollfds_[c'.index_.toNat]? = some slot ∧ p'.pollfds_[c''.index_.toNat]? = some slot
  self : w'.channels channel = some c
  frame : w' = { w with channels := w'.channels }
  consistent : Consistent p' w'

end PollPoller

namespace Demo

/-- The poller `pollerF` after the channel for the descriptor 3 has been
disabled: its slot holds `-3-1` and no events. -/
def pollerD : PollPoller :=
  { pollfds_ := [{ fd := -4, events := 0, revents := 0 }, { fd := 4, events := 3, revents := 0 },
      { fd := 6, events := 4, revents := 0 }],
    channels_ := pollerF.channels_ }

/-- The world `worldA` with the three channels of `pollerD`: the channel at
20 has no interest, the other two have the interest masks of their slots. -/
def worldD : World (List Call) :=
  { worldA with channels := fun p =>
      if p = 20 then some (channelF 3 0)
      else if p = 21 then some { channelF 4 1 with events_ := 3 }
      else if p = 22 then some { channelF 6 2 with events_ := 4 } else none }

/-- The slots, the channels registered for the descriptors 3, 4 and 6, and the
indices of the channels at 20, 21 and 22. -/
def removalView (r : PollPoller × World (List Call)) :
    List PollFd × List (Option ChannelPtr) × List (Option Int) :=
  (r.1.pollfds_, [3, 4, 6].map r.1.channels_,
    [20, 21, 22].map fun p => (r.2.channels p).map fun c => c.index_)

end Demo

/-! ## `TimerQueue.cc`: the delay handed to the kernel -/

/-- The value of an `int64_t` after an arithmetic step (two's complement, 64 bits). -/
def wrapInt64 (n : Int) : Int := (n + 2 ^ 63) % 2 ^ 64 - 2 ^ 63

/-- Modelled from the spec: `Timestamp::kMicroSecondsPerSecond`
(`muduo/base/Timestamp.h` is not among the sources), the number of
microseconds in a second. -/
def kMicroSecondsPerSecond : Int := 1000000

/-- `struct timespec` of `<time.h>`; `time_t` and `long` have 64 bits. -/
structure Timespec where
  tv_sec : Int
  tv_nsec : Int
deriving DecidableEq, Repr

namespace TimerQueue

/-- `detail::howMuchTimeFromNow(when)` (`TimerQueue.cc`, lines 43-57); `now` is
the value of `Timestamp::now().microSecondsSinceEpoch()`.  The division and
the remainder of C++ truncate towards zero. -/
def howMuchTimeFromNow (now : Timestamp) (when : Timestamp) : Timespec :=
  let microseconds : Int := wrapInt64 (when - now)
  let microseconds : Int := if microseconds < 100 then 100 else microseconds
  { tv_sec := Int.tdiv microseconds kMicroSecondsPerSecond,
    tv_nsec := wrapInt64 (Int.tmod microseconds kMicroSecondsPerSecond * 1000) }

end TimerQueue

namespace EventLoopThreadPool

/-- A call that selects a loop from the pool. -/
inductive Op where
  | getNextLoop
  | getLoopForHash (hashCode : Nat)
deriving DecidableEq, Repr

/-- The call made by thread `tid`: the loop returned and the pool afterwards. -/
def Op.apply (threadOf : LoopPtr → ThreadId) (tid : ThreadId) :
    Op → EventLoopThreadPool → Option (LoopPtr × EventLoopThreadPool)
  | Op.getNextLoop, p => EventLoopThreadPool.getNextLoop threadOf tid p
  | Op.getLoopForHash hashCode, p => EventLoopThreadPool.getLoopForHash threadOf tid hashCode p

/-- The calls `ops` made one after the other by thread `tid`: the loops
returned, in order, and the pool afterwards; `none` as soon as one of them
does not return. -/
def runOps (threadOf : LoopPtr → ThreadId) (tid : ThreadId) :
    List Op → EventLoopThreadPool → Option (List LoopPtr × EventLoopThreadPool)
  | [], p => some ([], p)
  | op :: rest, p =>
    (op.apply threadOf tid p).bind fun r =>
      (runOps threadOf tid rest r.2).map fun rs => (r.1 :: rs.1, rs.2)

/-- The cursor of a started pool is an index into `loops_`. -/
structure CursorOk (threadOf : LoopPtr → ThreadId) (tid : ThreadId) (p : EventLoopThreadPool) :
    Prop where
  base : threadOf p.baseLoop_ = tid
  started : p.started_ = true
  size : p.loops_.length < 2 ^ 31
  lower : 0 ≤ p.next_
  upper : p.next_ < p.loops_.length

end EventLoopThreadPool

namespace Demo

/-- A pool with base loop 0 started with three workers, the loops 10, 11 and 12. -/
def pool3 : EventLoopThreadPool :=
  { baseLoop_ := 0, started_ := true, numThreads_ := 3, next_ := 0, loops_ := [10, 11, 12] }

/-- Four calls of `getNextLoop` with a `getLoopForHash(7)` in between. -/
def poolOps : List EventLoopThreadPool.Op :=
  [EventLoopThreadPool.Op.getNextLoop, EventLoopThreadPool.Op.getNextLoop,
    EventLoopThreadPool.Op.getLoopForHash 7, EventLoopThreadPool.Op.getNextLoop,
    EventLoopThreadPool.Op.getNextLoop]

end Demo

namespace Demo

/-- The world `worldT` after `new Timer(cb 21, when, 0)` has returned the
address 65: the new timer is in neither set. -/
def worldU (when : Timestamp) : World (List Call) :=
  TimerQueue.allocated 65 21 when 0 worldT

/-- The two sets and the kernel timer of a world. -/
structure QueueView where
  timers : List Entry
  active : List ActiveTimer
  armed : Option Timestamp
deriving DecidableEq, Repr

/-- The view of a world. -/
def queueView (w : World (List Call)) : QueueView :=
  { timers := w.timerQueue.timers_, active := w.timerQueue.activeTimers_,
    armed := w.timerQueue.timerfdArmed }

end Demo

namespace Demo

/-- The world `worldP` with a one-shot timer besides the periodic one: callback
21, due at 25, at address 65 with sequence number 2. -/
def worldQ : World (List Call) :=
  TimerQueue.inserted 65 (Timer.construct 21 25 0 2) (TimerQueue.allocated 65 21 25 0 worldP)

end Demo

namespace TimerQueue

/-- The sets `timers_` and `activeTimers_` describe the same set of timers:

* a live timer `t` at `p` is in `timers_` as `(t.expiration, p)` exactly when
  it is in `activeTimers_` as `(p, t.sequence)`;
* every entry of `timers_` is the entry `(t.expiration, p)` of a live timer,
  and every entry of `activeTimers_` the entry `(p, t.sequence)` of one;
* no timer has two entries in `timers_`, nor two in `activeTimers_`. -/
structure SameTimers (w : World U) : Prop where
  both : ∀ p t, w.timerHeap p = some t →
    ((t.expiration_, p) ∈ w.timerQueue.timers_ ↔ (p, t.sequence_) ∈ w.timerQueue.activeTimers_)
  timersOf : ∀ e ∈ w.timerQueue.timers_, ∃ t, w.timerHeap e.2 = some t ∧ e = (t.expiration_, e.2)
  activeOf : ∀ a ∈ w.timerQueue.activeTimers_,
    ∃ t, w.timerHeap a.1 = some t ∧ a = (a.1, t.sequence_)
  onceTimers : (w.timerQueue.timers_.map fun e => e.2).Nodup
  onceActive : (w.timerQueue.activeTimers_.map fun a => a.1).Nodup

end TimerQueue

namespace EventLoop

/-- The body of the `while` of `EventLoop::loop` run `n` times in a row,
whatever `quit_` is. -/
def iterations (env : Env U) (poll : Int → World U → Timestamp × World U) (tid : ThreadId) :
    Nat → World U → Option (World U)
  | 0, w => some w
  | n + 1, w => (loopIteration env poll tid w).bind (iterations env poll tid n)

/-- The state in which `EventLoop::loop` reaches its `while` for the first
time: `looping_ = true; quit_ = false;` have been executed. -/
def entered (w : World U) : World U :=
  { w with loop := { w.loop with looping_ := true, quit_ := false } }

end EventLoop

namespace Demo

/-- A poll that times out: it returns at time 0 and reports no channel. -/
def idlePoll : Int → World (List Call) → Timestamp × World (List Call) := fun _ w => (0, w)

end Demo

namespace PollPoller

/-- The constructor `PollPoller(loop)`: both containers are empty. -/
def construct : PollPoller := { pollfds_ := [], channels_ := fun _ => none }

/-- A step that bears on the registry of the poller: an assignment to the
interest mask of a channel (what `enableReading()` and its siblings do before
they call `update()`), or a call of `updateChannel` or of `removeChannel`. -/
inductive Op where
  | setEvents (channel : ChannelPtr) (events : Nat)
  | updateChannel (channel : ChannelPtr)
  | removeChannel (channel : ChannelPtr)
deriving DecidableEq, Repr

/-- The step made by thread `tid` on the poller and the world. -/
def Op.apply (tid : ThreadId) : Op → PollPoller × World U → Option (PollPoller × World U)
  | Op.setEvents channel events, r =>
    (Channel.modify channel (fun c => { c with events_ := events }) r.2).map fun w => (r.1, w)
  | Op.updateChannel channel, r => PollPoller.updateChannel tid channel r.1 r.2
  | Op.removeChannel channel, r => PollPoller.removeChannel tid channel r.1 r.2

/-- The steps `ops` made one after the other by thread `tid`; `none` as soon
as one of them does not return. -/
def runOps (tid : ThreadId) : List Op → PollPoller × World U → Option (PollPoller × World U)
  | [], r => some r
  | op :: rest, r => (op.apply tid r).bind (runOps tid rest)

/-- The descriptor of every channel is a file descriptor: an `int` that is not
negative and is below `INT_MAX`. -/
def Descriptors (w : World U) : Prop :=
  ∀ ch c, w.channels ch = some c → 0 ≤ c.fd_ ∧ c.fd_ < 2 ^ 31 - 1

/-- The descriptors the slots of `pollfds_` stand for, in the order of the slots. -/
def keys (p : PollPoller) : List Int := p.pollfds_.map fun pfd => decodeFd pfd.fd

end PollPoller

namespace Demo

/-- The world `worldA` with three newly constructed channels, at the
addresses 20, 21 and 22, for the descriptors 3, 4 and 6. -/
def worldC : World (List Call) :=
  { worldA with channels := fun p =>
      if p = 20 then some (Channel.construct 3) else if p = 21 then some (Channel.construct 4)
      else if p = 22 then some (Channel.construct 6) else none }

/-- The three channels are registered, the first two for reading; then the
first is disabled and removed, which moves the slot of the third into slot 0. -/
def registryOps : List PollPoller.Op :=
  [PollPoller.Op.setEvents 20 3, PollPoller.Op.updateChannel 20,
    PollPoller.Op.setEvents 21 3, PollPoller.Op.updateChannel 21,
    PollPoller.Op.updateChannel 22,
    PollPoller.Op.setEvents 20 0, PollPoller.Op.updateChannel 20,
    PollPoller.Op.removeChannel 20]

end Demo

/-! ## `EventLoop.cc`: the loop of a thread -/

/-- The state of the process that the constructor and the destructor of
`EventLoop` read and write: `t_loopInThisThread`, a `__thread` variable, so
one pointer for each thread (`none` is the null pointer), and the `EventLoop`
objects that are alive, by address. -/
structure Process where
  t_loopInThisThread : ThreadId → Option LoopPtr
  loops : LoopPtr → Option EventLoop

namespace Process

/-- The process before any `EventLoop` is constructed: the `__thread` pointers
are zero-initialised. -/
def initial : Process := { t_loopInThisThread := fun _ => none, loops := fun _ => none }

end Process

namespace EventLoop

/-- `EventLoop::getEventLoopOfCurrentThread` (`EventLoop.cc`, lines 64-67),
called by thread `tid`. -/
def getEventLoopOfCurrentThread (tid : ThreadId) (s : Process) : Option LoopPtr :=
  s.t_loopInThisThread tid

/-- The data members as the initialisers of the constructor leave them, for a
constructor run by thread `tid` (`EventLoop.cc`, lines 71-81); the default
constructed `pollReturnTime_` is the invalid timestamp. -/
def fresh (tid : ThreadId) : EventLoop :=
  { looping_ := false, quit_ := false, eventHandling_ := false, callingPendingFunctors_ := false,
    iteration_ := 0, threadId_ := tid, pollReturnTime_ := Timestamp.invalid,
    activeChannels_ := [], currentActiveChannel_ := none, pendingFunctors_ := [] }

/-- The constructor `EventLoop::EventLoop()` (`EventLoop.cc`, lines 70-101),
run by thread `tid` for the object at `this`.

* `descriptors`: whether the kernel hands out the two descriptors;
  `createEventfd` calls `abort()` and `createTimerfd` logs at `SYSFATAL`
  otherwise.
* `poller`: whether the calls `poller_->updateChannel(...)` made for the timer
  channel and for the wakeup channel return; `poller_` is what
  `Poller::newDefaultPoller` returns, which is not among the sources.  The
  `assertInLoopThread()` before these calls holds, `threadId_` being the
  thread that runs the constructor.

`LOG_FATAL` aborts the process. -/
def construct (tid : ThreadId) (this : LoopPtr) (descriptors poller : Bool) (s : Process) :
    Option Process := do
  assertThat descriptors
  assertThat poller
  let s := { s with loops := fun l => if l = this then some (fresh tid) else s.loops l }
  let s ← (match s.t_loopInThisThread tid with
    | some _ => none
    | none => some { s with
        t_loopInThisThread := fun t => if t = tid then some this else s.t_loopInThisThread t })
  assertThat poller
  pure s

/-- The body of the destructor `EventLoop::~EventLoop()` (`EventLoop.cc`,
lines 104-118), run by thread `tid` for the object at `this`; `wakeupChannel`
is the address of `*wakeupChannel_`.

* `wakeupChannel_->disableAll()` is `Channel::update()`, which calls
  `EventLoop::updateChannel`: `assertInLoopThread()`, then the poller.
* `wakeupChannel_->remove()` calls `EventLoop::removeChannel`:
  `assertInLoopThread()`, the assertion on `eventHandling_`, then the poller.
* `poller`: whether the two calls of the poller return.
* `t_loopInThisThread = NULL` assigns the variable of the thread that runs
  the destructor. -/
def destruct (tid : ThreadId) (this : LoopPtr) (wakeupChannel : ChannelPtr) (poller : Bool)
    (s : Process) : Option Process := do
  let loop ← s.loops this
  assertThat (loop.threadId_ == tid)
  assertThat poller
  assertThat (loop.threadId_ == tid)
  assertThat (decide (loop.eventHandling_ = true →
    loop.currentActiveChannel_ = some wakeupChannel ∨ wakeupChannel ∉ loop.activeChannels_))
  assertThat poller
  pure { t_loopInThisThread := fun t => if t = tid then none else s.t_loopInThisThread t,
         loops := fun l => if l = this then none else s.loops l }

end EventLoop

namespace Process

/-- A step of the process that bears on the loops: a thread constructs an
`EventLoop`, a thread destroys one, or the owner of a loop runs it, which
changes its data members but `threadId_`, a `const` member. -/
inductive Op where
  | construct (tid : ThreadId) (this : LoopPtr) (descriptors poller : Bool)
  | destruct (tid : ThreadId) (this : LoopPtr) (wakeupChannel : ChannelPtr) (poller : Bool)
  | run (this : LoopPtr) (loop : EventLoop)
deriving DecidableEq, Repr

/-- The step on the process. -/
def Op.apply : Op → Process → Option Process
  | Op.construct tid this descriptors poller, s =>
    EventLoop.construct tid this descriptors poller s
  | Op.destruct tid this wakeupChannel poller, s =>
    EventLoop.destruct tid this wakeupChannel poller s
  | Op.run this loop, s =>
    (s.loops this).bind fun old =>
      some { s with loops := fun l =>
        if l = this then some { loop with threadId_ := old.threadId_ } else s.loops l }

/-- What the allocator guarantees: an object is constructed at an address at
which no object is alive. -/
def Op.fresh : Op → Process → Bool
  | Op.construct _ this _ _, s => (s.loops this).isNone
  | _, _ => true

/-- The steps `ops` one after the other; `none` as soon as one of them does
not return. -/
def runOps : List Op → Process → Option Process
  | [], s => some s
  | op :: rest, s => (op.apply s).bind (runOps rest)

/-- The allocator's guarantee holds at each construction of `ops`, in the
state in which it is made. -/
def admissible : List Op → Process → Bool
  | [], _ => true
  | op :: rest, s =>
    op.fresh s &&
      (match op.apply s with
      | none => true
      | some s' => admissible rest s')

/-- The pointer of each thread and the live loops agree: a live loop is the
loop its thread points to, and a pointer that is set points to a live loop of
that thread. -/
structure OneLoop (s : Process) : Prop where
  pointed : ∀ l loop, s.loops l = some loop → s.t_loopInThisThread loop.threadId_ = some l
  live : ∀ t l, s.t_loopInThisThread t = some l →
    ∃ loop, s.loops l = some loop ∧ loop.threadId_ = t

end Process
namespace Demo

/-- Thread 1 constructs a loop at 100 and thread 2 one at 200; the loop at 100
is run and then destroyed by thread 1, which constructs a new loop at 101. -/
def processOps : List Process.Op :=
  [Process.Op.construct 1 100 true true, Process.Op.construct 2 200 true true,
    Process.Op.run 100 { idleLoop with iteration_ := 7 },
    Process.Op.destruct 1 100 9 true, Process.Op.construct 1 101 true true]

/-- The pointers of the threads 1 and 2 and the owners of the loops at 100,
101 and 200. -/
structure ProcessView where
  pointer1 : Option LoopPtr
  pointer2 : Option LoopPtr
  owners : List (Option ThreadId)
deriving DecidableEq, Repr

/-- The view of a process. -/
def processView (s : Process) : ProcessView :=
  { pointer1 := s.t_loopInThisThread 1, pointer2 := s.t_loopInThisThread 2,
    owners := [100, 101, 200].map fun l => (s.loops l).map fun loop => loop.threadId_ }

end Demo

namespace Demo

/-- The poller after `disableAll()` on the newly constructed channel of
`worldN`: the channel at address 8 is registered for the descriptor 5 and its
slot holds the descriptor itself with no events. -/
def pollerN : PollPoller :=
  { pollfds_ := [{ fd := 5, events := 0, revents := 0 }],
    channels_ := fun fd => if fd = 5 then some 8 else none }

end Demo

/-! ## Theorems -/

section Helpers

theorem lor_eq_zero_iff (a b : Nat) : a ||| b = 0 ↔ a = 0 ∧ b = 0 := by
  constructor
  · intro h
    constructor
    · apply Nat.eq_of_testBit_eq
      intro i
      have := congrArg (fun n => Nat.testBit n i) h
      simp only [Nat.testBit_or, Nat.zero_testBit, Bool.or_eq_false_iff] at this
      simp [this.1]
    · apply Nat.eq_of_testBit_eq
      intro i
      have := congrArg (fun n => Nat.testBit n i) h
      simp only [Nat.testBit_or, Nat.zero_testBit, Bool.or_eq_false_iff] at this
      simp [this.2]
  · rintro ⟨rfl, rfl⟩
    rfl

theorem land_lor_ne_zero (x a b : Nat) :
    x &&& (a ||| b) ≠ 0 ↔ (x &&& a ≠ 0 ∨ x &&& b ≠ 0) := by
  rw [Nat.and_or_distrib_left, Ne, lor_eq_zero_iff]
  tauto

theorem runCalls_nil (env : Env U) (w : World U) : runCalls env [] w = some w := rfl

theorem runCalls_cons (env : Env U) (call : Call) (calls : List Call) (w : World U) :
    runCalls env (call :: calls) w = (env call w).bind (runCalls env calls) := by
  simp [runCalls, List.foldlM_cons]

theorem runCalls_append (env : Env U) (l₁ l₂ : List Call) (w : World U) :
    runCalls env (l₁ ++ l₂) w = (runCalls env l₁ w).bind (runCalls env l₂) := by
  simp [runCalls, List.foldlM_append]

end Helpers

/-! ### `Channel::handleEvent` -/

namespace Channel

theorem SameDispatch.runCalls {env : Env U} {self : ChannelPtr} {c : Channel} :
    ∀ (calls : List Call) (w w' : World U), (∀ call ∈ calls, KeepsDispatch env call self) →
      SameDispatch self c w → Muduo.runCalls env calls w = some w' → SameDispatch self c w' := by
  intro calls
  induction calls with
  | nil =>
    intro w w' _ hw h
    simp [runCalls_nil] at h
    subst h
    exact hw
  | cons call calls ih =>
    intro w w' hk hw h
    rw [runCalls_cons] at h
    obtain ⟨w₁, h₁, h₂⟩ := Option.bind_eq_some.mp h
    exact ih w₁ w' (fun x hx => hk x (List.mem_cons_of_mem _ hx))
      (hk call (List.mem_cons_self _ _) w w₁ c h₁ hw) h₂

theorem callEvent_eq_runCalls (env : Env U) (slot : Option CbId) (w : World U) :
    callEvent env slot w = Muduo.runCalls env (slot.toList.map Call.event) w := by
  cases slot <;> simp [callEvent, runCalls_nil, runCalls_cons]

theorem callRead_eq_runCalls (env : Env U) (slot : Option CbId) (t : Timestamp) (w : World U) :
    callRead env slot t w = Muduo.runCalls env (slot.toList.map (fun cb => Call.read cb t)) w := by
  cases slot <;> simp [callRead, runCalls_nil, runCalls_cons]

theorem closeBlock_eq {env : Env U} {self : ChannelPtr} {c : Channel} {w : World U}
    (hw : SameDispatch self c w) :
    closeBlock env self w = Muduo.runCalls env
      (if c.revents_ &&& POLLHUP ≠ 0 ∧ c.revents_ &&& POLLIN = 0
        then c.closeCallback_.toList.map Call.event else []) w := by
  obtain ⟨c', hc', hr, h1, -, -, -⟩ := hw
  simp only [closeBlock, hc', Option.bind_eq_bind, Option.some_bind, hr, h1,
    callEvent_eq_runCalls, ne_eq, not_not]
  split <;> simp [runCalls_nil]

theorem errorBlock_eq {env : Env U} {self : ChannelPtr} {c : Channel} {w : World U}
    (hw : SameDispatch self c w) :
    errorBlock env self w = Muduo.runCalls env
      (if c.revents_ &&& POLLERR ≠ 0 ∨ c.revents_ &&& POLLNVAL ≠ 0
        then c.errorCallback_.toList.map Call.event else []) w := by
  obtain ⟨c', hc', hr, -, h2, -, -⟩ := hw
  simp only [errorBlock, hc', Option.bind_eq_bind, Option.some_bind, hr, h2,
    callEvent_eq_runCalls, land_lor_ne_zero]
  split <;> simp [runCalls_nil]

theorem readBlock_eq {env : Env U} {self : ChannelPtr} {c : Channel} {w : World U}
    (t : Timestamp) (hw : SameDispatch self c w) :
    readBlock env self t w = Muduo.runCalls env
      (if c.revents_ &&& POLLIN ≠ 0 ∨ c.revents_ &&& POLLPRI ≠ 0 ∨ c.revents_ &&& POLLRDHUP ≠ 0
        then c.readCallback_.toList.map (fun cb => Call.read cb t) else []) w := by
  obtain ⟨c', hc', hr, -, -, h3, -⟩ := hw
  simp only [readBlock, hc', Option.bind_eq_bind, Option.some_bind, hr, h3,
    callRead_eq_runCalls, land_lor_ne_zero, or_assoc]
  split <;> simp [runCalls_nil]

theorem writeBlock_eq {env : Env U} {self : ChannelPtr} {c : Channel} {w : World U}
    (hw : SameDispatch self c w) :
    writeBlock env self w = Muduo.runCalls env
      (if c.revents_ &&& POLLOUT ≠ 0 then c.writeCallback_.toList.map Call.event else []) w := by
  obtain ⟨c', hc', hr, -, -, -, h4⟩ := hw
  simp only [writeBlock, hc', Option.bind_eq_bind, Option.some_bind, hr, h4,
    callEvent_eq_runCalls]
  split <;> simp [runCalls_nil]

/-- C1.  For every ready mask and every untied channel, whatever subset of the
four callback slots is set, `handleEvent(receiveTime)` sets `eventHandling_`,
invokes exactly the calls of `dispatchSpec` one after the other (close if
`POLLHUP` and not `POLLIN`; error if `POLLERR` or `POLLNVAL`; read, with
`receiveTime`, if `POLLIN`, `POLLPRI` or `POLLRDHUP`; write if `POLLOUT`; in
this order, each at most once, an unset slot skipped) and clears
`eventHandling_`.  The callbacks are arbitrary; they are only required to
leave the ready mask and the callback slots of the channel as they are. -/
theorem handleEvent_untied_dispatch (env : Env U) (self : ChannelPtr) (receiveTime : Timestamp)
    (w : World U) (c : Channel) (hc : w.channels self = some c) (hu : c.tied_ = false)
    (hk : ∀ call ∈ dispatchSpec c receiveTime, KeepsDispatch env call self) :
    handleEvent env self receiveTime w =
      ((modify self (fun c => { c with eventHandling_ := true }) w).bind
        (runCalls env (dispatchSpec c receiveTime))).bind
        (modify self (fun c => { c with eventHandling_ := false })) := by
  unfold handleEvent
  simp only [hc, hu, Option.bind_eq_bind, Option.some_bind]
  unfold handleEventWithGuard
  simp only [Option.bind_eq_bind]
  cases h0 : modify self (fun c => { c with eventHandling_ := true }) w with
  | none => simp [modify, hc] at h0
  | some w₀ =>
    have hw₀ : SameDispatch self c w₀ := by
      simp only [modify, hc, Option.some.injEq] at h0
      subst h0
      exact ⟨{ c with eventHandling_ := true }, by simp, rfl, rfl, rfl, rfl, rfl⟩
    simp only [Option.some_bind, Bool.false_eq_true, if_false]
    unfold dispatchSpec at hk ⊢
    simp only [List.mem_append] at hk
    rw [runCalls_append, runCalls_append, runCalls_append, closeBlock_eq hw₀]
    cases h1 : Muduo.runCalls env (if c.revents_ &&& POLLHUP ≠ 0 ∧ c.revents_ &&& POLLIN = 0
        then c.closeCallback_.toList.map Call.event else []) w₀ with
    | none => simp
    | some w₁ =>
      have hw₁ := SameDispatch.runCalls _ _ _ (fun x hx => hk x (by tauto)) hw₀ h1
      simp only [Option.some_bind]
      rw [errorBlock_eq hw₁]
      cases h2 : Muduo.runCalls env (if c.revents_ &&& POLLERR ≠ 0 ∨ c.revents_ &&& POLLNVAL ≠ 0
        then c.errorCallback_.toList.map Call.event else []) w₁ with
      | none => simp
      | some w₂ =>
        have hw₂ := SameDispatch.runCalls _ _ _ (fun x hx => hk x (by tauto)) hw₁ h2
        simp only [Option.some_bind]
        rw [readBlock_eq receiveTime hw₂]
        cases h3 : Muduo.runCalls env (if c.revents_ &&& POLLIN ≠ 0 ∨ c.revents_ &&& POLLPRI ≠ 0
            ∨ c.revents_ &&& POLLRDHUP ≠ 0
          then c.readCallback_.toList.map (fun cb => Call.read cb receiveTime) else []) w₂ with
        | none => simp
        | some w₃ =>
          have hw₃ := SameDispatch.runCalls _ _ _ (fun x hx => hk x (by tauto)) hw₂ h3
          simp only [Option.some_bind]
          rw [writeBlock_eq hw₃]

theorem logEnv_keepsDispatch (call : Call) (self : ChannelPtr) :
    KeepsDispatch Demo.logEnv call self := by
  intro w w' c h hw
  simp only [Demo.logEnv, Option.some.injEq] at h
  subst h
  exact hw

/-- Witness for C1: the hypotheses of `handleEvent_untied_dispatch` hold for the
channel `Demo.channelA` under the recording environment, and there the
dispatch records the read call and then the write call. -/
theorem handleEvent_untied_dispatch_witness :
    Demo.worldA.channels 7 = some Demo.channelA ∧ Demo.channelA.tied_ = false
      ∧ dispatchSpec Demo.channelA 42 = [Call.read 10 42, Call.event 11]
      ∧ handleEvent Demo.logEnv 7 42 Demo.worldA =
        ((modify 7 (fun c => { c with eventHandling_ := true }) Demo.worldA).bind
          (runCalls Demo.logEnv (dispatchSpec Demo.channelA 42))).bind
          (modify 7 (fun c => { c with eventHandling_ := false })) :=
  ⟨rfl, rfl, by decide,
    handleEvent_untied_dispatch Demo.logEnv 7 42 Demo.worldA Demo.channelA rfl rfl
      (fun call _ => logEnv_keepsDispatch call 7)⟩

end Channel

/-! ### `EventLoop`: the queue of pending functors -/

theorem assertThat_eq_some (b : Bool) (u : Unit) : assertThat b = some u ↔ b = true := by
  cases b <;> simp [assertThat]

namespace TimerQueue

theorem insert_loop {tid : ThreadId} {timer : TimerPtr} {w : World U} {r : Bool × World U}
    (h : insert tid timer w = some r) : r.2.loop = w.loop := by
  simp only [insert, Option.bind_eq_bind, Option.pure_def, Option.bind_eq_some,
    Option.some.injEq] at h
  obtain ⟨_, _, _, _, t, _, _, _, _, _, _, _, rfl⟩ := h
  rfl

theorem addTimerInLoop_loop {tid : ThreadId} {timer : TimerPtr} {w w' : World U}
    (h : addTimerInLoop tid timer w = some w') : w'.loop = w.loop := by
  simp only [addTimerInLoop, Option.bind_eq_bind, Option.bind_eq_some] at h
  obtain ⟨_, _, r, hr, h⟩ := h
  have := insert_loop hr
  split at h
  · simp only [Option.map_eq_some'] at h
    obtain ⟨t, _, rfl⟩ := h
    simpa [resetTimerfd] using this
  · simp only [Option.some.injEq] at h
    subst h
    exact this

theorem cancelInLoop_loop {tid : ThreadId} {timerId : TimerId} {w w' : World U}
    (h : cancelInLoop tid timerId w = some w') : w'.loop = w.loop := by
  simp only [cancelInLoop, Option.bind_eq_bind, Option.pure_def, Option.bind_eq_some,
    Option.some.injEq] at h
  obtain ⟨_, _, _, _, w₁, h, _, _, rfl⟩ := h
  split at h
  · simp only [cancelFound, Option.bind_eq_bind, Option.pure_def, Option.bind_eq_some,
      Option.some.injEq] at h
    obtain ⟨_, _, _, _, rfl⟩ := h
    rfl
  · split at h <;> simp only [Option.some.injEq] at h <;> subst h <;> rfl

end TimerQueue

namespace EventLoop

theorem runFunctors_eq_foldlM (env : Env U) (tid : ThreadId) (fs : List Functor) (w : World U) :
    runFunctors env tid fs w = fs.foldlM (fun w f => runFunctor env tid f w) w := by
  induction fs generalizing w with
  | nil => rfl
  | cons f fs ih =>
    simp only [runFunctors, List.foldlM_cons, Option.bind_eq_bind]
    congr 1
    funext w'
    exact ih w'

theorem runFunctors_append (env : Env U) (tid : ThreadId) (l₁ l₂ : List Functor) (w : World U) :
    runFunctors env tid (l₁ ++ l₂) w
      = (runFunctors env tid l₁ w).bind (runFunctors env tid l₂) := by
  induction l₁ generalizing w with
  | nil => simp [runFunctors]
  | cons f fs ih =>
    simp only [List.cons_append, runFunctors, Option.bind_assoc]
    congr 1
    funext w'
    exact ih w'

/-- A functor only appends to the queue when the user functors do. -/
theorem runFunctor_appends {env : Env U} (tid : ThreadId)
    (hq : ∀ cb, AppendsToQueue env (Call.functor cb)) (f : Functor) (w w' : World U)
    (h : runFunctor env tid f w = some w') :
    ∃ more, w'.loop.pendingFunctors_ = w.loop.pendingFunctors_ ++ more := by
  cases f with
  | user cb => exact hq cb w w' h
  | addTimerInLoop timer =>
    exact ⟨[], by simp [TimerQueue.addTimerInLoop_loop (show TimerQueue.addTimerInLoop tid timer w = some w' from h)]⟩
  | cancelInLoop timerId =>
    exact ⟨[], by simp [TimerQueue.cancelInLoop_loop (show TimerQueue.cancelInLoop tid timerId w = some w' from h)]⟩

theorem runFunctors_appends {env : Env U} (tid : ThreadId)
    (hq : ∀ cb, AppendsToQueue env (Call.functor cb)) (fs : List Functor) (w w' : World U)
    (h : runFunctors env tid fs w = some w') :
    ∃ more, w'.loop.pendingFunctors_ = w.loop.pendingFunctors_ ++ more := by
  induction fs generalizing w with
  | nil =>
    simp only [runFunctors, Option.some.injEq] at h
    subst h
    exact ⟨[], by simp⟩
  | cons f fs ih =>
    simp only [runFunctors, Option.bind_eq_some] at h
    obtain ⟨w₁, h₁, h₂⟩ := h
    obtain ⟨m₁, e₁⟩ := runFunctor_appends tid hq f w w₁ h₁
    obtain ⟨m₂, e₂⟩ := ih w₁ h₂
    exact ⟨m₁ ++ m₂, by rw [e₂, e₁, List.append_assoc]⟩

/-- The body of `doPendingFunctors` as one run of the swapped queue. -/
theorem doPendingFunctors_eq (env : Env U) (tid : ThreadId) (w : World U) :
    doPendingFunctors env tid w
      = ((runFunctors env tid w.loop.pendingFunctors_
          { w with loop := { w.loop with
              callingPendingFunctors_ := true, pendingFunctors_ := [] } }).map
          fun w' => { w' with loop := { w'.loop with callingPendingFunctors_ := false } }) := by
  simp only [doPendingFunctors, Option.bind_eq_bind, Option.pure_def]
  cases runFunctors env tid w.loop.pendingFunctors_ _ <;> rfl

/-- C2.  `doPendingFunctors` sets `callingPendingFunctors_`, empties
`pendingFunctors_` and invokes exactly the functors that were in the queue at
the swap, each once, in the order of the queue, then clears the flag (first
part); so the flag is false whenever the call returns (second part).  What
the functors enqueue meanwhile is not invoked by this call: the functors run
are those of the queue before the call, and, the user functors touching the
queue only by appending to it, everything found in the queue after one of
them has returned is still in `pendingFunctors_`, in the same order, when the
call returns (third part). -/
theorem doPendingFunctors_runs_swapped_queue (env : Env U) (tid : ThreadId) (w : World U) :
    doPendingFunctors env tid w
        = ((w.loop.pendingFunctors_.foldlM (fun w f => runFunctor env tid f w)
            { w with loop := { w.loop with
                callingPendingFunctors_ := true, pendingFunctors_ := [] } }).map
            fun w' => { w' with loop := { w'.loop with callingPendingFunctors_ := false } })
      ∧ (∀ w', doPendingFunctors env tid w = some w' → w'.loop.callingPendingFunctors_ = false)
      ∧ ((∀ cb, AppendsToQueue env (Call.functor cb)) →
          ∀ (pre post : List Functor) (f : Functor) (w₁ w₂ w' : World U),
            w.loop.pendingFunctors_ = pre ++ f :: post →
            runFunctors env tid pre { w with loop := { w.loop with
                callingPendingFunctors_ := true, pendingFunctors_ := [] } } = some w₁ →
            runFunctor env tid f w₁ = some w₂ →
            doPendingFunctors env tid w = some w' →
            ∃ more, w'.loop.pendingFunctors_ = w₂.loop.pendingFunctors_ ++ more) := by
  have key := doPendingFunctors_eq env tid w
  refine ⟨by rw [key, runFunctors_eq_foldlM], ?_, ?_⟩
  · intro w' h
    rw [key, Option.map_eq_some'] at h
    obtain ⟨w₁, _, rfl⟩ := h
    rfl
  · intro hq pre post f w₁ w₂ w' hsplit h₁ h₂ h
    rw [key, hsplit, runFunctors_append, h₁, Option.some_bind] at h
    simp only [runFunctors, h₂, Option.some_bind, Option.map_eq_some'] at h
    obtain ⟨w₃, h₃, rfl⟩ := h
    exact runFunctors_appends tid hq post w₂ w₃ h₃

end EventLoop

namespace EventLoop

/-- Witness for C2: with the user functors 1 and 3 pending, functor 1 queuing
functor 2, the call runs functor 1 and functor 3, leaves functor 2 queued,
wakes the loop once and returns with the flag cleared. -/
theorem doPendingFunctors_runs_swapped_queue_witness :
    (∀ cb, AppendsToQueue Demo.queueEnv (Call.functor cb))
      ∧ (doPendingFunctors Demo.queueEnv 1 Demo.worldB).map
          (fun w => (w.user, w.loop.pendingFunctors_, w.loop.callingPendingFunctors_,
            w.wakeupWrites))
        = some ([Call.functor 1, Call.functor 3], [Functor.user 2], false, 1)
      ∧ (∀ w', doPendingFunctors Demo.queueEnv 1 Demo.worldB = some w' →
          w'.loop.callingPendingFunctors_ = false) := by
  refine ⟨?_, by rfl, (doPendingFunctors_runs_swapped_queue Demo.queueEnv 1 Demo.worldB).2.1⟩
  intro cb w w' h
  simp only [Demo.queueEnv] at h
  split at h
  · simp only [Option.some.injEq] at h
    subst h
    simp only [queueInLoop]
    split <;> exact ⟨[Functor.user 2], rfl⟩
  · simp only [Option.some.injEq] at h
    subst h
    exact ⟨[], by simp⟩

/-- C3.  `queueInLoop(cb)` called by thread `tid` appends `cb` at the end of
`pendingFunctors_`, the earlier entries and their order kept, and writes to
the wakeup descriptor exactly once if `tid` is not the loop's thread or
`callingPendingFunctors_` is true, and not at all otherwise; nothing else
changes. -/
theorem queueInLoop_appends_and_wakes (tid : ThreadId) (cb : Functor) (w : World U) :
    queueInLoop tid cb w
      = { w with
          loop := { w.loop with pendingFunctors_ := w.loop.pendingFunctors_ ++ [cb] },
          wakeupWrites := w.wakeupWrites +
            (if tid ≠ w.loop.threadId_ ∨ w.loop.callingPendingFunctors_ = true then 1 else 0) } := by
  simp only [queueInLoop, isInLoopThread, wakeup]
  by_cases h₁ : w.loop.threadId_ = tid
  · by_cases h₂ : w.loop.callingPendingFunctors_ = true
    · simp [h₁, h₂]
    · simp [h₁, h₂]
  · have h₃ : tid ≠ w.loop.threadId_ := fun e => h₁ e.symm
    simp [h₁, h₃]

/-- C4.  `runInLoop(cb)` called by the loop's own thread is the call `cb()` and
nothing else (for a user functor: the one call of that function object), so
the queue and the wakeup descriptor change only as `cb` itself changes them;
called by any other thread it has the effect of `queueInLoop(cb)` whatever
the function objects do, that is without invoking `cb`. -/
theorem runInLoop_direct_or_queued (env : Env U) (tid : ThreadId) (cb : Functor) (w : World U) :
    (tid = w.loop.threadId_ →
        runInLoop env tid cb w = runFunctor env tid cb w
          ∧ ∀ f, cb = Functor.user f → runInLoop env tid cb w = env (Call.functor f) w)
      ∧ (tid ≠ w.loop.threadId_ →
          ∀ env' : Env U, runInLoop env' tid cb w = some (queueInLoop tid cb w)) := by
  constructor
  · intro h
    have h₁ : runInLoop env tid cb w = runFunctor env tid cb w := by
      simp [runInLoop, isInLoopThread, h]
    refine ⟨h₁, ?_⟩
    intro f hf
    rw [h₁, hf]
    rfl
  · intro h env'
    have : ¬ w.loop.threadId_ = tid := fun e => h e.symm
    simp [runInLoop, isInLoopThread, this]

end EventLoop

/-! ### `EventLoop::loop`: one iteration -/

namespace Channel

theorem modify_loop {self : ChannelPtr} {f : Channel → Channel} {w w' : World U}
    (h : modify self f w = some w') : w'.loop = w.loop := by
  unfold modify at h
  split at h
  · simp at h
  · simp only [Option.some.injEq] at h
    subst h
    rfl

/-- A relation between the loop before and after that every channel callback
respects is respected by `handleEvent`. -/
theorem handleEvent_loop_rel {env : Env U} (R : EventLoop → EventLoop → Prop)
    (hrefl : ∀ l, R l l) (htrans : ∀ a b c, R a b → R b c → R a c)
    (hev : ∀ cb (w w' : World U), env (Call.event cb) w = some w' → R w.loop w'.loop)
    (hrd : ∀ cb t (w w' : World U), env (Call.read cb t) w = some w' → R w.loop w'.loop)
    {self : ChannelPtr} {t : Timestamp} {w w' : World U}
    (h : handleEvent env self t w = some w') : R w.loop w'.loop := by
  have hce : ∀ slot (w w' : World U), callEvent env slot w = some w' → R w.loop w'.loop := by
    intro slot w w' h
    cases slot with
    | none =>
      simp only [callEvent, Option.some.injEq] at h
      subst h
      exact hrefl _
    | some cb => exact hev cb w w' h
  have hcr : ∀ slot (w w' : World U), callRead env slot t w = some w' → R w.loop w'.loop := by
    intro slot w w' h
    cases slot with
    | none =>
      simp only [callRead, Option.some.injEq] at h
      subst h
      exact hrefl _
    | some cb => exact hrd cb t w w' h
  have hguard : ∀ (w w' : World U), handleEventWithGuard env self t w = some w' →
      R w.loop w'.loop := by
    intro w w' h
    simp only [handleEventWithGuard, Option.bind_eq_bind, Option.bind_eq_some] at h
    obtain ⟨w₀, h₀, w₁, h₁, w₂, h₂, w₃, h₃, w₄, h₄, h₅⟩ := h
    have e₀ := modify_loop h₀
    have e₅ := modify_loop h₅
    have r₁ : R w₀.loop w₁.loop := by
      simp only [closeBlock, Option.bind_eq_bind, Option.bind_eq_some] at h₁
      obtain ⟨c, _, h₁⟩ := h₁
      split at h₁
      · exact hce _ _ _ h₁
      · simp only [Option.some.injEq] at h₁
        subst h₁
        exact hrefl _
    have r₂ : R w₁.loop w₂.loop := by
      simp only [errorBlock, Option.bind_eq_bind, Option.bind_eq_some] at h₂
      obtain ⟨c, _, h₂⟩ := h₂
      split at h₂
      · exact hce _ _ _ h₂
      · simp only [Option.some.injEq] at h₂
        subst h₂
        exact hrefl _
    have r₃ : R w₂.loop w₃.loop := by
      simp only [readBlock, Option.bind_eq_bind, Option.bind_eq_some] at h₃
      obtain ⟨c, _, h₃⟩ := h₃
      split at h₃
      · exact hcr _ _ _ h₃
      · simp only [Option.some.injEq] at h₃
        subst h₃
        exact hrefl _
    have r₄ : R w₃.loop w₄.loop := by
      simp only [writeBlock, Option.bind_eq_bind, Option.bind_eq_some] at h₄
      obtain ⟨c, _, h₄⟩ := h₄
      split at h₄
      · exact hce _ _ _ h₄
      · simp only [Option.some.injEq] at h₄
        subst h₄
        exact hrefl _
    rw [← e₀, e₅]
    exact htrans _ _ _ (htrans _ _ _ (htrans _ _ _ r₁ r₂) r₃) r₄
  simp only [handleEvent, Option.bind_eq_bind, Option.bind_eq_some] at h
  obtain ⟨c, _, h⟩ := h
  split at h
  · split at h
    · exact hguard w w' h
    · simp only [Option.some.injEq] at h
      subst h
      exact hrefl _
  · exact hguard w w' h

end Channel

namespace EventLoop

theorem dispatchAll_nil (env : Env U) (t : Timestamp) (w : World U) :
    dispatchAll env t [] w = some w := rfl

theorem dispatchAll_cons (env : Env U) (t : Timestamp) (ch : ChannelPtr)
    (chans : List ChannelPtr) (w : World U) :
    dispatchAll env t (ch :: chans) w
      = (Channel.handleEvent env ch t
          { w with loop := { w.loop with currentActiveChannel_ := some ch } }).bind
          (dispatchAll env t chans) := by
  simp [dispatchAll, List.foldlM_cons]

theorem dispatchAll_append (env : Env U) (t : Timestamp) (l₁ l₂ : List ChannelPtr)
    (w : World U) :
    dispatchAll env t (l₁ ++ l₂) w = (dispatchAll env t l₁ w).bind (dispatchAll env t l₂) := by
  simp [dispatchAll, List.foldlM_append]

theorem handleActiveChannels_eq_dispatchAll {env : Env U}
    (hev : ∀ cb, KeepsPollReturnTime env (Call.event cb))
    (hrd : ∀ cb t, KeepsPollReturnTime env (Call.read cb t))
    (chans : List ChannelPtr) (w : World U) :
    handleActiveChannels env chans w = dispatchAll env w.loop.pollReturnTime_ chans w := by
  induction chans generalizing w with
  | nil => rfl
  | cons ch chans ih =>
    rw [dispatchAll_cons]
    simp only [handleActiveChannels]
    cases h : Channel.handleEvent env ch w.loop.pollReturnTime_
        { w with loop := { w.loop with currentActiveChannel_ := some ch } } with
    | none => rfl
    | some w₁ =>
      have e := Channel.handleEvent_loop_rel (fun a b => b.pollReturnTime_ = a.pollReturnTime_)
          (fun _ => rfl) (fun _ _ _ h₁ h₂ => h₂.trans h₁)
          (fun cb w w' h => hev cb w w' h) (fun cb t w w' h => hrd cb t w w' h) h
      have e : w₁.loop.pollReturnTime_ = w.loop.pollReturnTime_ := e
      simp only [Option.some_bind]
      rw [ih w₁, e]

theorem dispatchAll_appends {env : Env U}
    (hev : ∀ cb, AppendsToQueue env (Call.event cb))
    (hrd : ∀ cb t, AppendsToQueue env (Call.read cb t))
    (t : Timestamp) (chans : List ChannelPtr) (w w' : World U)
    (h : dispatchAll env t chans w = some w') :
    ∃ more, w'.loop.pendingFunctors_ = w.loop.pendingFunctors_ ++ more := by
  induction chans generalizing w with
  | nil =>
    simp only [dispatchAll_nil, Option.some.injEq] at h
    subst h
    exact ⟨[], by simp⟩
  | cons ch chans ih =>
    rw [dispatchAll_cons] at h
    obtain ⟨w₁, h₁, h₂⟩ := Option.bind_eq_some.mp h
    have e₁ := Channel.handleEvent_loop_rel
        (fun a b => ∃ more, b.pendingFunctors_ = a.pendingFunctors_ ++ more)
        (fun _ => ⟨[], by simp⟩)
        (fun a b c ⟨m₁, e₁⟩ ⟨m₂, e₂⟩ => ⟨m₁ ++ m₂, by rw [e₂, e₁, List.append_assoc]⟩)
        (fun cb w w' h => hev cb w w' h) (fun cb t w w' h => hrd cb t w w' h) h₁
    have e₁ : ∃ more, w₁.loop.pendingFunctors_ = w.loop.pendingFunctors_ ++ more := e₁
    obtain ⟨m₁, e₁⟩ := e₁
    obtain ⟨m₂, e₂⟩ := ih w₁ h₂
    exact ⟨m₁ ++ m₂, by rw [e₂, e₁, List.append_assoc]⟩

theorem loopIteration_eq (env : Env U) (poll : Int → World U → Timestamp × World U)
    (tid : ThreadId) (w : World U) :
    loopIteration env poll tid w
      = (handleActiveChannels env (polled poll w).2.loop.activeChannels_
          (beforeDispatch poll w)).bind fun w₂ => doPendingFunctors env tid (afterDispatch w₂) := by
  simp only [loopIteration, Option.bind_eq_bind]
  rfl

/-- C5.  In one iteration of `EventLoop::loop`, `handleEvent` is called once
for each channel the poller has left in `activeChannels_`, in that order and
with the timestamp the poll returned, and only when the last of these calls
has returned does `doPendingFunctors` run (first part).  The functors that
`doPendingFunctors` then runs are those in the queue at the end of the
dispatch, and everything that is in the queue after any of the `handleEvent`
calls is among them: a task queued by a readiness callback is run in the same
iteration (second part).  The channel callbacks are arbitrary; they are
required to leave `pollReturnTime_` alone and to touch the queue only by
appending to it. -/
theorem loopIteration_dispatch_then_tasks (env : Env U)
    (poll : Int → World U → Timestamp × World U) (tid : ThreadId) (w : World U)
    (hev : ∀ cb, KeepsPollReturnTime env (Call.event cb) ∧ AppendsToQueue env (Call.event cb))
    (hrd : ∀ cb t, KeepsPollReturnTime env (Call.read cb t)
      ∧ AppendsToQueue env (Call.read cb t)) :
    loopIteration env poll tid w
        = (dispatchAll env (polled poll w).1 (polled poll w).2.loop.activeChannels_
            (beforeDispatch poll w)).bind
          (fun w₂ => doPendingFunctors env tid (afterDispatch w₂))
      ∧ ∀ (pre post : List ChannelPtr) (wᵢ w₂ : World U),
          (polled poll w).2.loop.activeChannels_ = pre ++ post →
          dispatchAll env (polled poll w).1 pre (beforeDispatch poll w) = some wᵢ →
          dispatchAll env (polled poll w).1 post wᵢ = some w₂ →
          (∃ more, w₂.loop.pendingFunctors_ = wᵢ.loop.pendingFunctors_ ++ more)
            ∧ loopIteration env poll tid w
              = ((w₂.loop.pendingFunctors_.foldlM (fun w f => runFunctor env tid f w)
                  { w₂ with loop := { w₂.loop with
                      currentActiveChannel_ := none, eventHandling_ := false,
                      callingPendingFunctors_ := true, pendingFunctors_ := [] } }).map
                fun w' => { w' with loop := { w'.loop with callingPendingFunctors_ := false } }) := by
  have h₁ : loopIteration env poll tid w
        = (dispatchAll env (polled poll w).1 (polled poll w).2.loop.activeChannels_
            (beforeDispatch poll w)).bind
          (fun w₂ => doPendingFunctors env tid (afterDispatch w₂)) := by
    rw [loopIteration_eq, handleActiveChannels_eq_dispatchAll (fun cb => (hev cb).1)
      (fun cb t => (hrd cb t).1)]
    rfl
  refine ⟨h₁, ?_⟩
  intro pre post wᵢ w₂ hsplit hpre hpost
  refine ⟨dispatchAll_appends (fun cb => (hev cb).2) (fun cb t => (hrd cb t).2) _ post wᵢ w₂
    hpost, ?_⟩
  rw [h₁, hsplit, dispatchAll_append, hpre, Option.some_bind, hpost, Option.some_bind,
    doPendingFunctors_eq, runFunctors_eq_foldlM]
  rfl

end EventLoop

namespace EventLoop

theorem readyEnv_frame (call : Call) :
    KeepsPollReturnTime Demo.readyEnv call ∧ AppendsToQueue Demo.readyEnv call := by
  constructor
  · intro w w' h
    simp only [Demo.readyEnv] at h
    split at h
    · simp only [Option.some.injEq] at h
      subst h
      simp only [queueInLoop]
      split <;> rfl
    · simp only [Option.some.injEq] at h
      subst h
      rfl
  · intro w w' h
    simp only [Demo.readyEnv] at h
    split at h
    · simp only [Option.some.injEq] at h
      subst h
      simp only [queueInLoop]
      split <;> exact ⟨[Functor.user 2], rfl⟩
    · simp only [Option.some.injEq] at h
      subst h
      exact ⟨[], by simp⟩

/-- Witness for C5: one iteration in which the poll reports `Demo.channelA` at
time 42 and the read callback queues functor 2.  The read callback gets 42,
the write callback follows, and functor 2 runs in the same iteration. -/
theorem loopIteration_dispatch_then_tasks_witness :
    (∀ cb, KeepsPollReturnTime Demo.readyEnv (Call.event cb)
        ∧ AppendsToQueue Demo.readyEnv (Call.event cb))
      ∧ (∀ cb t, KeepsPollReturnTime Demo.readyEnv (Call.read cb t)
        ∧ AppendsToQueue Demo.readyEnv (Call.read cb t))
      ∧ (loopIteration Demo.readyEnv Demo.pollA 1 Demo.worldA).map
          (fun w => (w.user, w.loop.pendingFunctors_, w.wakeupWrites))
        = some ([Call.read 10 42, Call.event 11, Call.functor 2], [], 0)
      ∧ loopIteration Demo.readyEnv Demo.pollA 1 Demo.worldA
        = (dispatchAll Demo.readyEnv (polled Demo.pollA Demo.worldA).1
            (polled Demo.pollA Demo.worldA).2.loop.activeChannels_
            (beforeDispatch Demo.pollA Demo.worldA)).bind
          (fun w₂ => doPendingFunctors Demo.readyEnv 1 (afterDispatch w₂)) :=
  ⟨fun cb => readyEnv_frame _, fun cb t => readyEnv_frame _, by rfl,
    (loopIteration_dispatch_then_tasks Demo.readyEnv Demo.pollA 1 Demo.worldA
      (fun cb => readyEnv_frame _) (fun cb t => readyEnv_frame _)).1⟩

end EventLoop

/-! ### `EventLoopThreadPool` -/

namespace EventLoopThreadPool

theorem toSizeT_natCast (n : Nat) (h : n < 2 ^ 64) : toSizeT (n : Int) = n := by
  unfold toSizeT
  have : ((n : Int) % 2 ^ 64) = (n : Int) := Int.emod_eq_of_lt (by omega) (by exact_mod_cast h)
  rw [this]
  simp

theorem wrapInt32_of_lt (n : Int) (h₀ : 0 ≤ n) (h₁ : n < 2 ^ 31) : wrapInt32 n = n := by
  unfold wrapInt32
  norm_num at h₁ ⊢
  omega

/-- One call of `getNextLoop` on a started pool whose cursor is in range. -/
theorem getNextLoop_step (threadOf : LoopPtr → ThreadId) (tid : ThreadId)
    (p : EventLoopThreadPool) (j : Nat) (loop : LoopPtr)
    (hbase : threadOf p.baseLoop_ = tid) (hst : p.started_ = true)
    (hlen : p.loops_.length < 2 ^ 31) (hj : j < p.loops_.length) (hnext : p.next_ = (j : Int))
    (hloop : p.loops_[j]? = some loop) :
    getNextLoop threadOf tid p
      = some (loop, { p with next_ := (((j + 1) % p.loops_.length : Nat) : Int) }) := by
  have hne : p.loops_.isEmpty = false := by
    cases h : p.loops_ with
    | nil => simp [h] at hj
    | cons a l => rfl
  have h64 : j < 2 ^ 64 := by
    have : (2 : Nat) ^ 31 < 2 ^ 64 := by norm_num
    omega
  have hw : wrapInt32 ((j : Int) + 1) = ((j + 1 : Nat) : Int) := by
    rw [wrapInt32_of_lt]
    · push_cast
      rfl
    · omega
    · have : ((j : Int) + 1) < ((2 ^ 31 : Nat) : Int) := by exact_mod_cast (by omega : j + 1 < 2 ^ 31)
      simpa using this
  have hs : toSizeT ((j + 1 : Nat) : Int) = j + 1 := by
    apply toSizeT_natCast
    have : (2 : Nat) ^ 31 < 2 ^ 64 := by norm_num
    omega
  simp only [getNextLoop, assertInBaseLoopThread, hbase, beq_self_eq_true, assertThat, if_true,
    hst, Option.bind_eq_bind, Option.some_bind, hne, Bool.false_eq_true, if_false, hnext,
    toSizeT_natCast j h64, hloop, Option.map_some', hw, hs]
  by_cases h : p.loops_.length ≤ j + 1
  · have : j + 1 = p.loops_.length := by omega
    simp [h, this]
  · have : (j + 1) % p.loops_.length = j + 1 := Nat.mod_eq_of_lt (by omega)
    simp [h, this]

/-- Successive calls of `getNextLoop` on a started pool with `n ≥ 1` worker
loops walk through the workers cyclically. -/
theorem getNextLoopTimes_cycle (threadOf : LoopPtr → ThreadId) (tid : ThreadId)
    (startLoop : Nat → LoopPtr) (base : LoopPtr) (m : Int) (n : Nat) (hn : 0 < n)
    (hlen : n < 2 ^ 31) (hbase : threadOf base = tid) (k : Nat) :
    ∀ j : Nat,
      getNextLoopTimes threadOf tid k
          { baseLoop_ := base, started_ := true, numThreads_ := m,
            next_ := ((j % n : Nat) : Int), loops_ := (List.range n).map startLoop }
        = some ((List.range k).map (fun i => startLoop ((j + i) % n)),
            { baseLoop_ := base, started_ := true, numThreads_ := m,
              next_ := (((j + k) % n : Nat) : Int), loops_ := (List.range n).map startLoop }) := by
  induction k with
  | zero => intro j; simp [getNextLoopTimes]
  | succ k ih =>
    intro j
    have hj : j % n < n := Nat.mod_lt _ hn
    rw [getNextLoopTimes, getNextLoop_step threadOf tid _ (j % n) (startLoop (j % n)) hbase rfl
      (by simpa using hlen) (by simpa using hj) rfl (by simp [hj])]
    simp only [Option.some_bind, List.length_map, List.length_range, Nat.add_mod_mod,
      Nat.mod_add_mod]
    rw [ih (j + 1)]
    simp only [Option.map_some', Option.some.injEq, Prod.mk.injEq]
    refine ⟨?_, by rw [Nat.add_assoc, Nat.add_comm 1 k]⟩
    rw [List.range_succ_eq_map, List.map_cons, List.map_map]
    simp only [Nat.add_zero, List.cons.injEq, true_and]
    apply List.map_congr_left
    intro i _
    simp only [Function.comp, Nat.succ_eq_add_one]
    congr 2
    omega

/-- With no worker loop every call of `getNextLoop` returns the base loop. -/
theorem getNextLoopTimes_base (threadOf : LoopPtr → ThreadId) (tid : ThreadId)
    (p : EventLoopThreadPool) (hbase : threadOf p.baseLoop_ = tid) (hst : p.started_ = true)
    (hl : p.loops_ = []) (k : Nat) :
    getNextLoopTimes threadOf tid k p = some (List.replicate k p.baseLoop_, p) := by
  induction k with
  | zero => rfl
  | succ k ih =>
    have : getNextLoop threadOf tid p = some (p.baseLoop_, p) := by
      simp [getNextLoop, assertInBaseLoopThread, hbase, assertThat, hst, hl]
    rw [getNextLoopTimes, this, Option.some_bind, ih]
    rfl

theorem start_eq_some {threadOf : LoopPtr → ThreadId} {tid : ThreadId}
    {startLoop : Nat → LoopPtr} {p p' : EventLoopThreadPool}
    (h : start threadOf tid startLoop p = some p') :
    p.started_ = false ∧ threadOf p.baseLoop_ = tid
      ∧ p' = { p with
                started_ := true,
                loops_ := p.loops_ ++ (List.range p.numThreads_.toNat).map startLoop } := by
  simp only [start, assertInBaseLoopThread, Option.bind_eq_bind, Option.pure_def,
    Option.bind_eq_some, assertThat_eq_some, Option.some.injEq] at h
  obtain ⟨_, h₁, _, h₂, h₃⟩ := h
  exact ⟨by simpa using h₁, by simpa using h₂, h₃.symm⟩

/-- C6.  After `start()` on a pool set up for `numThreads` threads, the worker
loops being `startLoop 0, ..., startLoop (N-1)`: if `N = numThreads ≥ 1`,
`loops_` holds these `N` loops in order and for every `k` the first `k`
calls of `getNextLoop()` return `startLoop (i mod N)` for `i = 0, ..., k-1`,
that is the `(k+1)`-th call returns worker `k mod N`; if there is no worker
(`numThreads ≤ 0`) every call returns the base loop. -/
theorem getNextLoop_round_robin (threadOf : LoopPtr → ThreadId) (tid : ThreadId)
    (startLoop : Nat → LoopPtr) (baseLoop : LoopPtr) (numThreads : Int)
    (p : EventLoopThreadPool) (hint : numThreads < 2 ^ 31)
    (hstart : start threadOf tid startLoop (setThreadNum numThreads (new baseLoop)) = some p) :
    (1 ≤ numThreads →
        p.loops_ = (List.range numThreads.toNat).map startLoop
          ∧ ∀ k, (getNextLoopTimes threadOf tid k p).map (fun r => r.1)
            = some ((List.range k).map fun i => startLoop (i % numThreads.toNat)))
      ∧ (numThreads ≤ 0 →
          ∀ k, (getNextLoopTimes threadOf tid k p).map (fun r => r.1)
            = some (List.replicate k baseLoop)) := by
  obtain ⟨-, hbase, hp⟩ := start_eq_some hstart
  have hp' : p = { baseLoop_ := baseLoop, started_ := true, numThreads_ := numThreads, next_ := 0,
                   loops_ := (List.range numThreads.toNat).map startLoop } := by
    rw [hp]
    simp [setThreadNum, new]
  have hbase : threadOf baseLoop = tid := hbase
  clear hp hstart
  subst hp'
  constructor
  · intro h1
    refine ⟨rfl, fun k => ?_⟩
    have hn : 0 < numThreads.toNat := by omega
    have hlen : numThreads.toNat < 2 ^ 31 := by
      have : (numThreads.toNat : Int) < ((2 ^ 31 : Nat) : Int) := by
        rw [Int.toNat_of_nonneg (by omega)]
        simpa using hint
      exact_mod_cast this
    have := getNextLoopTimes_cycle threadOf tid startLoop baseLoop numThreads numThreads.toNat
      hn hlen hbase k 0
    simp only [Nat.zero_mod, Nat.cast_zero, Nat.zero_add] at this
    rw [this]
    rfl
  · intro h0 k
    have hz : numThreads.toNat = 0 := by omega
    have := getNextLoopTimes_base threadOf tid
      { baseLoop_ := baseLoop, started_ := true, numThreads_ := numThreads, next_ := 0,
        loops_ := (List.range numThreads.toNat).map startLoop } hbase rfl (by simp [hz]) k
    rw [this]
    rfl

/-- Witness for C6: three workers, seven calls. -/
theorem getNextLoop_round_robin_witness :
    start (fun _ => 1) 1 (fun i => 10 + i) (setThreadNum 3 (new 100))
        = some { baseLoop_ := 100, started_ := true, numThreads_ := 3, next_ := 0,
                 loops_ := [10, 11, 12] }
      ∧ (getNextLoopTimes (fun _ => 1) 1 7
          { baseLoop_ := 100, started_ := true, numThreads_ := 3, next_ := 0,
            loops_ := [10, 11, 12] }).map (fun r => r.1)
        = some [10, 11, 12, 10, 11, 12, 10] := by
  refine ⟨by decide, ?_⟩
  have h := (getNextLoop_round_robin (fun _ => 1) 1 (fun i => 10 + i) 100 3
    { baseLoop_ := 100, started_ := true, numThreads_ := 3, next_ := 0, loops_ := [10, 11, 12] }
    (by norm_num) (by decide)).1 (by norm_num)
  rw [h.2 7]
  decide

end EventLoopThreadPool

namespace EventLoopThreadPool

theorem getNextLoop_keeps_loops {threadOf : LoopPtr → ThreadId} {tid : ThreadId}
    {p : EventLoopThreadPool} {r : LoopPtr × EventLoopThreadPool}
    (h : getNextLoop threadOf tid p = some r) :
    r.2.loops_ = p.loops_ ∧ r.2.baseLoop_ = p.baseLoop_ := by
  simp only [getNextLoop, Option.bind_eq_bind, Option.bind_eq_some] at h
  obtain ⟨_, _, _, _, h⟩ := h
  split at h
  · simp only [Option.some.injEq] at h
    subst h
    exact ⟨rfl, rfl⟩
  · simp only [Option.map_eq_some'] at h
    obtain ⟨l, _, rfl⟩ := h
    exact ⟨rfl, rfl⟩

theorem getNextLoopTimes_keeps_loops {threadOf : LoopPtr → ThreadId} {tid : ThreadId} (k : Nat) :
    ∀ {p : EventLoopThreadPool} {r : List LoopPtr × EventLoopThreadPool},
      getNextLoopTimes threadOf tid k p = some r →
      r.2.loops_ = p.loops_ ∧ r.2.baseLoop_ = p.baseLoop_ := by
  induction k with
  | zero =>
    intro p r h
    simp only [getNextLoopTimes, Option.some.injEq] at h
    subst h
    exact ⟨rfl, rfl⟩
  | succ k ih =>
    intro p r h
    simp only [getNextLoopTimes, Option.bind_eq_some, Option.map_eq_some'] at h
    obtain ⟨r₁, h₁, rs, h₂, rfl⟩ := h
    obtain ⟨e₁, e₂⟩ := getNextLoop_keeps_loops h₁
    obtain ⟨e₃, e₄⟩ := ih h₂
    exact ⟨e₃.trans e₁, e₄.trans e₂⟩

/-- C7.  Called by the base loop's thread, `getLoopForHash(h)` returns
`loops_[h mod N]` when the pool has `N ≥ 1` worker loops and the base loop
when it has none, and leaves the pool, the round-robin cursor included, as it
is (first part); and after any number of `getNextLoop` calls it returns the
same loop for the same hash code (second part). -/
theorem getLoopForHash_by_hash (threadOf : LoopPtr → ThreadId) (tid : ThreadId)
    (hashCode : Nat) (p : EventLoopThreadPool) :
    (threadOf p.baseLoop_ = tid →
        (0 < p.loops_.length →
          ∃ loop, p.loops_[hashCode % p.loops_.length]? = some loop
            ∧ getLoopForHash threadOf tid hashCode p = some (loop, p))
        ∧ (p.loops_.length = 0 →
          getLoopForHash threadOf tid hashCode p = some (p.baseLoop_, p)))
      ∧ ∀ (k : Nat) (r : List LoopPtr × EventLoopThreadPool),
          getNextLoopTimes threadOf tid k p = some r →
          (getLoopForHash threadOf tid hashCode r.2).map (fun x => x.1)
            = (getLoopForHash threadOf tid hashCode p).map (fun x => x.1) := by
  constructor
  · intro hbase
    constructor
    · intro hN
      have hlt : hashCode % p.loops_.length < p.loops_.length := Nat.mod_lt _ hN
      have hne : p.loops_.isEmpty = false := by
        cases h : p.loops_ with
        | nil => simp [h] at hN
        | cons a l => rfl
      refine ⟨p.loops_[hashCode % p.loops_.length], List.getElem?_eq_getElem hlt, ?_⟩
      simp [getLoopForHash, assertInBaseLoopThread, hbase, assertThat, hne,
        List.getElem?_eq_getElem hlt]
    · intro hN
      have hl : p.loops_ = [] := List.length_eq_zero.mp hN
      simp [getLoopForHash, assertInBaseLoopThread, hbase, assertThat, hl]
  · intro k r h
    obtain ⟨e₁, e₂⟩ := getNextLoopTimes_keeps_loops k h
    simp only [getLoopForHash, assertInBaseLoopThread, e₁, e₂, Option.bind_eq_bind]
    cases assertThat (threadOf p.baseLoop_ == tid) with
    | none => rfl
    | some _ =>
      simp only [Option.some_bind]
      split
      · simp [e₂]
      · cases p.loops_[hashCode % p.loops_.length]? <;> rfl

end EventLoopThreadPool

namespace EventLoopThreadPool

/-- Witness for C7: on three workers the hash code 7 selects worker `7 mod 3`,
before and after five calls of `getNextLoop`. -/
theorem getLoopForHash_by_hash_witness :
    (getLoopForHash (fun _ => 1) 1 7
        { baseLoop_ := 100, started_ := true, numThreads_ := 3, next_ := 0,
          loops_ := [10, 11, 12] }).map (fun x => x.1) = some 11
      ∧ ((getNextLoopTimes (fun _ => 1) 1 5
          { baseLoop_ := 100, started_ := true, numThreads_ := 3, next_ := 0,
            loops_ := [10, 11, 12] }).bind fun r =>
          (getLoopForHash (fun _ => 1) 1 7 r.2).map (fun x => x.1)) = some 11
      ∧ ∀ (k : Nat) (r : List LoopPtr × EventLoopThreadPool),
          getNextLoopTimes (fun _ => 1) 1 k
            { baseLoop_ := 100, started_ := true, numThreads_ := 3, next_ := 0,
              loops_ := [10, 11, 12] } = some r →
          (getLoopForHash (fun _ => 1) 1 7 r.2).map (fun x => x.1)
            = (getLoopForHash (fun _ => 1) 1 7
                { baseLoop_ := 100, started_ := true, numThreads_ := 3, next_ := 0,
                  loops_ := [10, 11, 12] }).map (fun x => x.1) :=
  ⟨by decide, by decide,
    (getLoopForHash_by_hash (fun _ => 1) 1 7
      { baseLoop_ := 100, started_ := true, numThreads_ := 3, next_ := 0,
        loops_ := [10, 11, 12] }).2⟩

end EventLoopThreadPool

/-! ### Ordered sets -/

namespace OrdSet

variable {α : Type} {lt : α → α → Bool}

theorem mem_place (x a : α) (s : List α) : a ∈ place lt x s ↔ a = x ∨ a ∈ s := by
  induction s with
  | nil => simp [place]
  | cons y ys ih =>
    simp only [place]
    split
    · simp
    · simp only [List.mem_cons, ih]
      tauto

theorem length_place (x : α) (s : List α) : (place lt x s).length = s.length + 1 := by
  induction s with
  | nil => rfl
  | cons y ys ih =>
    simp only [place]
    split
    · rfl
    · simp [ih]

theorem sorted_place (h : StrictTotal lt) (x : α) (s : List α) (hs : Sorted lt s)
    (hx : x ∉ s) : Sorted lt (place lt x s) := by
  induction s with
  | nil => simp [place, Sorted]
  | cons y ys ih =>
    simp only [Sorted, List.pairwise_cons] at hs
    simp only [List.mem_cons, not_or] at hx
    simp only [place]
    split
    · rename_i hxy
      simp only [Sorted, List.pairwise_cons, List.mem_cons]
      refine ⟨?_, hs⟩
      rintro a (rfl | ha)
      · exact hxy
      · exact h.trans _ _ _ hxy (hs.1 a ha)
    · rename_i hxy
      simp only [Sorted, List.pairwise_cons]
      refine ⟨?_, ih hs.2 hx.2⟩
      intro a ha
      rcases (mem_place x a ys).mp ha with rfl | ha
      · rcases h.total a y hx.1 with h₁ | h₁
        · exact absurd h₁ hxy
        · exact h₁
      · exact hs.1 a ha

theorem Sorted.nodup (h : StrictTotal lt) {s : List α} (hs : Sorted lt s) : s.Nodup := by
  refine List.Pairwise.imp ?_ hs
  intro a b hab e
  subst e
  simp [h.irrefl] at hab

theorem Sorted.sublist {s s' : List α} (hs : Sorted lt s) (h : List.Sublist s' s) : Sorted lt s' :=
  List.Pairwise.sublist h hs

theorem Sorted.erase [DecidableEq α] {s : List α} (hs : Sorted lt s) (x : α) : Sorted lt (s.erase x) :=
  hs.sublist (List.erase_sublist x s)

theorem insert_of_not_mem [DecidableEq α] (x : α) (s : List α) (hx : x ∉ s) :
    insert lt x s = (place lt x s, true) := by
  simp [insert, hx]

theorem insert_of_mem [DecidableEq α] (x : α) (s : List α) (hx : x ∈ s) : insert lt x s = (s, false) := by
  simp [insert, hx]

theorem mem_insert [DecidableEq α] (x a : α) (s : List α) : a ∈ (insert lt x s).1 ↔ a = x ∨ a ∈ s := by
  unfold insert
  split
  · rename_i h
    constructor
    · exact fun h => Or.inr h
    · rintro (rfl | h')
      · exact h
      · exact h'
  · exact mem_place x a s

theorem sorted_insert [DecidableEq α] (h : StrictTotal lt) (x : α) (s : List α) (hs : Sorted lt s) :
    Sorted lt (insert lt x s).1 := by
  unfold insert
  split
  · exact hs
  · rename_i hx
    exact sorted_place h x s hs hx

theorem erase_of_mem [DecidableEq α] (x : α) (s : List α) (hx : x ∈ s) : erase x s = (s.erase x, 1) := by
  simp [erase, hx]

theorem erase_of_not_mem [DecidableEq α] (x : α) (s : List α) (hx : x ∉ s) : erase x s = (s, 0) := by
  simp [erase, hx]

theorem erase_count_eq_one [DecidableEq α] (x : α) (s : List α) : (erase x s).2 = 1 ↔ x ∈ s := by
  unfold erase
  split <;> simp [*]

theorem mem_erase_of_nodup [DecidableEq α] {s : List α} (hs : s.Nodup) (x a : α) :
    a ∈ s.erase x ↔ a ≠ x ∧ a ∈ s :=
  hs.mem_erase_iff

/-- In a sorted list the elements before the `lower_bound` of a key are the
elements less than the key. -/
theorem mem_takeWhile_lt (h : StrictTotal lt) (k : α) (s : List α) (hs : Sorted lt s) (a : α) :
    a ∈ s.takeWhile (fun e => lt e k) ↔ a ∈ s ∧ lt a k = true := by
  induction s with
  | nil => simp
  | cons y ys ih =>
    simp only [Sorted, List.pairwise_cons] at hs
    simp only [List.takeWhile_cons]
    split
    · rename_i hy
      simp only [List.mem_cons, ih hs.2]
      constructor
      · rintro (rfl | ⟨h₁, h₂⟩)
        · exact ⟨Or.inl rfl, hy⟩
        · exact ⟨Or.inr h₁, h₂⟩
      · rintro ⟨rfl | h₁, h₂⟩
        · exact Or.inl rfl
        · exact Or.inr ⟨h₁, h₂⟩
    · rename_i hy
      simp only [List.not_mem_nil, List.mem_cons, false_iff, not_and]
      rintro (rfl | h₁) h₂
      · exact hy h₂
      · exact hy (h.trans _ _ _ (hs.1 a h₁) h₂)

theorem mem_dropWhile_lt (h : StrictTotal lt) (k : α) (s : List α) (hs : Sorted lt s) (a : α) :
    a ∈ s.dropWhile (fun e => lt e k) ↔ a ∈ s ∧ lt a k = false := by
  induction s with
  | nil => simp
  | cons y ys ih =>
    simp only [Sorted, List.pairwise_cons] at hs
    simp only [List.dropWhile_cons]
    split
    · rename_i hy
      simp only [List.mem_cons, ih hs.2]
      constructor
      · rintro ⟨h₁, h₂⟩
        exact ⟨Or.inr h₁, h₂⟩
      · rintro ⟨rfl | h₁, h₂⟩
        · simp [hy] at h₂
        · exact ⟨h₁, h₂⟩
    · rename_i hy
      simp only [List.mem_cons]
      constructor
      · rintro (rfl | h₁)
        · exact ⟨Or.inl rfl, by simpa using hy⟩
        · refine ⟨Or.inr h₁, ?_⟩
          cases hak : lt a k with
          | false => rfl
          | true => exact absurd (h.trans _ _ _ (hs.1 a h₁) hak) hy
      · exact fun h => h.1

end OrdSet

namespace TimerQueue

theorem entryLt_iff (a b : Entry) :
    entryLt a b = true ↔ a.1 < b.1 ∨ (a.1 = b.1 ∧ a.2 < b.2) := by
  simp [entryLt, pairLt]

theorem activeLt_iff (a b : ActiveTimer) :
    activeLt a b = true ↔ a.1 < b.1 ∨ (a.1 = b.1 ∧ a.2 < b.2) := by
  simp [activeLt, pairLt]

theorem lex_trans_int_nat (a₁ b₁ c₁ : Int) (a₂ b₂ c₂ : Nat)
    (h₁ : a₁ < b₁ ∨ (a₁ = b₁ ∧ a₂ < b₂)) (h₂ : b₁ < c₁ ∨ (b₁ = c₁ ∧ b₂ < c₂)) :
    a₁ < c₁ ∨ (a₁ = c₁ ∧ a₂ < c₂) := by omega

theorem lex_total_int_nat (a₁ b₁ : Int) (a₂ b₂ : Nat) (h : a₁ ≠ b₁ ∨ a₂ ≠ b₂) :
    (a₁ < b₁ ∨ (a₁ = b₁ ∧ a₂ < b₂)) ∨ (b₁ < a₁ ∨ (b₁ = a₁ ∧ b₂ < a₂)) := by omega

theorem lex_trans_nat_int (a₁ b₁ c₁ : Nat) (a₂ b₂ c₂ : Int)
    (h₁ : a₁ < b₁ ∨ (a₁ = b₁ ∧ a₂ < b₂)) (h₂ : b₁ < c₁ ∨ (b₁ = c₁ ∧ b₂ < c₂)) :
    a₁ < c₁ ∨ (a₁ = c₁ ∧ a₂ < c₂) := by omega

theorem lex_total_nat_int (a₁ b₁ : Nat) (a₂ b₂ : Int) (h : a₁ ≠ b₁ ∨ a₂ ≠ b₂) :
    (a₁ < b₁ ∨ (a₁ = b₁ ∧ a₂ < b₂)) ∨ (b₁ < a₁ ∨ (b₁ = a₁ ∧ b₂ < a₂)) := by omega

theorem entryLt_strictTotal : OrdSet.StrictTotal entryLt where
  irrefl a := by
    cases h : entryLt a a with
    | false => rfl
    | true =>
      rw [entryLt_iff] at h
      rcases h with h | ⟨_, h⟩
      · exact absurd h (Int.lt_irrefl _)
      · exact absurd h (Nat.lt_irrefl _)
  trans a b c h₁ h₂ := by
    rw [entryLt_iff] at h₁ h₂ ⊢
    exact lex_trans_int_nat _ _ _ _ _ _ h₁ h₂
  total a b hne := by
    rw [entryLt_iff, entryLt_iff]
    apply lex_total_int_nat
    by_contra hc
    push_neg at hc
    exact hne (Prod.ext hc.1 hc.2)

theorem activeLt_strictTotal : OrdSet.StrictTotal activeLt where
  irrefl a := by
    cases h : activeLt a a with
    | false => rfl
    | true =>
      rw [activeLt_iff] at h
      rcases h with h | ⟨_, h⟩
      · exact absurd h (Nat.lt_irrefl _)
      · exact absurd h (Int.lt_irrefl _)
  trans a b c h₁ h₂ := by
    rw [activeLt_iff] at h₁ h₂ ⊢
    exact lex_trans_nat_int _ _ _ _ _ _ h₁ h₂
  total a b hne := by
    rw [activeLt_iff, activeLt_iff]
    apply lex_total_nat_int
    by_contra hc
    push_neg at hc
    exact hne (Prod.ext hc.1 hc.2)

end TimerQueue

/-! ### `TimerQueue`: the operations on consistent states -/

namespace OrdSet

variable {α : Type} {lt : α → α → Bool}

theorem mem_erase [DecidableEq α] {s : List α} (hs : s.Nodup) (x a : α) :
    a ∈ (erase x s).1 ↔ a ≠ x ∧ a ∈ s := by
  unfold erase
  split
  · exact hs.mem_erase_iff
  · rename_i hx
    constructor
    · intro ha
      exact ⟨fun e => hx (e ▸ ha), ha⟩
    · exact fun h => h.2

theorem length_erase [DecidableEq α] {s : List α} {x : α} (hx : x ∈ s) :
    (erase x s).1.length + 1 = s.length := by
  rw [erase_of_mem x s hx]
  simp only [List.length_erase_of_mem hx]
  have : 0 < s.length := List.length_pos_of_mem hx
  omega

theorem sorted_erase [DecidableEq α] {s : List α} (hs : Sorted lt s) (x : α) :
    Sorted lt (erase x s).1 := by
  unfold erase
  split
  · exact hs.erase x
  · exact hs

end OrdSet

namespace TimerQueue

theorem assertInLoopThread_eq_some (tid : ThreadId) (w : World U) (u : Unit) :
    EventLoop.assertInLoopThread tid w = some u ↔ w.loop.threadId_ = tid := by
  simp [EventLoop.assertInLoopThread, EventLoop.isInLoopThread, assertThat_eq_some]

theorem assertSizes_eq_some (w : World U) (u : Unit) :
    assertSizes w = some u
      ↔ w.timerQueue.timers_.length = w.timerQueue.activeTimers_.length := by
  simp [assertSizes, assertThat_eq_some]

theorem insert_eq_some_iff (tid : ThreadId) (timer : TimerPtr) (w : World U)
    (r : Bool × World U) :
    insert tid timer w = some r ↔
      ∃ t, w.loop.threadId_ = tid
        ∧ w.timerQueue.timers_.length = w.timerQueue.activeTimers_.length
        ∧ w.timerHeap timer = some t
        ∧ (t.expiration_, timer) ∉ w.timerQueue.timers_
        ∧ (timer, t.sequence_) ∉ w.timerQueue.activeTimers_
        ∧ r = (earliest t w, inserted timer t w) := by
  constructor
  · intro h
    simp only [insert, Option.bind_eq_bind, Option.pure_def, Option.bind_eq_some,
      assertInLoopThread_eq_some, assertSizes_eq_some, assertThat_eq_some, exists_and_left,
      exists_const, Option.some.injEq] at h
    obtain ⟨h₁, h₂, t, h₃, h₄, h₅, h₆, h₇⟩ := h
    have h₄' : (t.expiration_, timer) ∉ w.timerQueue.timers_ := by
      intro hm
      rw [OrdSet.insert_of_mem _ _ hm] at h₄
      simp at h₄
    have h₅' : (timer, t.sequence_) ∉ w.timerQueue.activeTimers_ := by
      intro hm
      rw [OrdSet.insert_of_mem _ _ hm] at h₅
      simp at h₅
    refine ⟨t, h₁, h₂, h₃, h₄', h₅', ?_⟩
    rw [← h₇, OrdSet.insert_of_not_mem _ _ h₄', OrdSet.insert_of_not_mem _ _ h₅']
    rfl
  · rintro ⟨t, h₁, h₂, h₃, h₄, h₅, rfl⟩
    simp only [insert, Option.bind_eq_bind, Option.pure_def, Option.bind_eq_some,
      assertInLoopThread_eq_some, assertSizes_eq_some, assertThat_eq_some, exists_and_left,
      exists_const, Option.some.injEq]
    refine ⟨h₁, h₂, t, h₃, ?_, ?_, ?_, ?_⟩
    · rw [OrdSet.insert_of_not_mem _ _ h₄]
    · rw [OrdSet.insert_of_not_mem _ _ h₅]
    · rw [OrdSet.insert_of_not_mem _ _ h₄, OrdSet.insert_of_not_mem _ _ h₅]
      simp [OrdSet.length_place, h₂]
    · rw [OrdSet.insert_of_not_mem _ _ h₄, OrdSet.insert_of_not_mem _ _ h₅]
      rfl

end TimerQueue

namespace TimerQueue

/-- The consistency only depends on the two sets, the heap and the counter. -/
theorem Inv.carry {w w' : World U} (h : Inv w)
    (h₁ : w'.timerQueue.timers_ = w.timerQueue.timers_)
    (h₂ : w'.timerQueue.activeTimers_ = w.timerQueue.activeTimers_)
    (h₃ : w'.timerHeap = w.timerHeap) (h₄ : w'.numCreated = w.numCreated) : Inv w' where
  sortedTimers := by rw [h₁]; exact h.sortedTimers
  sortedActive := by rw [h₂]; exact h.sortedActive
  timersLive := by rw [h₁, h₂, h₃]; exact h.timersLive
  activeLive := by rw [h₁, h₂, h₃]; exact h.activeLive
  sizes := by rw [h₁, h₂]; exact h.sizes
  seqBound := by rw [h₃, h₄]; exact h.seqBound
  seqInj := by rw [h₃]; exact h.seqInj
  ptrBound := by rw [h₃]; exact h.ptrBound

theorem Detached.move {w w' : World U} {p : TimerPtr} (h : Detached w p)
    (h₁ : w'.timerQueue.timers_ = w.timerQueue.timers_)
    (h₂ : w'.timerQueue.activeTimers_ = w.timerQueue.activeTimers_)
    (h₃ : w'.timerHeap = w.timerHeap) : Detached w' p := by
  unfold Detached
  rw [h₁, h₂, h₃]
  exact h

/-- In a consistent state the pointer of an entry of `timers_` determines the
entry. -/
theorem Inv.timers_ptr_inj {w : World U} (h : Inv w) {e e' : Entry}
    (he : e ∈ w.timerQueue.timers_) (he' : e' ∈ w.timerQueue.timers_) (hp : e.2 = e'.2) :
    e = e' := by
  obtain ⟨t, ht, hx, -⟩ := h.timersLive e he
  obtain ⟨t', ht', hx', -⟩ := h.timersLive e' he'
  rw [hp, ht'] at ht
  cases ht
  exact Prod.ext (hx.symm.trans hx') hp

theorem Inv.active_ptr_inj {w : World U} (h : Inv w) {a a' : ActiveTimer}
    (ha : a ∈ w.timerQueue.activeTimers_) (ha' : a' ∈ w.timerQueue.activeTimers_)
    (hp : a.1 = a'.1) : a = a' := by
  obtain ⟨t, ht, hx, -⟩ := h.activeLive a ha
  obtain ⟨t', ht', hx', -⟩ := h.activeLive a' ha'
  rw [hp, ht'] at ht
  cases ht
  exact Prod.ext hp (hx.symm.trans hx')

/-- A live timer that is not in `activeTimers_` under its sequence number is in
neither set. -/
theorem Inv.detached_of_not_mem {w : World U} (h : Inv w) {p : TimerPtr} {t : Timer}
    (ht : w.timerHeap p = some t) (hn : (p, t.sequence_) ∉ w.timerQueue.activeTimers_) :
    Detached w p := by
  have ha : ∀ a ∈ w.timerQueue.activeTimers_, a.1 ≠ p := by
    intro a ha hp
    obtain ⟨t', ht', hs, -⟩ := h.activeLive a ha
    rw [hp, ht] at ht'
    cases ht'
    exact hn (by rw [← hp, hs]; exact ha)
  refine ⟨⟨t, ht⟩, ?_, ha⟩
  intro e he hp
  obtain ⟨t', -, -, hm⟩ := h.timersLive e he
  exact ha _ hm hp

/-- Inserting a detached timer keeps the state consistent. -/
theorem inv_inserted {w : World U} (h : Inv w) {p : TimerPtr} {t : Timer}
    (ht : w.timerHeap p = some t) (hd : Detached w p) : Inv (inserted p t w) where
  sortedTimers := OrdSet.sorted_place entryLt_strictTotal _ _ h.sortedTimers
    (fun hm => hd.2.1 _ hm rfl)
  sortedActive := OrdSet.sorted_place activeLt_strictTotal _ _ h.sortedActive
    (fun hm => hd.2.2 _ hm rfl)
  timersLive := by
    intro e he
    rcases (OrdSet.mem_place _ _ _).mp he with rfl | he
    · exact ⟨t, ht, rfl, (OrdSet.mem_place _ _ _).mpr (Or.inl rfl)⟩
    · obtain ⟨t', h₁, h₂, h₃⟩ := h.timersLive e he
      exact ⟨t', h₁, h₂, (OrdSet.mem_place _ _ _).mpr (Or.inr h₃)⟩
  activeLive := by
    intro a ha
    rcases (OrdSet.mem_place _ _ _).mp ha with rfl | ha
    · exact ⟨t, ht, rfl, (OrdSet.mem_place _ _ _).mpr (Or.inl rfl)⟩
    · obtain ⟨t', h₁, h₂, h₃⟩ := h.activeLive a ha
      exact ⟨t', h₁, h₂, (OrdSet.mem_place _ _ _).mpr (Or.inr h₃)⟩
  sizes := by
    simp only [inserted, OrdSet.length_place, h.sizes]
  seqBound := h.seqBound
  seqInj := h.seqInj
  ptrBound := h.ptrBound

/-- Erasing an active timer and deleting it keeps the state consistent. -/
theorem inv_erased {w : World U} (h : Inv w) {p : TimerPtr} {s : Int} {t : Timer}
    (ht : w.timerHeap p = some t) (ha : (p, s) ∈ w.timerQueue.activeTimers_) :
    Inv (erased (p, s) t w) := by
  have hs : t.sequence_ = s := by
    obtain ⟨t', ht', hs, -⟩ := h.activeLive _ ha
    rw [ht] at ht'
    cases ht'
    exact hs
  have hmem : (t.expiration_, p) ∈ w.timerQueue.timers_ := by
    obtain ⟨t', ht', -, hm⟩ := h.activeLive _ ha
    rw [ht] at ht'
    cases ht'
    exact hm
  have hnt := OrdSet.Sorted.nodup entryLt_strictTotal h.sortedTimers
  have hna := OrdSet.Sorted.nodup activeLt_strictTotal h.sortedActive
  have hheap : ∀ q, q ≠ p → (erased (p, s) t w).timerHeap q = w.timerHeap q := by
    intro q hq
    simp [erased, hq]
  have hlive : ∀ q u, (erased (p, s) t w).timerHeap q = some u → w.timerHeap q = some u := by
    intro q u hq
    by_cases hqp : q = p
    · simp [erased, hqp] at hq
    · rwa [hheap q hqp] at hq
  refine
    { sortedTimers := OrdSet.sorted_erase h.sortedTimers (t.expiration_, p)
      sortedActive := OrdSet.sorted_erase h.sortedActive (p, s)
      timersLive := ?_
      activeLive := ?_
      sizes := ?_
      seqBound := fun q u hq => h.seqBound q u (hlive q u hq)
      seqInj := fun q r u v hq hr => h.seqInj q r u v (hlive q u hq) (hlive r v hr)
      ptrBound := fun q u hq => h.ptrBound q u (hlive q u hq) }
  · intro e he
    have he : e ∈ (OrdSet.erase (t.expiration_, p) w.timerQueue.timers_).1 := he
    obtain ⟨hne, he⟩ := (OrdSet.mem_erase hnt _ _).mp he
    have hep : e.2 ≠ p := fun hp => hne (h.timers_ptr_inj he hmem hp)
    obtain ⟨t', h₁, h₂, h₃⟩ := h.timersLive e he
    refine ⟨t', by rw [hheap _ hep]; exact h₁, h₂, ?_⟩
    show (e.2, t'.sequence_) ∈ (OrdSet.erase (p, s) w.timerQueue.activeTimers_).1
    exact (OrdSet.mem_erase hna _ _).mpr
      ⟨fun hc => hep (congrArg Prod.fst hc), h₃⟩
  · intro a ha'
    have ha' : a ∈ (OrdSet.erase (p, s) w.timerQueue.activeTimers_).1 := ha'
    obtain ⟨hne, ha'⟩ := (OrdSet.mem_erase hna _ _).mp ha'
    have hap : a.1 ≠ p := fun hp => hne (h.active_ptr_inj ha' ha hp)
    obtain ⟨t', h₁, h₂, h₃⟩ := h.activeLive a ha'
    refine ⟨t', by rw [hheap _ hap]; exact h₁, h₂, ?_⟩
    show (t'.expiration_, a.1) ∈ (OrdSet.erase (t.expiration_, p) w.timerQueue.timers_).1
    exact (OrdSet.mem_erase hnt _ _).mpr
      ⟨fun hc => hap (congrArg Prod.snd hc), h₃⟩
  · have h₁ := OrdSet.length_erase hmem
    have h₂ := OrdSet.length_erase ha
    have h₃ := h.sizes
    show (OrdSet.erase (t.expiration_, p) w.timerQueue.timers_).1.length
      = (OrdSet.erase (p, s) w.timerQueue.activeTimers_).1.length
    omega

end TimerQueue

namespace TimerQueue

theorem cancelFound_eq {w : World U} {timer : ActiveTimer} {t : Timer}
    (ht : w.timerHeap timer.1 = some t)
    (hm : (t.expiration_, timer.1) ∈ w.timerQueue.timers_) :
    cancelFound timer w = some (erased timer t w) := by
  have hn : (OrdSet.erase (t.expiration_, timer.1) w.timerQueue.timers_).2 = 1 :=
    (OrdSet.erase_count_eq_one _ _).mpr hm
  simp only [cancelFound, ht, Option.bind_eq_bind, Option.some_bind, Option.pure_def,
    hn, decide_True, assertThat, if_true]
  rfl

/-- The result of `cancelInLoop`, by the branch taken. -/
theorem cancelInLoop_eq_some_iff {w w' : World U} (h : Inv w) (tid : ThreadId)
    (timerId : TimerId) :
    cancelInLoop tid timerId w = some w' ↔
      w.loop.threadId_ = tid ∧
        ((∃ t, (timerId.timer, timerId.sequence) ∈ w.timerQueue.activeTimers_
            ∧ w.timerHeap timerId.timer = some t
            ∧ w' = erased (timerId.timer, timerId.sequence) t w)
          ∨ ((timerId.timer, timerId.sequence) ∉ w.timerQueue.activeTimers_
            ∧ w.timerQueue.callingExpiredTimers_ = true
            ∧ w' = noted (timerId.timer, timerId.sequence) w)
          ∨ ((timerId.timer, timerId.sequence) ∉ w.timerQueue.activeTimers_
            ∧ w.timerQueue.callingExpiredTimers_ = false ∧ w' = w)) := by
  have hsz := h.sizes
  by_cases htid : w.loop.threadId_ = tid
  swap
  · constructor
    · intro hr
      simp only [cancelInLoop, Option.bind_eq_bind, Option.bind_eq_some,
        assertInLoopThread_eq_some] at hr
      exact absurd hr.choose_spec.1 htid
    · exact fun hr => absurd hr.1 htid
  have h₁ : EventLoop.assertInLoopThread tid w = some () :=
    (assertInLoopThread_eq_some tid w ()).mpr htid
  have h₂ : assertSizes w = some () := (assertSizes_eq_some w ()).mpr hsz
  simp only [cancelInLoop, h₁, h₂, Option.bind_eq_bind, Option.some_bind, Option.pure_def,
    htid, true_and]
  by_cases ha : (timerId.timer, timerId.sequence) ∈ w.timerQueue.activeTimers_
  · obtain ⟨t, ht, hs, hm⟩ := h.activeLive _ ha
    have hinv := inv_erased h ht ha
    have h₃ : assertSizes (erased (timerId.timer, timerId.sequence) t w) = some () :=
      (assertSizes_eq_some _ ()).mpr hinv.sizes
    rw [if_pos ha, cancelFound_eq ht hm]
    simp only [Option.some_bind, h₃, Option.some.injEq, ha, not_true_eq_false, false_and,
      or_false, true_and]
    constructor
    · rintro rfl
      exact ⟨t, ht, rfl⟩
    · rintro ⟨t', ht', rfl⟩
      rw [ht] at ht'
      cases ht'
      rfl
  · by_cases hc : w.timerQueue.callingExpiredTimers_ = true
    · have h₃ : assertSizes (noted (timerId.timer, timerId.sequence) w) = some () :=
        (assertSizes_eq_some _ ()).mpr hsz
      rw [if_neg ha, if_pos hc]
      show ((some (noted (timerId.timer, timerId.sequence) w)).bind fun w =>
        (assertSizes w).bind fun _ => some w) = some w' ↔ _
      simp only [Option.some_bind, h₃, Option.some.injEq, ha, false_and, exists_false,
        not_false_eq_true, true_and, hc, Bool.true_eq_false, or_false, false_or]
      exact eq_comm
    · have hc' : w.timerQueue.callingExpiredTimers_ = false := by simpa using hc
      rw [if_neg ha, if_neg hc]
      simp only [Option.some_bind, h₂, Option.some.injEq, ha, false_and, exists_false,
        not_false_eq_true, true_and, hc', Bool.false_eq_true, false_or]
      exact eq_comm

theorem inv_noted {w : World U} (h : Inv w) (timer : ActiveTimer) : Inv (noted timer w) :=
  h.carry rfl rfl rfl rfl

theorem cancelInLoop_inv {w w' : World U} (h : Inv w) {tid : ThreadId} {timerId : TimerId}
    (hr : cancelInLoop tid timerId w = some w') : Inv w' := by
  obtain ⟨-, ⟨t, ha, ht, rfl⟩ | ⟨-, -, rfl⟩ | ⟨-, -, rfl⟩⟩ :=
    (cancelInLoop_eq_some_iff h tid timerId).mp hr
  · exact inv_erased h ht ha
  · exact inv_noted h _
  · exact h

end TimerQueue

namespace TimerQueue

/-- The loop of `getExpired` over the expired entries: each erase finds its
element, and what is left of `activeTimers_` are the entries of the other
timers. -/
theorem eraseExpired_spec (heap : TimerPtr → Option Timer) :
    ∀ (expired : List Entry) (active : List ActiveTimer),
      OrdSet.Sorted activeLt active →
      (∀ it ∈ expired, ∃ t, heap it.2 = some t ∧ (it.2, t.sequence_) ∈ active) →
      (∀ a ∈ active, ∀ a' ∈ active, a.1 = a'.1 → a = a') →
      (expired.map (fun it => it.2)).Nodup →
      ∃ active', eraseExpired heap expired active = some active'
        ∧ OrdSet.Sorted activeLt active'
        ∧ (∀ a, a ∈ active' ↔ a ∈ active ∧ ∀ it ∈ expired, it.2 ≠ a.1)
        ∧ active'.length + expired.length = active.length := by
  intro expired
  induction expired with
  | nil =>
    intro active hs _ _ _
    exact ⟨active, rfl, hs, by simp, by simp⟩
  | cons it rest ih =>
    intro active hs hlive hinj hnd
    obtain ⟨t, ht, hm⟩ := hlive it (List.mem_cons_self _ _)
    have hn := OrdSet.Sorted.nodup activeLt_strictTotal hs
    simp only [List.map_cons, List.nodup_cons, List.mem_map, not_exists, not_and] at hnd
    have hcount : (OrdSet.erase (it.2, t.sequence_) active).2 = 1 :=
      (OrdSet.erase_count_eq_one _ _).mpr hm
    obtain ⟨active', h₁, h₂, h₃, h₄⟩ := ih (OrdSet.erase (it.2, t.sequence_) active).1
      (OrdSet.sorted_erase hs _)
      (by
        intro it' hit'
        obtain ⟨t', ht', hm'⟩ := hlive it' (List.mem_cons_of_mem _ hit')
        refine ⟨t', ht', (OrdSet.mem_erase hn _ _).mpr ⟨?_, hm'⟩⟩
        intro hc
        exact hnd.1 it' hit' (congrArg Prod.fst hc))
      (by
        intro a ha a' ha' hp
        exact hinj a ((OrdSet.mem_erase hn _ _).mp ha).2 a' ((OrdSet.mem_erase hn _ _).mp ha').2 hp)
      hnd.2
    refine ⟨active', ?_, h₂, ?_, ?_⟩
    · simp only [eraseExpired, ht, Option.some_bind, hcount, decide_True, assertThat, if_true]
      exact h₁
    · intro a
      rw [h₃, OrdSet.mem_erase hn]
      constructor
      · rintro ⟨⟨hne, ha⟩, hr⟩
        refine ⟨ha, ?_⟩
        intro it' hit'
        rcases List.mem_cons.mp hit' with rfl | hit'
        · intro hp
          exact hne (hinj a ha _ hm hp.symm)
        · exact hr it' hit'
      · rintro ⟨ha, hr⟩
        refine ⟨⟨?_, ha⟩, fun it' hit' => hr it' (List.mem_cons_of_mem _ hit')⟩
        intro hc
        exact hr it (List.mem_cons_self _ _) (by rw [hc])
    · have := OrdSet.length_erase hm
      simp only [List.length_cons]
      omega

/-- An entry is before the `lower_bound` of the sentry `(now, UINTPTR_MAX)`
exactly when its expiration is not after `now`, the pointer being valid. -/
theorem entryLt_sentry_iff (e : Entry) (now : Timestamp) (hp : e.2 < UINTPTR_MAX) :
    entryLt e (now, UINTPTR_MAX) = true ↔ e.1 ≤ now := by
  rw [entryLt_iff]
  constructor
  · rintro (h | ⟨h, -⟩)
    · exact Int.le_of_lt h
    · exact Int.le_of_eq h
  · intro h
    rcases lt_or_eq_of_le h with h | h
    · exact Or.inl h
    · exact Or.inr ⟨h, hp⟩

end TimerQueue

namespace TimerQueue

/-- On a consistent state `getExpired(now)` returns the entries of `timers_`
with expiration `≤ now`, in the order of the set, and leaves a consistent
state in which those timers are detached and every other entry is kept. -/
theorem getExpired_spec {w : World U} (h : Inv w) (now : Timestamp) :
    ∃ active,
      getExpired now w
          = some (w.timerQueue.timers_.takeWhile (fun e => entryLt e (now, UINTPTR_MAX)),
              expiredOut now active w)
        ∧ Inv (expiredOut now active w)
        ∧ (∀ e, e ∈ w.timerQueue.timers_.takeWhile (fun e => entryLt e (now, UINTPTR_MAX))
            ↔ e ∈ w.timerQueue.timers_ ∧ e.1 ≤ now)
        ∧ (∀ e, e ∈ (expiredOut now active w).timerQueue.timers_
            ↔ e ∈ w.timerQueue.timers_ ∧ now < e.1)
        ∧ (∀ a, a ∈ active ↔ a ∈ w.timerQueue.activeTimers_
            ∧ ∀ it ∈ w.timerQueue.timers_, it.1 ≤ now → it.2 ≠ a.1)
        ∧ (∀ it ∈ w.timerQueue.timers_.takeWhile (fun e => entryLt e (now, UINTPTR_MAX)),
            Detached (expiredOut now active w) it.2) := by
  have hbound : ∀ e ∈ w.timerQueue.timers_, e.2 < UINTPTR_MAX := by
    intro e he
    obtain ⟨t, ht, -, -⟩ := h.timersLive e he
    exact h.ptrBound _ _ ht
  have hexp : ∀ e, e ∈ w.timerQueue.timers_.takeWhile (fun e => entryLt e (now, UINTPTR_MAX))
      ↔ e ∈ w.timerQueue.timers_ ∧ e.1 ≤ now := by
    intro e
    rw [OrdSet.mem_takeWhile_lt entryLt_strictTotal _ _ h.sortedTimers]
    constructor
    · rintro ⟨h₁, h₂⟩
      exact ⟨h₁, (entryLt_sentry_iff e now (hbound e h₁)).mp h₂⟩
    · rintro ⟨h₁, h₂⟩
      exact ⟨h₁, (entryLt_sentry_iff e now (hbound e h₁)).mpr h₂⟩
  have hrest : ∀ e, e ∈ w.timerQueue.timers_.dropWhile (fun e => entryLt e (now, UINTPTR_MAX))
      ↔ e ∈ w.timerQueue.timers_ ∧ now < e.1 := by
    intro e
    rw [OrdSet.mem_dropWhile_lt entryLt_strictTotal _ _ h.sortedTimers]
    constructor
    · rintro ⟨h₁, h₂⟩
      refine ⟨h₁, ?_⟩
      by_contra hc
      have := (entryLt_sentry_iff e now (hbound e h₁)).mpr (not_lt.mp hc)
      rw [h₂] at this
      exact Bool.false_ne_true this
    · rintro ⟨h₁, h₂⟩
      refine ⟨h₁, ?_⟩
      cases hlt : entryLt e (now, UINTPTR_MAX) with
      | false => rfl
      | true => exact absurd ((entryLt_sentry_iff e now (hbound e h₁)).mp hlt) (not_le.mpr h₂)
  have hsub : List.Sublist
      (w.timerQueue.timers_.takeWhile (fun e => entryLt e (now, UINTPTR_MAX)))
      w.timerQueue.timers_ := List.takeWhile_sublist _
  have hnd : ((w.timerQueue.timers_.takeWhile
      (fun e => entryLt e (now, UINTPTR_MAX))).map (fun it => it.2)).Nodup := by
    have hn := (OrdSet.Sorted.nodup entryLt_strictTotal h.sortedTimers).sublist hsub
    refine (List.nodup_map_iff_inj_on hn).mpr ?_
    intro e he e' he' hp
    exact h.timers_ptr_inj (hsub.subset he) (hsub.subset he') hp
  obtain ⟨active, h₁, h₂, h₃, h₄⟩ := eraseExpired_spec w.timerHeap
    (w.timerQueue.timers_.takeWhile (fun e => entryLt e (now, UINTPTR_MAX)))
    w.timerQueue.activeTimers_ h.sortedActive
    (by
      intro it hit
      obtain ⟨t, ht, -, hm⟩ := h.timersLive it (hsub.subset hit)
      exact ⟨t, ht, hm⟩)
    (fun a ha a' ha' hp => h.active_ptr_inj ha ha' hp) hnd
  have hactive : ∀ a, a ∈ active ↔ a ∈ w.timerQueue.activeTimers_
      ∧ ∀ it ∈ w.timerQueue.timers_, it.1 ≤ now → it.2 ≠ a.1 := by
    intro a
    rw [h₃]
    constructor
    · rintro ⟨ha, hr⟩
      exact ⟨ha, fun it hit hle => hr it ((hexp it).mpr ⟨hit, hle⟩)⟩
    · rintro ⟨ha, hr⟩
      exact ⟨ha, fun it hit => hr it ((hexp it).mp hit).1 ((hexp it).mp hit).2⟩
  have hlen : (w.timerQueue.timers_.dropWhile (fun e => entryLt e (now, UINTPTR_MAX))).length
      = active.length := by
    have e₁ := congrArg List.length
      (List.takeWhile_append_dropWhile (fun e => entryLt e (now, UINTPTR_MAX))
        w.timerQueue.timers_)
    rw [List.length_append] at e₁
    have e₂ := h.sizes
    omega
  have hinv : Inv (expiredOut now active w) :=
    { sortedTimers := h.sortedTimers.sublist (List.dropWhile_sublist _)
      sortedActive := h₂
      timersLive := by
        intro e he
        have he' := (hrest e).mp he
        obtain ⟨t, ht, hx, hm⟩ := h.timersLive e he'.1
        refine ⟨t, ht, hx, (hactive _).mpr ⟨hm, ?_⟩⟩
        intro it hit hle hp
        have := h.timers_ptr_inj hit he'.1 hp
        rw [this] at hle
        exact absurd hle (not_le.mpr he'.2)
      activeLive := by
        intro a ha
        have ha' := (hactive a).mp ha
        obtain ⟨t, ht, hs, hm⟩ := h.activeLive a ha'.1
        refine ⟨t, ht, hs, (hrest _).mpr ⟨hm, ?_⟩⟩
        by_contra hc
        exact ha'.2 _ hm (not_lt.mp hc) rfl
      sizes := hlen
      seqBound := h.seqBound
      seqInj := h.seqInj
      ptrBound := h.ptrBound }
  refine ⟨active, ?_, hinv, hexp, hrest, hactive, ?_⟩
  · have hend : (match (w.timerQueue.timers_.dropWhile
          (fun e => entryLt e (now, UINTPTR_MAX))).head? with
        | none => true
        | some e => decide (now < e.1)) = true := by
      cases hh : (w.timerQueue.timers_.dropWhile
          (fun e => entryLt e (now, UINTPTR_MAX))).head? with
      | none => rfl
      | some e =>
        have he : e ∈ w.timerQueue.timers_.dropWhile (fun e => entryLt e (now, UINTPTR_MAX)) :=
          List.mem_of_mem_head? hh
        simpa using ((hrest e).mp he).2
    have hs₁ : assertSizes w = some () := (assertSizes_eq_some w ()).mpr h.sizes
    have hs₂ : assertSizes (expiredOut now active w) = some () :=
      (assertSizes_eq_some _ ()).mpr hlen
    simp only [getExpired, hs₁, Option.bind_eq_bind, Option.some_bind, hend, assertThat,
      if_true, h₁, Option.pure_def]
    show ((assertSizes (expiredOut now active w)).bind fun _ => _) = _
    rw [hs₂]
    rfl
  · intro it hit
    have hit' := (hexp it).mp hit
    obtain ⟨t, ht, -, -⟩ := h.timersLive it hit'.1
    refine ⟨⟨t, ht⟩, ?_, ?_⟩
    · intro e he hp
      have he' := (hrest e).mp he
      have := h.timers_ptr_inj he'.1 hit'.1 hp
      rw [this] at he'
      exact absurd hit'.2 (not_le.mpr he'.2)
    · intro a ha hp
      exact ((hactive a).mp ha).2 it hit'.1 hit'.2 hp.symm

end TimerQueue

/-! ### `TimerQueue`: what callbacks may do -/

namespace TimerQueue

theorem Guar.same (w : World U) : Guar w w where
  thread := rfl
  calling := rfl
  canceling := fun _ h => h
  created := le_refl _
  inv := fun h => h
  detached := fun _ _ h => ⟨h, rfl⟩
  fresh := fun _ _ _ h => Or.inl h

theorem Guar.andThen {w₁ w₂ w₃ : World U} (h₁ : Guar w₁ w₂) (h₂ : Guar w₂ w₃) : Guar w₁ w₃ where
  thread := h₂.thread.trans h₁.thread
  calling := h₂.calling.trans h₁.calling
  canceling := fun a ha => h₂.canceling a (h₁.canceling a ha)
  created := le_trans h₁.created h₂.created
  inv := fun h => h₂.inv (h₁.inv h)
  detached := by
    intro h q hq
    obtain ⟨d₁, e₁⟩ := h₁.detached h q hq
    obtain ⟨d₂, e₂⟩ := h₂.detached (h₁.inv h) q d₁
    exact ⟨d₂, e₂.trans e₁⟩
  fresh := by
    intro h q t hq
    rcases h₂.fresh (h₁.inv h) q t hq with h' | h'
    · exact h₁.fresh h q t h'
    · exact Or.inr (lt_of_le_of_lt h₁.created h')

/-- A step that leaves the timer queue, the heap of timers, the counter and the
thread of the loop alone respects `Guar`. -/
theorem Guar.of_frame {w w' : World U} (h₁ : w'.timerQueue = w.timerQueue)
    (h₂ : w'.timerHeap = w.timerHeap) (h₃ : w'.numCreated = w.numCreated)
    (h₅ : w'.loop.threadId_ = w.loop.threadId_) :
    Guar w w' where
  thread := h₅
  calling := by rw [h₁]
  canceling := by rw [h₁]; exact fun _ h => h
  created := by rw [h₃]
  inv := fun h => h.carry (by rw [h₁]) (by rw [h₁]) h₂ h₃
  detached := fun _ q hq => ⟨hq.move (by rw [h₁]) (by rw [h₁]) h₂, by rw [h₂]⟩
  fresh := fun _ q t hq => Or.inl (by rwa [h₂] at hq)

/-- The state `cancelInLoop` leaves when it returns, by the branch taken. -/
theorem cancelInLoop_shape {w w' : World U} {tid : ThreadId} {timerId : TimerId}
    (hr : cancelInLoop tid timerId w = some w') :
    w.loop.threadId_ = tid ∧
      ((∃ t, (timerId.timer, timerId.sequence) ∈ w.timerQueue.activeTimers_
          ∧ w.timerHeap timerId.timer = some t
          ∧ w' = erased (timerId.timer, timerId.sequence) t w)
        ∨ ((timerId.timer, timerId.sequence) ∉ w.timerQueue.activeTimers_
          ∧ w.timerQueue.callingExpiredTimers_ = true
          ∧ w' = noted (timerId.timer, timerId.sequence) w)
        ∨ ((timerId.timer, timerId.sequence) ∉ w.timerQueue.activeTimers_
          ∧ w.timerQueue.callingExpiredTimers_ = false ∧ w' = w)) := by
  simp only [cancelInLoop, Option.bind_eq_bind, Option.pure_def, Option.bind_eq_some,
    assertInLoopThread_eq_some, Option.some.injEq] at hr
  obtain ⟨_, htid, _, _, w₁, hb, _, _, rfl⟩ := hr
  refine ⟨htid, ?_⟩
  by_cases ha : (timerId.timer, timerId.sequence) ∈ w.timerQueue.activeTimers_
  · left
    rw [if_pos ha] at hb
    simp only [cancelFound, Option.bind_eq_bind, Option.pure_def, Option.bind_eq_some,
      Option.some.injEq] at hb
    obtain ⟨t, ht, _, _, rfl⟩ := hb
    exact ⟨t, ha, ht, rfl⟩
  · right
    rw [if_neg ha] at hb
    by_cases hc : w.timerQueue.callingExpiredTimers_ = true
    · left
      rw [if_pos hc] at hb
      simp only [Option.some.injEq] at hb
      exact ⟨ha, hc, hb.symm⟩
    · right
      rw [if_neg hc] at hb
      simp only [Option.some.injEq] at hb
      exact ⟨ha, by simpa using hc, hb.symm⟩

/-- `cancelInLoop` respects `Guar`. -/
theorem cancelInLoop_guar {w w' : World U} {tid : ThreadId} {timerId : TimerId}
    (hr : cancelInLoop tid timerId w = some w') : Guar w w' := by
  obtain ⟨-, ⟨t, ha, ht, rfl⟩ | ⟨-, -, rfl⟩ | ⟨-, -, rfl⟩⟩ := cancelInLoop_shape hr
  · exact
      { thread := rfl
        calling := rfl
        canceling := fun _ h => h
        created := le_refl _
        inv := fun h => inv_erased h ht ha
        detached := by
          intro hinv q hq
          have hnt := OrdSet.Sorted.nodup entryLt_strictTotal hinv.sortedTimers
          have hna := OrdSet.Sorted.nodup activeLt_strictTotal hinv.sortedActive
          have hqp : q ≠ timerId.timer := fun e => hq.2.2 _ ha e.symm
          have hheap : (erased (timerId.timer, timerId.sequence) t w).timerHeap q
              = w.timerHeap q := by
            simp [erased, hqp]
          refine ⟨⟨by rw [hheap]; exact hq.1, ?_, ?_⟩, hheap⟩
          · intro e he
            exact hq.2.1 e ((OrdSet.mem_erase hnt _ _).mp he).2
          · intro a ha'
            exact hq.2.2 a ((OrdSet.mem_erase hna _ _).mp ha').2
        fresh := by
          intro _ q u hq
          left
          by_cases hqp : q = timerId.timer
          · simp [erased, hqp] at hq
          · simpa [erased, hqp] using hq }
  · exact
      { thread := rfl
        calling := rfl
        canceling := fun a h => (OrdSet.mem_insert _ a _).mpr (Or.inr h)
        created := le_refl _
        inv := fun h => inv_noted h _
        detached := fun _ q hq => ⟨hq, rfl⟩
        fresh := fun _ q u hq => Or.inl hq }
  · exact Guar.same _

/-- `cancel` called on the loop thread respects `Guar`. -/
theorem cancel_guar {env : Env U} {w w' : World U} {tid : ThreadId} {timerId : TimerId}
    (htid : w.loop.threadId_ = tid) (hr : cancel env tid timerId w = some w') : Guar w w' := by
  have : EventLoop.isInLoopThread tid w = true := by
    simp [EventLoop.isInLoopThread, htid]
  simp only [cancel, EventLoop.runInLoop, this, if_true, EventLoop.runFunctor] at hr
  exact cancelInLoop_guar hr

end TimerQueue

namespace TimerQueue

theorem addTimerInLoop_eq {w : World U} {tid : ThreadId} {timer : TimerPtr} {t : Timer}
    (htid : w.loop.threadId_ = tid)
    (hsz : w.timerQueue.timers_.length = w.timerQueue.activeTimers_.length)
    (ht : w.timerHeap timer = some t)
    (h₁ : (t.expiration_, timer) ∉ w.timerQueue.timers_)
    (h₂ : (timer, t.sequence_) ∉ w.timerQueue.activeTimers_) :
    addTimerInLoop tid timer w
      = some (if earliest t w then resetTimerfd t.expiration_ (inserted timer t w)
          else inserted timer t w) := by
  have hi : insert tid timer w = some (earliest t w, inserted timer t w) :=
    (insert_eq_some_iff tid timer w _).mpr ⟨t, htid, hsz, ht, h₁, h₂, rfl⟩
  have h₀ : EventLoop.assertInLoopThread tid w = some () :=
    (assertInLoopThread_eq_some tid w ()).mpr htid
  have ht' : (inserted timer t w).timerHeap timer = some t := ht
  simp only [addTimerInLoop, h₀, hi, Option.bind_eq_bind, Option.some_bind]
  split <;> simp [ht', *]

/-- The state after `addTimer` on the loop thread. -/
theorem addTimer_eq {env : Env U} {w : World U} (hinv : Inv w) {tid : ThreadId}
    (htid : w.loop.threadId_ = tid) {addr : TimerPtr} (hfree : w.timerHeap addr = none)
    (cb : CbId) (when : Timestamp) (interval : Int) :
    addTimer env tid addr cb when interval w
      = some (⟨addr, w.numCreated + 1⟩,
          if earliest (Timer.construct cb when interval (w.numCreated + 1))
              (allocated addr cb when interval w)
          then resetTimerfd when (inserted addr
            (Timer.construct cb when interval (w.numCreated + 1))
            (allocated addr cb when interval w))
          else inserted addr (Timer.construct cb when interval (w.numCreated + 1))
            (allocated addr cb when interval w)) := by
  have hnt : ∀ e ∈ w.timerQueue.timers_, e.2 ≠ addr := by
    intro e he hp
    obtain ⟨t, ht, -, -⟩ := hinv.timersLive e he
    rw [hp, hfree] at ht
    cases ht
  have hna : ∀ a ∈ w.timerQueue.activeTimers_, a.1 ≠ addr := by
    intro a ha hp
    obtain ⟨t, ht, -, -⟩ := hinv.activeLive a ha
    rw [hp, hfree] at ht
    cases ht
  have hheap : (allocated addr cb when interval w).timerHeap addr
      = some (Timer.construct cb when interval (w.numCreated + 1)) := by
    simp [allocated]
  have hadd := @addTimerInLoop_eq U (allocated addr cb when interval w) tid addr _
    htid hinv.sizes hheap (fun hm => hnt _ hm rfl) (fun hm => hna _ hm rfl)
  have hthread : EventLoop.isInLoopThread tid (allocated addr cb when interval w) = true := by
    simp [EventLoop.isInLoopThread, allocated, htid]
  unfold addTimer
  simp only [Option.bind_eq_bind, Option.pure_def]
  show ((EventLoop.runInLoop env tid (Functor.addTimerInLoop addr)
    (allocated addr cb when interval w)).bind fun w' =>
      (w'.timerHeap addr).bind fun t => some ((⟨addr, t.sequence_⟩ : TimerId), w')) = _
  simp only [EventLoop.runInLoop, hthread, if_true, EventLoop.runFunctor, hadd,
    Option.some_bind]
  split <;> simp [resetTimerfd, inserted, hheap, Timer.construct]

end TimerQueue

namespace TimerQueue

theorem inv_allocated {w : World U} (hinv : Inv w) {addr : TimerPtr}
    (hfree : w.timerHeap addr = none) (hb : addr < UINTPTR_MAX) (cb : CbId) (when : Timestamp)
    (interval : Int) : Inv (allocated addr cb when interval w) := by
  have hold : ∀ q t, w.timerHeap q = some t →
      (allocated addr cb when interval w).timerHeap q = some t := by
    intro q t hq
    have : q ≠ addr := by
      rintro rfl
      rw [hfree] at hq
      cases hq
    simp [allocated, this, hq]
  have hcases : ∀ q t, (allocated addr cb when interval w).timerHeap q = some t →
      (q = addr ∧ t = Timer.construct cb when interval (w.numCreated + 1))
        ∨ (q ≠ addr ∧ w.timerHeap q = some t) := by
    intro q t hq
    by_cases hqa : q = addr
    · left
      simp only [allocated, hqa, if_true, Option.some.injEq] at hq
      exact ⟨hqa, hq.symm⟩
    · right
      simp only [allocated, hqa, if_false] at hq
      exact ⟨hqa, hq⟩
  exact
    { sortedTimers := hinv.sortedTimers
      sortedActive := hinv.sortedActive
      timersLive := by
        intro e he
        obtain ⟨t, h₁, h₂, h₃⟩ := hinv.timersLive e he
        exact ⟨t, hold _ _ h₁, h₂, h₃⟩
      activeLive := by
        intro a ha
        obtain ⟨t, h₁, h₂, h₃⟩ := hinv.activeLive a ha
        exact ⟨t, hold _ _ h₁, h₂, h₃⟩
      sizes := hinv.sizes
      seqBound := by
        intro q t hq
        show t.sequence_ ≤ w.numCreated + 1
        rcases hcases q t hq with ⟨-, rfl⟩ | ⟨-, hq'⟩
        · exact le_refl _
        · exact le_trans (hinv.seqBound q t hq') (Int.le_add_one (le_refl _))
      seqInj := by
        intro q r t u hq hr hs
        rcases hcases q t hq with ⟨rfl, rfl⟩ | ⟨-, hq'⟩
        · rcases hcases r u hr with ⟨rfl, -⟩ | ⟨-, hr'⟩
          · rfl
          · have := hinv.seqBound r u hr'
            simp only [Timer.construct] at hs
            omega
        · rcases hcases r u hr with ⟨rfl, rfl⟩ | ⟨-, hr'⟩
          · have := hinv.seqBound q t hq'
            simp only [Timer.construct] at hs
            omega
          · exact hinv.seqInj q r t u hq' hr' hs
      ptrBound := by
        intro q t hq
        rcases hcases q t hq with ⟨rfl, -⟩ | ⟨-, hq'⟩
        · exact hb
        · exact hinv.ptrBound q t hq' }

theorem addTimerInLoop_eq_some {w w' : World U} {tid : ThreadId} {timer : TimerPtr}
    (hr : addTimerInLoop tid timer w = some w') :
    ∃ t, w.timerHeap timer = some t
      ∧ w' = (if earliest t w then resetTimerfd t.expiration_ (inserted timer t w)
          else inserted timer t w) := by
  simp only [addTimerInLoop, Option.bind_eq_bind, Option.bind_eq_some] at hr
  obtain ⟨_, h₀, r, hi, hr⟩ := hr
  obtain ⟨t, htid, hsz, ht, h₁, h₂, rfl⟩ := (insert_eq_some_iff tid timer w r).mp hi
  refine ⟨t, ht, ?_⟩
  have ht' : (inserted timer t w).timerHeap timer = some t := ht
  simp only at hr
  split at hr
  · rename_i he
    simp only [ht', Option.map_some', Option.some.injEq] at hr
    simp only [he, if_true]
    exact hr.symm
  · rename_i he
    simp only [Option.some.injEq] at hr
    simp only [he, if_false]
    exact hr.symm

/-- The state `addTimer` leaves when it returns on the loop thread. -/
theorem addTimer_eq_some {env : Env U} {w w' : World U} {tid : ThreadId} {addr : TimerPtr}
    {cb : CbId} {when : Timestamp} {interval : Int} {timerId : TimerId}
    (htid : w.loop.threadId_ = tid)
    (hr : addTimer env tid addr cb when interval w = some (timerId, w')) :
    w' = (if earliest (Timer.construct cb when interval (w.numCreated + 1))
            (allocated addr cb when interval w)
          then resetTimerfd when (inserted addr
            (Timer.construct cb when interval (w.numCreated + 1))
            (allocated addr cb when interval w))
          else inserted addr (Timer.construct cb when interval (w.numCreated + 1))
            (allocated addr cb when interval w)) := by
  have hthread : EventLoop.isInLoopThread tid (allocated addr cb when interval w) = true := by
    simp [EventLoop.isInLoopThread, allocated, htid]
  have hheap : (allocated addr cb when interval w).timerHeap addr
      = some (Timer.construct cb when interval (w.numCreated + 1)) := by
    simp [allocated]
  unfold addTimer at hr
  simp only [Option.bind_eq_bind, Option.pure_def] at hr
  have hr : ((EventLoop.runInLoop env tid (Functor.addTimerInLoop addr)
    (allocated addr cb when interval w)).bind fun w' =>
      (w'.timerHeap addr).bind fun t => some ((⟨addr, t.sequence_⟩ : TimerId), w'))
      = some (timerId, w') := hr
  simp only [EventLoop.runInLoop, hthread, if_true, EventLoop.runFunctor,
    Option.bind_eq_some, Option.some.injEq, Prod.mk.injEq] at hr
  obtain ⟨w₁, h₁, t, -, -, rfl⟩ := hr
  obtain ⟨t', ht', rfl⟩ := addTimerInLoop_eq_some h₁
  rw [hheap] at ht'
  cases ht'
  rfl

/-- `addTimer` on the loop thread, the allocator returning a free and valid
address, respects `Guar`. -/
theorem addTimer_guar {env : Env U} {w w' : World U} {tid : ThreadId} {addr : TimerPtr}
    {cb : CbId} {when : Timestamp} {interval : Int} {timerId : TimerId}
    (htid : w.loop.threadId_ = tid) (hfree : w.timerHeap addr = none)
    (hb : addr < UINTPTR_MAX)
    (hr : addTimer env tid addr cb when interval w = some (timerId, w')) : Guar w w' := by
  have hshape : ∃ armed, w' = { inserted addr
        (Timer.construct cb when interval (w.numCreated + 1))
        (allocated addr cb when interval w) with
      timerQueue := { (inserted addr
        (Timer.construct cb when interval (w.numCreated + 1))
        (allocated addr cb when interval w)).timerQueue with timerfdArmed := armed } } := by
    rw [addTimer_eq_some htid hr]
    split
    · exact ⟨some when, rfl⟩
    · exact ⟨w.timerQueue.timerfdArmed, rfl⟩
  obtain ⟨armed, rfl⟩ := hshape
  have hfresh : ∀ q, (∃ t, w.timerHeap q = some t) → q ≠ addr := by
    rintro q ⟨t, hq⟩ rfl
    rw [hfree] at hq
    cases hq
  have hheap : ∀ q, q ≠ addr →
      (allocated addr cb when interval w).timerHeap q = w.timerHeap q := by
    intro q hq
    simp [allocated, hq]
  have hdet : Inv w → Detached (allocated addr cb when interval w) addr := by
    intro hinv
    refine ⟨⟨Timer.construct cb when interval (w.numCreated + 1), by simp [allocated]⟩,
      ?_, ?_⟩
    · intro e he hp
      obtain ⟨t, ht, -, -⟩ := hinv.timersLive e he
      exact hfresh _ ⟨t, ht⟩ hp
    · intro a ha hp
      obtain ⟨t, ht, -, -⟩ := hinv.activeLive a ha
      exact hfresh _ ⟨t, ht⟩ hp
  exact
    { thread := rfl
      calling := rfl
      canceling := fun _ h => h
      created := Int.le_add_one (le_refl _)
      inv := by
        intro hinv
        have h₁ := inv_allocated hinv hfree hb cb when interval
        have h₂ := inv_inserted (p := addr)
          (t := Timer.construct cb when interval (w.numCreated + 1)) h₁
          (by simp [allocated]) (hdet hinv)
        exact h₂.carry rfl rfl rfl rfl
      detached := by
        intro hinv q hq
        have hqa := hfresh q hq.1
        refine ⟨⟨?_, ?_, ?_⟩, hheap q hqa⟩
        · obtain ⟨t, ht⟩ := hq.1
          exact ⟨t, (hheap q hqa).trans ht⟩
        · intro e he
          rcases (OrdSet.mem_place _ _ _).mp he with rfl | he
          · exact fun h => hqa h.symm
          · exact hq.2.1 e he
        · intro a ha
          rcases (OrdSet.mem_place _ _ _).mp ha with rfl | ha
          · exact fun h => hqa h.symm
          · exact hq.2.2 a ha
      fresh := by
        intro _ q t hq
        by_cases hqa : q = addr
        · right
          have : (allocated addr cb when interval w).timerHeap q = some t := hq
          simp only [allocated, hqa, if_true, Option.some.injEq] at this
          rw [← this]
          simp [Timer.construct]
        · left
          rw [← hheap q hqa]
          exact hq }

end TimerQueue

/-! ### `TimerQueue::reset` -/

namespace TimerQueue

theorem restart_eq {w : World U} {p : TimerPtr} {t : Timer} (ht : w.timerHeap p = some t)
    (now : Timestamp) : Timer.restart p now w = some (restarted now p t w) := by
  simp [Timer.restart, ht, restarted]

theorem restartObj_sequence (now : Timestamp) (t : Timer) :
    (Timer.restartObj now t).sequence_ = t.sequence_ := by
  unfold Timer.restartObj
  split <;> rfl

theorem inv_restarted {w : World U} (hinv : Inv w) {p : TimerPtr} {t : Timer}
    (ht : w.timerHeap p = some t) (hd : Detached w p) (now : Timestamp) :
    Inv (restarted now p t w) := by
  have hheap : ∀ q, q ≠ p → (restarted now p t w).timerHeap q = w.timerHeap q := by
    intro q hq
    simp [restarted, hq]
  have hcases : ∀ q u, (restarted now p t w).timerHeap q = some u →
      ∃ u₀, w.timerHeap q = some u₀ ∧ u₀.sequence_ = u.sequence_ := by
    intro q u hq
    by_cases hqp : q = p
    · simp only [restarted, hqp, if_true, Option.some.injEq] at hq
      exact ⟨t, hqp ▸ ht, by rw [← hq, restartObj_sequence]⟩
    · rw [hheap q hqp] at hq
      exact ⟨u, hq, rfl⟩
  exact
    { sortedTimers := hinv.sortedTimers
      sortedActive := hinv.sortedActive
      timersLive := by
        intro e he
        obtain ⟨u, h₁, h₂, h₃⟩ := hinv.timersLive e he
        exact ⟨u, by rw [hheap _ (hd.2.1 e he)]; exact h₁, h₂, h₃⟩
      activeLive := by
        intro a ha
        obtain ⟨u, h₁, h₂, h₃⟩ := hinv.activeLive a ha
        exact ⟨u, by rw [hheap _ (hd.2.2 a ha)]; exact h₁, h₂, h₃⟩
      sizes := hinv.sizes
      seqBound := by
        intro q u hq
        obtain ⟨u₀, h₁, h₂⟩ := hcases q u hq
        rw [← h₂]
        exact hinv.seqBound q u₀ h₁
      seqInj := by
        intro q r u v hq hr hs
        obtain ⟨u₀, h₁, h₂⟩ := hcases q u hq
        obtain ⟨v₀, h₃, h₄⟩ := hcases r v hr
        exact hinv.seqInj q r u₀ v₀ h₁ h₃ (by rw [h₂, h₄, hs])
      ptrBound := by
        intro q u hq
        obtain ⟨u₀, h₁, -⟩ := hcases q u hq
        exact hinv.ptrBound q u₀ h₁ }

theorem inv_deleted {w : World U} (hinv : Inv w) {p : TimerPtr} (hd : Detached w p) :
    Inv (Timer.delete p w) := by
  have hheap : ∀ q, q ≠ p → (Timer.delete p w).timerHeap q = w.timerHeap q := by
    intro q hq
    simp [Timer.delete, hq]
  have hlive : ∀ q u, (Timer.delete p w).timerHeap q = some u → w.timerHeap q = some u := by
    intro q u hq
    by_cases hqp : q = p
    · simp [Timer.delete, hqp] at hq
    · rwa [hheap q hqp] at hq
  exact
    { sortedTimers := hinv.sortedTimers
      sortedActive := hinv.sortedActive
      timersLive := by
        intro e he
        obtain ⟨u, h₁, h₂, h₃⟩ := hinv.timersLive e he
        exact ⟨u, by rw [hheap _ (hd.2.1 e he)]; exact h₁, h₂, h₃⟩
      activeLive := by
        intro a ha
        obtain ⟨u, h₁, h₂, h₃⟩ := hinv.activeLive a ha
        exact ⟨u, by rw [hheap _ (hd.2.2 a ha)]; exact h₁, h₂, h₃⟩
      sizes := hinv.sizes
      seqBound := fun q u hq => hinv.seqBound q u (hlive q u hq)
      seqInj := fun q r u v hq hr => hinv.seqInj q r u v (hlive q u hq) (hlive r v hr)
      ptrBound := fun q u hq => hinv.ptrBound q u (hlive q u hq) }

theorem detached_restarted {w : World U} {p : TimerPtr} {t : Timer} (hd : Detached w p)
    (now : Timestamp) : Detached (restarted now p t w) p :=
  ⟨⟨Timer.restartObj now t, by simp [restarted]⟩, hd.2.1, hd.2.2⟩

/-- The body of the loop of `reset` on a consistent state, for a detached
timer. -/
theorem resetOne_eq {w : World U} (hinv : Inv w) {tid : ThreadId}
    (htid : w.loop.threadId_ = tid) {it : Entry} {t : Timer}
    (ht : w.timerHeap it.2 = some t) (hd : Detached w it.2) (now : Timestamp) :
    resetOne tid now it w = some (resetStep now it.2 t w) := by
  simp only [resetOne, ht, Option.some_bind, resetStep]
  split
  · have hi : insert tid it.2 (restarted now it.2 t w)
        = some (earliest (Timer.restartObj now t) (restarted now it.2 t w),
            inserted it.2 (Timer.restartObj now t) (restarted now it.2 t w)) := by
      refine (insert_eq_some_iff tid it.2 _ _).mpr
        ⟨Timer.restartObj now t, htid, hinv.sizes, by simp [restarted], ?_, ?_, rfl⟩
      · exact fun hm => hd.2.1 _ hm rfl
      · exact fun hm => hd.2.2 _ hm rfl
    rw [restart_eq ht, Option.some_bind, hi]
    rfl
  · rfl

theorem inv_resetStep {w : World U} (hinv : Inv w) {p : TimerPtr} {t : Timer}
    (ht : w.timerHeap p = some t) (hd : Detached w p) (now : Timestamp) :
    Inv (resetStep now p t w) := by
  unfold resetStep
  split
  · exact inv_inserted (inv_restarted hinv ht hd now) (by simp [restarted])
      (detached_restarted hd now)
  · exact inv_deleted hinv hd

/-- The body of the loop of `reset` for the timer at `p` leaves the other
detached timers detached and unchanged. -/
theorem detached_resetStep {w : World U} {p q : TimerPtr} {t : Timer} (hq : Detached w q)
    (hqp : q ≠ p) (now : Timestamp) :
    Detached (resetStep now p t w) q ∧ (resetStep now p t w).timerHeap q = w.timerHeap q := by
  unfold resetStep
  split
  · have hheap : (inserted p (Timer.restartObj now t) (restarted now p t w)).timerHeap q
        = w.timerHeap q := by
      simp [inserted, restarted, hqp]
    refine ⟨⟨by rw [hheap]; exact hq.1, ?_, ?_⟩, hheap⟩
    · intro e he
      rcases (OrdSet.mem_place _ _ _).mp he with rfl | he
      · exact fun h => hqp h.symm
      · exact hq.2.1 e he
    · intro a ha
      rcases (OrdSet.mem_place _ _ _).mp ha with rfl | ha
      · exact fun h => hqp h.symm
      · exact hq.2.2 a ha
  · have hheap : (Timer.delete p w).timerHeap q = w.timerHeap q := by
      simp [Timer.delete, hqp]
    exact ⟨⟨by rw [hheap]; exact hq.1, hq.2.1, hq.2.2⟩, hheap⟩

end TimerQueue

namespace TimerQueue

theorem SameButTimers.self (w : World U) : SameButTimers w w := rfl

theorem SameButTimers.chain {w₁ w₂ w₃ : World U} (h₁ : SameButTimers w₁ w₂)
    (h₂ : SameButTimers w₂ w₃) : SameButTimers w₁ w₃ := by
  unfold SameButTimers at *
  rw [h₂, h₁]

theorem sameButTimers_resetStep (now : Timestamp) (p : TimerPtr) (t : Timer) (w : World U) :
    SameButTimers w (resetStep now p t w) := by
  unfold resetStep
  split <;> rfl

theorem SameButTimers.canceling {w w' : World U} (h : SameButTimers w w') :
    w'.timerQueue.cancelingTimers_ = w.timerQueue.cancelingTimers_ := by
  rw [h]

theorem SameButTimers.thread {w w' : World U} (h : SameButTimers w w') :
    w'.loop.threadId_ = w.loop.threadId_ := by
  rw [h]

theorem SameButTimers.keep {w w' : World U} (h : SameButTimers w w') (p : TimerPtr)
    (t : Timer) : Keep w' p t ↔ Keep w p t := by
  unfold Keep
  rw [h.canceling]

theorem resetStep_keep {w : World U} {p : TimerPtr} {t : Timer} (hk : Keep w p t)
    (now : Timestamp) :
    resetStep now p t w = inserted p (Timer.restartObj now t) (restarted now p t w) := by
  unfold resetStep
  exact if_pos hk

theorem resetStep_drop {w : World U} {p : TimerPtr} {t : Timer} (hk : ¬ Keep w p t)
    (now : Timestamp) : resetStep now p t w = Timer.delete p w := by
  unfold resetStep
  exact if_neg hk

theorem mem_timers_resetStep (now : Timestamp) (p : TimerPtr) (t : Timer) (w : World U)
    (e : Entry) :
    e ∈ (resetStep now p t w).timerQueue.timers_
      ↔ e ∈ w.timerQueue.timers_
        ∨ (Keep w p t ∧ e = ((Timer.restartObj now t).expiration_, p)) := by
  by_cases hk : Keep w p t
  · rw [resetStep_keep hk]
    show e ∈ OrdSet.place entryLt ((Timer.restartObj now t).expiration_, p)
      w.timerQueue.timers_ ↔ _
    rw [OrdSet.mem_place]
    constructor
    · rintro (h | h)
      · exact Or.inr ⟨hk, h⟩
      · exact Or.inl h
    · rintro (h | ⟨-, h⟩)
      · exact Or.inr h
      · exact Or.inl h
  · rw [resetStep_drop hk]
    show e ∈ w.timerQueue.timers_ ↔ _
    constructor
    · exact fun h => Or.inl h
    · rintro (h | ⟨h, -⟩)
      · exact h
      · exact absurd h hk

theorem mem_active_resetStep (now : Timestamp) (p : TimerPtr) (t : Timer) (w : World U)
    (a : ActiveTimer) :
    a ∈ (resetStep now p t w).timerQueue.activeTimers_
      ↔ a ∈ w.timerQueue.activeTimers_ ∨ (Keep w p t ∧ a = (p, t.sequence_)) := by
  by_cases hk : Keep w p t
  · rw [resetStep_keep hk]
    show a ∈ OrdSet.place activeLt (p, (Timer.restartObj now t).sequence_)
      w.timerQueue.activeTimers_ ↔ _
    rw [OrdSet.mem_place, restartObj_sequence]
    constructor
    · rintro (h | h)
      · exact Or.inr ⟨hk, h⟩
      · exact Or.inl h
    · rintro (h | ⟨-, h⟩)
      · exact Or.inr h
      · exact Or.inl h
  · rw [resetStep_drop hk]
    show a ∈ w.timerQueue.activeTimers_ ↔ _
    constructor
    · exact fun h => Or.inl h
    · rintro (h | ⟨h, -⟩)
      · exact h
      · exact absurd h hk

/-- The loop of `reset` on a consistent state, over detached timers with
distinct addresses: it returns, the state stays consistent, each timer of the
batch that repeats and was not cancelled is back in both sets with its new
expiration, each other timer of the batch is deleted, and nothing else
changes. -/
theorem resetLoop_spec (tid : ThreadId) (now : Timestamp) :
    ∀ (expired : List Entry) (w : World U), Inv w → w.loop.threadId_ = tid →
      (expired.map (fun it => it.2)).Nodup → (∀ it ∈ expired, Detached w it.2) →
      ∃ w', resetLoop tid now expired w = some w' ∧ Inv w' ∧ SameButTimers w w'
        ∧ w'.timerQueue.timerfdArmed = w.timerQueue.timerfdArmed
        ∧ (∀ q, (∀ it ∈ expired, it.2 ≠ q) → w'.timerHeap q = w.timerHeap q)
        ∧ (∀ q, (∀ it ∈ expired, it.2 ≠ q) → Detached w q → Detached w' q)
        ∧ (∀ it ∈ expired, ∀ t, w.timerHeap it.2 = some t →
            (Keep w it.2 t → w'.timerHeap it.2 = some (Timer.restartObj now t))
              ∧ (¬ Keep w it.2 t → w'.timerHeap it.2 = none))
        ∧ (∀ e, e ∈ w'.timerQueue.timers_ ↔ e ∈ w.timerQueue.timers_
            ∨ ∃ it ∈ expired, ∃ t, w.timerHeap it.2 = some t ∧ Keep w it.2 t
              ∧ e = ((Timer.restartObj now t).expiration_, it.2))
        ∧ (∀ a, a ∈ w'.timerQueue.activeTimers_ ↔ a ∈ w.timerQueue.activeTimers_
            ∨ ∃ it ∈ expired, ∃ t, w.timerHeap it.2 = some t ∧ Keep w it.2 t
              ∧ a = (it.2, t.sequence_)) := by
  intro expired
  induction expired with
  | nil =>
    intro w hinv _ _ _
    exact ⟨w, rfl, hinv, SameButTimers.self w, rfl, fun _ _ => rfl, fun _ _ h => h,
      by simp, by simp, by simp⟩
  | cons it rest ih =>
    intro w hinv htid hnd hdet
    simp only [List.map_cons, List.nodup_cons, List.mem_map, not_exists, not_and] at hnd
    have hd := hdet it (List.mem_cons_self _ _)
    obtain ⟨t, ht⟩ := hd.1
    have hne : ∀ it' ∈ rest, it'.2 ≠ it.2 := fun it' h' => hnd.1 it' h'
    have hsame := sameButTimers_resetStep now it.2 t w
    have hstep_heap : ∀ q, q ≠ it.2 → (resetStep now it.2 t w).timerHeap q = w.timerHeap q := by
      intro q hq
      unfold resetStep
      split
      · simp [inserted, restarted, hq]
      · simp [Timer.delete, hq]
    obtain ⟨w', h₁, h₂, h₃, h₄, h₅, h₆, h₇, h₈, h₉⟩ := ih (resetStep now it.2 t w)
      (inv_resetStep hinv ht hd now) (hsame.thread.trans htid) hnd.2
      (fun it' h' => (detached_resetStep (hdet it' (List.mem_cons_of_mem _ h')) (hne it' h')
        now).1)
    have hkeep : ∀ p u, Keep (resetStep now it.2 t w) p u ↔ Keep w p u :=
      fun p u => hsame.keep p u
    have hself : w'.timerHeap it.2 = (resetStep now it.2 t w).timerHeap it.2 :=
      h₅ it.2 (fun it' h' => hne it' h')
    have harmed : (resetStep now it.2 t w).timerQueue.timerfdArmed
        = w.timerQueue.timerfdArmed := by
      unfold resetStep
      split <;> rfl
    refine ⟨w', ?_, h₂, hsame.chain h₃, h₄.trans harmed, ?_, ?_, ?_, ?_, ?_⟩
    · simp only [resetLoop, resetOne_eq hinv htid ht hd now, Option.some_bind]
      exact h₁
    · intro q hq
      rw [h₅ q (fun it' h' => hq it' (List.mem_cons_of_mem _ h'))]
      exact hstep_heap q (fun e => hq it (List.mem_cons_self _ _) e.symm)
    · intro q hq hdq
      exact h₆ q (fun it' h' => hq it' (List.mem_cons_of_mem _ h'))
        (detached_resetStep hdq (fun e => hq it (List.mem_cons_self _ _) e.symm) now).1
    · intro it' hit' t' ht'
      rcases List.mem_cons.mp hit' with rfl | hit'
      · rw [ht] at ht'
        cases ht'
        rw [hself]
        constructor
        · intro hk
          rw [resetStep_keep hk]
          simp [inserted, restarted]
        · intro hk
          rw [resetStep_drop hk]
          simp [Timer.delete]
      · have := h₇ it' hit' t' (by rw [hstep_heap _ (hne it' hit')]; exact ht')
        rw [hkeep] at this
        exact this
    · intro e
      rw [h₈]
      have hfirst := mem_timers_resetStep now it.2 t w e
      rw [hfirst]
      constructor
      · rintro ((h | ⟨hk, rfl⟩) | ⟨it', hit', t', ht', hk, rfl⟩)
        · exact Or.inl h
        · exact Or.inr ⟨it, List.mem_cons_self _ _, t, ht, hk, rfl⟩
        · rw [hstep_heap _ (hne it' hit')] at ht'
          exact Or.inr ⟨it', List.mem_cons_of_mem _ hit', t', ht', (hkeep _ _).mp hk, rfl⟩
      · rintro (h | ⟨it', hit', t', ht', hk, rfl⟩)
        · exact Or.inl (Or.inl h)
        · rcases List.mem_cons.mp hit' with rfl | hit'
          · rw [ht] at ht'
            cases ht'
            exact Or.inl (Or.inr ⟨hk, rfl⟩)
          · exact Or.inr ⟨it', hit', t', by rw [hstep_heap _ (hne it' hit')]; exact ht',
              (hkeep _ _).mpr hk, rfl⟩
    · intro a
      rw [h₉]
      have hfirst := mem_active_resetStep now it.2 t w a
      rw [hfirst]
      constructor
      · rintro ((h | ⟨hk, rfl⟩) | ⟨it', hit', t', ht', hk, rfl⟩)
        · exact Or.inl h
        · exact Or.inr ⟨it, List.mem_cons_self _ _, t, ht, hk, rfl⟩
        · rw [hstep_heap _ (hne it' hit')] at ht'
          exact Or.inr ⟨it', List.mem_cons_of_mem _ hit', t', ht', (hkeep _ _).mp hk, rfl⟩
      · rintro (h | ⟨it', hit', t', ht', hk, rfl⟩)
        · exact Or.inl (Or.inl h)
        · rcases List.mem_cons.mp hit' with rfl | hit'
          · rw [ht] at ht'
            cases ht'
            exact Or.inl (Or.inr ⟨hk, rfl⟩)
          · exact Or.inr ⟨it', hit', t', by rw [hstep_heap _ (hne it' hit')]; exact ht',
              (hkeep _ _).mpr hk, rfl⟩

end TimerQueue

/-! ### `TimerQueue::handleRead` -/

namespace TimerQueue

/-- The state `reset` leaves: that of its loop, the kernel timer armed for the
earliest expiration if there is a timer and that expiration is valid. -/
theorem reset_spec (tid : ThreadId) (now : Timestamp) (expired : List Entry) (w : World U)
    (hinv : Inv w) (htid : w.loop.threadId_ = tid)
    (hnd : (expired.map (fun it => it.2)).Nodup) (hdet : ∀ it ∈ expired, Detached w it.2) :
    ∃ w₁ w', resetLoop tid now expired w = some w₁ ∧ reset tid expired now w = some w'
      ∧ Inv w' ∧ SameButTimers w₁ w' ∧ w'.timerHeap = w₁.timerHeap
      ∧ w'.timerQueue.timers_ = w₁.timerQueue.timers_
      ∧ w'.timerQueue.activeTimers_ = w₁.timerQueue.activeTimers_
      ∧ w'.timerQueue.timerfdArmed =
        (match w₁.timerQueue.timers_.head? with
          | none => w.timerQueue.timerfdArmed
          | some it => if Timestamp.valid it.1 then some it.1 else w.timerQueue.timerfdArmed) := by
  obtain ⟨w₁, h₁, h₂, -, h₄, -⟩ := resetLoop_spec tid now expired w hinv htid hnd hdet
  cases hh : w₁.timerQueue.timers_.head? with
  | none =>
    refine ⟨w₁, w₁, h₁, ?_, h₂, SameButTimers.self _, rfl, rfl, rfl, ?_⟩
    · simp [reset, h₁, hh, Timestamp.valid, Timestamp.invalid]
    · rw [hh]
      exact h₄
  | some it =>
    obtain ⟨t, ht, hx, -⟩ := h₂.timersLive it (List.mem_of_mem_head? hh)
    by_cases hv : Timestamp.valid it.1 = true
    · refine ⟨w₁, resetTimerfd it.1 w₁, h₁, ?_, h₂.carry rfl rfl rfl rfl, rfl, rfl, rfl, rfl, ?_⟩
      · simp [reset, h₁, hh, ht, hx, hv]
      · rw [hh]
        simp [resetTimerfd, hv]
    · refine ⟨w₁, w₁, h₁, ?_, h₂, SameButTimers.self _, rfl, rfl, rfl, ?_⟩
      · simp [reset, h₁, hh, ht, hx, hv]
      · rw [hh]
        simp [hv, h₄]

theorem run_eq_some {env : Env U} {p : TimerPtr} {w w' : World U}
    (h : Timer.run env p w = some w') :
    ∃ t, w.timerHeap p = some t
      ∧ env (Call.timer t.callback_)
          { w with timerRuns := w.timerRuns ++ [⟨p, t.sequence_⟩] } = some w' := by
  simpa [Timer.run, Option.bind_eq_some] using h

/-- The callbacks of a batch, under the rely condition: together they respect
`Guar`, and the record of runs grows by the identities of the batch, in the
order of the batch. -/
theorem runExpired_spec {env : Env U} (hrely : Rely env) :
    ∀ (expired : List Entry) (w w' : World U), Inv w →
      (∀ it ∈ expired, Detached w it.2) → runExpired env expired w = some w' →
      Guar w w' ∧ w'.timerRuns = w.timerRuns ++ batchIds w.timerHeap expired := by
  intro expired
  induction expired with
  | nil =>
    intro w w' _ _ h
    simp only [runExpired, Option.some.injEq] at h
    subst h
    exact ⟨Guar.same _, by simp [batchIds]⟩
  | cons it rest ih =>
    intro w w' hinv hdet h
    simp only [runExpired, Option.bind_eq_some] at h
    obtain ⟨w₁, h₁, h₂⟩ := h
    obtain ⟨t, ht, hcall⟩ := run_eq_some h₁
    obtain ⟨g₁, r₁⟩ := hrely _ _ _ hcall
    have g₀ : Guar w { w with timerRuns := w.timerRuns ++ [⟨it.2, t.sequence_⟩] } :=
      Guar.of_frame rfl rfl rfl rfl
    have g : Guar w w₁ := g₀.andThen g₁
    have hdet₁ : ∀ it' ∈ rest, Detached w₁ it'.2 ∧ w₁.timerHeap it'.2 = w.timerHeap it'.2 :=
      fun it' h' => g.detached hinv _ (hdet it' (List.mem_cons_of_mem _ h'))
    obtain ⟨g₂, r₂⟩ := ih w₁ w' (g.inv hinv) (fun it' h' => (hdet₁ it' h').1) h₂
    refine ⟨g.andThen g₂, ?_⟩
    have hids : batchIds w₁.timerHeap rest = batchIds w.timerHeap rest := by
      unfold batchIds
      apply List.filterMap_congr
      intro it' h'
      rw [(hdet₁ it' h').2]
    rw [r₂, r₁, hids]
    simp [batchIds, ht]

theorem inv_batchStart {w : World U} (h : Inv w) : Inv (batchStart w) :=
  h.carry rfl rfl rfl rfl

theorem inv_batchEnd {w : World U} (h : Inv w) : Inv (batchEnd w) :=
  h.carry rfl rfl rfl rfl

/-- The steps `handleRead` goes through on a consistent state, on the loop
thread. -/
theorem handleRead_eq {env : Env U} {w : World U} (hinv : Inv w) {tid : ThreadId}
    (htid : w.loop.threadId_ = tid) (now : Timestamp) :
    ∃ active, getExpired now w = some (batch now w, expiredOut now active w)
      ∧ Inv (expiredOut now active w)
      ∧ (∀ it ∈ batch now w, Detached (expiredOut now active w) it.2)
      ∧ handleRead env tid now w
        = (runExpired env (batch now w) (batchStart (expiredOut now active w))).bind
            fun w₂ => reset tid (batch now w) now (batchEnd w₂) := by
  obtain ⟨active, h₁, h₂, -, -, -, h₆⟩ := getExpired_spec hinv now
  refine ⟨active, h₁, h₂, h₆, ?_⟩
  have h₀ : EventLoop.assertInLoopThread tid w = some () :=
    (assertInLoopThread_eq_some tid w ()).mpr htid
  simp only [handleRead, h₀, h₁, Option.bind_eq_bind, Option.some_bind]
  rfl

end TimerQueue

namespace TimerQueue

theorem batch_ptrs_nodup {w : World U} (hinv : Inv w) (now : Timestamp) :
    ((batch now w).map (fun it => it.2)).Nodup := by
  have hsub : List.Sublist (batch now w) w.timerQueue.timers_ := List.takeWhile_sublist _
  have hn := (OrdSet.Sorted.nodup entryLt_strictTotal hinv.sortedTimers).sublist hsub
  refine (List.nodup_map_iff_inj_on hn).mpr ?_
  intro e he e' he' hp
  exact hinv.timers_ptr_inj (hsub.subset he) (hsub.subset he') hp

theorem SameButTimers.runs {w w' : World U} (h : SameButTimers w w') :
    w'.timerRuns = w.timerRuns := by
  rw [h]

theorem SameButTimers.created {w w' : World U} (h : SameButTimers w w') :
    w'.numCreated = w.numCreated := by
  rw [h]

/-- What a returning `handleRead` has done, on a consistent state, on the loop
thread and under the rely condition: the batch was taken out of both sets,
its callbacks ran (together they respect `Guar`, and the timers of the batch
came through them detached and unchanged), `reset` ran on the batch; the
final state is consistent and the record of runs has grown by the identities
of the batch. -/
theorem handleRead_spec {env : Env U} (hrely : Rely env) {w w' : World U} (hinv : Inv w)
    {tid : ThreadId} (htid : w.loop.threadId_ = tid) {now : Timestamp}
    (h : handleRead env tid now w = some w') :
    ∃ active w₂,
      Inv (expiredOut now active w)
        ∧ runExpired env (batch now w) (batchStart (expiredOut now active w)) = some w₂
        ∧ Guar (batchStart (expiredOut now active w)) w₂
        ∧ Inv (batchEnd w₂)
        ∧ (batchEnd w₂).loop.threadId_ = tid
        ∧ (∀ it ∈ batch now w,
            Detached (batchEnd w₂) it.2 ∧ (batchEnd w₂).timerHeap it.2 = w.timerHeap it.2)
        ∧ reset tid (batch now w) now (batchEnd w₂) = some w'
        ∧ Inv w'
        ∧ w'.timerRuns = w.timerRuns ++ batchIds w.timerHeap (batch now w) := by
  obtain ⟨active, h₁, h₂, h₃, h₄⟩ := @handleRead_eq U env w hinv tid htid now
  rw [h₄] at h
  obtain ⟨w₂, hrun, hreset⟩ := Option.bind_eq_some.mp h
  have hinv_b : Inv (batchStart (expiredOut now active w)) := inv_batchStart h₂
  have hdet_b : ∀ it ∈ batch now w, Detached (batchStart (expiredOut now active w)) it.2 :=
    fun it hit => (h₃ it hit).move rfl rfl rfl
  obtain ⟨g, hruns⟩ := runExpired_spec hrely _ _ _ hinv_b hdet_b hrun
  have hinv₂ : Inv (batchEnd w₂) := inv_batchEnd (g.inv hinv_b)
  have htid₂ : (batchEnd w₂).loop.threadId_ = tid := by
    show w₂.loop.threadId_ = tid
    rw [g.thread]
    exact htid
  have hdet₂ : ∀ it ∈ batch now w,
      Detached (batchEnd w₂) it.2 ∧ (batchEnd w₂).timerHeap it.2 = w.timerHeap it.2 := by
    intro it hit
    obtain ⟨d, e⟩ := g.detached hinv_b it.2 (hdet_b it hit)
    exact ⟨d.move rfl rfl rfl, e⟩
  obtain ⟨w₁, w'', hloop, hreset', hinv', hsame', -⟩ := reset_spec tid now (batch now w)
    (batchEnd w₂) hinv₂ htid₂ (batch_ptrs_nodup hinv now) (fun it hit => (hdet₂ it hit).1)
  rw [hreset] at hreset'
  cases hreset'
  obtain ⟨-, -, -, hsame₁, -⟩ := resetLoop_spec tid now (batch now w) (batchEnd w₂) hinv₂ htid₂
    (batch_ptrs_nodup hinv now) (fun it hit => (hdet₂ it hit).1)
  refine ⟨active, w₂, h₂, hrun, g, hinv₂, htid₂, hdet₂, hreset, hinv', ?_⟩
  have hr₁ : w'.timerRuns = w₁.timerRuns := hsame'.runs
  obtain ⟨w₁', hloop', -, hsame₁', -⟩ := resetLoop_spec tid now (batch now w) (batchEnd w₂)
    hinv₂ htid₂ (batch_ptrs_nodup hinv now) (fun it hit => (hdet₂ it hit).1)
  rw [hloop] at hloop'
  cases hloop'
  have hr₂ : w₁.timerRuns = (batchEnd w₂).timerRuns := hsame₁'.runs
  rw [hr₁, hr₂]
  show w₂.timerRuns = _
  rw [hruns]
  rfl

end TimerQueue

/-! ### `TimerQueue`: a cancelled timer does not come back -/

namespace TimerQueue

theorem SeqGone.guar {s : Int} {w w' : World U} (hg : SeqGone s w) (hinv : Inv w)
    (g : Guar w w') : SeqGone s w' := by
  refine ⟨?_, le_trans hg.2 g.created⟩
  intro q u hq
  rcases g.fresh hinv q u hq with h | h
  · exact hg.1 q u h
  · intro e
    have := hg.2
    omega

theorem mem_batchIds {heap : TimerPtr → Option Timer} {expired : List Entry} {id : TimerId}
    (h : id ∈ batchIds heap expired) :
    ∃ it ∈ expired, ∃ t, heap it.2 = some t ∧ id = ⟨it.2, t.sequence_⟩ := by
  simp only [batchIds, List.mem_filterMap, Option.map_eq_some'] at h
  obtain ⟨it, hit, t, ht, rfl⟩ := h
  exact ⟨it, hit, t, ht, rfl⟩

/-- After `reset` every live timer was live before it, with the same sequence
number. -/
theorem reset_live {tid : ThreadId} {now : Timestamp} {expired : List Entry} {w w' : World U}
    (hinv : Inv w) (htid : w.loop.threadId_ = tid)
    (hnd : (expired.map (fun it => it.2)).Nodup) (hdet : ∀ it ∈ expired, Detached w it.2)
    (h : reset tid expired now w = some w') :
    w'.numCreated = w.numCreated ∧ w'.timerRuns = w.timerRuns
      ∧ w'.loop.threadId_ = w.loop.threadId_
      ∧ ∀ q u, w'.timerHeap q = some u →
          ∃ u₀, w.timerHeap q = some u₀ ∧ u₀.sequence_ = u.sequence_ := by
  obtain ⟨w₁, w'', h₁, h₂, -, hsame', hheap', -⟩ := reset_spec tid now expired w hinv htid hnd hdet
  rw [h] at h₂
  cases h₂
  obtain ⟨w₁', h₁', -, hsame, -, hout, -, hin, -⟩ :=
    resetLoop_spec tid now expired w hinv htid hnd hdet
  rw [h₁] at h₁'
  cases h₁'
  refine ⟨hsame'.created.trans hsame.created, hsame'.runs.trans hsame.runs,
    hsame'.thread.trans hsame.thread, ?_⟩
  intro q u hq
  rw [hheap'] at hq
  by_cases hmem : ∃ it ∈ expired, it.2 = q
  · obtain ⟨it, hit, rfl⟩ := hmem
    obtain ⟨t, ht⟩ := (hdet it hit).1
    by_cases hk : Keep w it.2 t
    · rw [(hin it hit t ht).1 hk] at hq
      cases hq
      exact ⟨t, ht, (restartObj_sequence now t).symm⟩
    · rw [(hin it hit t ht).2 hk] at hq
      cases hq
  · have : ∀ it ∈ expired, it.2 ≠ q := fun it hit e => hmem ⟨it, hit, e⟩
    rw [hout q this] at hq
    exact ⟨u, hq, rfl⟩

/-- A returning `handleRead` keeps a consistent state consistent, keeps a
sequence number that is gone gone, and runs no timer with that number. -/
theorem handleRead_seqGone {env : Env U} (hrely : Rely env) {w w' : World U} (hinv : Inv w)
    {now : Timestamp} (h : handleRead env w.loop.threadId_ now w = some w') {s : Int}
    (hg : SeqGone s w) :
    Inv w' ∧ SeqGone s w' ∧ w'.loop.threadId_ = w.loop.threadId_
      ∧ ∃ new, w'.timerRuns = w.timerRuns ++ new ∧ ∀ id ∈ new, id.sequence ≠ s := by
  obtain ⟨active, w₂, h₁, -, g, hinv₂, htid₂, hdet₂, hreset, hinv', hruns⟩ :=
    handleRead_spec hrely hinv rfl h
  have hgb : SeqGone s (batchStart (expiredOut now active w)) := hg
  have hg₂' : SeqGone s w₂ := hgb.guar (inv_batchStart h₁) g
  have hg₂ : SeqGone s (batchEnd w₂) := hg₂'
  obtain ⟨hc, -, ht, hlive⟩ := reset_live hinv₂ htid₂ (batch_ptrs_nodup hinv now)
    (fun it hit => (hdet₂ it hit).1) hreset
  refine ⟨hinv', ⟨?_, ?_⟩, ht.trans htid₂, batchIds w.timerHeap (batch now w), hruns, ?_⟩
  · intro q u hq
    obtain ⟨u₀, h₀, e⟩ := hlive q u hq
    rw [← e]
    exact hg₂.1 q u₀ h₀
  · rw [hc]
    exact hg₂.2
  · intro id hid
    obtain ⟨it, -, t, ht', rfl⟩ := mem_batchIds hid
    exact hg.1 _ t ht'

theorem cancel_runs {env : Env U} {w w' : World U} {timerId : TimerId}
    (hc : cancel env w.loop.threadId_ timerId w = some w') : w'.timerRuns = w.timerRuns := by
  have : EventLoop.isInLoopThread w.loop.threadId_ w = true := by
    simp [EventLoop.isInLoopThread]
  simp only [cancel, EventLoop.runInLoop, this, if_true, EventLoop.runFunctor] at hc
  obtain ⟨-, ⟨t, -, -, e⟩ | ⟨-, -, e⟩ | ⟨-, -, e⟩⟩ := cancelInLoop_shape hc
  all_goals rw [e]
  all_goals rfl

theorem addTimer_runs {env : Env U} {w w' : World U} {addr : TimerPtr} {cb : CbId}
    {when : Timestamp} {interval : Int} {timerId : TimerId}
    (hadd : addTimer env w.loop.threadId_ addr cb when interval w = some (timerId, w')) :
    w'.timerRuns = w.timerRuns := by
  rw [addTimer_eq_some rfl hadd]
  split <;> rfl

/-- Whatever happens after a state in which the sequence number `s` is gone,
the states stay consistent and no timer with that number is run. -/
theorem later_seqGone {env : Env U} (hrely : Rely env) {s : Int} {w w' : World U}
    (hl : Later env w w') (hinv : Inv w) (hg : SeqGone s w) :
    Inv w' ∧ SeqGone s w'
      ∧ ∃ new, w'.timerRuns = w.timerRuns ++ new ∧ ∀ id ∈ new, id.sequence ≠ s := by
  induction hl with
  | refl w => exact ⟨hinv, hg, [], by simp, by simp⟩
  | call c hc _ ih =>
    obtain ⟨g, hr⟩ := hrely _ _ _ hc
    obtain ⟨h₁, h₂, new, h₃, h₄⟩ := ih (g.inv hinv) (hg.guar hinv g)
    exact ⟨h₁, h₂, new, by rw [h₃, hr], h₄⟩
  | addTimer addr cb when interval timerId hfree hb hadd _ ih =>
    have g := addTimer_guar rfl hfree hb hadd
    obtain ⟨h₁, h₂, new, h₃, h₄⟩ := ih (g.inv hinv) (hg.guar hinv g)
    exact ⟨h₁, h₂, new, by rw [h₃, addTimer_runs hadd], h₄⟩
  | cancel timerId hc _ ih =>
    have g := cancel_guar rfl hc
    obtain ⟨h₁, h₂, new, h₃, h₄⟩ := ih (g.inv hinv) (hg.guar hinv g)
    exact ⟨h₁, h₂, new, by rw [h₃, cancel_runs hc], h₄⟩
  | handleRead now hh _ ih =>
    obtain ⟨h₁, h₂, -, new₁, h₃, h₄⟩ := handleRead_seqGone hrely hinv hh hg
    obtain ⟨h₅, h₆, new₂, h₇, h₈⟩ := ih h₁ h₂
    refine ⟨h₅, h₆, new₁ ++ new₂, by rw [h₇, h₃, List.append_assoc], ?_⟩
    intro id hid
    rcases List.mem_append.mp hid with h | h
    · exact h₄ id h
    · exact h₈ id h

end TimerQueue

namespace TimerQueue

theorem seqGone_erased {w : World U} (hinv : Inv w) {p : TimerPtr} {s : Int} {t : Timer}
    (ht : w.timerHeap p = some t) (hs : t.sequence_ = s) :
    SeqGone s (erased (p, s) t w) := by
  refine ⟨?_, ?_⟩
  · intro q u hq e
    by_cases hqp : q = p
    · simp [erased, hqp] at hq
    · have hq' : w.timerHeap q = some u := by simpa [erased, hqp] using hq
      exact hqp (hinv.seqInj q p u t hq' ht (e.trans hs.symm))
  · show s ≤ w.numCreated
    rw [← hs]
    exact hinv.seqBound p t ht

/-- C8.  On a consistent timer queue, on the loop thread, `cancelInLoop(id)` for
an id `(p, s)` that is in `activeTimers_` returns; the entry of that timer,
`(expiration, p)`, was in `timers_`, and afterwards `timers_` and
`activeTimers_` hold exactly the other entries they held before: no entry of
either set points to `p` any more, and the timer is deleted.  From then on,
whatever the loop thread does (calls of user function objects, `addTimer`,
`cancel`, `handleRead`, in any number and order), every timer that
`handleRead` runs has a sequence number other than `s`: the cancelled timer
is never run.  The user function objects are arbitrary, under the rely
condition `Rely`. -/
theorem cancelInLoop_active_removes (env : Env U) (w : World U) (tid : ThreadId)
    (p : TimerPtr) (s : Int) (hinv : Inv w) (htid : w.loop.threadId_ = tid)
    (ha : (p, s) ∈ w.timerQueue.activeTimers_) :
    ∃ t w', w.timerHeap p = some t ∧ t.sequence_ = s
      ∧ (t.expiration_, p) ∈ w.timerQueue.timers_
      ∧ cancelInLoop tid ⟨p, s⟩ w = some w'
      ∧ (∀ e, e ∈ w'.timerQueue.timers_ ↔ e ≠ (t.expiration_, p) ∧ e ∈ w.timerQueue.timers_)
      ∧ (∀ a, a ∈ w'.timerQueue.activeTimers_ ↔ a ≠ (p, s) ∧ a ∈ w.timerQueue.activeTimers_)
      ∧ (∀ e ∈ w'.timerQueue.timers_, e.2 ≠ p)
      ∧ (∀ a ∈ w'.timerQueue.activeTimers_, a.1 ≠ p)
      ∧ w'.timerHeap p = none
      ∧ (Rely env → ∀ w'', Later env w' w'' →
          ∃ new, w''.timerRuns = w.timerRuns ++ new ∧ ∀ id ∈ new, id.sequence ≠ s) := by
  obtain ⟨t, ht, hs, hm⟩ := hinv.activeLive _ ha
  have hnt := OrdSet.Sorted.nodup entryLt_strictTotal hinv.sortedTimers
  have hna := OrdSet.Sorted.nodup activeLt_strictTotal hinv.sortedActive
  have hres : cancelInLoop tid ⟨p, s⟩ w = some (erased (p, s) t w) :=
    (cancelInLoop_eq_some_iff hinv tid ⟨p, s⟩).mpr ⟨htid, Or.inl ⟨t, ha, ht, rfl⟩⟩
  have hinv' : Inv (erased (p, s) t w) := inv_erased hinv ht ha
  have hmt : ∀ e, e ∈ (erased (p, s) t w).timerQueue.timers_
      ↔ e ≠ (t.expiration_, p) ∧ e ∈ w.timerQueue.timers_ :=
    fun e => OrdSet.mem_erase hnt _ _
  have hma : ∀ a, a ∈ (erased (p, s) t w).timerQueue.activeTimers_
      ↔ a ≠ (p, s) ∧ a ∈ w.timerQueue.activeTimers_ :=
    fun a => OrdSet.mem_erase hna _ _
  refine ⟨t, erased (p, s) t w, ht, hs, hm, hres, hmt, hma, ?_, ?_, ?_, ?_⟩
  · intro e he hp
    obtain ⟨hne, he⟩ := (hmt e).mp he
    exact hne (hinv.timers_ptr_inj he hm hp)
  · intro a ha' hp
    obtain ⟨hne, ha'⟩ := (hma a).mp ha'
    exact hne (hinv.active_ptr_inj ha' ha hp)
  · simp [erased]
  · intro hrely w'' hl
    obtain ⟨-, -, new, h₁, h₂⟩ := later_seqGone hrely hl hinv' (seqGone_erased hinv ht hs)
    exact ⟨new, h₁, h₂⟩

/-- C9.  For an id whose pair is not in `activeTimers_`, `cancelInLoop(id)`
returns exactly when the caller is the loop thread and the two sets have the
same size, and then: if `callingExpiredTimers_` is true the only change is
that the pair is in `cancelingTimers_` (which keeps what it held), otherwise
the state is unchanged.  In both cases `timers_` and `activeTimers_` are as
before. -/
theorem cancelInLoop_absent (tid : ThreadId) (timerId : TimerId) (w : World U)
    (ha : (timerId.timer, timerId.sequence) ∉ w.timerQueue.activeTimers_) :
    cancelInLoop tid timerId w
        = (if w.loop.threadId_ = tid
              ∧ w.timerQueue.timers_.length = w.timerQueue.activeTimers_.length then
            some (if w.timerQueue.callingExpiredTimers_ then
              { w with timerQueue := { w.timerQueue with
                  cancelingTimers_ := (OrdSet.insert activeLt
                    (timerId.timer, timerId.sequence) w.timerQueue.cancelingTimers_).1 } }
              else w)
          else none)
      ∧ (∀ a, a ∈ (OrdSet.insert activeLt (timerId.timer, timerId.sequence)
            w.timerQueue.cancelingTimers_).1
          ↔ a = (timerId.timer, timerId.sequence) ∨ a ∈ w.timerQueue.cancelingTimers_)
      ∧ (∀ w', cancelInLoop tid timerId w = some w' →
          w'.timerQueue.timers_ = w.timerQueue.timers_
            ∧ w'.timerQueue.activeTimers_ = w.timerQueue.activeTimers_
            ∧ w'.timerHeap = w.timerHeap) := by
  have key : cancelInLoop tid timerId w
        = (if w.loop.threadId_ = tid
              ∧ w.timerQueue.timers_.length = w.timerQueue.activeTimers_.length then
            some (if w.timerQueue.callingExpiredTimers_ then
              { w with timerQueue := { w.timerQueue with
                  cancelingTimers_ := (OrdSet.insert activeLt
                    (timerId.timer, timerId.sequence) w.timerQueue.cancelingTimers_).1 } }
              else w)
          else none) := by
    by_cases htid : w.loop.threadId_ = tid
    swap
    · have h₀ : EventLoop.assertInLoopThread tid w = none := by
        simp [EventLoop.assertInLoopThread, EventLoop.isInLoopThread, assertThat, htid]
      simp [cancelInLoop, h₀, htid]
    by_cases hsz : w.timerQueue.timers_.length = w.timerQueue.activeTimers_.length
    swap
    · have h₀ : EventLoop.assertInLoopThread tid w = some () :=
        (assertInLoopThread_eq_some tid w ()).mpr htid
      have h₁ : assertSizes w = none := by
        simp [assertSizes, assertThat, hsz]
      simp [cancelInLoop, h₀, h₁, hsz]
    have h₀ : EventLoop.assertInLoopThread tid w = some () :=
      (assertInLoopThread_eq_some tid w ()).mpr htid
    have h₁ : assertSizes w = some () := (assertSizes_eq_some w ()).mpr hsz
    simp only [cancelInLoop, h₀, h₁, Option.bind_eq_bind, Option.some_bind, Option.pure_def,
      if_neg ha, htid, hsz, and_self, if_true]
    by_cases hc : w.timerQueue.callingExpiredTimers_ = true
    · rw [if_pos hc, if_pos hc]
      have h₂ : assertSizes (noted (timerId.timer, timerId.sequence) w) = some () :=
        (assertSizes_eq_some _ ()).mpr hsz
      show ((some (noted (timerId.timer, timerId.sequence) w)).bind fun w =>
        (assertSizes w).bind fun _ => some w) = some (noted (timerId.timer, timerId.sequence) w)
      simp only [Option.some_bind, h₂]
    · rw [if_neg hc, if_neg hc]
      simp only [Option.some_bind, h₁]
  refine ⟨key, fun a => OrdSet.mem_insert _ a _, ?_⟩
  intro w' h
  rw [key] at h
  split at h
  · simp only [Option.some.injEq] at h
    subst h
    split <;> exact ⟨rfl, rfl, rfl⟩
  · cases h

end TimerQueue

namespace TimerQueue

theorem logEnv_rely : Rely Demo.logEnv := by
  intro call w w' h
  simp only [Demo.logEnv, Option.some.injEq] at h
  subst h
  exact ⟨Guar.of_frame rfl rfl rfl rfl, rfl⟩

theorem worldT_inv : Inv Demo.worldT where
  sortedTimers := List.pairwise_singleton _ _
  sortedActive := List.pairwise_singleton _ _
  timersLive := by
    intro e he
    have : e = (500, 64) := by simpa [Demo.worldT] using he
    subst this
    exact ⟨Demo.oneShot, rfl, rfl, by simp [Demo.worldT, Demo.oneShot]⟩
  activeLive := by
    intro a ha
    have : a = (64, 1) := by simpa [Demo.worldT] using ha
    subst this
    exact ⟨Demo.oneShot, rfl, rfl, by simp [Demo.worldT, Demo.oneShot]⟩
  sizes := rfl
  seqBound := by
    intro p t hp
    by_cases h : p = 64
    · simp only [Demo.worldT, h, if_true, Option.some.injEq] at hp
      subst hp
      decide
    · simp [Demo.worldT, h] at hp
  seqInj := by
    intro p q t u hp hq _
    by_cases h : p = 64
    · by_cases h' : q = 64
      · rw [h, h']
      · simp [Demo.worldT, h'] at hq
    · simp [Demo.worldT, h] at hp
  ptrBound := by
    intro p t hp
    by_cases h : p = 64
    · rw [h]
      decide
    · simp [Demo.worldT, h] at hp

/-- Witness for C8: the queue `Demo.worldT` holds one one-shot timer, `(64, 1)`,
due at 500; it is cancelled and both sets are empty; a `handleRead` at time
1000 then runs nothing. -/
theorem cancelInLoop_active_removes_witness :
    Inv Demo.worldT ∧ Demo.worldT.loop.threadId_ = 1
      ∧ ((64, 1) : ActiveTimer) ∈ Demo.worldT.timerQueue.activeTimers_
      ∧ Rely Demo.logEnv
      ∧ (cancelInLoop 1 ⟨64, 1⟩ Demo.worldT).map
          (fun w => (w.timerQueue.timers_, w.timerQueue.activeTimers_)) = some ([], [])
      ∧ ((cancelInLoop 1 ⟨64, 1⟩ Demo.worldT).bind (handleRead Demo.logEnv 1 1000)).map
          (fun w => (w.timerRuns, w.user)) = some ([], [])
      ∧ ∃ t w', Demo.worldT.timerHeap 64 = some t ∧ t.sequence_ = 1
        ∧ (t.expiration_, 64) ∈ Demo.worldT.timerQueue.timers_
        ∧ cancelInLoop 1 ⟨64, 1⟩ Demo.worldT = some w'
        ∧ (∀ e, e ∈ w'.timerQueue.timers_
            ↔ e ≠ (t.expiration_, 64) ∧ e ∈ Demo.worldT.timerQueue.timers_)
        ∧ (∀ a, a ∈ w'.timerQueue.activeTimers_
            ↔ a ≠ (64, 1) ∧ a ∈ Demo.worldT.timerQueue.activeTimers_)
        ∧ (∀ e ∈ w'.timerQueue.timers_, e.2 ≠ 64)
        ∧ (∀ a ∈ w'.timerQueue.activeTimers_, a.1 ≠ 64)
        ∧ w'.timerHeap 64 = none
        ∧ (Rely Demo.logEnv → ∀ w'', Later Demo.logEnv w' w'' →
            ∃ new, w''.timerRuns = Demo.worldT.timerRuns ++ new
              ∧ ∀ id ∈ new, id.sequence ≠ 1) :=
  ⟨worldT_inv, rfl, by decide, logEnv_rely, by decide, by decide,
    cancelInLoop_active_removes Demo.logEnv Demo.worldT 1 64 1 worldT_inv rfl (by decide)⟩

/-- Witness for C9: in `Demo.worldT` the id `(64, 7)` is not active (the timer
at 64 has sequence number 1) and no batch is being dispatched: the call
leaves the state as it is. -/
theorem cancelInLoop_absent_witness :
    ((64, 7) : ActiveTimer) ∉ Demo.worldT.timerQueue.activeTimers_
      ∧ cancelInLoop 1 ⟨64, 7⟩ Demo.worldT = some Demo.worldT
      ∧ (cancelInLoop 1 ⟨64, 7⟩
          { Demo.worldT with timerQueue :=
              { Demo.worldT.timerQueue with callingExpiredTimers_ := true } }).map
          (fun w => (w.timerQueue.timers_, w.timerQueue.activeTimers_,
            w.timerQueue.cancelingTimers_)) = some ([(500, 64)], [(64, 1)], [(64, 7)]) := by
  refine ⟨by decide, ?_, by decide⟩
  rw [(cancelInLoop_absent 1 ⟨64, 7⟩ Demo.worldT (by decide)).1]
  rfl

end TimerQueue

/-! ### `TimerQueue`: a timer that cancels itself from its callback -/

namespace TimerQueue

theorem cancel_of_thread (env : Env U) {tid : ThreadId} {w : World U}
    (htid : w.loop.threadId_ = tid) (timerId : TimerId) :
    cancel env tid timerId w = cancelInLoop tid timerId w := by
  have : EventLoop.isInLoopThread tid w = true := by
    simp [EventLoop.isInLoopThread, htid]
  simp only [cancel, EventLoop.runInLoop, this, if_true, EventLoop.runFunctor]

theorem cancel_env (env env' : Env U) (tid : ThreadId) (timerId : TimerId) (w : World U) :
    cancel env tid timerId w = cancel env' tid timerId w := by
  unfold cancel EventLoop.runInLoop
  split <;> rfl

/-- A call of `cancel`, from any thread, respects `Guar` and runs no timer. -/
theorem cancel_rely {env : Env U} {w w' : World U} {tid : ThreadId} {timerId : TimerId}
    (hr : cancel env tid timerId w = some w') : Guar w w' ∧ w'.timerRuns = w.timerRuns := by
  by_cases htid : w.loop.threadId_ = tid
  · subst htid
    exact ⟨cancel_guar rfl hr, cancel_runs hr⟩
  · have hin : EventLoop.isInLoopThread tid w = false := by
      simp [EventLoop.isInLoopThread, htid]
    simp only [cancel, EventLoop.runInLoop, hin, Bool.false_eq_true, if_false,
      Option.some.injEq] at hr
    subst hr
    refine ⟨Guar.of_frame ?_ ?_ ?_ ?_, ?_⟩
    all_goals unfold EventLoop.queueInLoop
    all_goals dsimp only
    all_goals split
    all_goals rfl

/-- On a consistent state, on the loop thread, `cancelInLoop` returns. -/
theorem cancelInLoop_returns {w : World U} (hinv : Inv w) {tid : ThreadId}
    (htid : w.loop.threadId_ = tid) (timerId : TimerId) :
    ∃ w', cancelInLoop tid timerId w = some w' := by
  by_cases ha : (timerId.timer, timerId.sequence) ∈ w.timerQueue.activeTimers_
  · obtain ⟨t, ht, -, -⟩ := hinv.activeLive _ ha
    exact ⟨_, (cancelInLoop_eq_some_iff hinv tid timerId).mpr
      ⟨htid, Or.inl ⟨t, ha, ht, rfl⟩⟩⟩
  · cases hc : w.timerQueue.callingExpiredTimers_
    · exact ⟨_, (cancelInLoop_eq_some_iff hinv tid timerId).mpr
        ⟨htid, Or.inr (Or.inr ⟨ha, hc, rfl⟩)⟩⟩
    · exact ⟨_, (cancelInLoop_eq_some_iff hinv tid timerId).mpr
        ⟨htid, Or.inr (Or.inl ⟨ha, hc, rfl⟩)⟩⟩

theorem runExpired_append (env : Env U) (pre post : List Entry) (w : World U) :
    runExpired env (pre ++ post) w = (runExpired env pre w).bind (runExpired env post) := by
  induction pre generalizing w with
  | nil => rfl
  | cons it rest ih =>
    simp only [List.cons_append, runExpired]
    cases Timer.run env it.2 w with
    | none => rfl
    | some w₁ => exact ih w₁

/-- Under the rely condition, when the callbacks return, the loop of
`handleRead` over a batch of detached timers returns. -/
theorem runExpired_returns {env : Env U} (hrely : Rely env) {tid : ThreadId}
    (hret : Returns env tid) :
    ∀ (expired : List Entry) (w : World U), Inv w → w.loop.threadId_ = tid →
      (∀ it ∈ expired, Detached w it.2) → ∃ w', runExpired env expired w = some w' := by
  intro expired
  induction expired with
  | nil =>
    intro w _ _ _
    exact ⟨w, rfl⟩
  | cons it rest ih =>
    intro w hinv htid hdet
    obtain ⟨t, ht⟩ := (hdet it (List.mem_cons_self _ _)).1
    have hinv₀ : Inv { w with timerRuns := w.timerRuns ++ [⟨it.2, t.sequence_⟩] } :=
      hinv.carry rfl rfl rfl rfl
    obtain ⟨w₁, h₁⟩ := hret (Call.timer t.callback_) _ hinv₀ htid
    obtain ⟨g₁, -⟩ := hrely _ _ _ h₁
    have g₀ : Guar w { w with timerRuns := w.timerRuns ++ [⟨it.2, t.sequence_⟩] } :=
      Guar.of_frame rfl rfl rfl rfl
    have g : Guar w w₁ := g₀.andThen g₁
    obtain ⟨w', h'⟩ := ih w₁ (g.inv hinv) (g.thread.trans htid)
      (fun it' hit' => (g.detached hinv _ (hdet it' (List.mem_cons_of_mem _ hit'))).1)
    refine ⟨w', ?_⟩
    simp only [runExpired, Timer.run, ht, Option.some_bind, h₁]
    exact h'

theorem count_batchIds_zero {heap : TimerPtr → Option Timer} {expired : List Entry}
    {p : TimerPtr} (hp : p ∉ expired.map (fun it => it.2)) (s : Int) :
    (batchIds heap expired).count ⟨p, s⟩ = 0 := by
  apply List.count_eq_zero.mpr
  intro hmem
  obtain ⟨it, hit, t, -, e⟩ := mem_batchIds hmem
  apply hp
  have : p = it.2 := congrArg TimerId.timer e
  rw [this]
  exact List.mem_map_of_mem _ hit

theorem count_batchIds_one {heap : TimerPtr → Option Timer} {p : TimerPtr} {t : Timer}
    (ht : heap p = some t) {e : Timestamp} :
    ∀ {expired : List Entry}, (expired.map (fun it => it.2)).Nodup → (e, p) ∈ expired →
      (batchIds heap expired).count ⟨p, t.sequence_⟩ = 1 := by
  intro expired
  induction expired with
  | nil =>
    intro _ h
    cases h
  | cons it rest ih =>
    intro hnd hmem
    rw [List.map_cons, List.nodup_cons] at hnd
    have hsplit : batchIds heap (it :: rest)
        = batchIds heap [it] ++ batchIds heap rest := by
      unfold batchIds
      rw [← List.filterMap_append]
      rfl
    rw [hsplit, List.count_append]
    rcases List.mem_cons.mp hmem with h | h
    · subst h
      rw [count_batchIds_zero hnd.1]
      simp [batchIds, ht]
    · have hne : it.2 ≠ p := by
        intro e'
        apply hnd.1
        rw [e']
        exact List.mem_map_of_mem (fun it => it.2) h
      rw [ih hnd.2 h]
      have : (batchIds heap [it]).count ⟨p, t.sequence_⟩ = 0 := by
        apply count_batchIds_zero
        simpa using fun e' => hne e'.symm
      rw [this]

end TimerQueue

namespace TimerQueue

/-- The callbacks of a batch in which the timer `t` at `p` makes its `k`-th
run, its callback cancelling it then: afterwards its identity is in
`cancelingTimers_`. -/
theorem runExpired_self_cancel {env : Env U} (hrely : Rely env) {tid : ThreadId}
    {p : TimerPtr} {t : Timer} {k : Nat}
    (hself : SelfCancels env tid t.callback_ ⟨p, t.sequence_⟩ k)
    {expired : List Entry} {w w' : World U} (hinv : Inv w) (htid : w.loop.threadId_ = tid)
    (hcalling : w.timerQueue.callingExpiredTimers_ = true)
    (hnd : (expired.map (fun it => it.2)).Nodup) (hdet : ∀ it ∈ expired, Detached w it.2)
    {e : Timestamp} (hmem : (e, p) ∈ expired) (ht : w.timerHeap p = some t)
    (hcount : w.timerRuns.count ⟨p, t.sequence_⟩ + 1 = k)
    (h : runExpired env expired w = some w') :
    (p, t.sequence_) ∈ w'.timerQueue.cancelingTimers_ := by
  obtain ⟨pre, post, rfl⟩ := List.append_of_mem hmem
  rw [runExpired_append] at h
  obtain ⟨wa, ha, h⟩ := Option.bind_eq_some.mp h
  simp only [runExpired] at h
  obtain ⟨wb, hb, hpost⟩ := Option.bind_eq_some.mp h
  rw [List.map_append, List.nodup_append] at hnd
  obtain ⟨-, hnd₂, hdisj⟩ := hnd
  have hp_pre : p ∉ pre.map (fun it => it.2) := by
    intro hp
    exact hdisj hp (by simp)
  obtain ⟨ga, ra⟩ := runExpired_spec hrely pre w wa hinv
    (fun it hit => hdet it (List.mem_append_left _ hit)) ha
  obtain ⟨hda, hheap⟩ := ga.detached hinv p (hdet (e, p) (by simp))
  obtain ⟨t', ht', hcall⟩ := run_eq_some hb
  have htt : t' = t := by
    have h₁ : wa.timerHeap p = some t' := ht'
    rw [hheap, ht] at h₁
    exact (Option.some.inj h₁).symm
  subst htt
  have hinva : Inv wa := ga.inv hinv
  have hinv₀ : Inv { wa with timerRuns := wa.timerRuns ++ [⟨p, t'.sequence_⟩] } :=
    hinva.carry rfl rfl rfl rfl
  have hd₀ : Detached { wa with timerRuns := wa.timerRuns ++ [⟨p, t'.sequence_⟩] } p :=
    hda.move rfl rfl rfl
  have hcount₀ : ({ wa with timerRuns := wa.timerRuns ++ [⟨p, t'.sequence_⟩] } :
      World U).timerRuns.count ⟨p, t'.sequence_⟩ = k := by
    show (wa.timerRuns ++ [(⟨p, t'.sequence_⟩ : TimerId)]).count ⟨p, t'.sequence_⟩ = k
    rw [ra, List.count_append, List.count_append, count_batchIds_zero hp_pre, ← hcount]
    simp
  obtain ⟨wc, wd, gc, hcancel, gd⟩ := hself _ _ hcall hcount₀
  have hinvc : Inv wc := gc.inv hinv₀
  have hdc : Detached wc p := (gc.detached hinv₀ p hd₀).1
  have htidc : wc.loop.threadId_ = tid := by
    rw [gc.thread]
    show wa.loop.threadId_ = tid
    rw [ga.thread]
    exact htid
  have hcallc : wc.timerQueue.callingExpiredTimers_ = true := by
    rw [gc.calling]
    show wa.timerQueue.callingExpiredTimers_ = true
    rw [ga.calling]
    exact hcalling
  rw [cancel_of_thread env htidc] at hcancel
  have hd_mem : (p, t'.sequence_) ∈ wd.timerQueue.cancelingTimers_ := by
    obtain ⟨-, ⟨u, hact, -, -⟩ | ⟨-, -, rfl⟩ | ⟨-, hf, -⟩⟩ := cancelInLoop_shape hcancel
    · exact absurd rfl (hdc.2.2 _ hact)
    · show (p, t'.sequence_) ∈ (OrdSet.insert activeLt (p, t'.sequence_)
        wc.timerQueue.cancelingTimers_).1
      rw [OrdSet.mem_insert]
      exact Or.inl rfl
    · rw [hcallc] at hf
      cases hf
  have hb_mem : (p, t'.sequence_) ∈ wb.timerQueue.cancelingTimers_ := gd.canceling _ hd_mem
  obtain ⟨g₀b, -⟩ := hrely _ _ _ hcall
  have g₀ : Guar wa { wa with timerRuns := wa.timerRuns ++ [⟨p, t'.sequence_⟩] } :=
    Guar.of_frame rfl rfl rfl rfl
  have gb : Guar w wb := ga.andThen (g₀.andThen g₀b)
  obtain ⟨gpost, -⟩ := runExpired_spec hrely post wb w' (gb.inv hinv)
    (fun it hit => (gb.detached hinv _
      (hdet it (List.mem_append_right _ (List.mem_cons_of_mem _ hit)))).1) hpost
  exact gpost.canceling _ hb_mem

end TimerQueue

namespace TimerQueue

/-- C10.  A timer whose callback cancels it in its `k`-th run (`SelfCancels`) is
run `k` times and no more.  Let the timer `t` at `p` be active in a
consistent timer queue, with `k - 1` runs on record, and let `handleRead` be
called on the loop thread at a time `now` at which the timer is due; the user
function objects are arbitrary, under the rely condition `Rely`, and return.
Then `handleRead` returns, and in the state it leaves

* the record shows `k` runs of the timer;
* the timer is deleted and no entry of `timers_` or `activeTimers_` points
  to it: `reset` has not inserted it again, periodic or not;
* `timers_` and `activeTimers_` are empty if the timer was the only one and
  no timer was created during the batch;
* whatever the loop thread does from then on (calls of user function
  objects, `addTimer`, `cancel`, `handleRead`, in any number and order), the
  record keeps showing `k` runs of the timer, and every entry of `timers_`
  and of `activeTimers_` belongs to a timer with another sequence number. -/
theorem handleRead_self_cancel (env : Env U) (tid : ThreadId) (hrely : Rely env)
    (hret : Returns env tid) (w : World U) (hinv : Inv w) (htid : w.loop.threadId_ = tid)
    (p : TimerPtr) (t : Timer) (ht : w.timerHeap p = some t)
    (ha : (p, t.sequence_) ∈ w.timerQueue.activeTimers_)
    (now : Timestamp) (hdue : t.expiration_ ≤ now) (k : Nat)
    (hcount : w.timerRuns.count ⟨p, t.sequence_⟩ + 1 = k)
    (hself : SelfCancels env tid t.callback_ ⟨p, t.sequence_⟩ k) :
    ∃ w', handleRead env tid now w = some w'
      ∧ w'.timerRuns.count ⟨p, t.sequence_⟩ = k
      ∧ w'.timerHeap p = none
      ∧ (∀ e ∈ w'.timerQueue.timers_, e.2 ≠ p)
      ∧ (∀ a ∈ w'.timerQueue.activeTimers_, a.1 ≠ p)
      ∧ (w.timerQueue.timers_ = [(t.expiration_, p)] → w'.numCreated = w.numCreated →
          w'.timerQueue.timers_ = [] ∧ w'.timerQueue.activeTimers_ = [])
      ∧ ∀ w'', Later env w' w'' →
          w''.timerRuns.count ⟨p, t.sequence_⟩ = k
            ∧ (∀ e ∈ w''.timerQueue.timers_,
                ∃ u, w''.timerHeap e.2 = some u ∧ u.sequence_ ≠ t.sequence_)
            ∧ (∀ a ∈ w''.timerQueue.activeTimers_, a.2 ≠ t.sequence_) := by
  -- the entry of the timer is in the batch
  have hentry : (t.expiration_, p) ∈ w.timerQueue.timers_ := by
    obtain ⟨t₀, ht₀, -, he⟩ := hinv.activeLive _ ha
    have ht₀' : w.timerHeap p = some t₀ := ht₀
    rw [ht] at ht₀'
    cases ht₀'
    exact he
  obtain ⟨-, -, -, hbatch, -⟩ := getExpired_spec hinv now
  have hmem : (t.expiration_, p) ∈ batch now w := (hbatch _).mpr ⟨hentry, hdue⟩
  have hnd := batch_ptrs_nodup hinv now
  -- the callbacks return
  obtain ⟨active, -, hinvx, hdetx, heq⟩ := @handleRead_eq U env w hinv tid htid now
  have hinvs : Inv (batchStart (expiredOut now active w)) := inv_batchStart hinvx
  have hdets : ∀ it ∈ batch now w, Detached (batchStart (expiredOut now active w)) it.2 :=
    fun it hit => (hdetx it hit).move rfl rfl rfl
  have htids : (batchStart (expiredOut now active w)).loop.threadId_ = tid := htid
  obtain ⟨w₂, hrun⟩ := runExpired_returns hrely hret _ _ hinvs htids hdets
  obtain ⟨g, -⟩ := runExpired_spec hrely _ _ _ hinvs hdets hrun
  have hinv₂ : Inv (batchEnd w₂) := inv_batchEnd (g.inv hinvs)
  have htid₂ : (batchEnd w₂).loop.threadId_ = tid := by
    show w₂.loop.threadId_ = tid
    rw [g.thread]
    exact htid
  have hdet₂ : ∀ it ∈ batch now w,
      Detached (batchEnd w₂) it.2 ∧ (batchEnd w₂).timerHeap it.2 = w.timerHeap it.2 := by
    intro it hit
    obtain ⟨d, e⟩ := g.detached hinvs it.2 (hdets it hit)
    exact ⟨d.move rfl rfl rfl, e⟩
  -- the identity of the timer is in `cancelingTimers_` when `reset` is entered
  have hnoted₂ : (p, t.sequence_) ∈ w₂.timerQueue.cancelingTimers_ :=
    runExpired_self_cancel hrely hself hinvs htids rfl hnd hdets hmem ht hcount hrun
  have hnoted : (p, t.sequence_) ∈ (batchEnd w₂).timerQueue.cancelingTimers_ := hnoted₂
  have ht₂ : (batchEnd w₂).timerHeap p = some t := by
    rw [(hdet₂ _ hmem).2]
    exact ht
  have hdrop : ¬ Keep (batchEnd w₂) p t := fun hk => hk.2 hnoted
  -- `reset`
  obtain ⟨w₁, w', hloop, hreset, hinv', hsame', hheap', htimers', hactive', -⟩ :=
    reset_spec tid now (batch now w) (batchEnd w₂) hinv₂ htid₂ hnd
      (fun it hit => (hdet₂ it hit).1)
  obtain ⟨w₁', hloop', -, hsame₁, -, -, -, hin, hmemT, -⟩ :=
    resetLoop_spec tid now (batch now w) (batchEnd w₂) hinv₂ htid₂ hnd
      (fun it hit => (hdet₂ it hit).1)
  rw [hloop] at hloop'
  cases hloop'
  have hret' : handleRead env tid now w = some w' := by
    rw [heq, hrun]
    exact hreset
  have hgone : w'.timerHeap p = none := by
    rw [hheap']
    exact (hin _ hmem t ht₂).2 hdrop
  obtain ⟨-, -, -, -, -, -, -, -, -, -, hruns⟩ := handleRead_spec hrely hinv htid hret'
  have hk : w'.timerRuns.count ⟨p, t.sequence_⟩ = k := by
    rw [hruns, List.count_append, count_batchIds_one ht hnd hmem]
    exact hcount
  have hcreated₁ : w'.numCreated = w₂.numCreated :=
    hsame'.created.trans hsame₁.created
  -- the sequence number is gone
  have hseq : SeqGone t.sequence_ w' := by
    obtain ⟨-, -, -, hlive⟩ := reset_live hinv₂ htid₂ hnd (fun it hit => (hdet₂ it hit).1)
      hreset
    refine ⟨?_, ?_⟩
    · intro q u hq e
      obtain ⟨u₀, h₀, e₀⟩ := hlive q u hq
      have hqp : q = p := hinv₂.seqInj q p u₀ t h₀ ht₂ (e₀.trans e)
      rw [hqp, hgone] at hq
      cases hq
    · rw [hcreated₁]
      exact le_trans (hinv.seqBound p t ht) g.created
  refine ⟨w', hret', hk, hgone, ?_, ?_, ?_, ?_⟩
  · intro e he hp
    obtain ⟨u, hu, -, -⟩ := hinv'.timersLive e he
    rw [hp, hgone] at hu
    cases hu
  · intro a ha' hp
    obtain ⟨u, hu, -, -⟩ := hinv'.activeLive a ha'
    rw [hp, hgone] at hu
    cases hu
  · intro honly hnc
    have hpb : p < UINTPTR_MAX := hinv.ptrBound p t ht
    have hlt : entryLt (t.expiration_, p) (now, UINTPTR_MAX) = true :=
      (entryLt_sentry_iff _ now hpb).mpr hdue
    have hbatch₁ : batch now w = [(t.expiration_, p)] := by
      unfold batch
      rw [honly]
      simp [List.takeWhile, hlt]
    have hstartT : (batchStart (expiredOut now active w)).timerQueue.timers_ = [] := by
      show w.timerQueue.timers_.dropWhile (fun e => entryLt e (now, UINTPTR_MAX)) = []
      rw [honly]
      simp [List.dropWhile, hlt]
    have hstartA : (batchStart (expiredOut now active w)).timerQueue.activeTimers_ = [] := by
      apply List.eq_nil_of_length_eq_zero
      rw [← hinvs.sizes, hstartT]
      rfl
    have hnc₂ : w₂.numCreated = (batchStart (expiredOut now active w)).numCreated := by
      rw [← hcreated₁, hnc]
      rfl
    have hT₂ : w₂.timerQueue.timers_ = [] := by
      apply List.eq_nil_iff_forall_not_mem.mpr
      intro e' he'
      obtain ⟨u, hu, -, -⟩ := (g.inv hinvs).timersLive e' he'
      rcases g.fresh hinvs e'.2 u hu with h | h
      · have hd : Detached (batchStart (expiredOut now active w)) e'.2 := by
          refine ⟨⟨u, h⟩, ?_, ?_⟩
          · rw [hstartT]
            intro _ hx
            cases hx
          · rw [hstartA]
            intro _ hx
            cases hx
        exact (g.detached hinvs _ hd).1.2.1 e' he' rfl
      · have := (g.inv hinvs).seqBound _ _ hu
        omega
    have hT' : w'.timerQueue.timers_ = [] := by
      rw [htimers']
      apply List.eq_nil_iff_forall_not_mem.mpr
      intro e' he'
      rcases (hmemT e').mp he' with h | ⟨it, hit, u, hu, hkeep, -⟩
      · have h₂ : e' ∈ w₂.timerQueue.timers_ := h
        rw [hT₂] at h₂
        cases h₂
      · rw [hbatch₁] at hit
        have hit' : it = (t.expiration_, p) := by simpa using hit
        subst hit'
        have hu' : (batchEnd w₂).timerHeap p = some u := hu
        rw [ht₂] at hu'
        cases hu'
        exact hdrop hkeep
    refine ⟨hT', ?_⟩
    apply List.eq_nil_of_length_eq_zero
    rw [← hinv'.sizes, hT']
    rfl
  · intro w'' hl
    obtain ⟨hinv'', hg'', new, hr, hnew⟩ := later_seqGone hrely hl hinv' hseq
    refine ⟨?_, ?_, ?_⟩
    · rw [hr, List.count_append, hk]
      have : new.count ⟨p, t.sequence_⟩ = 0 := by
        apply List.count_eq_zero.mpr
        intro hmem'
        exact hnew _ hmem' rfl
      rw [this, Nat.add_zero]
    · intro e he
      obtain ⟨u, hu, -, -⟩ := hinv''.timersLive e he
      exact ⟨u, hu, hg''.1 _ u hu⟩
    · intro a ha'
      obtain ⟨u, hu, hs, -⟩ := hinv''.activeLive a ha'
      rw [← hs]
      exact hg''.1 _ u hu

end TimerQueue

namespace TimerQueue

theorem selfCancelEnv_rely : Rely Demo.selfCancelEnv := by
  intro call w w' h
  unfold Demo.selfCancelEnv at h
  have g₀ : Guar w { w with user := w.user ++ [call] } := Guar.of_frame rfl rfl rfl rfl
  split at h
  · obtain ⟨g, r⟩ := cancel_rely h
    exact ⟨g₀.andThen g, r⟩
  · cases h
    exact ⟨g₀, rfl⟩

theorem selfCancelEnv_returns : Returns Demo.selfCancelEnv 1 := by
  intro call w hinv htid
  unfold Demo.selfCancelEnv
  split
  · have hinv₀ : Inv { w with user := w.user ++ [call] } := hinv.carry rfl rfl rfl rfl
    have htid₀ : ({ w with user := w.user ++ [call] } : World (List Call)).loop.threadId_ = 1 :=
      htid
    rw [cancel_of_thread _ htid₀]
    exact cancelInLoop_returns hinv₀ htid₀ _
  · exact ⟨_, rfl⟩

theorem selfCancelEnv_selfCancels : SelfCancels Demo.selfCancelEnv 1 30 ⟨64, 1⟩ 3 := by
  intro w w' h hc
  unfold Demo.selfCancelEnv at h
  rw [if_pos ⟨rfl, hc⟩, cancel_env Demo.logEnv Demo.selfCancelEnv] at h
  exact ⟨{ w with user := w.user ++ [Call.timer 30] }, w', Guar.of_frame rfl rfl rfl rfl, h,
    Guar.same _⟩

theorem worldP_inv : Inv Demo.worldP where
  sortedTimers := List.pairwise_singleton _ _
  sortedActive := List.pairwise_singleton _ _
  timersLive := by
    intro e he
    have : e = (30, 64) := by simpa [Demo.worldP] using he
    subst this
    exact ⟨Demo.periodic 30, rfl, rfl, by simp [Demo.worldP, Demo.periodic, Timer.construct]⟩
  activeLive := by
    intro a ha
    have : a = (64, 1) := by simpa [Demo.worldP] using ha
    subst this
    exact ⟨Demo.periodic 30, rfl, rfl, by simp [Demo.worldP, Demo.periodic]⟩
  sizes := rfl
  seqBound := by
    intro p t hp
    by_cases h : p = 64
    · simp only [Demo.worldP, h, if_true, Option.some.injEq] at hp
      subst hp
      decide
    · simp [Demo.worldP, h] at hp
  seqInj := by
    intro p q t u hp hq _
    by_cases h : p = 64
    · by_cases h' : q = 64
      · rw [h, h']
      · simp [Demo.worldP, h'] at hq
    · simp [Demo.worldP, h] at hp
  ptrBound := by
    intro p t hp
    by_cases h : p = 64
    · rw [h]
      decide
    · simp [Demo.worldP, h] at hp

/-- Witness for C10, with `k = 3`.  In `Demo.scenario` a periodic timer (first
due at 10, interval 10) is added to an empty queue; its callback cancels it
in its third run.  After the `handleRead`s at 10 and 20 the timer has run
twice and is due at 30: the state is `Demo.worldP`, to which the theorem
applies.  After `handleRead`s at 10, 20, 30, 40 and 50 the timer has run three
times, both sets are empty and the timer is deleted. -/
theorem handleRead_self_cancel_witness :
    Rely Demo.selfCancelEnv ∧ Returns Demo.selfCancelEnv 1
      ∧ SelfCancels Demo.selfCancelEnv 1 30 ⟨64, 1⟩ 3 ∧ Inv Demo.worldP
      ∧ (Demo.scenario [10, 20]).map Demo.view = some (Demo.view Demo.worldP)
      ∧ (Demo.scenario [10, 20, 30, 40, 50]).map Demo.view
          = some { runs := [⟨64, 1⟩, ⟨64, 1⟩, ⟨64, 1⟩],
                   calls := [Call.timer 30, Call.timer 30, Call.timer 30],
                   timers := [], active := [], timer64 := none }
      ∧ ∃ w', handleRead Demo.selfCancelEnv 1 30 Demo.worldP = some w'
        ∧ w'.timerRuns.count ⟨64, 1⟩ = 3
        ∧ w'.timerHeap 64 = none
        ∧ (∀ e ∈ w'.timerQueue.timers_, e.2 ≠ 64)
        ∧ (∀ a ∈ w'.timerQueue.activeTimers_, a.1 ≠ 64)
        ∧ (Demo.worldP.timerQueue.timers_ = [(30, 64)] →
            w'.numCreated = Demo.worldP.numCreated →
            w'.timerQueue.timers_ = [] ∧ w'.timerQueue.activeTimers_ = [])
        ∧ ∀ w'', Later Demo.selfCancelEnv w' w'' →
            w''.timerRuns.count ⟨64, 1⟩ = 3
              ∧ (∀ e ∈ w''.timerQueue.timers_,
                  ∃ u, w''.timerHeap e.2 = some u ∧ u.sequence_ ≠ 1)
              ∧ (∀ a ∈ w''.timerQueue.activeTimers_, a.2 ≠ 1) :=
  ⟨selfCancelEnv_rely, selfCancelEnv_returns, selfCancelEnv_selfCancels, worldP_inv,
    by decide, by decide,
    handleRead_self_cancel Demo.selfCancelEnv 1 selfCancelEnv_rely selfCancelEnv_returns
      Demo.worldP worldP_inv rfl 64 (Demo.periodic 30) rfl (by decide) 30 (by decide) 3 rfl
      selfCancelEnv_selfCancels⟩

end TimerQueue

/-! ### `TimerQueue`: a one-shot timer alone in the queue -/

namespace TimerQueue

/-- Under the rely condition, when the callbacks return, `handleRead` returns
on a consistent state, on the loop thread. -/
theorem handleRead_returns {env : Env U} (hrely : Rely env) {tid : ThreadId}
    (hret : Returns env tid) {w : World U} (hinv : Inv w) (htid : w.loop.threadId_ = tid)
    (now : Timestamp) : ∃ w', handleRead env tid now w = some w' := by
  obtain ⟨active, -, hinvx, hdetx, heq⟩ := @handleRead_eq U env w hinv tid htid now
  have hinvs : Inv (batchStart (expiredOut now active w)) := inv_batchStart hinvx
  have hdets : ∀ it ∈ batch now w, Detached (batchStart (expiredOut now active w)) it.2 :=
    fun it hit => (hdetx it hit).move rfl rfl rfl
  have htids : (batchStart (expiredOut now active w)).loop.threadId_ = tid := htid
  obtain ⟨w₂, hrun⟩ := runExpired_returns hrely hret _ _ hinvs htids hdets
  obtain ⟨g, -⟩ := runExpired_spec hrely _ _ _ hinvs hdets hrun
  have htid₂ : (batchEnd w₂).loop.threadId_ = tid := by
    show w₂.loop.threadId_ = tid
    rw [g.thread]
    exact htid
  obtain ⟨-, w', -, hreset, -⟩ := reset_spec tid now (batch now w) (batchEnd w₂)
    (inv_batchEnd (g.inv hinvs)) htid₂ (batch_ptrs_nodup hinv now)
    (fun it hit => ((g.detached hinvs it.2 (hdets it hit)).1).move rfl rfl rfl)
  exact ⟨w', by rw [heq, hrun]; exact hreset⟩

/-- The batch of a due timer that is alone in `timers_` is that timer, and
`getExpired` leaves both sets empty. -/
theorem batch_only {w : World U} (hinv : Inv w) {p : TimerPtr} {t : Timer}
    (ht : w.timerHeap p = some t) (honly : w.timerQueue.timers_ = [(t.expiration_, p)])
    {now : Timestamp} (hdue : t.expiration_ ≤ now) {active : List ActiveTimer}
    (hinvx : Inv (expiredOut now active w)) :
    batch now w = [(t.expiration_, p)] ∧ (expiredOut now active w).timerQueue.timers_ = []
      ∧ active = [] := by
  have hlt : entryLt (t.expiration_, p) (now, UINTPTR_MAX) = true :=
    (entryLt_sentry_iff _ now (hinv.ptrBound p t ht)).mpr hdue
  have h₁ : batch now w = [(t.expiration_, p)] := by
    unfold batch
    rw [honly]
    simp [List.takeWhile, hlt]
  have h₂ : (expiredOut now active w).timerQueue.timers_ = [] := by
    show w.timerQueue.timers_.dropWhile (fun e => entryLt e (now, UINTPTR_MAX)) = []
    rw [honly]
    simp [List.dropWhile, hlt]
  refine ⟨h₁, h₂, ?_⟩
  apply List.eq_nil_of_length_eq_zero
  have := hinvx.sizes
  rw [h₂] at this
  exact this.symm

/-- Code that respects `Guar` and creates no timer leaves empty sets empty. -/
theorem Guar.keeps_empty {w w' : World U} (g : Guar w w') (hinv : Inv w)
    (hT : w.timerQueue.timers_ = []) (hA : w.timerQueue.activeTimers_ = [])
    (hc : w'.numCreated = w.numCreated) : w'.timerQueue.timers_ = [] := by
  apply List.eq_nil_iff_forall_not_mem.mpr
  intro e he
  obtain ⟨u, hu, -, -⟩ := (g.inv hinv).timersLive e he
  rcases g.fresh hinv e.2 u hu with h | h
  · have hd : Detached w e.2 := by
      refine ⟨⟨u, h⟩, ?_, ?_⟩
      · rw [hT]
        intro _ hx
        cases hx
      · rw [hA]
        intro _ hx
        cases hx
    exact (g.detached hinv _ hd).1.2.1 e he rfl
  · have := (g.inv hinv).seqBound _ _ hu
    omega

end TimerQueue

namespace TimerQueue

/-- A timer of the batch that `reset` does not keep: it is deleted, no live
timer bears its sequence number afterwards, and if it was the whole batch
and `timers_` was empty, both sets are empty afterwards. -/
theorem reset_dropped {tid : ThreadId} {now : Timestamp} {expired : List Entry}
    {w w' : World U} (hinv : Inv w) (htid : w.loop.threadId_ = tid)
    (hnd : (expired.map (fun it => it.2)).Nodup) (hdet : ∀ it ∈ expired, Detached w it.2)
    (hreset : reset tid expired now w = some w') {e : Timestamp} {p : TimerPtr} {t : Timer}
    (hmem : (e, p) ∈ expired) (ht : w.timerHeap p = some t) (hdrop : ¬ Keep w p t) :
    Inv w' ∧ w'.timerHeap p = none
      ∧ (∀ q u, w'.timerHeap q = some u → u.sequence_ ≠ t.sequence_)
      ∧ w'.numCreated = w.numCreated
      ∧ (expired = [(e, p)] → w.timerQueue.timers_ = [] →
          w'.timerQueue.timers_ = [] ∧ w'.timerQueue.activeTimers_ = []) := by
  obtain ⟨w₁, w'', hloop, hreset', hinv', -, hheap', htimers', -, -⟩ :=
    reset_spec tid now expired w hinv htid hnd hdet
  rw [hreset] at hreset'
  cases hreset'
  obtain ⟨w₁', hloop', -, -, -, -, -, hin, hmemT, -⟩ :=
    resetLoop_spec tid now expired w hinv htid hnd hdet
  rw [hloop] at hloop'
  cases hloop'
  obtain ⟨hc, -, -, hlive⟩ := reset_live hinv htid hnd hdet hreset
  have hgone : w'.timerHeap p = none := by
    rw [hheap']
    exact (hin _ hmem t ht).2 hdrop
  refine ⟨hinv', hgone, ?_, hc, ?_⟩
  · intro q u hq e'
    obtain ⟨u₀, h₀, e₀⟩ := hlive q u hq
    have hqp : q = p := hinv.seqInj q p u₀ t h₀ ht (e₀.trans e')
    rw [hqp, hgone] at hq
    cases hq
  · intro hexp hT
    have hT' : w'.timerQueue.timers_ = [] := by
      rw [htimers']
      apply List.eq_nil_iff_forall_not_mem.mpr
      intro e' he'
      rcases (hmemT e').mp he' with h | ⟨it, hit, u, hu, hkeep, -⟩
      · rw [hT] at h
        cases h
      · rw [hexp] at hit
        have hit' : it = (e, p) := by simpa using hit
        subst hit'
        have hu' : w.timerHeap p = some u := hu
        rw [ht] at hu'
        cases hu'
        exact hdrop hkeep
    refine ⟨hT', ?_⟩
    apply List.eq_nil_of_length_eq_zero
    rw [← hinv'.sizes, hT']
    rfl

/-- C11.  A one-shot timer `t` at `p` (`repeat_` is false, as the constructor
sets it for the interval 0) is the only entry of `timers_` in a consistent
timer queue, and `handleRead` is called on the loop thread at a time
`now ≥ t.expiration_`; the user function objects are arbitrary, under the rely
condition `Rely`, and return.  Then `handleRead` is: one call of the callback
of `t`, in the state with both sets empty, followed by `reset`.  It returns,
and in the state it leaves the record of runs has grown by the one run of
`t`, the timer is deleted, and both sets are empty unless the callback
created a timer.  Whatever the loop thread does from then on (calls of user
function objects, `addTimer`, `cancel`, `handleRead`, in any number and
order), no timer with the sequence number of `t` is run: the record keeps
showing that one run. -/
theorem handleRead_one_shot (env : Env U) (tid : ThreadId) (hrely : Rely env)
    (hret : Returns env tid) (w : World U) (hinv : Inv w) (htid : w.loop.threadId_ = tid)
    (p : TimerPtr) (t : Timer) (ht : w.timerHeap p = some t)
    (honly : w.timerQueue.timers_ = [(t.expiration_, p)]) (hone : t.repeat_ = false)
    (now : Timestamp) (hdue : t.expiration_ ≤ now) :
    handleRead env tid now w
        = (env (Call.timer t.callback_)
            { batchStart (expiredOut now [] w) with
              timerRuns := w.timerRuns ++ [⟨p, t.sequence_⟩] }).bind
            (fun w₂ => reset tid [(t.expiration_, p)] now (batchEnd w₂))
      ∧ ∃ w', handleRead env tid now w = some w'
        ∧ w'.timerRuns = w.timerRuns ++ [⟨p, t.sequence_⟩]
        ∧ w'.timerHeap p = none
        ∧ (w'.numCreated = w.numCreated →
            w'.timerQueue.timers_ = [] ∧ w'.timerQueue.activeTimers_ = [])
        ∧ ∀ w'', Later env w' w'' →
            w''.timerRuns.count ⟨p, t.sequence_⟩ = w.timerRuns.count ⟨p, t.sequence_⟩ + 1
              ∧ ∃ new, w''.timerRuns = w'.timerRuns ++ new
                ∧ ∀ id ∈ new, id.sequence ≠ t.sequence_ := by
  obtain ⟨w', hret'⟩ := handleRead_returns hrely hret hinv htid now
  obtain ⟨active, -, hinvx₀, -, heq⟩ := @handleRead_eq U env w hinv tid htid now
  obtain ⟨hb, hT, hA⟩ := batch_only hinv ht honly hdue hinvx₀
  subst hA
  refine ⟨?_, w', hret', ?_⟩
  · rw [heq, hb]
    have hheap : (batchStart (expiredOut now [] w)).timerHeap p = some t := ht
    simp only [runExpired, Timer.run, hheap, Option.some_bind, Option.bind_some]
    rfl
  obtain ⟨active', w₂, hinvx, -, g, hinv₂, htid₂, hdet₂, hreset, -, hruns⟩ :=
    handleRead_spec hrely hinv htid hret'
  obtain ⟨-, hT', hA'⟩ := batch_only hinv ht honly hdue hinvx
  subst hA'
  have hmem : (t.expiration_, p) ∈ batch now w := by
    rw [hb]
    exact List.mem_singleton_self _
  have ht₂ : (batchEnd w₂).timerHeap p = some t := by
    rw [(hdet₂ _ hmem).2]
    exact ht
  have hdrop : ¬ Keep (batchEnd w₂) p t := by
    intro hk
    have := hk.1
    rw [hone] at this
    cases this
  obtain ⟨hinv', hgone, hseq, hc, hempty⟩ := reset_dropped hinv₂ htid₂
    (batch_ptrs_nodup hinv now) (fun it hit => (hdet₂ it hit).1) hreset hmem ht₂ hdrop
  have hruns' : w'.timerRuns = w.timerRuns ++ [⟨p, t.sequence_⟩] := by
    rw [hruns, hb]
    simp [batchIds, ht]
  refine ⟨hruns', hgone, ?_, ?_⟩
  · intro hnc
    have hnc₂ : w₂.numCreated = (batchStart (expiredOut now [] w)).numCreated := by
      have h₁ : w'.numCreated = w₂.numCreated := hc
      rw [← h₁, hnc]
      rfl
    have hT₂ : (batchEnd w₂).timerQueue.timers_ = [] :=
      g.keeps_empty (inv_batchStart hinvx) hT' rfl hnc₂
    exact hempty hb hT₂
  · intro w'' hl
    have hgone' : SeqGone t.sequence_ w' := by
      refine ⟨hseq, ?_⟩
      rw [hc]
      exact le_trans (hinv.seqBound p t ht) g.created
    obtain ⟨-, -, new, hr, hnew⟩ := later_seqGone hrely hl hinv' hgone'
    refine ⟨?_, new, hr, hnew⟩
    have h0 : new.count ⟨p, t.sequence_⟩ = 0 := by
      apply List.count_eq_zero.mpr
      intro hmem'
      exact hnew _ hmem' rfl
    rw [hr, hruns', List.count_append, List.count_append, h0]
    simp

end TimerQueue

namespace TimerQueue

theorem logEnv_returns (tid : ThreadId) : Returns Demo.logEnv tid :=
  fun _ _ _ _ => ⟨_, rfl⟩

/-- Witness for C11.  `Demo.worldT` is the state `addTimer(cb 20, when 500,
interval 0)` leaves of an empty queue: the one-shot timer at 64 is alone.
`handleRead` at 1000 runs it once and leaves the queue empty; `handleRead`s
at 1000, 2000 and 3000 together still show one run and one call of the
callback. -/
theorem handleRead_one_shot_witness :
    Rely Demo.logEnv ∧ Returns Demo.logEnv 1 ∧ Inv Demo.worldT
      ∧ (Demo.oneShotScenario []).map Demo.view = some (Demo.view Demo.worldT)
      ∧ (Demo.oneShotScenario [1000]).map Demo.view
          = some { runs := [⟨64, 1⟩], calls := [Call.timer 20], timers := [], active := [],
                   timer64 := none }
      ∧ (Demo.oneShotScenario [1000, 2000, 3000]).map Demo.view
          = some { runs := [⟨64, 1⟩], calls := [Call.timer 20], timers := [], active := [],
                   timer64 := none }
      ∧ ∃ w', handleRead Demo.logEnv 1 1000 Demo.worldT = some w'
        ∧ w'.timerRuns = Demo.worldT.timerRuns ++ [⟨64, 1⟩]
        ∧ w'.timerHeap 64 = none
        ∧ (w'.numCreated = Demo.worldT.numCreated →
            w'.timerQueue.timers_ = [] ∧ w'.timerQueue.activeTimers_ = [])
        ∧ ∀ w'', Later Demo.logEnv w' w'' →
            w''.timerRuns.count ⟨64, 1⟩ = Demo.worldT.timerRuns.count ⟨64, 1⟩ + 1
              ∧ ∃ new, w''.timerRuns = w'.timerRuns ++ new ∧ ∀ id ∈ new, id.sequence ≠ 1 :=
  ⟨logEnv_rely, logEnv_returns 1, worldT_inv, by decide, by decide, by decide,
    (handleRead_one_shot Demo.logEnv 1 logEnv_rely (logEnv_returns 1) Demo.worldT worldT_inv
      rfl 64 Demo.oneShot rfl rfl rfl 1000 (by decide)).2⟩

end TimerQueue

/-! ### `TimerQueue`: the two sets have the same size -/

namespace TimerQueue

theorem Initial.inv {w : World U} (h : Initial w) : Inv w where
  sortedTimers := by rw [h.1]; exact List.Pairwise.nil
  sortedActive := by rw [h.2.1]; exact List.Pairwise.nil
  timersLive := by rw [h.1]; intro e he; cases he
  activeLive := by rw [h.2.1]; intro a ha; cases ha
  sizes := by rw [h.1, h.2.1]; rfl
  seqBound := by intro p t hp; rw [h.2.2] at hp; cases hp
  seqInj := by intro p q t u hp; rw [h.2.2] at hp; cases hp
  ptrBound := by intro p t hp; rw [h.2.2] at hp; cases hp

/-- A returning `handleRead` leaves a consistent state of the same loop
thread, under the rely condition. -/
theorem handleRead_inv {env : Env U} (hrely : Rely env) {w w' : World U} (hinv : Inv w)
    {tid : ThreadId} (htid : w.loop.threadId_ = tid) {now : Timestamp}
    (h : handleRead env tid now w = some w') : Inv w' ∧ w'.loop.threadId_ = tid := by
  obtain ⟨active, w₂, -, -, -, hinv₂, htid₂, hdet₂, hreset, hinv', -⟩ :=
    handleRead_spec hrely hinv htid h
  obtain ⟨-, -, ht, -⟩ := reset_live hinv₂ htid₂ (batch_ptrs_nodup hinv now)
    (fun it hit => (hdet₂ it hit).1) hreset
  exact ⟨hinv', ht.trans htid₂⟩

/-- Each call of `Op` made on the loop thread in a consistent state returns,
in a consistent state of the same loop thread. -/
theorem Op.apply_returns {env : Env U} (hrely : Rely env) {tid : ThreadId}
    (hret : Returns env tid) {w : World U} (hinv : Inv w) (htid : w.loop.threadId_ = tid)
    (op : Op) (hf : op.fresh w = true) :
    ∃ w', op.apply env tid w = some w' ∧ Inv w' ∧ w'.loop.threadId_ = tid := by
  cases op with
  | addTimer addr cb when interval =>
    simp only [Op.fresh, Bool.and_eq_true, Option.isNone_iff_eq_none, decide_eq_true_eq] at hf
    have hadd := @addTimer_eq U env w hinv tid htid addr hf.1 cb when interval
    have g := addTimer_guar htid hf.1 hf.2 hadd
    exact ⟨_, by simp only [Op.apply, hadd, Option.map_some'], g.inv hinv, g.thread.trans htid⟩
  | cancel timerId =>
    obtain ⟨w', h⟩ := cancelInLoop_returns hinv htid timerId
    have hc : TimerQueue.cancel env tid timerId w = some w' := by
      rw [cancel_of_thread env htid]
      exact h
    have g := cancel_guar htid hc
    exact ⟨w', hc, g.inv hinv, g.thread.trans htid⟩
  | handleRead now =>
    obtain ⟨w', h⟩ := handleRead_returns hrely hret hinv htid now
    obtain ⟨h₁, h₂⟩ := handleRead_inv hrely hinv htid h
    exact ⟨w', h, h₁, h₂⟩

/-- Any number of calls made on the loop thread from a consistent state:
they return, in a consistent state. -/
theorem runOps_returns {env : Env U} (hrely : Rely env) {tid : ThreadId}
    (hret : Returns env tid) :
    ∀ (ops : List Op) (w : World U), Inv w → w.loop.threadId_ = tid →
      admissible env tid ops w = true →
      ∃ w', runOps env tid ops w = some w' ∧ Inv w' ∧ w'.loop.threadId_ = tid := by
  intro ops
  induction ops with
  | nil =>
    intro w hinv htid _
    exact ⟨w, rfl, hinv, htid⟩
  | cons op rest ih =>
    intro w hinv htid hadm
    simp only [admissible, Bool.and_eq_true] at hadm
    obtain ⟨w₁, h₁, hinv₁, htid₁⟩ := Op.apply_returns hrely hret hinv htid op hadm.1
    have hadm₂ := hadm.2
    rw [h₁] at hadm₂
    obtain ⟨w', h', hinv', htid'⟩ := ih w₁ hinv₁ htid₁ hadm₂
    exact ⟨w', by simp only [runOps, h₁, Option.some_bind]; exact h', hinv', htid'⟩

end TimerQueue

namespace TimerQueue

/-- Under the rely condition the added assertions of `checkSizes` hold in
every consistent state. -/
theorem checkSizes_eq {env : Env U} (hrely : Rely env) (call : Call) (w : World U)
    (hinv : Inv w) : checkSizes env call w = env call w := by
  unfold checkSizes
  rw [(assertSizes_eq_some w ()).mpr hinv.sizes]
  simp only [Option.some_bind]
  cases h : env call w with
  | none => rfl
  | some w' =>
    have hs := ((hrely _ _ _ h).1.inv hinv).sizes
    simp only [Option.some_bind, (assertSizes_eq_some w' ()).mpr hs]

theorem runExpired_congr {env env' : Env U} (hrely : Rely env)
    (hagree : ∀ call w, Inv w → env' call w = env call w) :
    ∀ (expired : List Entry) (w : World U), Inv w → (∀ it ∈ expired, Detached w it.2) →
      runExpired env' expired w = runExpired env expired w := by
  intro expired
  induction expired with
  | nil =>
    intro w _ _
    rfl
  | cons it rest ih =>
    intro w hinv hdet
    obtain ⟨t, ht⟩ := (hdet it (List.mem_cons_self _ _)).1
    have hinv₀ : Inv { w with timerRuns := w.timerRuns ++ [⟨it.2, t.sequence_⟩] } :=
      hinv.carry rfl rfl rfl rfl
    simp only [runExpired, Timer.run, ht, Option.some_bind]
    rw [hagree _ _ hinv₀]
    cases h : env (Call.timer t.callback_)
        { w with timerRuns := w.timerRuns ++ [⟨it.2, t.sequence_⟩] } with
    | none => rfl
    | some w₁ =>
      obtain ⟨g₁, -⟩ := hrely _ _ _ h
      have g₀ : Guar w { w with timerRuns := w.timerRuns ++ [⟨it.2, t.sequence_⟩] } :=
        Guar.of_frame rfl rfl rfl rfl
      have g : Guar w w₁ := g₀.andThen g₁
      simp only [Option.some_bind]
      exact ih w₁ (g.inv hinv)
        (fun it' hit' => (g.detached hinv _ (hdet it' (List.mem_cons_of_mem _ hit'))).1)

theorem handleRead_congr {env env' : Env U} (hrely : Rely env)
    (hagree : ∀ call w, Inv w → env' call w = env call w) {w : World U} (hinv : Inv w)
    {tid : ThreadId} (htid : w.loop.threadId_ = tid) (now : Timestamp) :
    handleRead env' tid now w = handleRead env tid now w := by
  obtain ⟨active, hget, hinvx, hdetx, heq⟩ := @handleRead_eq U env w hinv tid htid now
  obtain ⟨active', hget', -, -, heq'⟩ := @handleRead_eq U env' w hinv tid htid now
  rw [hget] at hget'
  have hst : expiredOut now active w = expiredOut now active' w :=
    congrArg Prod.snd (Option.some.inj hget')
  rw [heq, heq', ← hst, runExpired_congr hrely hagree _ _ (inv_batchStart hinvx)
    (fun it hit => (hdetx it hit).move rfl rfl rfl)]

theorem addTimer_env (env env' : Env U) (tid : ThreadId) (addr : TimerPtr) (cb : CbId)
    (when : Timestamp) (interval : Int) (w : World U) :
    addTimer env' tid addr cb when interval w = addTimer env tid addr cb when interval w := by
  have h : ∀ w₁ : World U, EventLoop.runInLoop env' tid (Functor.addTimerInLoop addr) w₁
      = EventLoop.runInLoop env tid (Functor.addTimerInLoop addr) w₁ := by
    intro w₁
    unfold EventLoop.runInLoop
    split <;> rfl
  simp only [addTimer, h]

theorem Op.apply_congr {env env' : Env U} (hrely : Rely env)
    (hagree : ∀ call w, Inv w → env' call w = env call w) {w : World U} (hinv : Inv w)
    {tid : ThreadId} (htid : w.loop.threadId_ = tid) (op : Op) :
    op.apply env' tid w = op.apply env tid w := by
  cases op with
  | addTimer addr cb when interval =>
    simp only [Op.apply, addTimer_env env env']
  | cancel timerId =>
    simp only [Op.apply, cancel_env env' env]
  | handleRead now =>
    exact handleRead_congr hrely hagree hinv htid now

theorem runOps_congr {env env' : Env U} (hrely : Rely env) {tid : ThreadId}
    (hret : Returns env tid) (hagree : ∀ call w, Inv w → env' call w = env call w) :
    ∀ (ops : List Op) (w : World U), Inv w → w.loop.threadId_ = tid →
      admissible env tid ops w = true → runOps env' tid ops w = runOps env tid ops w := by
  intro ops
  induction ops with
  | nil =>
    intro w _ _ _
    rfl
  | cons op rest ih =>
    intro w hinv htid hadm
    simp only [admissible, Bool.and_eq_true] at hadm
    obtain ⟨w₁, h₁, hinv₁, htid₁⟩ := Op.apply_returns hrely hret hinv htid op hadm.1
    have hadm₂ := hadm.2
    rw [h₁] at hadm₂
    simp only [runOps, Op.apply_congr hrely hagree hinv htid op, h₁, Option.some_bind]
    exact ih w₁ hinv₁ htid₁ hadm₂

end TimerQueue

namespace TimerQueue

/-- C13.  Start from a timer queue as the constructor leaves it and let the loop
thread make any calls of `addTimer`, `cancel` and `handleRead`, in any number
and order; the timer callbacks are arbitrary user code that returns and
touches the timer queue only through `addTimer` and `cancel` (`Rely`).  Then

* every call returns: no `assert`, in particular none of
  `timers_.size() == activeTimers_.size()`, fails;
* the run is the same with that assertion added on entry to and on return
  from every callback (`checkSizes`): the sizes are equal whenever a timer
  callback starts or ends;
* in the state `w` reached, the sizes are equal; `cancelInLoop` of any id
  and `insert` of any allocated timer that is in neither set return with
  equal sizes; for every `now`, `getExpired(now)` returns with equal sizes,
  and when the callbacks of the batch have run the sizes are equal and `reset`
  returns with equal sizes. -/
theorem sizes_equal_invariant (env : Env U) (tid : ThreadId) (hrely : Rely env)
    (hret : Returns env tid) (w₀ : World U) (hinit : Initial w₀)
    (htid : w₀.loop.threadId_ = tid) (ops : List Op)
    (hadm : admissible env tid ops w₀ = true) :
    ∃ w, runOps env tid ops w₀ = some w
      ∧ runOps (checkSizes env) tid ops w₀ = some w
      ∧ w.timerQueue.timers_.length = w.timerQueue.activeTimers_.length
      ∧ (∀ timerId, ∃ w', cancelInLoop tid timerId w = some w'
          ∧ w'.timerQueue.timers_.length = w'.timerQueue.activeTimers_.length)
      ∧ (∀ p, Detached w p → ∃ r, insert tid p w = some r
          ∧ r.2.timerQueue.timers_.length = r.2.timerQueue.activeTimers_.length)
      ∧ ∀ now, ∃ expired w₁, getExpired now w = some (expired, w₁)
          ∧ w₁.timerQueue.timers_.length = w₁.timerQueue.activeTimers_.length
          ∧ ∀ w₂, runExpired env expired (batchStart w₁) = some w₂ →
              w₂.timerQueue.timers_.length = w₂.timerQueue.activeTimers_.length
                ∧ ∃ w₃, reset tid expired now (batchEnd w₂) = some w₃
                  ∧ w₃.timerQueue.timers_.length = w₃.timerQueue.activeTimers_.length := by
  obtain ⟨w, hrun, hinv, htid'⟩ := runOps_returns hrely hret ops w₀ hinit.inv htid hadm
  refine ⟨w, hrun, ?_, hinv.sizes, ?_, ?_, ?_⟩
  · rw [runOps_congr hrely hret (checkSizes_eq hrely) ops w₀ hinit.inv htid hadm]
    exact hrun
  · intro timerId
    obtain ⟨w', h⟩ := cancelInLoop_returns hinv htid' timerId
    exact ⟨w', h, (cancelInLoop_inv hinv h).sizes⟩
  · intro p hd
    obtain ⟨t, ht⟩ := hd.1
    refine ⟨(earliest t w, inserted p t w), ?_, ?_⟩
    · exact (insert_eq_some_iff tid p w _).mpr
        ⟨t, htid', hinv.sizes, ht, fun hm => hd.2.1 _ hm rfl, fun hm => hd.2.2 _ hm rfl, rfl⟩
    · show (OrdSet.place entryLt (t.expiration_, p) w.timerQueue.timers_).length
        = (OrdSet.place activeLt (p, t.sequence_) w.timerQueue.activeTimers_).length
      rw [OrdSet.length_place, OrdSet.length_place, hinv.sizes]
  · intro now
    obtain ⟨active, hget, hinvx, -, -, -, hdetx⟩ := getExpired_spec hinv now
    refine ⟨_, _, hget, hinvx.sizes, ?_⟩
    intro w₂ hrun₂
    have hinvs : Inv (batchStart (expiredOut now active w)) := inv_batchStart hinvx
    have hdets : ∀ it ∈ batch now w, Detached (batchStart (expiredOut now active w)) it.2 :=
      fun it hit => (hdetx it hit).move rfl rfl rfl
    obtain ⟨g, -⟩ := runExpired_spec hrely _ _ _ hinvs hdets hrun₂
    have htid₂ : (batchEnd w₂).loop.threadId_ = tid := by
      show w₂.loop.threadId_ = tid
      rw [g.thread]
      exact htid'
    obtain ⟨-, w₃, -, hreset, hinv₃, -⟩ := reset_spec tid now (batch now w) (batchEnd w₂)
      (inv_batchEnd (g.inv hinvs)) htid₂ (batch_ptrs_nodup hinv now)
      (fun it hit => ((g.detached hinvs it.2 (hdets it hit)).1).move rfl rfl rfl)
    exact ⟨(g.inv hinvs).sizes, w₃, hreset, hinv₃.sizes⟩

end TimerQueue

namespace TimerQueue

theorem busyEnv_rely : Rely Demo.busyEnv := by
  intro call w w' h
  unfold Demo.busyEnv at h
  have g₀ : Guar w { w with user := w.user ++ [call] } := Guar.of_frame rfl rfl rfl rfl
  split at h
  · obtain ⟨g, r⟩ := cancel_rely h
    exact ⟨g₀.andThen g, r⟩
  · split at h
    · rename_i hc
      obtain ⟨r, hr, rfl⟩ := Option.map_eq_some'.mp h
      have hb : 70 < UINTPTR_MAX := by decide
      have hr₁ : addTimer Demo.logEnv 1 70 41 5000 0 { w with user := w.user ++ [call] }
          = some (r.1, r.2) := hr
      have g := @addTimer_guar _ Demo.logEnv { w with user := w.user ++ [call] } r.2 1 70 41
        5000 0 r.1 hc.2.1 hc.2.2 hb hr₁
      have hr₂ : addTimer Demo.logEnv
          ({ w with user := w.user ++ [call] } : World (List Call)).loop.threadId_
          70 41 5000 0 { w with user := w.user ++ [call] } = some (r.1, r.2) := by
        have e : ({ w with user := w.user ++ [call] } : World (List Call)).loop.threadId_ = 1 :=
          hc.2.1
        rw [e]
        exact hr₁
      have hruns := @addTimer_runs _ Demo.logEnv { w with user := w.user ++ [call] } r.2 70 41
        5000 0 r.1 hr₂
      exact ⟨g₀.andThen g, hruns⟩
    · cases h
      exact ⟨g₀, rfl⟩

theorem busyEnv_returns : Returns Demo.busyEnv 1 := by
  intro call w hinv htid
  have hinv₀ : Inv { w with user := w.user ++ [call] } := hinv.carry rfl rfl rfl rfl
  have htid₀ : ({ w with user := w.user ++ [call] } : World (List Call)).loop.threadId_ = 1 :=
    htid
  unfold Demo.busyEnv
  split
  · rw [cancel_of_thread _ htid₀]
    exact cancelInLoop_returns hinv₀ htid₀ _
  · split
    · rename_i hc
      rw [@addTimer_eq _ Demo.logEnv _ hinv₀ 1 htid₀ 70 hc.2.2 41 5000 0]
      exact ⟨_, rfl⟩
    · exact ⟨_, rfl⟩

/-- Witness for C13.  In `Demo.busyOps` three timers are due in one batch; the
callback of the first cancels the second, which is in the batch, and the
callback of the second adds a timer.  The run returns: the three timers of
the batch are gone and the added timer is alone in both sets. -/
theorem sizes_equal_invariant_witness :
    Rely Demo.busyEnv ∧ Returns Demo.busyEnv 1 ∧ Initial Demo.worldA
      ∧ admissible Demo.busyEnv 1 Demo.busyOps Demo.worldA = true
      ∧ (runOps Demo.busyEnv 1 Demo.busyOps Demo.worldA).map
          (fun w => (w.timerQueue.timers_, w.timerQueue.activeTimers_, w.user))
          = some ([(5000, 70)], [(70, 4)], [Call.timer 30, Call.timer 40, Call.timer 42])
      ∧ ∃ w, runOps Demo.busyEnv 1 Demo.busyOps Demo.worldA = some w
        ∧ runOps (checkSizes Demo.busyEnv) 1 Demo.busyOps Demo.worldA = some w
        ∧ w.timerQueue.timers_.length = w.timerQueue.activeTimers_.length := by
  have hinit : Initial Demo.worldA := ⟨rfl, rfl, fun _ => rfl⟩
  have hadm : admissible Demo.busyEnv 1 Demo.busyOps Demo.worldA = true := by decide
  obtain ⟨w, h₁, h₂, h₃, -⟩ := sizes_equal_invariant Demo.busyEnv 1 busyEnv_rely
    busyEnv_returns Demo.worldA hinit rfl Demo.busyOps hadm
  exact ⟨busyEnv_rely, busyEnv_returns, hinit, hadm, by decide, w, h₁, h₂, h₃⟩

end TimerQueue

/-! ### `TimerQueue`: the kernel timer -/

namespace TimerQueue

/-- The first entry of `timers_` has the earliest expiration. -/
theorem head_le {w : World U} (hinv : Inv w) {it : Entry}
    (hh : w.timerQueue.timers_.head? = some it) : ∀ e ∈ w.timerQueue.timers_, it.1 ≤ e.1 := by
  have hs := hinv.sortedTimers
  unfold OrdSet.Sorted at hs
  cases hl : w.timerQueue.timers_ with
  | nil =>
    rw [hl] at hh
    cases hh
  | cons x xs =>
    rw [hl] at hh hs
    have hx : x = it := Option.some.inj hh
    subst hx
    intro e he
    rcases List.mem_cons.mp he with rfl | he
    · exact le_refl _
    · rcases (entryLt_iff x e).mp ((List.pairwise_cons.mp hs).1 e he) with h | ⟨h, -⟩
      · exact Int.le_of_lt h
      · exact Int.le_of_eq h

/-- A returning `addTimer` on the loop thread keeps `ArmedLe` and `Periodic`. -/
theorem armed_addTimer {env : Env U} {w w' : World U} (hinv : Inv w) {tid : ThreadId}
    (htid : w.loop.threadId_ = tid) {addr : TimerPtr} (hfree : w.timerHeap addr = none)
    {cb : CbId} {when : Timestamp} {interval : Int} {timerId : TimerId}
    (hadd : addTimer env tid addr cb when interval w = some (timerId, w'))
    (ha : ArmedLe w) (hp : Periodic w) : ArmedLe w' ∧ Periodic w' := by
  rw [@addTimer_eq U env w hinv tid htid addr hfree cb when interval] at hadd
  have hw := congrArg Prod.snd (Option.some.inj hadd)
  simp only at hw
  have hper : Periodic (allocated addr cb when interval w) := by
    intro q u hq hr
    by_cases hqa : q = addr
    · have : u = Timer.construct cb when interval (w.numCreated + 1) := by
        simpa [allocated, hqa] using hq.symm
      subst this
      simpa [Timer.construct] using hr
    · exact hp q u (by simpa [allocated, hqa] using hq) hr
  have hmem : ∀ e, e ∈ (inserted addr (Timer.construct cb when interval (w.numCreated + 1))
      (allocated addr cb when interval w)).timerQueue.timers_
      ↔ e = (when, addr) ∨ e ∈ w.timerQueue.timers_ := by
    intro e
    show e ∈ OrdSet.place entryLt (when, addr) w.timerQueue.timers_ ↔ _
    exact OrdSet.mem_place _ _ _
  by_cases he : earliest (Timer.construct cb when interval (w.numCreated + 1))
      (allocated addr cb when interval w) = true
  · rw [if_pos he] at hw
    subst hw
    refine ⟨?_, hper⟩
    intro e hmem'
    refine ⟨when, rfl, ?_⟩
    rcases (hmem e).mp hmem' with rfl | h
    · exact le_refl _
    · have he' : (match w.timerQueue.timers_.head? with
          | none => true
          | some it => decide (when < it.1)) = true := he
      cases hh : w.timerQueue.timers_.head? with
      | none =>
        have : w.timerQueue.timers_ = [] := List.head?_eq_none_iff.mp hh
        rw [this] at h
        cases h
      | some it =>
        rw [hh] at he'
        have hlt : when < it.1 := of_decide_eq_true he'
        exact le_trans (Int.le_of_lt hlt) (head_le hinv hh e h)
  · rw [if_neg he] at hw
    subst hw
    refine ⟨?_, hper⟩
    intro e hmem'
    rcases (hmem e).mp hmem' with rfl | h
    · have he' : ¬ (match w.timerQueue.timers_.head? with
          | none => true
          | some it => decide (when < it.1)) = true := he
      cases hh : w.timerQueue.timers_.head? with
      | none =>
        rw [hh] at he'
        exact absurd rfl he'
      | some it =>
        rw [hh] at he'
        have hle : it.1 ≤ when := Int.not_lt.mp (fun h => he' (decide_eq_true h))
        obtain ⟨a, h₁, h₂⟩ := ha it (List.mem_of_mem_head? hh)
        exact ⟨a, h₁, le_trans h₂ hle⟩
    · exact ha e h

/-- A returning `cancelInLoop` keeps `ArmedLe` and `Periodic`. -/
theorem armed_cancelInLoop {w w' : World U} (hinv : Inv w) {tid : ThreadId}
    {timerId : TimerId} (hr : cancelInLoop tid timerId w = some w')
    (ha : ArmedLe w) (hp : Periodic w) : ArmedLe w' ∧ Periodic w' := by
  obtain ⟨-, ⟨t, -, -, rfl⟩ | ⟨-, -, rfl⟩ | ⟨-, -, rfl⟩⟩ := cancelInLoop_shape hr
  · constructor
    · intro e he
      have hn := OrdSet.Sorted.nodup entryLt_strictTotal hinv.sortedTimers
      have he' : e ∈ (OrdSet.erase (t.expiration_, timerId.timer) w.timerQueue.timers_).1 := he
      exact ha e ((OrdSet.mem_erase hn _ _).mp he').2
    · intro q u hq hr'
      by_cases hqp : q = timerId.timer
      · simp [erased, hqp] at hq
      · exact hp q u (by simpa [erased, hqp] using hq) hr'
  · exact ⟨ha, hp⟩
  · exact ⟨ha, hp⟩

end TimerQueue

namespace TimerQueue

/-- The callbacks of a batch keep `ArmedLe` and `Periodic`, under the rely
conditions. -/
theorem armed_runExpired {env : Env U} (hrely : Rely env) (harmed : RelyArmed env) :
    ∀ (expired : List Entry) (w w' : World U), Inv w →
      (∀ it ∈ expired, Detached w it.2) → runExpired env expired w = some w' →
      ArmedLe w ∧ Periodic w → ArmedLe w' ∧ Periodic w' := by
  intro expired
  induction expired with
  | nil =>
    intro w w' _ _ h ha
    simp only [runExpired, Option.some.injEq] at h
    subst h
    exact ha
  | cons it rest ih =>
    intro w w' hinv hdet h ha
    simp only [runExpired, Option.bind_eq_some] at h
    obtain ⟨w₁, h₁, h₂⟩ := h
    obtain ⟨t, ht, hcall⟩ := run_eq_some h₁
    obtain ⟨g₁, -⟩ := hrely _ _ _ hcall
    have g₀ : Guar w { w with timerRuns := w.timerRuns ++ [⟨it.2, t.sequence_⟩] } :=
      Guar.of_frame rfl rfl rfl rfl
    have g : Guar w w₁ := g₀.andThen g₁
    have hinv₀ : Inv { w with timerRuns := w.timerRuns ++ [⟨it.2, t.sequence_⟩] } :=
      hinv.carry rfl rfl rfl rfl
    have ha₁ := harmed _ _ _ hcall hinv₀ ha
    exact ih w₁ w' (g.inv hinv)
      (fun it' hit' => (g.detached hinv _ (hdet it' (List.mem_cons_of_mem _ hit'))).1) h₂ ha₁

theorem restartObj_repeat (now : Timestamp) (t : Timer) :
    (Timer.restartObj now t).repeat_ = t.repeat_ := by
  unfold Timer.restartObj
  split <;> rfl

theorem restartObj_interval (now : Timestamp) (t : Timer) :
    (Timer.restartObj now t).interval_ = t.interval_ := by
  unfold Timer.restartObj
  split <;> rfl

/-- After `reset` at a time `now ≥ 0`: a timer that repeats still has a
positive interval, and the kernel timer is armed for the earliest expiration
if that is valid, and otherwise as before, not later than it. -/
theorem armed_reset {tid : ThreadId} {now : Timestamp} (hnow : 0 ≤ now)
    {expired : List Entry} {w w' : World U} (hinv : Inv w) (htid : w.loop.threadId_ = tid)
    (hnd : (expired.map (fun it => it.2)).Nodup) (hdet : ∀ it ∈ expired, Detached w it.2)
    (hreset : reset tid expired now w = some w') (ha : ArmedLe w) (hp : Periodic w) :
    ArmedLe w' ∧ Periodic w' := by
  obtain ⟨w₁, w'', hloop, hreset', hinv', -, hheap', htimers', -, harm⟩ :=
    reset_spec tid now expired w hinv htid hnd hdet
  rw [hreset] at hreset'
  cases hreset'
  obtain ⟨w₁', hloop', -, -, -, hout, -, hin, hmemT, -⟩ :=
    resetLoop_spec tid now expired w hinv htid hnd hdet
  rw [hloop] at hloop'
  cases hloop'
  constructor
  · intro e he
    cases hh : w'.timerQueue.timers_.head? with
    | none =>
      have : w'.timerQueue.timers_ = [] := List.head?_eq_none_iff.mp hh
      rw [this] at he
      cases he
    | some it =>
      have hle : it.1 ≤ e.1 := head_le hinv' hh e he
      rw [htimers'] at hh
      rw [hh] at harm
      dsimp only at harm
      by_cases hv : Timestamp.valid it.1 = true
      · rw [if_pos hv] at harm
        exact ⟨it.1, harm, hle⟩
      · rw [if_neg hv] at harm
        rcases (hmemT it).mp (List.mem_of_mem_head? hh) with h | ⟨it', hit', t, ht, hk, hx⟩
        · obtain ⟨a, h₁, h₂⟩ := ha it h
          exact ⟨a, harm.trans h₁, le_trans h₂ hle⟩
        · exfalso
          apply hv
          have hpos := hp _ t ht hk.1
          have hexp : it.1 = now + t.interval_ := by
            rw [hx]
            simp [Timer.restartObj, hk.1, addTime]
          simp only [Timestamp.valid, decide_eq_true_eq, hexp]
          exact Int.add_pos_of_nonneg_of_pos hnow hpos
  · intro q u hq hr
    rw [hheap'] at hq
    by_cases hmem : ∃ it ∈ expired, it.2 = q
    · obtain ⟨it, hit, rfl⟩ := hmem
      obtain ⟨t, ht⟩ := (hdet it hit).1
      by_cases hk : Keep w it.2 t
      · rw [(hin it hit t ht).1 hk] at hq
        cases hq
        rw [restartObj_interval]
        rw [restartObj_repeat] at hr
        exact hp _ t ht hr
      · rw [(hin it hit t ht).2 hk] at hq
        cases hq
    · have : ∀ it ∈ expired, it.2 ≠ q := fun it hit e => hmem ⟨it, hit, e⟩
      rw [hout q this] at hq
      exact hp q u hq hr

/-- A returning `handleRead` at a time `now ≥ 0` keeps `ArmedLe` and
`Periodic`, under the rely conditions. -/
theorem armed_handleRead {env : Env U} (hrely : Rely env) (harmed : RelyArmed env)
    {w w' : World U} (hinv : Inv w) {tid : ThreadId} (htid : w.loop.threadId_ = tid)
    {now : Timestamp} (hnow : 0 ≤ now) (h : handleRead env tid now w = some w')
    (ha : ArmedLe w) (hp : Periodic w) : ArmedLe w' ∧ Periodic w' := by
  obtain ⟨active, -, hinvx, hdetx, heq⟩ := @handleRead_eq U env w hinv tid htid now
  rw [heq] at h
  obtain ⟨w₂, hrun, hreset⟩ := Option.bind_eq_some.mp h
  have hinvs : Inv (batchStart (expiredOut now active w)) := inv_batchStart hinvx
  have hdets : ∀ it ∈ batch now w, Detached (batchStart (expiredOut now active w)) it.2 :=
    fun it hit => (hdetx it hit).move rfl rfl rfl
  obtain ⟨g, -⟩ := runExpired_spec hrely _ _ _ hinvs hdets hrun
  have htid₂ : (batchEnd w₂).loop.threadId_ = tid := by
    show w₂.loop.threadId_ = tid
    rw [g.thread]
    exact htid
  have has : ArmedLe (batchStart (expiredOut now active w)) := by
    intro e he
    have he' : e ∈ w.timerQueue.timers_.dropWhile (fun e => entryLt e (now, UINTPTR_MAX)) := he
    exact ha e ((List.dropWhile_sublist _).subset he')
  have hps : Periodic (batchStart (expiredOut now active w)) := hp
  obtain ⟨ha₂, hp₂⟩ := armed_runExpired hrely harmed _ _ _ hinvs hdets hrun ⟨has, hps⟩
  exact armed_reset hnow (inv_batchEnd (g.inv hinvs)) htid₂ (batch_ptrs_nodup hinv now)
    (fun it hit => ((g.detached hinvs it.2 (hdets it hit)).1).move rfl rfl rfl) hreset ha₂ hp₂

end TimerQueue

namespace TimerQueue

/-- A call of `Op` that returns, made on the loop thread in a consistent state
with `ArmedLe` and `Periodic`, leaves such a state. -/
theorem Op.apply_armed {env : Env U} (hrely : Rely env) (harmed : RelyArmed env)
    {tid : ThreadId} {w w' : World U} (hinv : Inv w) (htid : w.loop.threadId_ = tid)
    (op : Op) (hf : op.fresh w = true) (ht : op.timely = true)
    (h : op.apply env tid w = some w') (ha : ArmedLe w ∧ Periodic w) :
    Inv w' ∧ w'.loop.threadId_ = tid ∧ ArmedLe w' ∧ Periodic w' := by
  cases op with
  | addTimer addr cb when interval =>
    simp only [Op.fresh, Bool.and_eq_true, Option.isNone_iff_eq_none, decide_eq_true_eq] at hf
    obtain ⟨r, hr, rfl⟩ := Option.map_eq_some'.mp h
    have hr' : TimerQueue.addTimer env tid addr cb when interval w = some (r.1, r.2) := hr
    have g := addTimer_guar htid hf.1 hf.2 hr'
    exact ⟨g.inv hinv, g.thread.trans htid, armed_addTimer hinv htid hf.1 hr' ha.1 ha.2⟩
  | cancel timerId =>
    have hc : TimerQueue.cancel env tid timerId w = some w' := h
    have g := cancel_guar htid hc
    rw [cancel_of_thread env htid] at hc
    exact ⟨g.inv hinv, g.thread.trans htid, armed_cancelInLoop hinv hc ha.1 ha.2⟩
  | handleRead now =>
    have hh : TimerQueue.handleRead env tid now w = some w' := h
    have hnow : 0 ≤ now := by simpa [Op.timely] using ht
    obtain ⟨h₁, h₂⟩ := handleRead_inv hrely hinv htid hh
    exact ⟨h₁, h₂, armed_handleRead hrely harmed hinv htid hnow hh ha.1 ha.2⟩

theorem runOps_armed {env : Env U} (hrely : Rely env) (harmed : RelyArmed env)
    {tid : ThreadId} :
    ∀ (ops : List Op) (w w' : World U), Inv w → w.loop.threadId_ = tid →
      admissible env tid ops w = true → (∀ op ∈ ops, op.timely = true) →
      runOps env tid ops w = some w' → ArmedLe w ∧ Periodic w →
      Inv w' ∧ w'.loop.threadId_ = tid ∧ ArmedLe w' ∧ Periodic w' := by
  intro ops
  induction ops with
  | nil =>
    intro w w' hinv htid _ _ h ha
    simp only [runOps, Option.some.injEq] at h
    subst h
    exact ⟨hinv, htid, ha⟩
  | cons op rest ih =>
    intro w w' hinv htid hadm ht h ha
    simp only [admissible, Bool.and_eq_true] at hadm
    simp only [runOps, Option.bind_eq_some] at h
    obtain ⟨w₁, h₁, h₂⟩ := h
    have hadm₂ := hadm.2
    rw [h₁] at hadm₂
    obtain ⟨hinv₁, htid₁, ha₁⟩ := Op.apply_armed hrely harmed hinv htid op hadm.1
      (ht op (List.mem_cons_self _ _)) h₁ ha
    exact ih w₁ w' hinv₁ htid₁ hadm₂ (fun o ho => ht o (List.mem_cons_of_mem _ ho)) h₂ ha₁

/-- After a returning `handleRead`, when a timer remains and the earliest
expiration is valid, the kernel timer is armed for it. -/
theorem handleRead_rearms {env : Env U} (hrely : Rely env) {w w' : World U} (hinv : Inv w)
    {tid : ThreadId} (htid : w.loop.threadId_ = tid) {now : Timestamp}
    (h : handleRead env tid now w = some w') {e : Entry}
    (hh : w'.timerQueue.timers_.head? = some e) (hv : Timestamp.valid e.1 = true) :
    w'.timerQueue.timerfdArmed = some e.1 ∧ ∀ e' ∈ w'.timerQueue.timers_, e.1 ≤ e'.1 := by
  obtain ⟨active, w₂, -, -, -, hinv₂, htid₂, hdet₂, hreset, hinv', -⟩ :=
    handleRead_spec hrely hinv htid h
  obtain ⟨w₁, w'', -, hreset', -, -, -, htimers', -, harm⟩ :=
    reset_spec tid now (batch now w) (batchEnd w₂) hinv₂ htid₂ (batch_ptrs_nodup hinv now)
      (fun it hit => (hdet₂ it hit).1)
  rw [hreset] at hreset'
  cases hreset'
  refine ⟨?_, head_le hinv' hh⟩
  rw [htimers'] at hh
  rw [hh] at harm
  dsimp only at harm
  rw [if_pos hv] at harm
  exact harm

end TimerQueue

namespace TimerQueue

/-- C12, as amended.  Start from a timer queue as the constructor leaves it and
let the loop thread make any calls of `addTimer`, `cancel` and `handleRead` (at
times `now ≥ 0`), each of which returns; the timer callbacks are arbitrary
user code that touches the timer queue only through `addTimer` and `cancel`
(`Rely`, `RelyArmed`).  In the state reached, whenever `timers_` is not empty
the kernel timer has been armed and the expiration last passed to
`resetTimerfd` is at most the expiration of every timer in `timers_`: the
kernel timer does not fire late.  It is the minimum after every `handleRead`
that leaves a timer whose earliest expiration is valid; `cancelInLoop` never
re-arms, so after a cancellation it can be earlier than the minimum. -/
theorem armed_not_late (env : Env U) (tid : ThreadId) (hrely : Rely env)
    (harmed : RelyArmed env) (w₀ : World U) (hinit : Initial w₀)
    (htid : w₀.loop.threadId_ = tid) (ops : List Op)
    (hadm : admissible env tid ops w₀ = true) (htimely : ∀ op ∈ ops, op.timely = true)
    (w : World U) (hrun : runOps env tid ops w₀ = some w) :
    ArmedLe w
      ∧ ∀ now w', handleRead env tid now w = some w' →
          ∀ e, w'.timerQueue.timers_.head? = some e → Timestamp.valid e.1 = true →
            w'.timerQueue.timerfdArmed = some e.1
              ∧ ∀ e' ∈ w'.timerQueue.timers_, e.1 ≤ e'.1 := by
  have ha₀ : ArmedLe w₀ := by
    intro e he
    rw [hinit.1] at he
    cases he
  have hp₀ : Periodic w₀ := by
    intro p t hp
    rw [hinit.2.2] at hp
    cases hp
  obtain ⟨hinv, htid', ha, -⟩ := runOps_armed hrely harmed ops w₀ w hinit.inv htid hadm
    htimely hrun ⟨ha₀, hp₀⟩
  exact ⟨ha, fun now w' h e hh hv => handleRead_rearms hrely hinv htid' h hh hv⟩

/-- C12, counterexample to the claim as stated.  In `Demo.staleOps` timers due
at 10 and at 20 are added and the first is cancelled: the kernel timer is
still armed for 10, and the only timer in `timers_` expires at 20. -/
theorem armed_at_min_counterexample :
    ¬ ∀ (ops : List Op) (w : World (List Call)),
        admissible Demo.logEnv 1 ops Demo.worldA = true → (∀ op ∈ ops, op.timely = true) →
        runOps Demo.logEnv 1 ops Demo.worldA = some w → ArmedAtMin w := by
  intro h
  have hv : (runOps Demo.logEnv 1 Demo.staleOps Demo.worldA).map
      (fun w => (w.timerQueue.timerfdArmed, w.timerQueue.timers_))
      = some (some 10, [(20, 65)]) := by decide
  cases hrun : runOps Demo.logEnv 1 Demo.staleOps Demo.worldA with
  | none =>
    rw [hrun] at hv
    cases hv
  | some w =>
    rw [hrun] at hv
    have hv' := Option.some.inj hv
    have h₁ : w.timerQueue.timerfdArmed = some 10 := congrArg Prod.fst hv'
    have h₂ : w.timerQueue.timers_ = [(20, 65)] := congrArg Prod.snd hv'
    obtain ⟨⟨e, he, h10⟩, -⟩ := h Demo.staleOps w (by decide) (by decide) hrun 10 h₁
      (by rw [h₂]; exact List.cons_ne_nil _ _)
    rw [h₂] at he
    have : e = (20, 65) := by simpa using he
    rw [this] at h10
    exact absurd h10 (by decide)

theorem armed_cancel {env : Env U} {w w' : World U} {tid : ThreadId} {timerId : TimerId}
    (hr : cancel env tid timerId w = some w') (hinv : Inv w)
    (ha : ArmedLe w ∧ Periodic w) : ArmedLe w' ∧ Periodic w' := by
  by_cases htid : w.loop.threadId_ = tid
  · rw [cancel_of_thread env htid] at hr
    exact armed_cancelInLoop hinv hr ha.1 ha.2
  · have hin : EventLoop.isInLoopThread tid w = false := by
      simp [EventLoop.isInLoopThread, htid]
    simp only [cancel, EventLoop.runInLoop, hin, Bool.false_eq_true, if_false,
      Option.some.injEq] at hr
    subst hr
    have hq : (EventLoop.queueInLoop tid (Functor.cancelInLoop timerId) w).timerQueue
        = w.timerQueue := by
      unfold EventLoop.queueInLoop
      dsimp only
      split <;> rfl
    have hh : (EventLoop.queueInLoop tid (Functor.cancelInLoop timerId) w).timerHeap
        = w.timerHeap := by
      unfold EventLoop.queueInLoop
      dsimp only
      split <;> rfl
    unfold ArmedLe Periodic
    rw [hq, hh]
    exact ha

theorem busyEnv_relyArmed : RelyArmed Demo.busyEnv := by
  intro call w w' h hinv ha
  have hinv₀ : Inv { w with user := w.user ++ [call] } := hinv.carry rfl rfl rfl rfl
  have ha₀ : ArmedLe ({ w with user := w.user ++ [call] } : World (List Call))
      ∧ Periodic ({ w with user := w.user ++ [call] } : World (List Call)) := ha
  unfold Demo.busyEnv at h
  split at h
  · exact armed_cancel h hinv₀ ha₀
  · split at h
    · rename_i hc
      obtain ⟨r, hr, rfl⟩ := Option.map_eq_some'.mp h
      have hr₁ : addTimer Demo.logEnv 1 70 41 5000 0 { w with user := w.user ++ [call] }
          = some (r.1, r.2) := hr
      exact @armed_addTimer _ Demo.logEnv { w with user := w.user ++ [call] } r.2 hinv₀ 1
        hc.2.1 70 hc.2.2 41 5000 0 r.1 hr₁ ha₀.1 ha₀.2
    · cases h
      exact ha₀

/-- Witness for the amended C12.  In `Demo.busyOps` the callbacks of a batch
cancel a timer of the batch and add a timer due at 5000, which is alone in
`timers_` afterwards: the kernel timer is armed for 5000. -/
theorem armed_not_late_witness :
    Rely Demo.busyEnv ∧ RelyArmed Demo.busyEnv ∧ Initial Demo.worldA
      ∧ admissible Demo.busyEnv 1 Demo.busyOps Demo.worldA = true
      ∧ (∀ op ∈ Demo.busyOps, op.timely = true)
      ∧ ∃ w, runOps Demo.busyEnv 1 Demo.busyOps Demo.worldA = some w
        ∧ w.timerQueue.timerfdArmed = some 5000 ∧ w.timerQueue.timers_ = [(5000, 70)]
        ∧ ArmedLe w := by
  have hinit : Initial Demo.worldA := ⟨rfl, rfl, fun _ => rfl⟩
  have hadm : admissible Demo.busyEnv 1 Demo.busyOps Demo.worldA = true := by decide
  have htimely : ∀ op ∈ Demo.busyOps, op.timely = true := by decide
  have hv : (runOps Demo.busyEnv 1 Demo.busyOps Demo.worldA).map
      (fun w => (w.timerQueue.timerfdArmed, w.timerQueue.timers_))
      = some (some 5000, [(5000, 70)]) := by decide
  cases hrun : runOps Demo.busyEnv 1 Demo.busyOps Demo.worldA with
  | none =>
    rw [hrun] at hv
    cases hv
  | some w =>
    rw [hrun] at hv
    have hv' := Option.some.inj hv
    exact ⟨busyEnv_rely, busyEnv_relyArmed, hinit, hadm, htimely, w, rfl,
      congrArg Prod.fst hv', congrArg Prod.snd hv',
      (armed_not_late Demo.busyEnv 1 busyEnv_rely busyEnv_relyArmed Demo.worldA hinit rfl
        Demo.busyOps hadm htimely w hrun).1⟩

end TimerQueue

/-! ### `PollPoller::updateChannel` -/

namespace PollPoller

theorem toShort_of_lt (n : Nat) (h : n < 2 ^ 15) : toShort n = n := by
  unfold toShort
  omega

theorem modify_eq {self : ChannelPtr} {c : Channel} {w : World U}
    (hc : w.channels self = some c) (f : Channel → Channel) :
    Channel.modify self f w
      = some { w with channels := fun p => if p = self then some (f c) else w.channels p } := by
  simp [Channel.modify, hc]

theorem assertThat_true : assertThat true = some () := rfl

/-- The branch for a new channel, its assertion holding. -/
theorem addChannel_eq {channel : ChannelPtr} {c : Channel} {p : PollPoller} {w : World U}
    (hc : w.channels channel = some c) (hnew : p.channels_ c.fd_ = none)
    (hlen : p.pollfds_.length + 1 < 2 ^ 31) :
    addChannel channel c p w
      = some ({ pollfds_ := p.pollfds_ ++ [freshSlot c],
                channels_ := fun fd => if fd = c.fd_ then some channel else p.channels_ fd },
              { w with channels := fun q =>
                  if q = channel then some { c with index_ := p.pollfds_.length }
                  else w.channels q }) := by
  have hidx : ∀ pfd : PollFd, wrapInt32 ((p.pollfds_ ++ [pfd]).length : Int) - 1
      = p.pollfds_.length := by
    intro pfd
    rw [List.length_append, List.length_singleton, EventLoopThreadPool.wrapInt32_of_lt]
    · push_cast
      omega
    · exact Int.natCast_nonneg _
    · norm_num
      omega
  simp only [addChannel, hnew, Option.isNone_none, assertThat_true, Option.bind_eq_bind,
    Option.some_bind, hidx, modify_eq hc, Option.pure_def]
  rfl

/-- The branch for a channel that has an index, its assertions holding. -/
theorem rewriteChannel_eq {channel : ChannelPtr} {c : Channel} {p : PollPoller} {w : World U}
    (hreg : p.channels_ c.fd_ = some channel) (h₀ : 0 ≤ c.index_)
    (hlen : p.pollfds_.length < 2 ^ 31) {old : PollFd}
    (hold : p.pollfds_[c.index_.toNat]? = some old)
    (hfd : old.fd = c.fd_ ∨ old.fd = -c.fd_ - 1) :
    rewriteChannel channel c p w
      = some ({ p with pollfds_ := p.pollfds_.set c.index_.toNat (encodedSlot c) }, w) := by
  have hlt : c.index_.toNat < p.pollfds_.length := by
    by_contra hge
    rw [List.getElem?_eq_none (Nat.le_of_not_lt hge)] at hold
    cases hold
  have hw : wrapInt32 (p.pollfds_.length : Int) = p.pollfds_.length :=
    EventLoopThreadPool.wrapInt32_of_lt _ (Int.natCast_nonneg _) (by norm_num; omega)
  have hrange : 0 ≤ c.index_ ∧ c.index_ < wrapInt32 (p.pollfds_.length : Int) := by
    rw [hw]
    constructor
    · exact h₀
    · omega
  simp only [rewriteChannel, hreg, Option.isSome_some, assertThat_true, Option.bind_eq_bind,
    Option.some_bind, decide_True, hrange, and_self, hold, hfd, Option.pure_def]
  unfold encodedSlot
  split <;> simp [*]

end PollPoller

namespace PollPoller

/-- Under the assertions of the branch taken: `updateChannel(channel)` on the
loop thread, `c` being the channel
object and `pollfds_` having fewer than `2^31 - 1` slots (the index is an
`int`).

* `c.index_ < 0`, and (the assertion) no channel is registered for its
  descriptor: the call returns; `pollfds_` has the new slot
  `{fd, events, revents = 0}` at the end and the old slots before it, the
  index of the channel is the position of the new slot, `channels_` maps the
  descriptor to the channel, and nothing else changes.
* `c.index_ ≥ 0`, and (the assertions) the channel is registered for its
  descriptor and the slot at its index holds `fd` or `-fd-1`: the call
  returns; the world, the index with it, and `channels_` are as before,
  `pollfds_` has the same length and the same slots but the one at the index,
  which is `{fd or -fd-1, events, revents = 0}`.

`events` is the interest mask of the channel, cast to `short`: the mask
itself when it is below `2^15`. -/
theorem updateChannel_new_or_existing (tid : ThreadId) (channel : ChannelPtr) (c : Channel)
    (p : PollPoller) (w : World U) (htid : w.loop.threadId_ = tid)
    (hc : w.channels channel = some c) (hlen : p.pollfds_.length + 1 < 2 ^ 31) :
    (c.index_ < 0 → p.channels_ c.fd_ = none →
        updateChannel tid channel p w
            = some ({ pollfds_ := p.pollfds_ ++ [freshSlot c],
                      channels_ := fun fd =>
                        if fd = c.fd_ then some channel else p.channels_ fd },
                    { w with channels := fun q =>
                        if q = channel then some { c with index_ := p.pollfds_.length }
                        else w.channels q })
          ∧ (p.pollfds_ ++ [freshSlot c])[p.pollfds_.length]? = some (freshSlot c)
          ∧ ∀ i, i < p.pollfds_.length → (p.pollfds_ ++ [freshSlot c])[i]? = p.pollfds_[i]?)
      ∧ (0 ≤ c.index_ → p.channels_ c.fd_ = some channel →
          ∀ old, p.pollfds_[c.index_.toNat]? = some old →
            old.fd = c.fd_ ∨ old.fd = -c.fd_ - 1 →
            updateChannel tid channel p w
                = some ({ p with pollfds_ := p.pollfds_.set c.index_.toNat (encodedSlot c) }, w)
              ∧ (p.pollfds_.set c.index_.toNat (encodedSlot c)).length = p.pollfds_.length
              ∧ (p.pollfds_.set c.index_.toNat (encodedSlot c))[c.index_.toNat]?
                  = some (encodedSlot c)
              ∧ ∀ i, i ≠ c.index_.toNat →
                  (p.pollfds_.set c.index_.toNat (encodedSlot c))[i]? = p.pollfds_[i]?)
      ∧ (freshSlot c = { fd := c.fd_, events := toShort c.events_, revents := 0 }
          ∧ encodedSlot c = { fd := if c.events_ = 0 then -c.fd_ - 1 else c.fd_,
                              events := toShort c.events_, revents := 0 }
          ∧ (c.events_ < 2 ^ 15 → toShort c.events_ = c.events_)) := by
  have h₀ : EventLoop.assertInLoopThread tid w = some () :=
    (TimerQueue.assertInLoopThread_eq_some tid w ()).mpr htid
  refine ⟨?_, ?_, rfl, rfl, toShort_of_lt _⟩
  · intro hneg hnew
    refine ⟨?_, ?_, ?_⟩
    · simp only [updateChannel, h₀, hc, Option.bind_eq_bind, Option.some_bind, if_pos hneg]
      exact addChannel_eq hc hnew hlen
    · simp
    · intro i hi
      exact List.getElem?_append_left hi
  · intro hge hreg old hold hfd
    have hlt : c.index_.toNat < p.pollfds_.length := by
      by_contra hge'
      rw [List.getElem?_eq_none (Nat.le_of_not_lt hge')] at hold
      cases hold
    refine ⟨?_, List.length_set _ _ _, ?_, ?_⟩
    · simp only [updateChannel, h₀, hc, Option.bind_eq_bind, Option.some_bind,
        if_neg (Int.not_lt.mpr hge)]
      exact rewriteChannel_eq hreg hge (by omega) hold hfd
    · exact List.getElem?_set_self hlt
    · intro i hi
      exact List.getElem?_set_ne (Ne.symm hi)

/-- An instance of each branch: the new channel at address 8 of `Demo.worldN` is added to
the empty poller, in slot 0; in `Demo.pollerR`, where it is registered in slot
0 for `POLLIN | POLLPRI`, an update with the empty interest mask of
`Demo.channelR` rewrites slot 0 to `{-6, 0, 0}`. -/
theorem updateChannel_new_or_existing_witness :
    (updateChannel 1 8 Demo.emptyPoller Demo.worldN).map Demo.pollView
        = some { pollfds := [{ fd := 5, events := 0, revents := 0 }], registered5 := some 8,
                 channel8 := some { Channel.construct 5 with index_ := 0 } }
      ∧ (updateChannel 1 8 Demo.pollerR Demo.worldR).map Demo.pollView
        = some { pollfds := [{ fd := -6, events := 0, revents := 0 }], registered5 := some 8,
                 channel8 := some Demo.channelR }
      ∧ ([] ++ [freshSlot (Channel.construct 5)])[0]? = some (freshSlot (Channel.construct 5))
      ∧ (Demo.pollerR.pollfds_.set 0 (encodedSlot Demo.channelR)).length = 1 :=
  ⟨by decide, by decide,
    ((updateChannel_new_or_existing 1 8 (Channel.construct 5) Demo.emptyPoller Demo.worldN rfl
      rfl (by decide)).1 (by decide) rfl).2.1,
    ((updateChannel_new_or_existing 1 8 Demo.channelR Demo.pollerR Demo.worldR rfl rfl
      (by decide)).2.1 (by decide) rfl _ rfl (Or.inl rfl)).2.1⟩

end PollPoller

namespace PollPoller

/-- C15, at the failing input.  `disableAll()` on a newly constructed channel
for the descriptor 5, at address 8: `updateChannel` takes the branch of a new
channel, which does not look at the interest mask.  The channel is
registered, its mask is empty, and its slot holds the descriptor 5, not
`-5-1`; `removeChannel` asserts `pfd.fd == -channel->fd()-1`, so the
`remove()` that follows does not return.  When the channel has been
registered with a non-empty mask first, `disableAll()` goes through the
other branch, the slot holds `-6` and `remove()` returns. -/
theorem disableAll_new_channel_slot :
    (Channel.disableAll 1 8 Demo.emptyPoller Demo.worldN).map Demo.pollView
        = some { pollfds := [{ fd := 5, events := 0, revents := 0 }], registered5 := some 8,
                 channel8 := some { Channel.construct 5 with index_ := 0,
                                                             addedToLoop_ := true } }
      ∧ (Channel.runInterest 1 8 [Channel.Interest.disableAll, Channel.Interest.remove]
          Demo.emptyPoller Demo.worldN).isNone = true
      ∧ (Channel.runInterest 1 8 [Channel.Interest.enableReading, Channel.Interest.disableAll]
          Demo.emptyPoller Demo.worldN).map Demo.pollView
        = some { pollfds := [{ fd := -6, events := 0, revents := 0 }], registered5 := some 8,
                 channel8 := some { Channel.construct 5 with index_ := 0,
                                                             addedToLoop_ := true } }
      ∧ (Channel.runInterest 1 8
          [Channel.Interest.enableReading, Channel.Interest.disableAll, Channel.Interest.remove]
          Demo.emptyPoller Demo.worldN).isSome = true := by
  refine ⟨?_, ?_, ?_, ?_⟩ <;> decide

end PollPoller

/-! ### `Channel::handleEvent`: the tie, and read before close -/

namespace Channel

/-- The dispatch of `handleEventWithGuard` as a run of the calls of
`dispatchSpec`, for callbacks that leave the ready mask and the callback slots
of the channel as they are. -/
theorem handleEventWithGuard_eq (env : Env U) (self : ChannelPtr) (receiveTime : Timestamp)
    (w : World U) (c : Channel) (hc : w.channels self = some c)
    (hk : ∀ call ∈ dispatchSpec c receiveTime, KeepsDispatch env call self) :
    handleEventWithGuard env self receiveTime w =
      ((modify self (fun c => { c with eventHandling_ := true }) w).bind
        (runCalls env (dispatchSpec c receiveTime))).bind
        (modify self (fun c => { c with eventHandling_ := false })) := by
  unfold handleEventWithGuard
  simp only [Option.bind_eq_bind]
  cases h0 : modify self (fun c => { c with eventHandling_ := true }) w with
  | none => simp [modify, hc] at h0
  | some w₀ =>
    have hw₀ : SameDispatch self c w₀ := by
      simp only [modify, hc, Option.some.injEq] at h0
      subst h0
      exact ⟨{ c with eventHandling_ := true }, by simp, rfl, rfl, rfl, rfl, rfl⟩
    simp only [Option.some_bind]
    unfold dispatchSpec at hk ⊢
    simp only [List.mem_append] at hk
    rw [runCalls_append, runCalls_append, runCalls_append, closeBlock_eq hw₀]
    cases h1 : Muduo.runCalls env (if c.revents_ &&& POLLHUP ≠ 0 ∧ c.revents_ &&& POLLIN = 0
        then c.closeCallback_.toList.map Call.event else []) w₀ with
    | none => simp
    | some w₁ =>
      have hw₁ := SameDispatch.runCalls _ _ _ (fun x hx => hk x (by tauto)) hw₀ h1
      simp only [Option.some_bind]
      rw [errorBlock_eq hw₁]
      cases h2 : Muduo.runCalls env (if c.revents_ &&& POLLERR ≠ 0 ∨ c.revents_ &&& POLLNVAL ≠ 0
        then c.errorCallback_.toList.map Call.event else []) w₁ with
      | none => simp
      | some w₂ =>
        have hw₂ := SameDispatch.runCalls _ _ _ (fun x hx => hk x (by tauto)) hw₁ h2
        simp only [Option.some_bind]
        rw [readBlock_eq receiveTime hw₂]
        cases h3 : Muduo.runCalls env (if c.revents_ &&& POLLIN ≠ 0 ∨ c.revents_ &&& POLLPRI ≠ 0
            ∨ c.revents_ &&& POLLRDHUP ≠ 0
          then c.readCallback_.toList.map (fun cb => Call.read cb receiveTime) else []) w₂ with
        | none => simp
        | some w₃ =>
          have hw₃ := SameDispatch.runCalls _ _ _ (fun x hx => hk x (by tauto)) hw₂ h3
          simp only [Option.some_bind]
          rw [writeBlock_eq hw₃]

/-- C19.  `handleEvent` on the channel `c`, whatever its ready mask and whatever
the callbacks do.  When the channel has been tied and `tie_.lock()` yields no
owner (the owner is gone, or `tie` was given an empty pointer), the call
returns the state it was given: no callback is invoked and the channel is as
before.  When the channel has been tied and the owner is alive, and when the
channel has not been tied, the call is `handleEventWithGuard`. -/
theorem handleEvent_tied (env : Env U) (self : ChannelPtr) (receiveTime : Timestamp)
    (w : World U) (c : Channel) (hc : w.channels self = some c) :
    (c.tied_ = true → (∀ o, c.tie_ = some o → w.alive o = false) →
        handleEvent env self receiveTime w = some w)
      ∧ (c.tied_ = true → (∃ o, c.tie_ = some o ∧ w.alive o = true) →
        handleEvent env self receiveTime w = handleEventWithGuard env self receiveTime w)
      ∧ (c.tied_ = false →
        handleEvent env self receiveTime w = handleEventWithGuard env self receiveTime w) := by
  refine ⟨?_, ?_, ?_⟩
  · intro ht hgone
    simp only [handleEvent, hc, Option.bind_eq_bind, Option.some_bind, ht, if_true]
    cases ho : c.tie_ with
    | none => simp
    | some o => simp [hgone o ho]
  · rintro ht ⟨o, ho, ha⟩
    simp only [handleEvent, hc, Option.bind_eq_bind, Option.some_bind, ht, if_true, ho, ha]
  · intro hu
    simp only [handleEvent, hc, Option.bind_eq_bind, Option.some_bind, hu, Bool.false_eq_true,
      if_false]

/-- Witness for C19: `Demo.channelT` is tied to the owner 3 and has the ready
mask `POLLIN | POLLOUT | POLLHUP | POLLERR`.  With the owner gone the recording
environment sees no call; with the owner alive it sees the read and the write
call. -/
theorem handleEvent_tied_witness :
    Demo.worldG.channels 9 = some Demo.channelT ∧ Demo.channelT.tied_ = true
      ∧ (handleEvent Demo.logEnv 9 100 Demo.worldG).map (fun w => (w.user, w.channels 9))
          = some ([], some Demo.channelT)
      ∧ (handleEvent Demo.logEnv 9 100 Demo.worldL).map (fun w => (w.user, w.channels 9))
          = some ([Call.read 10 100, Call.event 11], some Demo.channelT)
      ∧ handleEvent Demo.logEnv 9 100 Demo.worldG = some Demo.worldG :=
  ⟨rfl, rfl, by decide, by decide,
    (handleEvent_tied Demo.logEnv 9 100 Demo.worldG Demo.channelT rfl).1 rfl
      (fun _ _ => rfl)⟩

end Channel

namespace Channel

theorem handleEvent_untied (env : Env U) (self : ChannelPtr) (receiveTime : Timestamp)
    (w : World U) (c : Channel) (hc : w.channels self = some c) (hu : c.tied_ = false) :
    handleEvent env self receiveTime w = handleEventWithGuard env self receiveTime w := by
  simp only [handleEvent, hc, Option.bind_eq_bind, Option.some_bind, hu, Bool.false_eq_true,
    if_false]

/-- C20.  An untied channel has the read callback `r` and the close callback
`k`; `c` is the channel but for its ready mask.  The callbacks are arbitrary;
they are only required to leave the ready mask and the callback slots of the
channel as they are.

* A dispatch with a ready mask `m₁` that has `POLLIN`, with `POLLHUP` or
  without, makes, between setting and clearing `eventHandling_`, the call of
  the error callback if one is due, then `r(t₁)`, then the call of the write
  callback if one is due: the close callback is not called.
* A dispatch with a ready mask `m₂` that has `POLLHUP` and not `POLLIN`
  calls `k` first, then what else is due.

So over the two dispatches `r` is called before `k`. -/
theorem read_then_close (env : Env U) (self : ChannelPtr) (c : Channel) (r k : CbId)
    (hu : c.tied_ = false) (hr : c.readCallback_ = some r) (hcl : c.closeCallback_ = some k)
    (m₁ : Nat) (t₁ : Timestamp) (w₁ : World U)
    (hc₁ : w₁.channels self = some { c with revents_ := m₁ })
    (hin₁ : m₁ &&& POLLIN ≠ 0)
    (hk₁ : ∀ call ∈ dispatchSpec { c with revents_ := m₁ } t₁, KeepsDispatch env call self)
    (m₂ : Nat) (t₂ : Timestamp) (w₂ : World U)
    (hc₂ : w₂.channels self = some { c with revents_ := m₂ })
    (hin₂ : m₂ &&& POLLIN = 0) (hhup₂ : m₂ &&& POLLHUP ≠ 0)
    (hk₂ : ∀ call ∈ dispatchSpec { c with revents_ := m₂ } t₂, KeepsDispatch env call self) :
    handleEvent env self t₁ w₁
        = ((modify self (fun c => { c with eventHandling_ := true }) w₁).bind
            (runCalls env (errorCalls { c with revents_ := m₁ } ++ [Call.read r t₁]
              ++ writeCalls { c with revents_ := m₁ }))).bind
            (modify self (fun c => { c with eventHandling_ := false }))
      ∧ handleEvent env self t₂ w₂
        = ((modify self (fun c => { c with eventHandling_ := true }) w₂).bind
            (runCalls env (Call.event k :: (errorCalls { c with revents_ := m₂ }
              ++ readCalls { c with revents_ := m₂ } t₂
              ++ writeCalls { c with revents_ := m₂ })))).bind
            (modify self (fun c => { c with eventHandling_ := false })) := by
  have hd₁ : dispatchSpec { c with revents_ := m₁ } t₁
      = errorCalls { c with revents_ := m₁ } ++ [Call.read r t₁]
        ++ writeCalls { c with revents_ := m₁ } := by
    simp [dispatchSpec, errorCalls, writeCalls, hin₁, hr]
  have hd₂ : dispatchSpec { c with revents_ := m₂ } t₂
      = Call.event k :: (errorCalls { c with revents_ := m₂ }
        ++ readCalls { c with revents_ := m₂ } t₂ ++ writeCalls { c with revents_ := m₂ }) := by
    simp [dispatchSpec, errorCalls, readCalls, writeCalls, hin₂, hhup₂, hcl]
  constructor
  · rw [handleEvent_untied env self t₁ w₁ _ hc₁ hu, handleEventWithGuard_eq env self t₁ w₁ _ hc₁ hk₁,
      hd₁]
  · rw [handleEvent_untied env self t₂ w₂ _ hc₂ hu, handleEventWithGuard_eq env self t₂ w₂ _ hc₂ hk₂,
      hd₂]

/-- Witness for C20: `Demo.channelA`, at address 7 of `Demo.worldA`, has the
read callback 10, the close callback 12 and the ready mask
`POLLIN | POLLOUT | POLLHUP | POLLERR`.  The recording environment sees
`read 10` (and the write callback 11) in the first dispatch and `close 12` in
the second, whose ready mask is `POLLHUP`. -/
theorem read_then_close_witness :
    Demo.channelA.revents_ &&& POLLIN ≠ 0 ∧ Demo.channelA.revents_ &&& POLLHUP ≠ 0
      ∧ POLLHUP &&& POLLIN = 0 ∧ POLLHUP &&& POLLHUP ≠ 0
      ∧ (Demo.twoDispatches Demo.worldA).map (fun w => w.user)
          = some [Call.read 10 100, Call.event 11, Call.event 12]
      ∧ handleEvent Demo.logEnv 7 100 Demo.worldA
        = ((modify 7 (fun c => { c with eventHandling_ := true }) Demo.worldA).bind
            (runCalls Demo.logEnv (errorCalls Demo.channelA ++ [Call.read 10 100]
              ++ writeCalls Demo.channelA))).bind
            (modify 7 (fun c => { c with eventHandling_ := false })) :=
  ⟨by decide, by decide, by decide, by decide, by decide,
    (read_then_close Demo.logEnv 7 Demo.channelA 10 12 rfl rfl rfl
      Demo.channelA.revents_ 100 Demo.worldA rfl (by decide)
      (fun call _ => logEnv_keepsDispatch call 7)
      POLLHUP 200
      { Demo.worldA with channels := fun p =>
          if p = 7 then some { Demo.channelA with revents_ := POLLHUP } else none }
      rfl (by decide) (by decide) (fun call _ => logEnv_keepsDispatch call 7)).1⟩

end Channel

/-! ### `PollPoller::fillActiveChannels` -/

namespace PollPoller

theorem activeSlots_nil (numEvents : Int) : activeSlots [] numEvents = [] := by
  simp [activeSlots]

theorem activeSlots_done (pfds : List PollFd) {numEvents : Int} (h : ¬ numEvents > 0) :
    activeSlots pfds numEvents = [] := by
  have : numEvents.toNat = 0 := by omega
  simp [activeSlots, this]

theorem activeSlots_skip (pfd : PollFd) (rest : List PollFd) (numEvents : Int)
    (h : ¬ pfd.revents > 0) : activeSlots (pfd :: rest) numEvents = activeSlots rest numEvents := by
  have : ¬ 0 < pfd.revents := h
  simp [activeSlots, List.filter_cons, this]

theorem activeSlots_take (pfd : PollFd) (rest : List PollFd) {numEvents : Int}
    (hn : numEvents > 0) (h : pfd.revents > 0) :
    activeSlots (pfd :: rest) numEvents = pfd :: activeSlots rest (numEvents - 1) := by
  have h' : 0 < pfd.revents := h
  have hs : numEvents.toNat = (numEvents - 1).toNat + 1 := by omega
  unfold activeSlots
  rw [List.filter_cons, if_pos (decide_eq_true h'), hs, List.take_succ_cons]

theorem activeSlots_subset (pfds : List PollFd) (numEvents : Int) :
    ∀ pfd ∈ activeSlots pfds numEvents, pfd ∈ pfds := by
  intro pfd h
  exact List.mem_of_mem_filter (List.mem_of_mem_take h)

/-- The loop of `fillActiveChannels`, when every slot it reports belongs to a
live channel registered under the descriptor of the slot and no two slots
have the same descriptor. -/
theorem fillLoop_spec (channels_ : Int → Option ChannelPtr) :
    ∀ (pfds : List PollFd) (numEvents : Int) (out : List ChannelPtr) (w : World U),
      (∀ pfd ∈ activeSlots pfds numEvents, ∃ ch c, channels_ pfd.fd = some ch
        ∧ w.channels ch = some c ∧ c.fd_ = pfd.fd) →
      (pfds.map fun pfd => pfd.fd).Nodup →
      ∃ w', fillLoop channels_ pfds numEvents out w
          = some (out ++ (activeSlots pfds numEvents).filterMap (fun pfd => channels_ pfd.fd), w')
        ∧ (∀ pfd ∈ activeSlots pfds numEvents, ∃ ch c, channels_ pfd.fd = some ch
            ∧ w.channels ch = some c
            ∧ w'.channels ch = some { c with revents_ := pfd.revents.toNat })
        ∧ (∀ q, (∀ pfd ∈ activeSlots pfds numEvents, channels_ pfd.fd ≠ some q) →
            w'.channels q = w.channels q)
        ∧ w' = { w with channels := w'.channels } := by
  intro pfds
  induction pfds with
  | nil =>
    intro numEvents out w _ _
    refine ⟨w, ?_, ?_, fun _ _ => rfl, rfl⟩
    · simp [fillLoop, activeSlots_nil]
    · intro pfd h
      rw [activeSlots_nil] at h
      cases h
  | cons pfd rest ih =>
    intro numEvents out w hreg hnd
    rw [List.map_cons, List.nodup_cons] at hnd
    by_cases hn : numEvents > 0
    · by_cases hp : pfd.revents > 0
      · rw [activeSlots_take pfd rest hn hp] at hreg ⊢
        obtain ⟨ch, c, hch, hc, hfd⟩ := hreg pfd (List.mem_cons_self _ _)
        have hother : ∀ pfd' ∈ activeSlots rest (numEvents - 1), ∀ ch' c',
            channels_ pfd'.fd = some ch' → w.channels ch' = some c' → c'.fd_ = pfd'.fd →
            ch' ≠ ch := by
          intro pfd' hmem ch' c' _ hc' hfd' e
          subst e
          rw [hc] at hc'
          cases hc'
          apply hnd.1
          rw [← hfd, hfd']
          exact List.mem_map_of_mem (fun pfd => pfd.fd) (activeSlots_subset _ _ pfd' hmem)
        have hreg₁ : ∀ pfd' ∈ activeSlots rest (numEvents - 1), ∃ ch' c',
            channels_ pfd'.fd = some ch'
            ∧ ({ w with channels := fun p =>
                  if p = ch then some { c with revents_ := pfd.revents.toNat }
                  else w.channels p } : World U).channels ch' = some c'
            ∧ c'.fd_ = pfd'.fd := by
          intro pfd' hmem
          obtain ⟨ch', c', h₁, h₂, h₃⟩ := hreg pfd' (List.mem_cons_of_mem _ hmem)
          refine ⟨ch', c', h₁, ?_, h₃⟩
          have := hother pfd' hmem ch' c' h₁ h₂ h₃
          simp [this, h₂]
        obtain ⟨w', h₁, h₂, h₃, h₄⟩ := ih (numEvents - 1) (out ++ [ch]) _ hreg₁ hnd.2
        refine ⟨w', ?_, ?_, ?_, ?_⟩
        · have ha : assertThat (decide (c.fd_ = pfd.fd)) = some () := by
            rw [decide_eq_true hfd]
            rfl
          simp only [fillLoop, if_pos hn, if_pos hp, hch, Option.some_bind, hc, ha,
            modify_eq hc, h₁, List.filterMap_cons, List.append_assoc, List.singleton_append]
        · intro pfd' hmem
          rcases List.mem_cons.mp hmem with rfl | hmem
          · refine ⟨ch, c, hch, hc, ?_⟩
            rw [h₃ ch]
            · simp
            · intro pfd'' hmem'' e
              obtain ⟨ch'', c'', h₁'', h₂'', h₃''⟩ := hreg pfd'' (List.mem_cons_of_mem _ hmem'')
              rw [e] at h₁''
              cases h₁''
              exact hother pfd'' hmem'' ch c'' e h₂'' h₃'' rfl
          · obtain ⟨ch', c', h₁', h₂', h₃'⟩ := hreg pfd' (List.mem_cons_of_mem _ hmem)
            obtain ⟨ch₂, c₂, g₁, g₂, g₃⟩ := h₂ pfd' hmem
            rw [h₁'] at g₁
            cases g₁
            have hne := hother pfd' hmem ch' c' h₁' h₂' h₃'
            have : c₂ = c' := by
              have g₂' := g₂
              simp only [hne, if_false] at g₂'
              rw [h₂'] at g₂'
              exact (Option.some.inj g₂').symm
            subst this
            exact ⟨ch', c₂, h₁', h₂', g₃⟩
        · intro q hq
          rw [h₃ q (fun pfd' hmem => hq pfd' (List.mem_cons_of_mem _ hmem))]
          have hne : q ≠ ch := fun e => hq pfd (List.mem_cons_self _ _) (e ▸ hch)
          simp [hne]
        · rw [h₄]
      · rw [activeSlots_skip pfd rest numEvents hp] at hreg ⊢
        obtain ⟨w', h₁, h₂, h₃, h₄⟩ := ih numEvents out w hreg hnd.2
        refine ⟨w', ?_, h₂, h₃, h₄⟩
        simp only [fillLoop, if_pos hn, if_neg hp, h₁]
    · rw [activeSlots_done _ hn]
      refine ⟨w, ?_, ?_, fun _ _ => rfl, rfl⟩
      · simp [fillLoop, hn]
      · intro pfd' h
        cases h

end PollPoller

namespace PollPoller

theorem map_eq_map_some_filterMap {α β : Type} (f : α → Option β) :
    ∀ (l : List α), (∀ x ∈ l, ∃ y, f x = some y) → l.map f = (l.filterMap f).map some := by
  intro l
  induction l with
  | nil =>
    intro _
    rfl
  | cons x xs ih =>
    intro h
    obtain ⟨y, hy⟩ := h x (List.mem_cons_self _ _)
    rw [List.map_cons, List.filterMap_cons, hy, List.map_cons,
      ih (fun z hz => h z (List.mem_cons_of_mem _ hz))]

/-- C18.  `fillActiveChannels(numEvents, activeChannels)`, when every slot it
reports belongs to a live channel registered in `channels_` under the
descriptor of the slot (its assertions) and no two slots have the same
descriptor.  The slots reported are the first `numEvents` of the slots of
`pollfds_` whose `revents` is positive, in the order of `pollfds_`.  The call
returns; the vector is the one given followed by the channels registered
under the descriptors of those slots, in that order; each of those channels
has the `revents` of its slot as its ready mask and is otherwise as before;
every other channel, and the rest of the state, is as before. -/
theorem fillActiveChannels_appends (p : PollPoller) (numEvents : Int)
    (activeChannels : List ChannelPtr) (w : World U)
    (hreg : ∀ pfd ∈ activeSlots p.pollfds_ numEvents, ∃ ch c, p.channels_ pfd.fd = some ch
      ∧ w.channels ch = some c ∧ c.fd_ = pfd.fd)
    (hnd : (p.pollfds_.map fun pfd => pfd.fd).Nodup) :
    ∃ appended w',
      fillActiveChannels p numEvents activeChannels w = some (activeChannels ++ appended, w')
        ∧ activeSlots p.pollfds_ numEvents
            = (p.pollfds_.filter fun pfd => decide (0 < pfd.revents)).take numEvents.toNat
        ∧ (activeSlots p.pollfds_ numEvents).map (fun pfd => p.channels_ pfd.fd)
            = appended.map some
        ∧ (∀ pfd ∈ activeSlots p.pollfds_ numEvents, ∃ ch c, p.channels_ pfd.fd = some ch
            ∧ w.channels ch = some c
            ∧ w'.channels ch = some { c with revents_ := pfd.revents.toNat })
        ∧ (∀ q, (∀ pfd ∈ activeSlots p.pollfds_ numEvents, p.channels_ pfd.fd ≠ some q) →
            w'.channels q = w.channels q)
        ∧ w' = { w with channels := w'.channels } := by
  obtain ⟨w', h₁, h₂, h₃, h₄⟩ :=
    fillLoop_spec p.channels_ p.pollfds_ numEvents activeChannels w hreg hnd
  refine ⟨_, w', h₁, rfl, ?_, h₂, h₃, h₄⟩
  apply map_eq_map_some_filterMap
  intro pfd hmem
  obtain ⟨ch, -, hch, -⟩ := hreg pfd hmem
  exact ⟨ch, hch⟩

/-- Witness for C18: in `Demo.pollerF` the slots 0 and 2 have positive
`revents`.  With `numEvents = 2` the channels 20 and 22 are appended to `[99]`
and get the ready masks 1 and 4; with `numEvents = 1` only the channel 20. -/
theorem fillActiveChannels_appends_witness :
    (fillActiveChannels Demo.pollerF 2 [99] Demo.worldF).map Demo.activeView
        = some ([99, 20, 22], [some 1, some 0, some 4])
      ∧ (fillActiveChannels Demo.pollerF 1 [99] Demo.worldF).map Demo.activeView
        = some ([99, 20], [some 1, some 0, some 0])
      ∧ ∃ appended w',
          fillActiveChannels Demo.pollerF 2 [99] Demo.worldF = some ([99] ++ appended, w')
            ∧ (activeSlots Demo.pollerF.pollfds_ 2).map (fun pfd => Demo.pollerF.channels_ pfd.fd)
              = appended.map some := by
  have hreg : ∀ pfd ∈ activeSlots Demo.pollerF.pollfds_ 2, ∃ ch c,
      Demo.pollerF.channels_ pfd.fd = some ch ∧ Demo.worldF.channels ch = some c
        ∧ c.fd_ = pfd.fd := by
    intro pfd hmem
    have hs : activeSlots Demo.pollerF.pollfds_ 2
        = [{ fd := 3, events := 3, revents := 1 }, { fd := 6, events := 4, revents := 4 }] := by
      decide
    rw [hs] at hmem
    rcases List.mem_cons.mp hmem with rfl | hmem
    · exact ⟨20, Demo.channelF 3 0, rfl, rfl, rfl⟩
    · rcases List.mem_cons.mp hmem with rfl | hmem
      · exact ⟨22, Demo.channelF 6 2, rfl, rfl, rfl⟩
      · cases hmem
  obtain ⟨appended, w', h₁, -, h₂, -⟩ :=
    fillActiveChannels_appends Demo.pollerF 2 [99] Demo.worldF hreg (by decide)
  exact ⟨by decide, by decide, appended, w', h₁, h₂⟩

end PollPoller

/-! ### `PollPoller::removeChannel` -/

namespace PollPoller

theorem decodeFd_of_encoding {fd x : Int} (h₀ : 0 ≤ fd) (h : x = fd ∨ x = -fd - 1) :
    decodeFd x = fd := by
  unfold decodeFd
  rcases h with rfl | rfl
  · rw [if_neg (by omega)]
  · rw [if_pos (by omega)]
    omega

/-- The asserted preconditions of `removeChannel` and what they give. -/
theorem removeChannel_start {tid : ThreadId} {channel : ChannelPtr} {c : Channel}
    {p : PollPoller} {w : World U} (htid : w.loop.threadId_ = tid)
    (hc : w.channels channel = some c) (hreg : p.channels_ c.fd_ = some channel)
    (hev : c.events_ = 0) (h₀ : 0 ≤ c.index_) (hlen : p.pollfds_.length < 2 ^ 31)
    {pfd : PollFd} (hslot : p.pollfds_[c.index_.toNat]? = some pfd)
    (hdis : pfd.fd = -c.fd_ - 1 ∧ pfd.events = c.events_) :
    removeChannel tid channel p w
      = (if c.index_.toNat = p.pollfds_.length - 1 then
          some ({ pollfds_ := p.pollfds_.dropLast, channels_ := erased p c.fd_ }, w)
        else
          p.pollfds_.getLast?.bind fun last =>
            (erased p c.fd_ (decodeFd last.fd)).bind fun other =>
              (Channel.modify other (fun c' => { c' with index_ := c.index_ }) w).bind fun w' =>
                some ({ pollfds_ := ((p.pollfds_.set c.index_.toNat last).set
                          (p.pollfds_.length - 1) pfd).dropLast,
                        channels_ := erased p c.fd_ }, w')) := by
  have ht : EventLoop.assertInLoopThread tid w = some () :=
    (TimerQueue.assertInLoopThread_eq_some tid w ()).mpr htid
  have hlt : c.index_.toNat < p.pollfds_.length := by
    by_contra hge
    rw [List.getElem?_eq_none (Nat.le_of_not_lt hge)] at hslot
    cases hslot
  have hw : wrapInt32 (p.pollfds_.length : Int) = p.pollfds_.length :=
    EventLoopThreadPool.wrapInt32_of_lt _ (Int.natCast_nonneg _) (by norm_num; omega)
  have hrange : 0 ≤ c.index_ ∧ c.index_ < wrapInt32 (p.pollfds_.length : Int) := by
    rw [hw]
    constructor
    · exact h₀
    · omega
  simp only [removeChannel, ht, hc, hreg, Option.isSome_some, assertThat_true,
    Option.bind_eq_bind, Option.some_bind, decide_True, hev, hrange, and_self, hslot,
    Option.pure_def]
  have hdis' : pfd.fd = -c.fd_ - 1 ∧ pfd.events = ((0 : Nat) : Int) := by
    rw [← hev]
    exact hdis
  simp only [hdis', and_self, decide_True, assertThat_true, Option.some_bind]
  rfl

end PollPoller

namespace PollPoller

/-- Another registered channel, in consistent tables: its slot is not the
slot of `channel`, and stands for its descriptor. -/
theorem other_slot {p : PollPoller} {w : World U} (hinv : Consistent p w)
    {channel : ChannelPtr} {c : Channel} (hc : w.channels channel = some c)
    (hreg : p.channels_ c.fd_ = some channel) {fd : Int} {ch' : ChannelPtr} {c' : Channel}
    (hne : fd ≠ c.fd_) (hreg' : p.channels_ fd = some ch') (hc' : w.channels ch' = some c') :
    ∃ slot, p.pollfds_[c'.index_.toNat]? = some slot ∧ decodeFd slot.fd = fd
      ∧ c'.index_.toNat ≠ c.index_.toNat ∧ 0 ≤ c'.index_ ∧ c'.fd_ = fd
      ∧ c'.index_.toNat < p.pollfds_.length := by
  obtain ⟨c₁, hc₁, hfd₁, h0, hidx, slot, hslot, henc⟩ := hinv.registered fd ch' hreg'
  rw [hc'] at hc₁
  cases hc₁
  obtain ⟨c₂, hc₂, -, h0', -, slot₂, hslot₂, henc₂⟩ := hinv.registered c.fd_ channel hreg
  rw [hc] at hc₂
  cases hc₂
  refine ⟨slot, hslot, decodeFd_of_encoding h0 henc, ?_, hidx, hfd₁, ?_⟩
  · intro e
    rw [e, hslot₂] at hslot
    cases hslot
    have h₁ := decodeFd_of_encoding h0 henc
    have h₂ := decodeFd_of_encoding h0' henc₂
    exact hne (h₁.symm.trans h₂)
  · by_contra hge
    rw [List.getElem?_eq_none (Nat.le_of_not_lt hge)] at hslot
    cases hslot

/-- The slot of `channel` is the last: `pop_back`. -/
theorem removed_last {p : PollPoller} {w : World U} (hinv : Consistent p w)
    {channel : ChannelPtr} {c : Channel} (hc : w.channels channel = some c)
    (hreg : p.channels_ c.fd_ = some channel)
    (hlast : c.index_.toNat = p.pollfds_.length - 1)
    (hlt : c.index_.toNat < p.pollfds_.length) :
    Removed channel c p w { pollfds_ := p.pollfds_.dropLast, channels_ := erased p c.fd_ } w where
  unregistered := by simp [erased]
  others := by
    intro fd hne
    simp [erased, hne]
  shorter := by
    show p.pollfds_.dropLast.length + 1 = p.pollfds_.length
    rw [List.length_dropLast]
    omega
  slotsKept := by
    intro fd ch' c' hne hreg' hc'
    obtain ⟨slot, hslot, -, hidx, -, -, hlt'⟩ := other_slot hinv hc hreg hne hreg' hc'
    refine ⟨c', slot, hc', rfl, hslot, ?_⟩
    show p.pollfds_.dropLast[c'.index_.toNat]? = some slot
    rw [List.getElem?_dropLast, if_pos (by omega)]
    exact hslot
  self := hc
  frame := rfl
  consistent :=
    { size := by
        show p.pollfds_.dropLast.length < 2 ^ 31
        rw [List.length_dropLast]
        have := hinv.size
        omega
      registered := by
        intro fd ch' hreg'
        have hne : fd ≠ c.fd_ := by
          intro e
          simp [erased, e] at hreg'
        have hreg₁ : p.channels_ fd = some ch' := by simpa [erased, hne] using hreg'
        obtain ⟨c', hc', hfd', h0, hidx', slot₀, hslot₀, henc₀⟩ := hinv.registered fd ch' hreg₁
        obtain ⟨slot, hslot, -, hidx, -, -, hlt'⟩ := other_slot hinv hc hreg hne hreg₁ hc'
        rw [hslot₀] at hslot
        cases hslot
        refine ⟨c', hc', hfd', h0, hidx', slot₀, ?_, henc₀⟩
        show p.pollfds_.dropLast[c'.index_.toNat]? = some slot₀
        rw [List.getElem?_dropLast, if_pos (by omega)]
        exact hslot₀
      slots := by
        intro i pfd' hi
        have hi' : p.pollfds_.dropLast[i]? = some pfd' := hi
        rw [List.getElem?_dropLast] at hi'
        by_cases hlt' : i < p.pollfds_.length - 1
        · rw [if_pos hlt'] at hi'
          obtain ⟨ch_i, c_i, h₁, h₂, h₃⟩ := hinv.slots i pfd' hi'
          refine ⟨ch_i, c_i, ?_, h₂, h₃⟩
          have hne : decodeFd pfd'.fd ≠ c.fd_ := by
            intro e
            rw [e, hreg] at h₁
            cases h₁
            rw [hc] at h₂
            cases h₂
            rw [h₃] at hlast
            simp at hlast
            omega
          simp [erased, hne, h₁]
        · rw [if_neg hlt'] at hi'
          cases hi' }

end PollPoller

namespace PollPoller

/-- The slots after `iter_swap` with the last and `pop_back`. -/
theorem swapped_getElem? (l : List PollFd) (idx : Nat) (last pfd : PollFd) (i : Nat) :
    ((l.set idx last).set (l.length - 1) pfd).dropLast[i]?
      = if i < l.length - 1 then (if i = idx then some last else l[i]?) else none := by
  rw [List.getElem?_dropLast, List.length_set, List.length_set]
  by_cases hi : i < l.length - 1
  · rw [if_pos hi, if_pos hi, List.getElem?_set_ne (by omega)]
    by_cases e : i = idx
    · rw [if_pos e, e, List.getElem?_set_self (by omega)]
    · rw [if_neg e, List.getElem?_set_ne (fun h => e h.symm)]
  · rw [if_neg hi, if_neg hi]

/-- The slot of `channel` is not the last: the last slot takes its place and
the channel of that slot is given the index. -/
theorem removed_swap {p : PollPoller} {w : World U} (hinv : Consistent p w)
    {channel : ChannelPtr} {c : Channel} (hc : w.channels channel = some c)
    (hreg : p.channels_ c.fd_ = some channel)
    (hlt : c.index_.toNat < p.pollfds_.length - 1) (h₀ : 0 ≤ c.index_) (pfd : PollFd) :
    ∃ last chE cE, p.pollfds_.getLast? = some last
      ∧ erased p c.fd_ (decodeFd last.fd) = some chE
      ∧ w.channels chE = some cE
      ∧ Removed channel c p w
          { pollfds_ := ((p.pollfds_.set c.index_.toNat last).set
              (p.pollfds_.length - 1) pfd).dropLast,
            channels_ := erased p c.fd_ }
          { w with channels := fun q =>
              if q = chE then some { cE with index_ := c.index_ } else w.channels q } := by
  have hn : p.pollfds_.length - 1 < p.pollfds_.length := by omega
  obtain ⟨last, hlast⟩ : ∃ last, p.pollfds_[p.pollfds_.length - 1]? = some last :=
    ⟨_, List.getElem?_eq_getElem hn⟩
  have hgl : p.pollfds_.getLast? = some last := by
    rw [List.getLast?_eq_getElem?]
    exact hlast
  obtain ⟨chE, cE, hchE, hcE, hiE⟩ := hinv.slots _ last hlast
  have hiE' : cE.index_.toNat = p.pollfds_.length - 1 := by
    rw [hiE]
    simp
  have hneE : decodeFd last.fd ≠ c.fd_ := by
    intro e
    rw [e, hreg] at hchE
    cases hchE
    rw [hc] at hcE
    cases hcE
    omega
  have hchNe : channel ≠ chE := by
    intro e
    rw [e, hcE] at hc
    cases hc
    omega
  have herE : erased p c.fd_ (decodeFd last.fd) = some chE := by
    simp [erased, hneE, hchE]
  have hidx : ((c.index_.toNat : Nat) : Int) = c.index_ := Int.toNat_of_nonneg h₀
  -- every other registered channel
  have hkept : ∀ fd ch' c', fd ≠ c.fd_ → p.channels_ fd = some ch' → w.channels ch' = some c' →
      ∃ c'' slot, (if ch' = chE then some { cE with index_ := c.index_ } else w.channels ch')
          = some c'' ∧ c'' = { c' with index_ := c''.index_ }
        ∧ p.pollfds_[c'.index_.toNat]? = some slot
        ∧ ((p.pollfds_.set c.index_.toNat last).set
              (p.pollfds_.length - 1) pfd).dropLast[c''.index_.toNat]? = some slot
        ∧ 0 ≤ c''.index_ := by
    intro fd ch' c' hne hreg' hc'
    obtain ⟨slot, hslot, hdec, hidx', h0', -, hlt'⟩ := other_slot hinv hc hreg hne hreg' hc'
    by_cases e : ch' = chE
    · subst e
      rw [hcE] at hc'
      cases hc'
      rw [hiE', hlast] at hslot
      cases hslot
      refine ⟨{ cE with index_ := c.index_ }, last, by rw [if_pos rfl], rfl, ?_, ?_, h₀⟩
      · rw [hiE']
        exact hlast
      · rw [swapped_getElem? _ _ _ _ _, if_pos hlt, if_pos rfl]
    · have hnl : c'.index_.toNat ≠ p.pollfds_.length - 1 := by
        intro e'
        rw [e', hlast] at hslot
        cases hslot
        rw [hdec, hreg'] at hchE
        cases hchE
        exact e rfl
      refine ⟨c', slot, by rw [if_neg e]; exact hc', rfl, hslot, ?_, h0'⟩
      rw [swapped_getElem? _ _ _ _ _, if_pos (by omega), if_neg hidx']
      exact hslot
  refine ⟨last, chE, cE, hgl, herE, hcE, ?_⟩
  exact
    { unregistered := by simp [erased]
      others := by
        intro fd hne
        simp [erased, hne]
      shorter := by
        show ((p.pollfds_.set c.index_.toNat last).set
          (p.pollfds_.length - 1) pfd).dropLast.length + 1 = p.pollfds_.length
        rw [List.length_dropLast, List.length_set, List.length_set]
        omega
      slotsKept := by
        intro fd ch' c' hne hreg' hc'
        obtain ⟨c'', slot, h₁, h₂, h₃, h₄, -⟩ := hkept fd ch' c' hne hreg' hc'
        exact ⟨c'', slot, h₁, h₂, h₃, h₄⟩
      self := by
        show (if channel = chE then _ else w.channels channel) = some c
        rw [if_neg hchNe]
        exact hc
      frame := rfl
      consistent :=
        { size := by
            show ((p.pollfds_.set c.index_.toNat last).set
              (p.pollfds_.length - 1) pfd).dropLast.length < 2 ^ 31
            rw [List.length_dropLast, List.length_set, List.length_set]
            have := hinv.size
            omega
          registered := by
            intro fd ch' hreg'
            have hne : fd ≠ c.fd_ := by
              intro e
              simp [erased, e] at hreg'
            have hreg₁ : p.channels_ fd = some ch' := by simpa [erased, hne] using hreg'
            obtain ⟨c', hc', hfd', h0, -, slot₀, hslot₀, henc₀⟩ := hinv.registered fd ch' hreg₁
            obtain ⟨c'', slot, h₁, h₂, h₃, h₄, h₅⟩ := hkept fd ch' c' hne hreg₁ hc'
            rw [hslot₀] at h₃
            cases h₃
            refine ⟨c'', h₁, ?_, h0, h₅, slot₀, h₄, henc₀⟩
            rw [h₂]
            exact hfd'
          slots := by
            intro i pfd' hi
            have hi' : ((p.pollfds_.set c.index_.toNat last).set
              (p.pollfds_.length - 1) pfd).dropLast[i]? = some pfd' := hi
            rw [swapped_getElem? _ _ _ _ _] at hi'
            by_cases hlt' : i < p.pollfds_.length - 1
            · rw [if_pos hlt'] at hi'
              by_cases e : i = c.index_.toNat
              · rw [if_pos e] at hi'
                cases hi'
                refine ⟨chE, { cE with index_ := c.index_ }, herE, ?_, ?_⟩
                · show (if chE = chE then _ else w.channels chE) = some _
                  rw [if_pos rfl]
                · show c.index_ = (i : Int)
                  rw [e, hidx]
              · rw [if_neg e] at hi'
                obtain ⟨ch_i, c_i, h₁, h₂, h₃⟩ := hinv.slots i pfd' hi'
                have hne : decodeFd pfd'.fd ≠ c.fd_ := by
                  intro e'
                  rw [e', hreg] at h₁
                  cases h₁
                  rw [hc] at h₂
                  cases h₂
                  rw [h₃] at e
                  simp at e
                have hneE' : ch_i ≠ chE := by
                  intro e'
                  rw [e', hcE] at h₂
                  cases h₂
                  rw [h₃] at hiE'
                  simp at hiE'
                  omega
                refine ⟨ch_i, c_i, by simp [erased, hne, h₁], ?_, h₃⟩
                show (if ch_i = chE then _ else w.channels ch_i) = some c_i
                rw [if_neg hneE']
                exact h₂
            · rw [if_neg hlt'] at hi'
              cases hi' } }

end PollPoller
namespace PollPoller

/-- Under its assertions: `removeChannel(channel)`, called in the loop thread for a live
channel that is registered under its descriptor in consistent tables, has no
interest and has its slot in the disabled encoding `-fd-1` with the events of
the channel (what the function asserts), returns, and then: the descriptor is
no longer a key of `channels_` and every other key maps as before;
`pollfds_` has one slot less; every other registered channel is still live,
differs from before in its index at most, and the slot at its index is the
slot it had before (the channel of the last slot takes the index of the
removed one when that was not the last); the removed channel object and
everything in the world but the channels are unchanged; the tables are
consistent again. -/
theorem removeChannel_erases (tid : ThreadId) (channel : ChannelPtr) (c : Channel)
    (p : PollPoller) (w : World U) (pfd : PollFd) (hinv : Consistent p w)
    (htid : w.loop.threadId_ = tid) (hc : w.channels channel = some c)
    (hreg : p.channels_ c.fd_ = some channel) (hev : c.events_ = 0)
    (hslot : p.pollfds_[c.index_.toNat]? = some pfd)
    (hdis : pfd.fd = -c.fd_ - 1 ∧ pfd.events = c.events_) :
    ∃ p' w', removeChannel tid channel p w = some (p', w')
      ∧ p'.channels_ c.fd_ = none
      ∧ (∀ fd, fd ≠ c.fd_ → p'.channels_ fd = p.channels_ fd)
      ∧ p'.pollfds_.length + 1 = p.pollfds_.length
      ∧ (∀ fd ch' c', fd ≠ c.fd_ → p.channels_ fd = some ch' → w.channels ch' = some c' →
          ∃ c'' slot, w'.channels ch' = some c'' ∧ c'' = { c' with index_ := c''.index_ }
            ∧ p.pollfds_[c'.index_.toNat]? = some slot
            ∧ p'.pollfds_[c''.index_.toNat]? = some slot)
      ∧ w'.channels channel = some c
      ∧ w' = { w with channels := w'.channels }
      ∧ Consistent p' w' := by
  obtain ⟨c₀, hc₀, -, -, h₀, -⟩ := hinv.registered _ _ hreg
  rw [hc] at hc₀
  cases hc₀
  have hlt : c.index_.toNat < p.pollfds_.length := by
    by_contra hge
    rw [List.getElem?_eq_none (Nat.le_of_not_lt hge)] at hslot
    cases hslot
  rw [removeChannel_start htid hc hreg hev h₀ hinv.size hslot hdis]
  by_cases hlast : c.index_.toNat = p.pollfds_.length - 1
  · rw [if_pos hlast]
    have h := removed_last hinv hc hreg hlast hlt
    exact ⟨_, _, rfl, h.unregistered, h.others, h.shorter, h.slotsKept, h.self, h.frame,
      h.consistent⟩
  · rw [if_neg hlast]
    obtain ⟨last, chE, cE, hgl, herE, hcE, h⟩ :=
      removed_swap hinv hc hreg (by omega) h₀ pfd
    rw [hgl, Option.some_bind, herE, Option.some_bind, modify_eq hcE, Option.some_bind]
    exact ⟨_, _, rfl, h.unregistered, h.others, h.shorter, h.slotsKept, h.self, h.frame,
      h.consistent⟩

end PollPoller

namespace PollPoller

/-- The tables of `Demo.pollerD` and `Demo.worldD` are consistent. -/
theorem pollerD_consistent : Consistent Demo.pollerD Demo.worldD where
  size := by decide
  registered := by
    intro fd ch h
    have h' : (if fd = 3 then some 20 else if fd = 4 then some 21
        else if fd = 6 then some 22 else none) = some ch := h
    by_cases h3 : fd = 3
    · subst h3
      cases h'
      exact ⟨_, rfl, rfl, by decide, by decide, _, rfl, Or.inr rfl⟩
    · rw [if_neg h3] at h'
      by_cases h4 : fd = 4
      · subst h4
        cases h'
        exact ⟨_, rfl, rfl, by decide, by decide, _, rfl, Or.inl rfl⟩
      · rw [if_neg h4] at h'
        by_cases h6 : fd = 6
        · subst h6
          cases h'
          exact ⟨_, rfl, rfl, by decide, by decide, _, rfl, Or.inl rfl⟩
        · rw [if_neg h6] at h'
          cases h'
  slots := by
    intro i pfd h
    match i, h with
    | 0, h =>
      cases h
      exact ⟨20, _, rfl, rfl, rfl⟩
    | 1, h =>
      cases h
      exact ⟨21, _, rfl, rfl, rfl⟩
    | 2, h =>
      cases h
      exact ⟨22, _, rfl, rfl, rfl⟩
    | _ + 3, h => cases h

/-- An instance of the removal with a swap: in `Demo.pollerD` the channel at 20, descriptor 3, is in
slot 0 of three, disabled.  Removing it moves the last slot (descriptor 6)
into slot 0 and gives the channel at 22 the index 0; the descriptor 3 is no
longer registered, the descriptors 4 and 6 are, and the channel at 21 keeps
the index 1. -/
theorem removeChannel_erases_witness :
    (removeChannel 1 20 Demo.pollerD Demo.worldD).map Demo.removalView
        = some ([{ fd := 6, events := 4, revents := 0 }, { fd := 4, events := 3, revents := 0 }],
            [none, some 21, some 22], [some 0, some 1, some 0])
      ∧ ∃ p' w', removeChannel 1 20 Demo.pollerD Demo.worldD = some (p', w')
          ∧ p'.channels_ 3 = none
          ∧ (∀ fd, fd ≠ 3 → p'.channels_ fd = Demo.pollerD.channels_ fd)
          ∧ p'.pollfds_.length + 1 = 3
          ∧ w'.channels 20 = some (Demo.channelF 3 0)
          ∧ Consistent p' w' := by
  obtain ⟨p', w', h₁, h₂, h₃, h₄, -, h₅, -, h₆⟩ :=
    removeChannel_erases 1 20 (Demo.channelF 3 0) Demo.pollerD Demo.worldD
      { fd := -4, events := 0, revents := 0 } pollerD_consistent rfl rfl rfl rfl rfl
      ⟨rfl, rfl⟩
  exact ⟨by decide, p', w', h₁, h₂, h₃, h₄, h₅, h₆⟩

end PollPoller

/-! ### `howMuchTimeFromNow` -/

namespace TimerQueue

theorem wrapInt64_of_range (n : Int) (h₀ : -2 ^ 63 ≤ n) (h₁ : n < 2 ^ 63) : wrapInt64 n = n := by
  unfold wrapInt64
  rw [Int.emod_eq_of_lt (by omega) (by omega)]
  omega

/-- C28.  For an expiration `when` and a current time `now`, in microseconds,
whose difference is an `int64_t`, `howMuchTimeFromNow` returns the `timespec`
of `us = max (when - now) 100` microseconds: `tv_sec = us / 1000000` and
`tv_nsec = (us mod 1000000) * 1000`, so that the `timespec` is `us * 1000`
nanoseconds exactly; the delay is at least 100 microseconds and
`0 ≤ tv_nsec < 1000000000`. -/
theorem howMuchTimeFromNow_clamped (now when : Timestamp)
    (hrange : -2 ^ 63 ≤ when - now ∧ when - now < 2 ^ 63) :
    (howMuchTimeFromNow now when).tv_sec = max (when - now) 100 / 1000000
      ∧ (howMuchTimeFromNow now when).tv_nsec = max (when - now) 100 % 1000000 * 1000
      ∧ (howMuchTimeFromNow now when).tv_sec * 1000000000 + (howMuchTimeFromNow now when).tv_nsec
          = max (when - now) 100 * 1000
      ∧ 100 * 1000 ≤ (howMuchTimeFromNow now when).tv_sec * 1000000000
          + (howMuchTimeFromNow now when).tv_nsec
      ∧ 0 ≤ (howMuchTimeFromNow now when).tv_sec
      ∧ 0 ≤ (howMuchTimeFromNow now when).tv_nsec
      ∧ (howMuchTimeFromNow now when).tv_nsec < 1000000000 := by
  have hw : wrapInt64 (when - now) = when - now := wrapInt64_of_range _ hrange.1 hrange.2
  have hus : (if wrapInt64 (when - now) < 100 then 100 else wrapInt64 (when - now))
      = max (when - now) 100 := by
    rw [hw]
    split <;> omega
  have h100 : (100 : Int) ≤ max (when - now) 100 := le_max_right _ _
  have hsec : (howMuchTimeFromNow now when).tv_sec = max (when - now) 100 / 1000000 := by
    show Int.tdiv (if wrapInt64 (when - now) < 100 then 100 else wrapInt64 (when - now))
      kMicroSecondsPerSecond = _
    rw [hus, Int.tdiv_eq_ediv (by omega) (by decide)]
    rfl
  have hmod₀ : 0 ≤ max (when - now) 100 % 1000000 := Int.emod_nonneg _ (by decide)
  have hmod₁ : max (when - now) 100 % 1000000 < 1000000 := Int.emod_lt_of_pos _ (by decide)
  have hnsec : (howMuchTimeFromNow now when).tv_nsec
      = max (when - now) 100 % 1000000 * 1000 := by
    show wrapInt64 (Int.tmod (if wrapInt64 (when - now) < 100 then 100
      else wrapInt64 (when - now)) kMicroSecondsPerSecond * 1000) = _
    rw [hus, Int.tmod_eq_emod (by omega) (by decide)]
    show wrapInt64 (max (when - now) 100 % 1000000 * 1000) = _
    exact wrapInt64_of_range _ (by omega) (by omega)
  have hsum := Int.ediv_add_emod (max (when - now) 100) 1000000
  have hdiv₀ : 0 ≤ max (when - now) 100 / 1000000 := Int.ediv_nonneg (by omega) (by decide)
  rw [hsec, hnsec]
  refine ⟨rfl, rfl, ?_, ?_, hdiv₀, ?_, ?_⟩ <;> omega

/-- Witness for C28: 2.500123 seconds ahead gives 2 seconds and 500123000
nanoseconds; an expiration 250 microseconds in the past gives 100
microseconds. -/
theorem howMuchTimeFromNow_clamped_witness :
    howMuchTimeFromNow 5000000 7500123 = { tv_sec := 2, tv_nsec := 500123000 }
      ∧ howMuchTimeFromNow 5000000 4999750 = { tv_sec := 0, tv_nsec := 100000 }
      ∧ (howMuchTimeFromNow 5000000 7500123).tv_sec * 1000000000
          + (howMuchTimeFromNow 5000000 7500123).tv_nsec = max (7500123 - 5000000) 100 * 1000 :=
  ⟨by decide, by decide,
    (howMuchTimeFromNow_clamped 5000000 7500123 ⟨by decide, by decide⟩).2.2.1⟩

end TimerQueue

/-! ### `EventLoopThreadPool`: the cursor stays in bounds -/

namespace EventLoopThreadPool

/-- A call on a pool whose cursor is in bounds returns and leaves the cursor
in bounds and `loops_` as it is. -/
theorem Op.apply_cursor {threadOf : LoopPtr → ThreadId} {tid : ThreadId}
    {p : EventLoopThreadPool} (h : CursorOk threadOf tid p) (op : Op) :
    ∃ r, op.apply threadOf tid p = some r ∧ CursorOk threadOf tid r.2
      ∧ r.2.loops_ = p.loops_ ∧ r.1 ∈ p.loops_ := by
  have hpos : 0 < p.loops_.length := by
    have h₀ := h.lower
    have h₁ := h.upper
    omega
  cases op with
  | getNextLoop =>
    have hj : p.next_.toNat < p.loops_.length := by
      have h₀ := h.lower
      have h₁ := h.upper
      omega
    have hnext : p.next_ = ((p.next_.toNat : Nat) : Int) := (Int.toNat_of_nonneg h.lower).symm
    have hget : p.loops_[p.next_.toNat]? = some (p.loops_[p.next_.toNat]) :=
      List.getElem?_eq_getElem hj
    refine ⟨_, getNextLoop_step threadOf tid p p.next_.toNat _ h.base h.started h.size hj hnext
      hget, ?_, rfl, List.getElem_mem _⟩
    exact
      { base := h.base
        started := h.started
        size := h.size
        lower := Int.natCast_nonneg _
        upper := by
          show (((p.next_.toNat + 1) % p.loops_.length : Nat) : Int) < (p.loops_.length : Int)
          exact_mod_cast Nat.mod_lt _ hpos }
  | getLoopForHash hashCode =>
    have hne : p.loops_.isEmpty = false := by
      cases hl : p.loops_ with
      | nil => simp [hl] at hpos
      | cons a l => rfl
    have hi : hashCode % p.loops_.length < p.loops_.length := Nat.mod_lt _ hpos
    refine ⟨(p.loops_[hashCode % p.loops_.length], p), ?_, h, rfl, List.getElem_mem _⟩
    simp only [Op.apply, EventLoopThreadPool.getLoopForHash, assertInBaseLoopThread, h.base, beq_self_eq_true,
      assertThat, if_true, Option.bind_eq_bind, Option.some_bind, hne, Bool.false_eq_true,
      if_false, List.getElem?_eq_getElem hi, Option.map_some']

theorem runOps_cursor {threadOf : LoopPtr → ThreadId} {tid : ThreadId} :
    ∀ (ops : List Op) (p : EventLoopThreadPool), CursorOk threadOf tid p →
      ∃ r, runOps threadOf tid ops p = some r ∧ CursorOk threadOf tid r.2
        ∧ r.2.loops_ = p.loops_ ∧ r.1.length = ops.length ∧ ∀ loop ∈ r.1, loop ∈ p.loops_ := by
  intro ops
  induction ops with
  | nil =>
    intro p h
    exact ⟨([], p), rfl, h, rfl, rfl, fun _ hm => by cases hm⟩
  | cons op rest ih =>
    intro p h
    obtain ⟨r, hr, hc, hl, hm⟩ := Op.apply_cursor h op
    obtain ⟨rs, hrs, hcs, hls, hlen, hms⟩ := ih r.2 hc
    refine ⟨(r.1 :: rs.1, rs.2), ?_, hcs, hls.trans hl, ?_, ?_⟩
    · simp only [runOps, hr, Option.some_bind, hrs, Option.map_some']
    · simp [hlen]
    · intro loop hmem
      rcases List.mem_cons.mp hmem with rfl | hmem
      · exact hm
      · rw [← hl]
        exact hms loop hmem

/-- C29.  A pool is started with `N` worker threads, `1 ≤ N` (`N` an `int`),
and the base loop's thread then calls `getNextLoop` and `getLoopForHash` in
any number and order.  Every call returns a loop of `loops_`, and in the state
reached `loops_` still has its `N` loops and `0 ≤ next_ < loops_.size()`: as a
`size_t` the cursor is an index into `loops_`, so the next `getNextLoop` reads
`loops_[next_]` in bounds and returns that loop. -/
theorem cursor_in_bounds (threadOf : LoopPtr → ThreadId) (tid : ThreadId)
    (startLoop : Nat → LoopPtr) (baseLoop : LoopPtr) (numThreads : Int)
    (p : EventLoopThreadPool) (hpos : 1 ≤ numThreads) (hint : numThreads < 2 ^ 31)
    (hstart : start threadOf tid startLoop (setThreadNum numThreads (new baseLoop)) = some p)
    (ops : List Op) :
    ∃ loops p', runOps threadOf tid ops p = some (loops, p')
      ∧ loops.length = ops.length ∧ (∀ loop ∈ loops, loop ∈ p.loops_)
      ∧ p'.loops_ = p.loops_ ∧ (p'.loops_.length : Int) = numThreads
      ∧ 0 ≤ p'.next_ ∧ p'.next_ < p'.loops_.length
      ∧ toSizeT p'.next_ < p'.loops_.length
      ∧ ∃ loop p'', p'.loops_[toSizeT p'.next_]? = some loop
          ∧ getNextLoop threadOf tid p' = some (loop, p'') := by
  obtain ⟨-, hbase, hp⟩ := start_eq_some hstart
  have hloops : p.loops_ = (List.range numThreads.toNat).map startLoop := by
    rw [hp]
    rfl
  have hlen : (p.loops_.length : Int) = numThreads := by
    rw [hloops, List.length_map, List.length_range]
    exact Int.toNat_of_nonneg (by omega)
  have hc : CursorOk threadOf tid p :=
    { base := by
        rw [hp]
        exact hbase
      started := by
        rw [hp]
      size := by
        have : ((p.loops_.length : Nat) : Int) < ((2 ^ 31 : Nat) : Int) := by
          rw [hlen]
          exact_mod_cast hint
        exact_mod_cast this
      lower := by
        rw [hp]
        exact le_refl _
      upper := by
        rw [hlen, hp]
        show (0 : Int) < numThreads
        omega }
  obtain ⟨r, hr, hc', hl, hn, hm⟩ := runOps_cursor ops p hc
  have hj : r.2.next_.toNat < r.2.loops_.length := by
    have h₀ := hc'.lower
    have h₁ := hc'.upper
    omega
  have hsz : toSizeT r.2.next_ = r.2.next_.toNat := by
    have h64 : r.2.next_.toNat < 2 ^ 64 := by
      have := hc'.size
      have : (2 : Nat) ^ 31 < 2 ^ 64 := by norm_num
      omega
    have e := toSizeT_natCast r.2.next_.toNat h64
    rw [Int.toNat_of_nonneg hc'.lower] at e
    exact e
  refine ⟨r.1, r.2, hr, hn, hm, hl, ?_, hc'.lower, hc'.upper, ?_, ?_⟩
  · rw [hl]
    exact hlen
  · rw [hsz]
    exact hj
  · rw [hsz]
    exact ⟨_, _, List.getElem?_eq_getElem hj,
      getNextLoop_step threadOf tid r.2 r.2.next_.toNat _ hc'.base hc'.started hc'.size hj
        (Int.toNat_of_nonneg hc'.lower).symm (List.getElem?_eq_getElem hj)⟩

end EventLoopThreadPool

namespace EventLoopThreadPool

/-- Witness for C29: with three workers, the calls of `Demo.poolOps` return the
loops 10, 11, 11, 12, 10 and leave the cursor at 1. -/
theorem cursor_in_bounds_witness :
    start (fun _ => 1) 1 (fun i => 10 + i) (setThreadNum 3 (new 0)) = some Demo.pool3
      ∧ (runOps (fun _ => 1) 1 Demo.poolOps Demo.pool3).map (fun r => (r.1, r.2.next_))
          = some ([10, 11, 11, 12, 10], 1)
      ∧ ∃ loops p', runOps (fun _ => 1) 1 Demo.poolOps Demo.pool3 = some (loops, p')
          ∧ 0 ≤ p'.next_ ∧ p'.next_ < p'.loops_.length := by
  have hstart : start (fun _ => 1) 1 (fun i => 10 + i) (setThreadNum 3 (new 0))
      = some Demo.pool3 := by decide
  obtain ⟨loops, p', h, -, -, -, -, h₀, h₁, -⟩ :=
    cursor_in_bounds (fun _ => 1) 1 (fun i => 10 + i) 0 3 Demo.pool3 (by decide) (by decide)
      hstart Demo.poolOps
  exact ⟨hstart, by decide, loops, p', h, h₀, h₁⟩

end EventLoopThreadPool

/-! ### `TimerQueue::insert` and `addTimerInLoop` -/

namespace TimerQueue

/-- C27.  `insert(timer)` on the loop thread, for a live timer that is in
neither set of a consistent queue.  The call returns; the value returned is
true exactly when `timers_` was empty or the expiration of the timer is
strictly earlier than the earliest expiration in `timers_`; afterwards
`timers_` has the entry `(expiration, timer)` and `activeTimers_` the entry
`(timer, sequence)` besides what they had, nothing else is changed and the
queue is consistent.  `addTimerInLoop(timer)` returns the state `insert`
leaves, with `resetTimerfd(expiration)` called on it when `insert` returned
true and as it is otherwise. -/
theorem insert_earliest_rearms (tid : ThreadId) (timer : TimerPtr) (t : Timer) (w : World U)
    (hinv : Inv w) (htid : w.loop.threadId_ = tid) (ht : w.timerHeap timer = some t)
    (hd : Detached w timer) :
    ∃ b w', insert tid timer w = some (b, w')
      ∧ (b = true ↔ (w.timerQueue.timers_ = []
          ∨ ∃ m ∈ w.timerQueue.timers_, (∀ e ∈ w.timerQueue.timers_, m.1 ≤ e.1)
              ∧ t.expiration_ < m.1))
      ∧ (∀ e, e ∈ w'.timerQueue.timers_ ↔ e = (t.expiration_, timer) ∨ e ∈ w.timerQueue.timers_)
      ∧ (∀ a, a ∈ w'.timerQueue.activeTimers_
          ↔ a = (timer, t.sequence_) ∨ a ∈ w.timerQueue.activeTimers_)
      ∧ w' = { w with timerQueue := { w.timerQueue with
                timers_ := w'.timerQueue.timers_,
                activeTimers_ := w'.timerQueue.activeTimers_ } }
      ∧ Inv w'
      ∧ addTimerInLoop tid timer w
          = some (if b then resetTimerfd t.expiration_ w' else w')
      ∧ (if b then resetTimerfd t.expiration_ w' else w').timerQueue.timerfdArmed
          = (if b then some t.expiration_ else w.timerQueue.timerfdArmed) := by
  have h₁ : (t.expiration_, timer) ∉ w.timerQueue.timers_ := fun hm => hd.2.1 _ hm rfl
  have h₂ : (timer, t.sequence_) ∉ w.timerQueue.activeTimers_ := fun hm => hd.2.2 _ hm rfl
  refine ⟨earliest t w, inserted timer t w, ?_, ?_, ?_, ?_, rfl, inv_inserted hinv ht hd, ?_, ?_⟩
  · exact (insert_eq_some_iff tid timer w _).mpr ⟨t, htid, hinv.sizes, ht, h₁, h₂, rfl⟩
  · unfold earliest
    cases hh : w.timerQueue.timers_.head? with
    | none =>
      have hnil : w.timerQueue.timers_ = [] := List.head?_eq_none_iff.mp hh
      simp [hnil]
    | some it =>
      have hmem : it ∈ w.timerQueue.timers_ := List.mem_of_mem_head? hh
      have hmin := head_le hinv hh
      have hne : w.timerQueue.timers_ ≠ [] := List.ne_nil_of_mem hmem
      simp only [decide_eq_true_eq]
      constructor
      · intro hlt
        exact Or.inr ⟨it, hmem, hmin, hlt⟩
      · rintro (hnil | ⟨m, hm, hmmin, hlt⟩)
        · exact absurd hnil hne
        · exact Int.lt_of_lt_of_le hlt (hmmin it hmem)
  · intro e
    exact OrdSet.mem_place _ e _
  · intro a
    exact OrdSet.mem_place _ a _
  · exact addTimerInLoop_eq htid hinv.sizes ht h₁ h₂
  · cases earliest t w <;> rfl

/-- Witness for C27: the queue of `Demo.worldT` holds one timer, due at 500.
A new timer due at 700 is inserted behind it, `insert` returns false and the
kernel timer is left alone; a new timer due at 300 is inserted in front,
`insert` returns true and the kernel timer is armed for 300. -/
theorem insert_earliest_rearms_witness :
    Inv (Demo.worldU 700) ∧ Detached (Demo.worldU 700) 65
      ∧ (insert 1 65 (Demo.worldU 700)).map (fun r => (r.1, Demo.queueView r.2))
          = some (false,
              { timers := [(500, 64), (700, 65)], active := [(64, 1), (65, 2)], armed := none })
      ∧ (addTimerInLoop 1 65 (Demo.worldU 700)).map Demo.queueView
          = some { timers := [(500, 64), (700, 65)], active := [(64, 1), (65, 2)], armed := none }
      ∧ (insert 1 65 (Demo.worldU 300)).map (fun r => (r.1, Demo.queueView r.2))
          = some (true,
              { timers := [(300, 65), (500, 64)], active := [(64, 1), (65, 2)], armed := none })
      ∧ (addTimerInLoop 1 65 (Demo.worldU 300)).map Demo.queueView
          = some { timers := [(300, 65), (500, 64)], active := [(64, 1), (65, 2)],
                   armed := some 300 }
      ∧ ∃ b w', insert 1 65 (Demo.worldU 700) = some (b, w')
          ∧ addTimerInLoop 1 65 (Demo.worldU 700)
            = some (if b then resetTimerfd 700 w' else w') := by
  have hinv : Inv (Demo.worldU 700) := @inv_allocated _ Demo.worldT worldT_inv 65 rfl (by decide) 21 700 0
  have hd : Detached (Demo.worldU 700) 65 :=
    ⟨⟨_, rfl⟩, by decide, by decide⟩
  obtain ⟨b, w', h₁, -, -, -, -, -, h₂, -⟩ :=
    insert_earliest_rearms 1 65 (Timer.construct 21 700 0 2) (Demo.worldU 700) hinv rfl rfl hd
  exact ⟨hinv, hd, by decide, by decide, by decide, by decide, b, w', h₁, h₂⟩

end TimerQueue

/-! ### `TimerQueue::getExpired` -/

namespace OrdSet

/-- On a list along which `p` can only turn from true to false, the elements
before the first that fails `p` are those that satisfy `p`, and the others
are those that fail it. -/
theorem takeWhile_dropWhile_eq_filter {α : Type} (p : α → Bool) :
    ∀ l : List α, l.Pairwise (fun a b => p b = true → p a = true) →
      l.takeWhile p = l.filter p ∧ l.dropWhile p = l.filter (fun a => !p a)
  | [], _ => ⟨rfl, rfl⟩
  | x :: xs, h => by
    obtain ⟨hx, hxs⟩ := List.pairwise_cons.mp h
    obtain ⟨ih₁, ih₂⟩ := takeWhile_dropWhile_eq_filter p xs hxs
    cases hp : p x with
    | true =>
      constructor
      · rw [List.takeWhile_cons, List.filter_cons, hp, if_pos rfl, if_pos rfl, ih₁]
      · rw [List.dropWhile_cons, List.filter_cons, hp, if_pos rfl, ih₂]
        rfl
    | false =>
      have hall : ∀ b ∈ xs, p b = false := by
        intro b hb
        cases hb' : p b with
        | false => rfl
        | true =>
          rw [hx b hb hb'] at hp
          exact absurd hp (by decide)
      constructor
      · rw [List.takeWhile_cons, List.filter_cons, hp]
        simp only [Bool.false_eq_true, if_false]
        symm
        rw [List.filter_eq_nil_iff]
        intro b hb
        rw [hall b hb]
        decide
      · rw [List.dropWhile_cons, List.filter_cons, hp]
        simp only [Bool.false_eq_true, if_false, Bool.not_false, if_true]
        congr 1
        symm
        rw [List.filter_eq_self]
        intro b hb
        rw [hall b hb]
        rfl

end OrdSet

namespace TimerQueue

/-- In a consistent queue the entries before the `lower_bound` of the sentry
`(now, UINTPTR_MAX)` are the entries that expire at `now` or before, and the
entries from it on are those that expire after `now`. -/
theorem batch_eq_filter {w : World U} (hinv : Inv w) (now : Timestamp) :
    w.timerQueue.timers_.takeWhile (fun e => entryLt e (now, UINTPTR_MAX))
        = w.timerQueue.timers_.filter (fun e => decide (e.1 ≤ now))
      ∧ w.timerQueue.timers_.dropWhile (fun e => entryLt e (now, UINTPTR_MAX))
        = w.timerQueue.timers_.filter (fun e => decide (now < e.1)) := by
  have hbound : ∀ e ∈ w.timerQueue.timers_, e.2 < UINTPTR_MAX := by
    intro e he
    obtain ⟨t, ht, -, -⟩ := hinv.timersLive e he
    exact hinv.ptrBound _ _ ht
  have hpw : w.timerQueue.timers_.Pairwise
      (fun a b => entryLt b (now, UINTPTR_MAX) = true → entryLt a (now, UINTPTR_MAX) = true) :=
    List.Pairwise.imp (fun {a b} hab hb => entryLt_strictTotal.trans a b _ hab hb)
      hinv.sortedTimers
  obtain ⟨h₁, h₂⟩ := OrdSet.takeWhile_dropWhile_eq_filter
    (fun e => entryLt e (now, UINTPTR_MAX)) _ hpw
  rw [h₁, h₂]
  constructor
  · apply List.filter_congr
    intro e he
    by_cases hle : e.1 ≤ now
    · rw [(entryLt_sentry_iff e now (hbound e he)).mpr hle, decide_eq_true hle]
    · rw [decide_eq_false hle]
      cases hlt : entryLt e (now, UINTPTR_MAX) with
      | false => rfl
      | true => exact absurd ((entryLt_sentry_iff e now (hbound e he)).mp hlt) hle
  · apply List.filter_congr
    intro e he
    by_cases hle : e.1 ≤ now
    · rw [(entryLt_sentry_iff e now (hbound e he)).mpr hle, decide_eq_false (not_lt.mpr hle)]
      rfl
    · rw [decide_eq_true (not_le.mp hle)]
      cases hlt : entryLt e (now, UINTPTR_MAX) with
      | false => rfl
      | true => exact absurd ((entryLt_sentry_iff e now (hbound e he)).mp hlt) hle

/-- C24.  `getExpired(now)` on a consistent queue returns.  The vector it
returns is `timers_` restricted to the entries with expiration `≤ now`, in
the order of the set, which is ascending in (expiration, timer).  Afterwards
`timers_` is the old `timers_` restricted to the entries with expiration
`> now`; `activeTimers_`, still ascending, has lost exactly the entries of
the returned timers, so no returned timer is in either set and every timer
that expires after `now` is in both, as before; nothing else is changed and
the queue is consistent. -/
theorem getExpired_partitions (now : Timestamp) (w : World U) (hinv : Inv w) :
    ∃ expired w', getExpired now w = some (expired, w')
      ∧ expired = w.timerQueue.timers_.filter (fun e => decide (e.1 ≤ now))
      ∧ OrdSet.Sorted entryLt expired
      ∧ w'.timerQueue.timers_ = w.timerQueue.timers_.filter (fun e => decide (now < e.1))
      ∧ OrdSet.Sorted activeLt w'.timerQueue.activeTimers_
      ∧ (∀ a, a ∈ w'.timerQueue.activeTimers_
          ↔ a ∈ w.timerQueue.activeTimers_ ∧ ∀ e ∈ expired, e.2 ≠ a.1)
      ∧ (∀ it ∈ expired, (∀ e ∈ w'.timerQueue.timers_, e.2 ≠ it.2)
          ∧ ∀ a ∈ w'.timerQueue.activeTimers_, a.1 ≠ it.2)
      ∧ (∀ e ∈ w.timerQueue.timers_, now < e.1 → e ∈ w'.timerQueue.timers_
          ∧ ∃ t, w.timerHeap e.2 = some t ∧ (e.2, t.sequence_) ∈ w'.timerQueue.activeTimers_)
      ∧ w' = { w with timerQueue := { w.timerQueue with
                timers_ := w'.timerQueue.timers_,
                activeTimers_ := w'.timerQueue.activeTimers_ } }
      ∧ Inv w' := by
  obtain ⟨active, hget, hinv', hexp, hrest, hactive, hdet⟩ := getExpired_spec hinv now
  obtain ⟨hb₁, hb₂⟩ := batch_eq_filter hinv now
  refine ⟨_, _, hget, hb₁, hinv.sortedTimers.sublist (List.takeWhile_sublist _), hb₂,
    hinv'.sortedActive, ?_, ?_, ?_, rfl, hinv'⟩
  · intro a
    show a ∈ active ↔ _
    rw [hactive]
    constructor
    · rintro ⟨ha, hr⟩
      exact ⟨ha, fun e he => hr e ((hexp e).mp he).1 ((hexp e).mp he).2⟩
    · rintro ⟨ha, hr⟩
      exact ⟨ha, fun it hit hle => hr it ((hexp it).mpr ⟨hit, hle⟩)⟩
  · intro it hit
    exact (hdet it hit).2
  · intro e he hlt
    refine ⟨(hrest e).mpr ⟨he, hlt⟩, ?_⟩
    obtain ⟨t, ht, -, hm⟩ := hinv'.timersLive e ((hrest e).mpr ⟨he, hlt⟩)
    exact ⟨t, ht, hm⟩

/-- Witness for C24: two timers, due at 500 and at 700.  `getExpired(600)`
returns the first and leaves the second in both sets. -/
theorem getExpired_partitions_witness :
    (getExpired 600 (inserted 65 (Timer.construct 21 700 0 2) (Demo.worldU 700))).map
        (fun r => (r.1, Demo.queueView r.2))
        = some ([(500, 64)], { timers := [(700, 65)], active := [(65, 2)], armed := none })
      ∧ ∃ expired w',
          getExpired 600 (inserted 65 (Timer.construct 21 700 0 2) (Demo.worldU 700))
            = some (expired, w')
          ∧ expired = [(500, 64)] ∧ w'.timerQueue.timers_ = [(700, 65)] := by
  have hinv₀ : Inv (Demo.worldU 700) := @inv_allocated _ Demo.worldT worldT_inv 65 rfl
    (by decide) 21 700 0
  have hinv : Inv (inserted 65 (Timer.construct 21 700 0 2) (Demo.worldU 700)) :=
    inv_inserted hinv₀ rfl ⟨⟨_, rfl⟩, by decide, by decide⟩
  obtain ⟨expired, w', h₁, h₂, -, h₃, -⟩ := getExpired_partitions 600 _ hinv
  exact ⟨by decide, expired, w', h₁, h₂.trans (by decide), h₃.trans (by decide)⟩

end TimerQueue

/-! ### `TimerQueue::reset`: which expired timers come back -/

namespace TimerQueue

/-- C25.  `reset(expired, now)` in the state the callbacks of a batch leave:
the queue is consistent and the timers of `expired`, each once in the vector,
are live and in neither set.  The call returns, and for each expired timer
`t`: if `t` repeats and its pair (timer, sequence) is not in
`cancelingTimers_`, the timer is live with expiration `now + interval`, the
rest of it unchanged, and is in `timers_` under that expiration and in
`activeTimers_` under its sequence number; otherwise the timer is deleted and
is in neither set.  The entries the two sets had are still there, and an
entry they have gained is the entry of an expired timer. -/
theorem reset_reinserts_periodic (tid : ThreadId) (now : Timestamp) (expired : List Entry)
    (w : World U) (hinv : Inv w) (htid : w.loop.threadId_ = tid)
    (hnd : (expired.map (fun it => it.2)).Nodup) (hdet : ∀ it ∈ expired, Detached w it.2) :
    ∃ w', reset tid expired now w = some w'
      ∧ (∀ it ∈ expired, ∀ t, w.timerHeap it.2 = some t →
          (t.repeat_ = true ∧ (it.2, t.sequence_) ∉ w.timerQueue.cancelingTimers_ →
            w'.timerHeap it.2 = some { t with expiration_ := now + t.interval_ }
              ∧ (now + t.interval_, it.2) ∈ w'.timerQueue.timers_
              ∧ (it.2, t.sequence_) ∈ w'.timerQueue.activeTimers_)
          ∧ (¬ (t.repeat_ = true ∧ (it.2, t.sequence_) ∉ w.timerQueue.cancelingTimers_) →
            w'.timerHeap it.2 = none
              ∧ (∀ e ∈ w'.timerQueue.timers_, e.2 ≠ it.2)
              ∧ ∀ a ∈ w'.timerQueue.activeTimers_, a.1 ≠ it.2))
      ∧ (∀ e ∈ w.timerQueue.timers_, e ∈ w'.timerQueue.timers_)
      ∧ (∀ a ∈ w.timerQueue.activeTimers_, a ∈ w'.timerQueue.activeTimers_)
      ∧ (∀ e ∈ w'.timerQueue.timers_, e ∈ w.timerQueue.timers_ ∨ ∃ it ∈ expired, e.2 = it.2)
      ∧ (∀ a ∈ w'.timerQueue.activeTimers_,
          a ∈ w.timerQueue.activeTimers_ ∨ ∃ it ∈ expired, a.1 = it.2)
      ∧ Inv w' := by
  obtain ⟨w₁, hloop, -, -, -, -, -, hheap, htimers, hactive⟩ :=
    resetLoop_spec tid now expired w hinv htid hnd hdet
  obtain ⟨w₁', w', hloop', hreset, hinv', -, eh, et, ea, -⟩ :=
    reset_spec tid now expired w hinv htid hnd hdet
  rw [hloop] at hloop'
  cases hloop'
  refine ⟨w', hreset, ?_, ?_, ?_, ?_, ?_, hinv'⟩
  · intro it hit t ht
    constructor
    · intro hk
      have hobj : Timer.restartObj now t = { t with expiration_ := now + t.interval_ } := by
        unfold Timer.restartObj
        rw [if_pos hk.1]
        rfl
      refine ⟨?_, ?_, ?_⟩
      · rw [eh, ((hheap it hit t ht).1 hk), hobj]
      · rw [et, htimers]
        refine Or.inr ⟨it, hit, t, ht, hk, ?_⟩
        rw [hobj]
      · rw [ea, hactive]
        exact Or.inr ⟨it, hit, t, ht, hk, rfl⟩
    · intro hk
      refine ⟨?_, ?_, ?_⟩
      · rw [eh]
        exact (hheap it hit t ht).2 hk
      · intro e he hp
        rw [et, htimers] at he
        rcases he with he | ⟨it', -, t', ht', hk', rfl⟩
        · exact (hdet it hit).2.1 e he hp
        · have hp' : it'.2 = it.2 := hp
          rw [hp', ht] at ht'
          cases ht'
          rw [hp'] at hk'
          exact hk hk'
      · intro a ha hp
        rw [ea, hactive] at ha
        rcases ha with ha | ⟨it', -, t', ht', hk', rfl⟩
        · exact (hdet it hit).2.2 a ha hp
        · have hp' : it'.2 = it.2 := hp
          rw [hp', ht] at ht'
          cases ht'
          rw [hp'] at hk'
          exact hk hk'
  · intro e he
    rw [et, htimers]
    exact Or.inl he
  · intro a ha
    rw [ea, hactive]
    exact Or.inl ha
  · intro e he
    rw [et, htimers] at he
    rcases he with he | ⟨it, hit, t, -, -, rfl⟩
    · exact Or.inl he
    · exact Or.inr ⟨it, hit, rfl⟩
  · intro a ha
    rw [ea, hactive] at ha
    rcases ha with ha | ⟨it, hit, t, -, -, rfl⟩
    · exact Or.inl ha
    · exact Or.inr ⟨it, hit, rfl⟩

/-- Witness for C25: in `Demo.worldQ` a one-shot timer, due at 25, and a
periodic timer with interval 10, due at 30, expire in the batch of
`handleRead` at 30.  After it the periodic timer is in both sets with the
expiration 40 and the one-shot timer is deleted. -/
theorem reset_reinserts_periodic_witness :
    (handleRead Demo.logEnv 1 30 Demo.worldQ).map
        (fun w => (Demo.queueView w, w.timerHeap 64, w.timerHeap 65))
        = some ({ timers := [(40, 64)], active := [(64, 1)], armed := some 40 },
            some (Demo.periodic 40), none)
      ∧ ∃ expired w₁ w', getExpired 30 Demo.worldQ = some (expired, w₁)
          ∧ reset 1 expired 30 w₁ = some w'
          ∧ w'.timerHeap 64 = some (Demo.periodic 40) ∧ (40, 64) ∈ w'.timerQueue.timers_
          ∧ w'.timerHeap 65 = none ∧ ∀ e ∈ w'.timerQueue.timers_, e.2 ≠ 65 := by
  have hinv₀ : Inv (allocated 65 21 25 0 Demo.worldP) :=
    @inv_allocated _ Demo.worldP worldP_inv 65 rfl (by decide) 21 25 0
  have hinv : Inv Demo.worldQ := inv_inserted hinv₀ rfl ⟨⟨_, rfl⟩, by decide, by decide⟩
  obtain ⟨active, hget, hinv₁, -, -, -, hdet⟩ := getExpired_spec hinv 30
  obtain ⟨w', hreset, hall, -⟩ :=
    reset_reinserts_periodic 1 30 _ _ hinv₁ rfl (batch_ptrs_nodup hinv 30) hdet
  have hexp : batch 30 Demo.worldQ = [(25, 65), (30, 64)] := by decide
  rw [hexp] at hall
  have hcl : ((64 : TimerPtr), (1 : Int))
      ∉ (expiredOut 30 active Demo.worldQ).timerQueue.cancelingTimers_ := List.not_mem_nil _
  have h64 := (hall (30, 64) (by decide) (Demo.periodic 30) rfl).1 ⟨rfl, hcl⟩
  have h65 := (hall (25, 65) (by decide) (Timer.construct 21 25 0 2) rfl).2
    (fun hk => absurd hk.1 (by decide))
  exact ⟨by decide, _, _, w', hget, hreset, h64.1, h64.2.1, h65.1, h65.2.1⟩

end TimerQueue

/-! ### `TimerQueue`: the two sets hold the same timers -/

namespace TimerQueue

/-- A consistent queue has the same timers in its two sets. -/
theorem Inv.sameTimers {w : World U} (h : Inv w) : SameTimers w where
  both := by
    intro p t ht
    constructor
    · intro hm
      obtain ⟨t', ht', -, hm'⟩ := h.timersLive _ hm
      rw [ht] at ht'
      cases ht'
      exact hm'
    · intro hm
      obtain ⟨t', ht', -, hm'⟩ := h.activeLive _ hm
      rw [ht] at ht'
      cases ht'
      exact hm'
  timersOf := by
    intro e he
    obtain ⟨t, ht, hx, -⟩ := h.timersLive e he
    exact ⟨t, ht, by rw [hx]⟩
  activeOf := by
    intro a ha
    obtain ⟨t, ht, hs, -⟩ := h.activeLive a ha
    exact ⟨t, ht, by rw [hs]⟩
  onceTimers :=
    (List.nodup_map_iff_inj_on (OrdSet.Sorted.nodup entryLt_strictTotal h.sortedTimers)).mpr
      fun _ he _ he' hp => h.timers_ptr_inj he he' hp
  onceActive :=
    (List.nodup_map_iff_inj_on (OrdSet.Sorted.nodup activeLt_strictTotal h.sortedActive)).mpr
      fun _ ha _ ha' hp => h.active_ptr_inj ha ha' hp

/-- C30.  Start from a timer queue as the constructor leaves it and let the
loop thread make any calls of `addTimer` (which runs `insert`), `cancel`
(which runs `cancelInLoop`) and `handleRead` (which runs `getExpired`, the
callbacks and `reset`), in any number and order; the timer callbacks are
arbitrary user code that returns and touches the timer queue only through
`addTimer` and `cancel`.  Every call returns, so none of the uniqueness and
erase-count assertions fails, and in the state `w` reached the two sets
describe the same set of timers (`SameTimers`).  From `w`, `cancelInLoop` of
any id and `insert` of any live timer that is in neither set return with the
same property; for every `now`, `getExpired(now)` returns with it, it holds
when the callbacks of the batch have run, and `reset` returns with it. -/
theorem same_timers_invariant (env : Env U) (tid : ThreadId) (hrely : Rely env)
    (hret : Returns env tid) (w₀ : World U) (hinit : Initial w₀)
    (htid : w₀.loop.threadId_ = tid) (ops : List Op)
    (hadm : admissible env tid ops w₀ = true) :
    ∃ w, runOps env tid ops w₀ = some w
      ∧ SameTimers w
      ∧ (∀ timerId, ∃ w', cancelInLoop tid timerId w = some w' ∧ SameTimers w')
      ∧ (∀ p, Detached w p → ∃ r, insert tid p w = some r ∧ SameTimers r.2)
      ∧ ∀ now, ∃ expired w₁, getExpired now w = some (expired, w₁)
          ∧ SameTimers w₁
          ∧ ∀ w₂, runExpired env expired (batchStart w₁) = some w₂ →
              SameTimers w₂
                ∧ ∃ w₃, reset tid expired now (batchEnd w₂) = some w₃ ∧ SameTimers w₃ := by
  obtain ⟨w, hrun, hinv, htid'⟩ := runOps_returns hrely hret ops w₀ hinit.inv htid hadm
  refine ⟨w, hrun, hinv.sameTimers, ?_, ?_, ?_⟩
  · intro timerId
    obtain ⟨w', h⟩ := cancelInLoop_returns hinv htid' timerId
    exact ⟨w', h, (cancelInLoop_inv hinv h).sameTimers⟩
  · intro p hd
    obtain ⟨t, ht⟩ := hd.1
    refine ⟨(earliest t w, inserted p t w), ?_, (inv_inserted hinv ht hd).sameTimers⟩
    exact (insert_eq_some_iff tid p w _).mpr
      ⟨t, htid', hinv.sizes, ht, fun hm => hd.2.1 _ hm rfl, fun hm => hd.2.2 _ hm rfl, rfl⟩
  · intro now
    obtain ⟨active, hget, hinvx, -, -, -, hdetx⟩ := getExpired_spec hinv now
    refine ⟨_, _, hget, hinvx.sameTimers, ?_⟩
    intro w₂ hrun₂
    have hinvs : Inv (batchStart (expiredOut now active w)) := inv_batchStart hinvx
    have hdets : ∀ it ∈ batch now w, Detached (batchStart (expiredOut now active w)) it.2 :=
      fun it hit => (hdetx it hit).move rfl rfl rfl
    obtain ⟨g, -⟩ := runExpired_spec hrely _ _ _ hinvs hdets hrun₂
    have htid₂ : (batchEnd w₂).loop.threadId_ = tid := by
      show w₂.loop.threadId_ = tid
      rw [g.thread]
      exact htid'
    obtain ⟨-, w₃, -, hreset, hinv₃, -⟩ := reset_spec tid now (batch now w) (batchEnd w₂)
      (inv_batchEnd (g.inv hinvs)) htid₂ (batch_ptrs_nodup hinv now)
      (fun it hit => ((g.detached hinvs it.2 (hdets it hit)).1).move rfl rfl rfl)
    exact ⟨(g.inv hinvs).sameTimers, w₃, hreset, hinv₃.sameTimers⟩

/-- Witness for C30.  The calls of `Demo.staleOps` (two timers added, the
first cancelled) leave the second timer alone in both sets; from there
`getExpired(20)` takes it out of both. -/
theorem same_timers_invariant_witness :
    (runOps Demo.busyEnv 1 Demo.staleOps Demo.worldA).map Demo.queueView
        = some { timers := [(20, 65)], active := [(65, 2)], armed := some 10 }
      ∧ ∃ w, runOps Demo.busyEnv 1 Demo.staleOps Demo.worldA = some w ∧ SameTimers w
        ∧ ∃ expired w₁, getExpired 20 w = some (expired, w₁) ∧ SameTimers w₁ := by
  have hinit : Initial Demo.worldA := ⟨rfl, rfl, fun _ => rfl⟩
  obtain ⟨w, h₁, h₂, -, -, h₃⟩ := same_timers_invariant Demo.busyEnv 1 busyEnv_rely
    busyEnv_returns Demo.worldA hinit rfl Demo.staleOps (by decide)
  obtain ⟨expired, w₁, h₄, h₅, -⟩ := h₃ 20
  exact ⟨by decide, w, h₁, h₂, expired, w₁, h₄, h₅⟩

end TimerQueue

/-! ### `EventLoop`: the registry of channels is changed by the loop thread only -/

namespace EventLoop

theorem assertInLoopThread_other {tid : ThreadId} {w : World U}
    (h : w.loop.threadId_ ≠ tid) : assertInLoopThread tid w = none := by
  cases ha : assertInLoopThread tid w with
  | none => rfl
  | some u => exact absurd ((TimerQueue.assertInLoopThread_eq_some tid w u).mp ha) h

theorem thread_of_bind_some {α : Type} {tid : ThreadId} {w : World U} {f : Unit → Option α}
    {r : α} (h : (assertInLoopThread tid w).bind f = some r) : w.loop.threadId_ = tid := by
  cases ha : assertInLoopThread tid w with
  | none =>
    rw [ha] at h
    cases h
  | some u => exact (TimerQueue.assertInLoopThread_eq_some tid w u).mp ha

/-- C22.  Each of `EventLoop::updateChannel`, `removeChannel` and `hasChannel`
is `assertInLoopThread()` followed by the rest, in which the poller is
called.  Called by a thread other than the one that owns the loop, none of
them returns: the call ends in `abortNotInLoopThread` and no state of the
poller or of a channel comes out of it.  So whenever one of them returns, and
in particular whenever the registry of the poller has been changed, the
calling thread is the thread of the loop. -/
theorem channel_calls_in_loop_thread (tid : ThreadId) (channel : ChannelPtr) (p : PollPoller)
    (w : World U) :
    updateChannel tid channel p w
        = (assertInLoopThread tid w).bind (fun _ => PollPoller.updateChannel tid channel p w)
      ∧ removeChannel tid channel p w
        = (assertInLoopThread tid w).bind (fun _ =>
            (assertThat (decide (w.loop.eventHandling_ = true →
              w.loop.currentActiveChannel_ = some channel
                ∨ channel ∉ w.loop.activeChannels_))).bind
              fun _ => PollPoller.removeChannel tid channel p w)
      ∧ hasChannel tid channel p w
        = (assertInLoopThread tid w).bind (fun _ => PollPoller.hasChannel tid channel p w)
      ∧ (w.loop.threadId_ ≠ tid →
          assertInLoopThread tid w = none
            ∧ updateChannel tid channel p w = none
            ∧ removeChannel tid channel p w = none
            ∧ hasChannel tid channel p w = none)
      ∧ (∀ r, updateChannel tid channel p w = some r → w.loop.threadId_ = tid)
      ∧ (∀ r, removeChannel tid channel p w = some r → w.loop.threadId_ = tid)
      ∧ (∀ b, hasChannel tid channel p w = some b → w.loop.threadId_ = tid) := by
  have h₁ : updateChannel tid channel p w
      = (assertInLoopThread tid w).bind (fun _ => PollPoller.updateChannel tid channel p w) :=
    rfl
  have h₂ : removeChannel tid channel p w
      = (assertInLoopThread tid w).bind (fun _ =>
          (assertThat (decide (w.loop.eventHandling_ = true →
            w.loop.currentActiveChannel_ = some channel
              ∨ channel ∉ w.loop.activeChannels_))).bind
            fun _ => PollPoller.removeChannel tid channel p w) := rfl
  have h₃ : hasChannel tid channel p w
      = (assertInLoopThread tid w).bind (fun _ => PollPoller.hasChannel tid channel p w) := rfl
  refine ⟨h₁, h₂, h₃, ?_, ?_, ?_, ?_⟩
  · intro hne
    have ha := assertInLoopThread_other hne
    refine ⟨ha, ?_, ?_, ?_⟩
    · rw [h₁, ha]
      rfl
    · rw [h₂, ha]
      rfl
    · rw [h₃, ha]
      rfl
  · intro r hr
    rw [h₁] at hr
    exact thread_of_bind_some hr
  · intro r hr
    rw [h₂] at hr
    exact thread_of_bind_some hr
  · intro b hb
    rw [h₃] at hb
    exact thread_of_bind_some hb

/-- Witness for C22: the loop of `Demo.worldN` belongs to thread 1.  Thread 2
cannot register the channel at address 8, ask for it or remove it; thread 1
registers it. -/
theorem channel_calls_in_loop_thread_witness :
    (updateChannel 1 8 Demo.emptyPoller Demo.worldN).map Demo.pollView
        = some { pollfds := [{ fd := 5, events := 0, revents := 0 }], registered5 := some 8,
                 channel8 := some { Channel.construct 5 with index_ := 0 } }
      ∧ (hasChannel 1 8 Demo.emptyPoller Demo.worldN) = some false
      ∧ (updateChannel 2 8 Demo.emptyPoller Demo.worldN).isNone = true
      ∧ (removeChannel 2 8 Demo.pollerR Demo.worldR).isNone = true
      ∧ (hasChannel 2 8 Demo.emptyPoller Demo.worldN) = none :=
  ⟨by decide, by decide,
    by rw [((channel_calls_in_loop_thread 2 8 Demo.emptyPoller Demo.worldN).2.2.2.1
      (by decide)).2.1]; rfl,
    by decide, by decide⟩

end EventLoop

/-! ### `EventLoop::quit` before `EventLoop::loop` -/

namespace EventLoop

/-- One iteration with a poll that reports nothing and an empty queue of
functors: only the bookkeeping of the loop changes. -/
theorem loopIteration_idle (w : World (List Call)) (hq : w.loop.pendingFunctors_ = []) :
    ∃ w', loopIteration Demo.logEnv Demo.idlePoll 1 w = some w'
      ∧ w'.loop.quit_ = w.loop.quit_ ∧ w'.loop.pendingFunctors_ = []
      ∧ w'.loop.iteration_ = w.loop.iteration_ + 1 := by
  obtain ⟨user, channels, alive, loop, timerQueue, timerHeap, numCreated, wakeupWrites,
    timerRuns⟩ := w
  obtain ⟨looping, quit, eventHandling, calling, iteration, threadId, pollReturnTime,
    activeChannels, currentActiveChannel, pendingFunctors⟩ := loop
  have hq' : pendingFunctors = [] := hq
  subst hq'
  exact ⟨_, rfl, rfl, rfl, rfl⟩

/-- The steps of `EventLoop::loop`. -/
theorem loop_eq (env : Env U) (poll : Int → World U → Timestamp × World U) (tid : ThreadId)
    (fuel : Nat) (w : World U) :
    loop env poll tid fuel w
      = (assertThat (!w.loop.looping_)).bind fun _ =>
          (assertInLoopThread tid w).bind fun _ =>
            (loopWhile env poll tid fuel (entered w)).bind
              fun w' : World U => some ({ w' with loop := { w'.loop with looping_ := false } }) :=
  rfl

theorem loopWhile_idle :
    ∀ (fuel : Nat) (w : World (List Call)), w.loop.quit_ = false → w.loop.pendingFunctors_ = [] →
      loopWhile Demo.logEnv Demo.idlePoll 1 fuel w = none
  | 0, _, _, _ => rfl
  | fuel + 1, w, h₁, h₂ => by
    obtain ⟨w', hw', hq, hp, -⟩ := loopIteration_idle w h₂
    rw [loopWhile, h₁]
    simp only [Bool.false_eq_true, if_false, hw', Option.some_bind]
    exact loopWhile_idle fuel w' (hq.trans h₁) hp

theorem iterations_idle :
    ∀ (n : Nat) (w : World (List Call)), w.loop.quit_ = false → w.loop.pendingFunctors_ = [] →
      ∃ w', iterations Demo.logEnv Demo.idlePoll 1 n w = some w'
        ∧ w'.loop.quit_ = false ∧ w'.loop.iteration_ = w.loop.iteration_ + n
  | 0, w, h₁, _ => ⟨w, rfl, h₁, by simp⟩
  | n + 1, w, h₁, h₂ => by
    obtain ⟨w₁, hw₁, hq, hp, hi⟩ := loopIteration_idle w h₂
    obtain ⟨w', hw', hq', hi'⟩ := iterations_idle n w₁ (hq.trans h₁) hp
    refine ⟨w', ?_, hq', ?_⟩
    · rw [iterations, hw₁]
      exact hw'
    · rw [hi', hi]
      push_cast
      ring

/-- C21 (what the code does).  `loop()` assigns `quit_ = false` before its
`while`, so it starts in the same state whether or not `quit()` was called
before it (first part).  In `Demo.worldA`, whose loop belongs to thread 1, the
thread calls `quit()` and then `loop()`, with a poll that times out and no
functor queued: `quit_` is true when `loop()` is called, yet for every `n` the
loop runs `n` iterations and `quit_` is false after them, and `loop()` never
returns, whatever the number of iterations allowed. -/
theorem quit_before_loop_lost :
    (∀ (env : Env U) (poll : Int → World U → Timestamp × World U) (tid : ThreadId)
        (fuel : Nat) (w : World U),
        loop env poll tid fuel { w with loop := { w.loop with quit_ := true } }
          = loop env poll tid fuel { w with loop := { w.loop with quit_ := false } })
      ∧ (quit 1 Demo.worldA).loop.quit_ = true
      ∧ (quit 1 Demo.worldA).loop.looping_ = false
      ∧ (∀ n : Nat, ∃ w, iterations Demo.logEnv Demo.idlePoll 1 n (entered (quit 1 Demo.worldA))
            = some w ∧ w.loop.quit_ = false ∧ w.loop.iteration_ = n)
      ∧ ∀ fuel, loop Demo.logEnv Demo.idlePoll 1 fuel (quit 1 Demo.worldA) = none := by
  refine ⟨fun env poll tid fuel w => rfl, rfl, rfl, ?_, ?_⟩
  · intro n
    obtain ⟨w, hw, hq, hi⟩ := iterations_idle n (entered (quit 1 Demo.worldA)) rfl rfl
    refine ⟨w, hw, hq, ?_⟩
    rw [hi]
    show (0 : Int) + n = n
    simp
  · intro fuel
    rw [loop_eq, loopWhile_idle fuel (entered (quit 1 Demo.worldA)) rfl rfl]
    rfl

end EventLoop

/-! ### `PollPoller`: the registry stays consistent -/

namespace PollPoller

/-- A list of distinct integers of `[0, n)` has at most `n` elements. -/
theorem length_le_of_nodup_range (l : List Int) (n : Nat) (hnd : l.Nodup)
    (h : ∀ x ∈ l, 0 ≤ x ∧ x < n) : l.length ≤ n := by
  have hnd' : (l.map Int.toNat).Nodup := by
    refine List.Nodup.map_on ?_ hnd
    intro x hx y hy hxy
    have h₁ := (h x hx).1
    have h₂ := (h y hy).1
    omega
  have hsub : l.map Int.toNat ⊆ List.range n := by
    intro k hk
    obtain ⟨x, hx, rfl⟩ := List.mem_map.mp hk
    have h₁ := h x hx
    exact List.mem_range.mpr (by omega)
  have := (List.subperm_of_subset hnd' hsub).length_le
  rwa [List.length_map, List.length_range] at this

/-- What `Consistent` says of the slots makes the descriptors of the slots
distinct. -/
theorem keys_nodup {p : PollPoller} {w : World U}
    (hslots : ∀ (i : Nat) (pfd : PollFd), p.pollfds_[i]? = some pfd →
      ∃ ch c, p.channels_ (decodeFd pfd.fd) = some ch ∧ w.channels ch = some c ∧ c.index_ = i) :
    (keys p).Nodup := by
  rw [List.nodup_iff_getElem?_ne_getElem?]
  intro i j hij hj heq
  unfold keys at hj heq
  rw [List.length_map] at hj
  rw [List.getElem?_map, List.getElem?_map, List.getElem?_eq_getElem (by omega : i < _),
    List.getElem?_eq_getElem hj] at heq
  simp only [Option.map_some', Option.some.injEq] at heq
  obtain ⟨ch, c, h₁, h₂, h₃⟩ := hslots i _ (List.getElem?_eq_getElem (by omega : i < _))
  obtain ⟨ch', c', h₁', h₂', h₃'⟩ := hslots j _ (List.getElem?_eq_getElem hj)
  rw [heq, h₁'] at h₁
  cases h₁
  rw [h₂'] at h₂
  cases h₂
  rw [h₃'] at h₃
  have : j = i := by exact_mod_cast h₃
  omega

/-- In consistent tables the keys of `channels_` are the descriptors of the
slots. -/
theorem mem_keys {p : PollPoller} {w : World U} (hinv : Consistent p w) (fd : Int) :
    fd ∈ keys p ↔ (p.channels_ fd).isSome = true := by
  constructor
  · intro hm
    obtain ⟨pfd, hpfd, rfl⟩ := List.mem_map.mp hm
    obtain ⟨i, hi⟩ := List.mem_iff_getElem?.mp hpfd
    obtain ⟨ch, c, h₁, -, -⟩ := hinv.slots i pfd hi
    rw [h₁]
    rfl
  · intro hs
    obtain ⟨ch, hch⟩ := Option.isSome_iff_exists.mp hs
    obtain ⟨c, -, -, h0, -, pfd, hpfd, henc⟩ := hinv.registered fd ch hch
    exact List.mem_map.mpr ⟨pfd, List.mem_iff_getElem?.mpr ⟨_, hpfd⟩,
      decodeFd_of_encoding h0 henc⟩

/-- Tables that are consistent but for the bound on the size are consistent
when the descriptors are file descriptors; a descriptor that is not
registered leaves room for one more slot. -/
theorem slots_bound {p : PollPoller} {w : World U}
    (hreg : ∀ fd ch, p.channels_ fd = some ch → ∃ c, w.channels ch = some c ∧ c.fd_ = fd
      ∧ 0 ≤ fd ∧ 0 ≤ c.index_
      ∧ ∃ pfd, p.pollfds_[c.index_.toNat]? = some pfd ∧ (pfd.fd = fd ∨ pfd.fd = -fd - 1))
    (hslots : ∀ (i : Nat) (pfd : PollFd), p.pollfds_[i]? = some pfd →
      ∃ ch c, p.channels_ (decodeFd pfd.fd) = some ch ∧ w.channels ch = some c ∧ c.index_ = i)
    (hd : Descriptors w) :
    p.pollfds_.length < 2 ^ 31
      ∧ ∀ fd : Int, 0 ≤ fd → fd < 2 ^ 31 - 1 → p.channels_ fd = none →
          p.pollfds_.length + 1 < 2 ^ 31 := by
  have hrange : ∀ x ∈ keys p, 0 ≤ x ∧ x < ((2 ^ 31 - 1 : Nat) : Int) := by
    intro x hx
    obtain ⟨pfd, hpfd, rfl⟩ := List.mem_map.mp hx
    obtain ⟨i, hi⟩ := List.mem_iff_getElem?.mp hpfd
    obtain ⟨ch, c, h₁, -, -⟩ := hslots i pfd hi
    obtain ⟨c', hc', hfd, -⟩ := hreg _ ch h₁
    have := hd ch c' hc'
    rw [hfd] at this
    constructor
    · exact this.1
    · have h₂ := this.2
      norm_num at h₂ ⊢
      exact h₂
  have hlen : (keys p).length = p.pollfds_.length := List.length_map _ _
  constructor
  · have := length_le_of_nodup_range (keys p) (2 ^ 31 - 1) (keys_nodup hslots) hrange
    rw [hlen] at this
    omega
  · intro fd h0 h1 hnone
    have hnot : fd ∉ keys p := by
      intro hm
      obtain ⟨pfd, hpfd, hdec⟩ := List.mem_map.mp hm
      obtain ⟨i, hi⟩ := List.mem_iff_getElem?.mp hpfd
      obtain ⟨ch, c, h₁, -, -⟩ := hslots i pfd hi
      have hdec' : decodeFd pfd.fd = fd := hdec
      rw [hdec', hnone] at h₁
      cases h₁
    have := length_le_of_nodup_range (fd :: keys p) (2 ^ 31 - 1)
      (List.nodup_cons.mpr ⟨hnot, keys_nodup hslots⟩)
      (by
        intro x hx
        rcases List.mem_cons.mp hx with rfl | hx
        · refine ⟨h0, ?_⟩
          norm_num at h1 ⊢
          exact h1
        · exact hrange x hx)
    rw [List.length_cons, hlen] at this
    omega

end PollPoller

namespace PollPoller

/-- What a returning `updateChannel` has checked. -/
theorem updateChannel_some {tid : ThreadId} {channel : ChannelPtr} {p : PollPoller}
    {w : World U} {r : PollPoller × World U} (h : updateChannel tid channel p w = some r) :
    w.loop.threadId_ = tid ∧ ∃ c, w.channels channel = some c
      ∧ ((c.index_ < 0 ∧ p.channels_ c.fd_ = none ∧ addChannel channel c p w = some r)
        ∨ (0 ≤ c.index_ ∧ p.channels_ c.fd_ = some channel
            ∧ (∃ old, p.pollfds_[c.index_.toNat]? = some old
                ∧ (old.fd = c.fd_ ∨ old.fd = -c.fd_ - 1))
            ∧ rewriteChannel channel c p w = some r)) := by
  simp only [updateChannel, Option.bind_eq_bind, Option.bind_eq_some] at h
  obtain ⟨u, ht, c, hc, hbr⟩ := h
  refine ⟨(TimerQueue.assertInLoopThread_eq_some tid w u).mp ht, c, hc, ?_⟩
  by_cases hneg : c.index_ < 0
  · rw [if_pos hneg] at hbr
    refine Or.inl ⟨hneg, ?_, hbr⟩
    simp only [addChannel, Option.bind_eq_bind, Option.bind_eq_some, assertThat_eq_some,
      Option.isNone_iff_eq_none] at hbr
    exact hbr.choose_spec.1
  · rw [if_neg hneg] at hbr
    refine Or.inr ⟨Int.not_lt.mp hneg, ?_, ?_, hbr⟩
    · simp only [rewriteChannel, Option.bind_eq_bind, Option.bind_eq_some, assertThat_eq_some,
        decide_eq_true_eq] at hbr
      obtain ⟨-, -, -, hreg, -⟩ := hbr
      exact hreg
    · simp only [rewriteChannel, Option.bind_eq_bind, Option.bind_eq_some, assertThat_eq_some,
        decide_eq_true_eq] at hbr
      obtain ⟨-, -, -, -, -, -, old, hold, -, hfd, -⟩ := hbr
      exact ⟨old, hold, hfd⟩

/-- What a returning `removeChannel` has checked. -/
theorem removeChannel_some {tid : ThreadId} {channel : ChannelPtr} {p : PollPoller}
    {w : World U} {r : PollPoller × World U} (h : removeChannel tid channel p w = some r) :
    w.loop.threadId_ = tid ∧ ∃ c pfd, w.channels channel = some c
      ∧ p.channels_ c.fd_ = some channel ∧ c.events_ = 0 ∧ 0 ≤ c.index_
      ∧ p.pollfds_[c.index_.toNat]? = some pfd
      ∧ (pfd.fd = -c.fd_ - 1 ∧ pfd.events = c.events_) := by
  simp only [removeChannel, Option.bind_eq_bind, Option.bind_eq_some, assertThat_eq_some,
    decide_eq_true_eq] at h
  obtain ⟨u, ht, c, hc, -, -, -, hreg, -, hev, -, hrange, pfd, hpfd, -, hdis, -⟩ := h
  exact ⟨(TimerQueue.assertInLoopThread_eq_some tid w u).mp ht, c, pfd, hc, hreg, hev,
    hrange.1, hpfd, hdis⟩

end PollPoller

namespace PollPoller

/-- Writing a channel object with the same descriptor keeps the descriptors
file descriptors. -/
theorem descriptors_modify {w : World U} (hd : Descriptors w) {ch : ChannelPtr} {c : Channel}
    (hc : w.channels ch = some c) (c' : Channel) (hfd : c'.fd_ = c.fd_) :
    Descriptors { w with channels := fun q => if q = ch then some c' else w.channels q } := by
  intro q cq hq
  have hq' : (if q = ch then some c' else w.channels q) = some cq := hq
  by_cases e : q = ch
  · rw [if_pos e] at hq'
    cases hq'
    rw [hfd]
    exact hd ch c hc
  · rw [if_neg e] at hq'
    exact hd q cq hq'

theorem encodedSlot_fd (c : Channel) :
    (encodedSlot c).fd = c.fd_ ∨ (encodedSlot c).fd = -c.fd_ - 1 := by
  unfold encodedSlot
  by_cases h : c.events_ = 0
  · right
    simp [h]
  · left
    simp [h]

/-- The tables after the branch of `updateChannel` for a new channel. -/
theorem consistent_added {p : PollPoller} {w : World U} (hinv : Consistent p w)
    (hd : Descriptors w) {channel : ChannelPtr} {c : Channel}
    (hc : w.channels channel = some c) (hneg : c.index_ < 0)
    (hnew : p.channels_ c.fd_ = none) :
    Consistent
      { pollfds_ := p.pollfds_ ++ [freshSlot c],
        channels_ := fun fd => if fd = c.fd_ then some channel else p.channels_ fd }
      { w with channels := fun q =>
          if q = channel then some { c with index_ := p.pollfds_.length } else w.channels q } := by
  have hfd0 : 0 ≤ c.fd_ := (hd channel c hc).1
  have hother : ∀ fd ch, p.channels_ fd = some ch → ch ≠ channel := by
    intro fd ch h e
    obtain ⟨c', hc', -, -, h0, -⟩ := hinv.registered fd ch h
    rw [e, hc] at hc'
    cases hc'
    omega
  have hreg : ∀ fd ch,
      (if fd = c.fd_ then some channel else p.channels_ fd) = some ch →
      ∃ c', (if ch = channel then some { c with index_ := (p.pollfds_.length : Int) }
          else w.channels ch) = some c' ∧ c'.fd_ = fd ∧ 0 ≤ fd ∧ 0 ≤ c'.index_
        ∧ ∃ pfd, (p.pollfds_ ++ [freshSlot c])[c'.index_.toNat]? = some pfd
          ∧ (pfd.fd = fd ∨ pfd.fd = -fd - 1) := by
    intro fd ch h
    by_cases e : fd = c.fd_
    · rw [if_pos e] at h
      cases h
      refine ⟨{ c with index_ := (p.pollfds_.length : Int) }, by rw [if_pos rfl], e.symm,
        by rw [e]; exact hfd0, Int.natCast_nonneg _, freshSlot c, ?_, Or.inl e.symm⟩
      show (p.pollfds_ ++ [freshSlot c])[((p.pollfds_.length : Nat) : Int).toNat]? = _
      rw [Int.toNat_natCast, List.getElem?_concat_length]
    · rw [if_neg e] at h
      obtain ⟨c', hc', hfd, h0, hidx, pfd, hpfd, henc⟩ := hinv.registered fd ch h
      refine ⟨c', by rw [if_neg (hother fd ch h)]; exact hc', hfd, h0, hidx, pfd, ?_, henc⟩
      have hlt : c'.index_.toNat < p.pollfds_.length := by
        by_contra hge
        rw [List.getElem?_eq_none (Nat.le_of_not_lt hge)] at hpfd
        cases hpfd
      rw [List.getElem?_append_left hlt]
      exact hpfd
  have hslots : ∀ (i : Nat) (pfd : PollFd), (p.pollfds_ ++ [freshSlot c])[i]? = some pfd →
      ∃ ch c', (if decodeFd pfd.fd = c.fd_ then some channel else p.channels_ (decodeFd pfd.fd))
          = some ch
        ∧ (if ch = channel then some { c with index_ := (p.pollfds_.length : Int) }
          else w.channels ch) = some c' ∧ c'.index_ = i := by
    intro i pfd h
    by_cases hlt : i < p.pollfds_.length
    · rw [List.getElem?_append_left hlt] at h
      obtain ⟨ch, c', h₁, h₂, h₃⟩ := hinv.slots i pfd h
      have hne : decodeFd pfd.fd ≠ c.fd_ := by
        intro e
        rw [e, hnew] at h₁
        cases h₁
      exact ⟨ch, c', by rw [if_neg hne]; exact h₁,
        by rw [if_neg (hother _ ch h₁)]; exact h₂, h₃⟩
    · rw [List.getElem?_append_right (Nat.le_of_not_lt hlt)] at h
      have hi : i - p.pollfds_.length = 0 := by
        by_contra hne
        rw [List.getElem?_eq_none (by simp; omega)] at h
        cases h
      rw [hi] at h
      simp only [List.getElem?_cons_zero, Option.some.injEq] at h
      subst h
      have hdec : decodeFd (freshSlot c).fd = c.fd_ := decodeFd_of_encoding hfd0 (Or.inl rfl)
      refine ⟨channel, { c with index_ := (p.pollfds_.length : Int) }, by rw [if_pos hdec],
        by rw [if_pos rfl], ?_⟩
      show ((p.pollfds_.length : Nat) : Int) = (i : Int)
      have : i = p.pollfds_.length := by omega
      rw [this]
  have hd' := descriptors_modify hd hc { c with index_ := (p.pollfds_.length : Int) } rfl
  exact
    { size := (slots_bound hreg hslots hd').1
      registered := hreg
      slots := hslots }

/-- The tables after the branch of `updateChannel` for a channel that has an
index. -/
theorem consistent_rewritten {p : PollPoller} {w : World U} (hinv : Consistent p w)
    {channel : ChannelPtr} {c : Channel} (hc : w.channels channel = some c)
    (h₀ : 0 ≤ c.index_) (hreg : p.channels_ c.fd_ = some channel) {old : PollFd}
    (hold : p.pollfds_[c.index_.toNat]? = some old)
    (hfd : old.fd = c.fd_ ∨ old.fd = -c.fd_ - 1) :
    Consistent { p with pollfds_ := p.pollfds_.set c.index_.toNat (encodedSlot c) } w := by
  obtain ⟨c₀, hc₀, -, hfd0, -⟩ := hinv.registered _ _ hreg
  have hlt : c.index_.toNat < p.pollfds_.length := by
    by_contra hge
    rw [List.getElem?_eq_none (Nat.le_of_not_lt hge)] at hold
    cases hold
  exact
    { size := by
        show (p.pollfds_.set c.index_.toNat (encodedSlot c)).length < 2 ^ 31
        rw [List.length_set]
        exact hinv.size
      registered := by
        intro fd ch h
        obtain ⟨c', hc', hfd', h0, hidx, pfd, hpfd, henc⟩ := hinv.registered fd ch h
        by_cases e : c'.index_.toNat = c.index_.toNat
        · rw [e, hold] at hpfd
          cases hpfd
          have h₁ := decodeFd_of_encoding h0 henc
          have h₂ := decodeFd_of_encoding hfd0 hfd
          have hfdeq : fd = c.fd_ := h₁.symm.trans h₂
          refine ⟨c', hc', hfd', h0, hidx, encodedSlot c, ?_, ?_⟩
          · show (p.pollfds_.set c.index_.toNat (encodedSlot c))[c'.index_.toNat]? = _
            rw [e, List.getElem?_set_self hlt]
          · rw [hfdeq]
            exact encodedSlot_fd c
        · refine ⟨c', hc', hfd', h0, hidx, pfd, ?_, henc⟩
          show (p.pollfds_.set c.index_.toNat (encodedSlot c))[c'.index_.toNat]? = _
          rw [List.getElem?_set_ne (fun h => e h.symm)]
          exact hpfd
      slots := by
        intro i pfd h
        have h' : (p.pollfds_.set c.index_.toNat (encodedSlot c))[i]? = some pfd := h
        by_cases e : c.index_.toNat = i
        · rw [← e, List.getElem?_set_self hlt] at h'
          cases h'
          refine ⟨channel, c, ?_, hc, ?_⟩
          · show p.channels_ (decodeFd (encodedSlot c).fd) = some channel
            rw [decodeFd_of_encoding hfd0 (encodedSlot_fd c)]
            exact hreg
          · rw [← e]
            exact (Int.toNat_of_nonneg h₀).symm
        · rw [List.getElem?_set_ne e] at h'
          exact hinv.slots i pfd h' }

end PollPoller

namespace PollPoller

/-- A step that returns keeps the tables consistent and the descriptors file
descriptors. -/
theorem Op.apply_keeps {tid : ThreadId} {r r' : PollPoller × World U}
    (hinv : Consistent r.1 r.2) (hd : Descriptors r.2) (op : Op)
    (h : op.apply tid r = some r') : Consistent r'.1 r'.2 ∧ Descriptors r'.2 := by
  obtain ⟨p, w⟩ := r
  replace hinv : Consistent p w := hinv
  replace hd : Descriptors w := hd
  cases op with
  | setEvents channel events =>
    simp only [Op.apply] at h
    cases hc : w.channels channel with
    | none =>
      simp [Channel.modify, hc] at h
    | some c =>
      rw [modify_eq hc] at h
      simp only [Option.map_some', Option.some.injEq] at h
      subst h
      have hd' := descriptors_modify hd hc { c with events_ := events } rfl
      refine ⟨?_, hd'⟩
      exact
        { size := hinv.size
          registered := by
            intro fd ch hreg
            obtain ⟨c', hc', hfd, h0, hidx, rest⟩ := hinv.registered fd ch hreg
            by_cases e : ch = channel
            · subst e
              rw [hc] at hc'
              cases hc'
              exact ⟨{ c with events_ := events }, by
                show (if ch = ch then _ else _) = _
                rw [if_pos rfl], hfd, h0, hidx, rest⟩
            · exact ⟨c', by
                show (if ch = channel then _ else _) = _
                rw [if_neg e]
                exact hc', hfd, h0, hidx, rest⟩
          slots := by
            intro i pfd hi
            obtain ⟨ch, c', h₁, h₂, h₃⟩ := hinv.slots i pfd hi
            by_cases e : ch = channel
            · subst e
              rw [hc] at h₂
              cases h₂
              exact ⟨ch, { c with events_ := events }, h₁, by
                show (if ch = ch then _ else _) = _
                rw [if_pos rfl], h₃⟩
            · exact ⟨ch, c', h₁, by
                show (if ch = channel then _ else _) = _
                rw [if_neg e]
                exact h₂, h₃⟩ }
  | updateChannel channel =>
    obtain ⟨-, c, hc, hbr⟩ := updateChannel_some h
    rcases hbr with ⟨hneg, hnew, hadd⟩ | ⟨h₀, hreg, ⟨old, hold, hfd⟩, hrw⟩
    · have hlen := (slots_bound hinv.registered hinv.slots hd).2 c.fd_ (hd channel c hc).1
        (hd channel c hc).2 hnew
      rw [addChannel_eq hc hnew hlen] at hadd
      cases hadd
      exact ⟨consistent_added hinv hd hc hneg hnew,
        descriptors_modify hd hc { c with index_ := (p.pollfds_.length : Int) } rfl⟩
    · rw [rewriteChannel_eq hreg h₀ hinv.size hold hfd] at hrw
      cases hrw
      exact ⟨consistent_rewritten hinv hc h₀ hreg hold hfd, hd⟩
  | removeChannel channel =>
    have h' : PollPoller.removeChannel tid channel p w = some r' := h
    obtain ⟨htid, c, pfd, hc, hreg, hev, h₀, hslot, hdis⟩ := removeChannel_some h'
    have hlt : c.index_.toNat < p.pollfds_.length := by
      by_contra hge
      rw [List.getElem?_eq_none (Nat.le_of_not_lt hge)] at hslot
      cases hslot
    rw [removeChannel_start htid hc hreg hev h₀ hinv.size hslot hdis] at h'
    by_cases hlast : c.index_.toNat = p.pollfds_.length - 1
    · rw [if_pos hlast] at h'
      cases h'
      exact ⟨(removed_last hinv hc hreg hlast hlt).consistent, hd⟩
    · rw [if_neg hlast] at h'
      have hlt' : c.index_.toNat < p.pollfds_.length - 1 := by omega
      obtain ⟨last, chE, cE, hgl, herE, hcE, hrem⟩ :=
        removed_swap hinv hc hreg hlt' h₀ pfd
      rw [hgl, Option.some_bind, herE, Option.some_bind, modify_eq hcE, Option.some_bind] at h'
      cases h'
      exact ⟨hrem.consistent, descriptors_modify hd hcE { cE with index_ := c.index_ } rfl⟩

theorem runOps_keeps {tid : ThreadId} :
    ∀ (ops : List Op) (r r' : PollPoller × World U), Consistent r.1 r.2 → Descriptors r.2 →
      runOps tid ops r = some r' → Consistent r'.1 r'.2 ∧ Descriptors r'.2 := by
  intro ops
  induction ops with
  | nil =>
    intro r r' hinv hd h
    cases h
    exact ⟨hinv, hd⟩
  | cons op rest ih =>
    intro r r' hinv hd h
    simp only [runOps, Option.bind_eq_some] at h
    obtain ⟨r₁, h₁, h₂⟩ := h
    obtain ⟨hinv₁, hd₁⟩ := Op.apply_keeps hinv hd op h₁
    exact ih r₁ r' hinv₁ hd₁ h₂

theorem construct_consistent (w : World U) : Consistent construct w where
  size := by
    show (0 : Nat) < 2 ^ 31
    norm_num
  registered := by
    intro fd ch h
    cases h
  slots := by
    intro i pfd h
    cases h

end PollPoller

namespace PollPoller

/-- C26.  Start from the poller as its constructor leaves it, in a world whose
channels have file descriptors for descriptors, and let the loop thread make
any calls of `updateChannel` and `removeChannel`, the interest masks of the
channels being assigned in between; `(p, w)` is a state reached (every call
so far has returned).  Then

* the descriptors of the slots of `pollfds_` are distinct and are exactly the
  keys of `channels_`: the two containers have the same number of entries;
* a channel registered in `channels_` is live, is registered under its own
  descriptor, and its index satisfies `0 ≤ index < pollfds_.size()`, the slot
  at the index holding `fd` or `-fd-1`;
* every slot is the slot of the channel registered under the descriptor it
  stands for, whose index is the position of the slot;
* when `removeChannel` of a channel whose slot is not the last returns, the
  channel registered under the descriptor of the last slot is still
  registered, has the index of the removed channel, and the slot at that
  index is the slot that was last. -/
theorem registry_consistent (tid : ThreadId) (w₀ : World U) (hd : Descriptors w₀)
    (ops : List Op) (p : PollPoller) (w : World U)
    (hrun : runOps tid ops (construct, w₀) = some (p, w)) :
    (keys p).Nodup
      ∧ (∀ fd, (p.channels_ fd).isSome = true ↔ fd ∈ keys p)
      ∧ (keys p).length = p.pollfds_.length
      ∧ (∀ fd ch, p.channels_ fd = some ch → ∃ c pfd, w.channels ch = some c ∧ c.fd_ = fd
          ∧ 0 ≤ c.index_ ∧ c.index_ < p.pollfds_.length
          ∧ p.pollfds_[c.index_.toNat]? = some pfd
          ∧ (pfd.fd = c.fd_ ∨ pfd.fd = -c.fd_ - 1))
      ∧ (∀ (i : Nat) (pfd : PollFd), p.pollfds_[i]? = some pfd →
          ∃ ch c, p.channels_ (decodeFd pfd.fd) = some ch ∧ w.channels ch = some c
            ∧ c.index_ = i)
      ∧ (∀ channel c last p' w', w.channels channel = some c →
          p.pollfds_.getLast? = some last → c.index_.toNat ≠ p.pollfds_.length - 1 →
          removeChannel tid channel p w = some (p', w') →
          ∃ other c', p.channels_ (decodeFd last.fd) = some other
            ∧ p'.channels_ (decodeFd last.fd) = some other
            ∧ w'.channels other = some c' ∧ c'.index_ = c.index_
            ∧ p'.pollfds_[c.index_.toNat]? = some last) := by
  obtain ⟨hinv, -⟩ := runOps_keeps ops (construct, w₀) (p, w) (construct_consistent w₀) hd hrun
  replace hinv : Consistent p w := hinv
  refine ⟨keys_nodup hinv.slots, fun fd => (mem_keys hinv fd).symm, List.length_map _ _, ?_,
    hinv.slots, ?_⟩
  · intro fd ch hreg
    obtain ⟨c, hc, hfd, -, h0, pfd, hpfd, henc⟩ := hinv.registered fd ch hreg
    have hlt : c.index_.toNat < p.pollfds_.length := by
      by_contra hge
      rw [List.getElem?_eq_none (Nat.le_of_not_lt hge)] at hpfd
      cases hpfd
    refine ⟨c, pfd, hc, hfd, h0, by omega, hpfd, ?_⟩
    rw [hfd]
    exact henc
  · intro channel c last p' w' hc hlast hne hrem
    obtain ⟨htid, c₁, pfd, hc₁, hreg, hev, h₀, hslot, hdis⟩ := removeChannel_some hrem
    rw [hc] at hc₁
    cases hc₁
    have hlt : c.index_.toNat < p.pollfds_.length := by
      by_contra hge
      rw [List.getElem?_eq_none (Nat.le_of_not_lt hge)] at hslot
      cases hslot
    have hlt' : c.index_.toNat < p.pollfds_.length - 1 := by omega
    rw [removeChannel_start htid hc hreg hev h₀ hinv.size hslot hdis, if_neg hne] at hrem
    obtain ⟨last', chE, cE, hgl, herE, hcE, -⟩ := removed_swap hinv hc hreg hlt' h₀ pfd
    rw [hlast] at hgl
    cases hgl
    rw [hlast, Option.some_bind, herE, Option.some_bind, modify_eq hcE, Option.some_bind] at hrem
    cases hrem
    have hold : p.channels_ (decodeFd last.fd) = some chE := by
      unfold erased at herE
      by_cases e : decodeFd last.fd = c.fd_
      · rw [if_pos e] at herE
        cases herE
      · rw [if_neg e] at herE
        exact herE
    refine ⟨chE, { cE with index_ := c.index_ }, hold, herE, ?_, rfl, ?_⟩
    · show (if chE = chE then some { cE with index_ := c.index_ } else w.channels chE) = _
      rw [if_pos rfl]
    · show ((p.pollfds_.set c.index_.toNat last).set (p.pollfds_.length - 1) pfd).dropLast[
        c.index_.toNat]? = some last
      rw [swapped_getElem?, if_pos hlt', if_pos rfl]

theorem worldC_descriptors : Descriptors Demo.worldC := by
  intro ch c h
  have h' : (if ch = 20 then some (Channel.construct 3)
      else if ch = 21 then some (Channel.construct 4)
      else if ch = 22 then some (Channel.construct 6) else none) = some c := h
  by_cases h₁ : ch = 20
  · rw [if_pos h₁] at h'
    cases h'
    decide
  · rw [if_neg h₁] at h'
    by_cases h₂ : ch = 21
    · rw [if_pos h₂] at h'
      cases h'
      decide
    · rw [if_neg h₂] at h'
      by_cases h₃ : ch = 22
      · rw [if_pos h₃] at h'
        cases h'
        decide
      · rw [if_neg h₃] at h'
        cases h'

/-- Witness for C26: the steps of `Demo.registryOps` on the three channels of
`Demo.worldC` return.  At the end the slot of the descriptor 6 is in slot 0
and its channel, at 22, has the index 0; the descriptors 4 and 6 are
registered, the descriptor 3 is not. -/
theorem registry_consistent_witness :
    (runOps 1 Demo.registryOps (construct, Demo.worldC)).map Demo.removalView
        = some ([{ fd := 6, events := 0, revents := 0 }, { fd := 4, events := 3, revents := 0 }],
            [none, some 21, some 22], [some 0, some 1, some 0])
      ∧ ∃ p w, runOps 1 Demo.registryOps (construct, Demo.worldC) = some (p, w)
          ∧ (keys p).Nodup ∧ (keys p).length = p.pollfds_.length
          ∧ ∀ fd ch, p.channels_ fd = some ch → ∃ c pfd, w.channels ch = some c ∧ c.fd_ = fd
              ∧ 0 ≤ c.index_ ∧ c.index_ < p.pollfds_.length
              ∧ p.pollfds_[c.index_.toNat]? = some pfd
              ∧ (pfd.fd = c.fd_ ∨ pfd.fd = -c.fd_ - 1) := by
  have hsome : (runOps 1 Demo.registryOps (construct, Demo.worldC)).isSome = true := by decide
  obtain ⟨r, hr⟩ := Option.isSome_iff_exists.mp hsome
  obtain ⟨h₁, -, h₂, h₃, -⟩ :=
    registry_consistent 1 Demo.worldC worldC_descriptors Demo.registryOps r.1 r.2 hr
  exact ⟨by decide, r.1, r.2, hr, h₁, h₂, h₃⟩

end PollPoller

/-! ### `EventLoop`: one loop per thread -/

namespace EventLoop

/-- The constructor when the descriptors and the poller give no trouble. -/
theorem construct_eq (tid : ThreadId) (this : LoopPtr) (s : Process) :
    construct tid this true true s
      = (match s.t_loopInThisThread tid with
        | some _ => none
        | none => some
            { t_loopInThisThread := fun t => if t = tid then some this else s.t_loopInThisThread t,
              loops := fun l => if l = this then some (fresh tid) else s.loops l }) := by
  simp only [construct, assertThat, if_true, Option.bind_eq_bind, Option.some_bind,
    Option.pure_def]
  cases s.t_loopInThisThread tid <;> rfl

theorem construct_some {tid : ThreadId} {this : LoopPtr} {descriptors poller : Bool}
    {s s' : Process} (h : construct tid this descriptors poller s = some s') :
    s.t_loopInThisThread tid = none
      ∧ s' = { t_loopInThisThread := fun t =>
                  if t = tid then some this else s.t_loopInThisThread t,
               loops := fun l => if l = this then some (fresh tid) else s.loops l } := by
  cases descriptors with
  | false => simp [construct, assertThat] at h
  | true =>
    cases poller with
    | false => simp [construct, assertThat] at h
    | true =>
      rw [construct_eq] at h
      cases hp : s.t_loopInThisThread tid with
      | some l =>
        rw [hp] at h
        cases h
      | none =>
        rw [hp] at h
        cases h
        exact ⟨rfl, rfl⟩

theorem destruct_some {tid : ThreadId} {this : LoopPtr} {wakeupChannel : ChannelPtr}
    {poller : Bool} {s s' : Process} (h : destruct tid this wakeupChannel poller s = some s') :
    (∃ loop, s.loops this = some loop ∧ loop.threadId_ = tid)
      ∧ s' = { t_loopInThisThread := fun t => if t = tid then none else s.t_loopInThisThread t,
               loops := fun l => if l = this then none else s.loops l } := by
  simp only [destruct, Option.bind_eq_bind, Option.bind_eq_some, assertThat_eq_some,
    beq_iff_eq, Option.pure_def, Option.some.injEq] at h
  obtain ⟨loop, hl, -, htid, -, -, -, -, -, -, -, -, hs⟩ := h
  exact ⟨⟨loop, hl, htid⟩, hs.symm⟩

theorem destruct_eq {tid : ThreadId} {this : LoopPtr} (wakeupChannel : ChannelPtr)
    {s : Process} {loop : EventLoop} (hl : s.loops this = some loop)
    (htid : loop.threadId_ = tid)
    (hev : loop.eventHandling_ = true →
      loop.currentActiveChannel_ = some wakeupChannel ∨ wakeupChannel ∉ loop.activeChannels_) :
    destruct tid this wakeupChannel true s
      = some { t_loopInThisThread := fun t => if t = tid then none else s.t_loopInThisThread t,
               loops := fun l => if l = this then none else s.loops l } := by
  simp only [destruct, hl, htid, beq_self_eq_true, assertThat, if_true, Option.bind_eq_bind,
    Option.some_bind, decide_eq_true hev, Option.pure_def]

end EventLoop

namespace Process

theorem initial_oneLoop : OneLoop initial where
  pointed := by
    intro l loop h
    cases h
  live := by
    intro t l h
    cases h

/-- A step that returns keeps the pointers and the live loops in agreement. -/
theorem Op.apply_oneLoop {s s' : Process} (hinv : OneLoop s) (op : Op)
    (hf : op.fresh s = true) (h : op.apply s = some s') : OneLoop s' := by
  cases op with
  | construct tid this descriptors poller =>
    have hfree : s.loops this = none := by
      simpa [Op.fresh] using hf
    obtain ⟨hnone, rfl⟩ := EventLoop.construct_some h
    exact
      { pointed := by
          intro l loop hl
          have hl' : (if l = this then some (EventLoop.fresh tid) else s.loops l) = some loop :=
            hl
          show (if loop.threadId_ = tid then some this
            else s.t_loopInThisThread loop.threadId_) = some l
          by_cases e : l = this
          · rw [if_pos e] at hl'
            cases hl'
            rw [e]
            exact if_pos rfl
          · rw [if_neg e] at hl'
            have hp := hinv.pointed l loop hl'
            have hne : loop.threadId_ ≠ tid := by
              intro e'
              rw [e', hnone] at hp
              cases hp
            rw [if_neg hne]
            exact hp
        live := by
          intro t l ht
          have ht' : (if t = tid then some this else s.t_loopInThisThread t) = some l := ht
          show ∃ loop, (if l = this then some (EventLoop.fresh tid) else s.loops l) = some loop
            ∧ loop.threadId_ = t
          by_cases e : t = tid
          · rw [if_pos e] at ht'
            cases ht'
            exact ⟨EventLoop.fresh tid, if_pos rfl, e.symm⟩
          · rw [if_neg e] at ht'
            obtain ⟨loop, hl, hth⟩ := hinv.live t l ht'
            have hne : l ≠ this := by
              intro e'
              rw [e', hfree] at hl
              cases hl
            exact ⟨loop, by rw [if_neg hne]; exact hl, hth⟩ }
  | destruct tid this wakeupChannel poller =>
    obtain ⟨⟨loop₀, hl₀, htid₀⟩, rfl⟩ := EventLoop.destruct_some h
    have hp₀ := hinv.pointed this loop₀ hl₀
    rw [htid₀] at hp₀
    exact
      { pointed := by
          intro l loop hl
          have hl' : (if l = this then none else s.loops l) = some loop := hl
          show (if loop.threadId_ = tid then none
            else s.t_loopInThisThread loop.threadId_) = some l
          by_cases e : l = this
          · rw [if_pos e] at hl'
            cases hl'
          · rw [if_neg e] at hl'
            have hp := hinv.pointed l loop hl'
            have hne : loop.threadId_ ≠ tid := by
              intro e'
              rw [e', hp₀] at hp
              exact e (Option.some.inj hp).symm
            rw [if_neg hne]
            exact hp
        live := by
          intro t l ht
          have ht' : (if t = tid then none else s.t_loopInThisThread t) = some l := ht
          show ∃ loop, (if l = this then none else s.loops l) = some loop ∧ loop.threadId_ = t
          by_cases e : t = tid
          · rw [if_pos e] at ht'
            cases ht'
          · rw [if_neg e] at ht'
            obtain ⟨loop, hl, hth⟩ := hinv.live t l ht'
            have hne : l ≠ this := by
              intro e'
              rw [e', hl₀] at hl
              cases hl
              exact e (hth.symm.trans htid₀)
            exact ⟨loop, by rw [if_neg hne]; exact hl, hth⟩ }
  | run this loop =>
    simp only [Op.apply, Option.bind_eq_some, Option.some.injEq] at h
    obtain ⟨old, hold, rfl⟩ := h
    exact
      { pointed := by
          intro l loop' hl
          have hl' : (if l = this then some { loop with threadId_ := old.threadId_ }
            else s.loops l) = some loop' := hl
          show s.t_loopInThisThread loop'.threadId_ = some l
          by_cases e : l = this
          · rw [if_pos e] at hl'
            cases hl'
            rw [e]
            exact hinv.pointed this old hold
          · rw [if_neg e] at hl'
            exact hinv.pointed l loop' hl'
        live := by
          intro t l ht
          obtain ⟨loop', hl, hth⟩ := hinv.live t l ht
          show ∃ loop'', (if l = this then some { loop with threadId_ := old.threadId_ }
            else s.loops l) = some loop'' ∧ loop''.threadId_ = t
          by_cases e : l = this
          · rw [if_pos e]
            rw [e, hold] at hl
            cases hl
            exact ⟨_, rfl, hth⟩
          · rw [if_neg e]
            exact ⟨loop', hl, hth⟩ }

theorem runOps_oneLoop :
    ∀ (ops : List Op) (s s' : Process), OneLoop s → admissible ops s = true →
      runOps ops s = some s' → OneLoop s' := by
  intro ops
  induction ops with
  | nil =>
    intro s s' hinv _ h
    cases h
    exact hinv
  | cons op rest ih =>
    intro s s' hinv hadm h
    simp only [runOps, Option.bind_eq_some] at h
    obtain ⟨s₁, h₁, h₂⟩ := h
    simp only [admissible, Bool.and_eq_true] at hadm
    have hadm₂ := hadm.2
    rw [h₁] at hadm₂
    exact ih s₁ s' (Op.apply_oneLoop hinv op hadm.1 h₁) hadm₂ h₂

end Process
namespace EventLoop

/-- C23.  The constructor and the destructor of `EventLoop`, run by thread
`tid` for the object at `this` in the process state `s`.

* When the pointer of the thread is set, the constructor does not return
  (`LOG_FATAL`).
* When it is null (and the descriptors and the poller give no trouble), the
  constructor returns; afterwards `getEventLoopOfCurrentThread()` returns
  `this` in that thread, the new loop is alive with `threadId_ = tid`, and the
  pointers of the other threads and the other loops are as before.
* When the destructor returns, the loop was a loop of the thread that runs
  it; afterwards the pointer of that thread is null and the loop is gone, the
  pointers of the other threads and the other loops being as before.  It
  returns when the owner runs it outside the dispatch of events, and it does
  not return when another thread runs it (`abortNotInLoopThread`).
* In every state `s` reached from the start of the process by constructions
  (at addresses with no live object), destructions and runs that return, two
  live loops of one thread are the same loop: at most one `EventLoop` exists
  for each thread; a live loop is the loop `getEventLoopOfCurrentThread()`
  returns in its thread, and what that function returns is a live loop of the
  calling thread. -/
theorem one_loop_per_thread (tid : ThreadId) (this : LoopPtr) (s : Process) :
    (∀ l descriptors poller, s.t_loopInThisThread tid = some l →
        construct tid this descriptors poller s = none)
      ∧ (s.t_loopInThisThread tid = none →
          ∃ s', construct tid this true true s = some s'
            ∧ getEventLoopOfCurrentThread tid s' = some this
            ∧ s'.loops this = some (fresh tid) ∧ (fresh tid).threadId_ = tid
            ∧ (∀ t, t ≠ tid → s'.t_loopInThisThread t = s.t_loopInThisThread t)
            ∧ ∀ l, l ≠ this → s'.loops l = s.loops l)
      ∧ (∀ wakeupChannel poller s', destruct tid this wakeupChannel poller s = some s' →
          (∃ loop, s.loops this = some loop ∧ loop.threadId_ = tid)
            ∧ getEventLoopOfCurrentThread tid s' = none ∧ s'.loops this = none
            ∧ (∀ t, t ≠ tid → s'.t_loopInThisThread t = s.t_loopInThisThread t)
            ∧ ∀ l, l ≠ this → s'.loops l = s.loops l)
      ∧ (∀ wakeupChannel loop, s.loops this = some loop → loop.threadId_ = tid →
          loop.eventHandling_ = false →
          ∃ s', destruct tid this wakeupChannel true s = some s')
      ∧ (∀ wakeupChannel poller loop, s.loops this = some loop → loop.threadId_ ≠ tid →
          destruct tid this wakeupChannel poller s = none)
      ∧ (∀ ops, Process.admissible ops Process.initial = true →
          Process.runOps ops Process.initial = some s →
          (∀ l₁ l₂ loop₁ loop₂, s.loops l₁ = some loop₁ → s.loops l₂ = some loop₂ →
              loop₁.threadId_ = loop₂.threadId_ → l₁ = l₂)
            ∧ (∀ l loop, s.loops l = some loop →
                getEventLoopOfCurrentThread loop.threadId_ s = some l)
            ∧ ∀ t l, getEventLoopOfCurrentThread t s = some l →
                ∃ loop, s.loops l = some loop ∧ loop.threadId_ = t) := by
  refine ⟨?_, ?_, ?_, ?_, ?_, ?_⟩
  · intro l descriptors poller hset
    cases h : construct tid this descriptors poller s with
    | none => rfl
    | some s' =>
      rw [(construct_some h).1] at hset
      cases hset
  · intro hnull
    refine ⟨_, by rw [construct_eq, hnull], ?_, ?_, rfl, ?_, ?_⟩
    · show (if tid = tid then some this else s.t_loopInThisThread tid) = some this
      rw [if_pos rfl]
    · show (if this = this then some (fresh tid) else s.loops this) = some (fresh tid)
      rw [if_pos rfl]
    · intro t ht
      show (if t = tid then some this else s.t_loopInThisThread t) = s.t_loopInThisThread t
      rw [if_neg ht]
    · intro l hl
      show (if l = this then some (fresh tid) else s.loops l) = s.loops l
      rw [if_neg hl]
  · intro wakeupChannel poller s' h
    obtain ⟨hlive, rfl⟩ := destruct_some h
    refine ⟨hlive, ?_, ?_, ?_, ?_⟩
    · show (if tid = tid then none else s.t_loopInThisThread tid) = none
      rw [if_pos rfl]
    · show (if this = this then none else s.loops this) = none
      rw [if_pos rfl]
    · intro t ht
      show (if t = tid then none else s.t_loopInThisThread t) = s.t_loopInThisThread t
      rw [if_neg ht]
    · intro l hl
      show (if l = this then none else s.loops l) = s.loops l
      rw [if_neg hl]
  · intro wakeupChannel loop hl htid hev
    exact ⟨_, destruct_eq wakeupChannel hl htid (fun h => by rw [hev] at h; cases h)⟩
  · intro wakeupChannel poller loop hl hne
    cases h : destruct tid this wakeupChannel poller s with
    | none => rfl
    | some s' =>
      obtain ⟨⟨loop', hl', htid⟩, -⟩ := destruct_some h
      rw [hl] at hl'
      cases hl'
      exact absurd htid hne
  · intro ops hadm hrun
    have hinv := Process.runOps_oneLoop ops Process.initial s Process.initial_oneLoop hadm hrun
    refine ⟨?_, hinv.pointed, hinv.live⟩
    intro l₁ l₂ loop₁ loop₂ h₁ h₂ he
    have p₁ := hinv.pointed l₁ loop₁ h₁
    have p₂ := hinv.pointed l₂ loop₂ h₂
    rw [he, p₂] at p₁
    exact (Option.some.inj p₁).symm

/-- Witness for C23: in the run of `Demo.processOps` the loop of thread 1 at
100 is replaced by one at 101 and thread 2 keeps its loop at 200.  While the
loop at 100 is alive, thread 1 cannot construct a second loop, and thread 2
cannot destroy the loop of thread 1. -/
theorem one_loop_per_thread_witness :
    (Process.runOps Demo.processOps Process.initial).map Demo.processView
        = some { pointer1 := some 101, pointer2 := some 200,
                 owners := [none, some 1, some 2] }
      ∧ Process.admissible Demo.processOps Process.initial = true
      ∧ ((construct 1 100 true true Process.initial).bind
          (construct 1 101 true true)).isNone = true
      ∧ ((construct 1 100 true true Process.initial).bind
          (destruct 2 100 9 true)).isNone = true
      ∧ ∃ s, Process.runOps Demo.processOps Process.initial = some s
          ∧ ∀ l₁ l₂ loop₁ loop₂, s.loops l₁ = some loop₁ → s.loops l₂ = some loop₂ →
              loop₁.threadId_ = loop₂.threadId_ → l₁ = l₂ := by
  have hsome : (Process.runOps Demo.processOps Process.initial).isSome = true := by decide
  have hadm : Process.admissible Demo.processOps Process.initial = true := by decide
  obtain ⟨s, hs⟩ := Option.isSome_iff_exists.mp hsome
  exact ⟨by decide, hadm, by decide, by decide, s, hs,
    ((one_loop_per_thread 1 100 s).2.2.2.2.2 Demo.processOps hadm hs).1⟩

end EventLoop

/-! ### `PollPoller`: the two branches of `updateChannel` and `removeChannel` -/

namespace PollPoller

theorem pollerN_consistent : Consistent Demo.pollerN Demo.worldR where
  size := by decide
  registered := by
    intro fd ch h
    have h' : (if fd = 5 then some 8 else none) = some ch := h
    by_cases h5 : fd = 5
    · subst h5
      cases h'
      exact ⟨Demo.channelR, rfl, rfl, by decide, by decide, _, rfl, Or.inl rfl⟩
    · rw [if_neg h5] at h'
      cases h'
  slots := by
    intro i pfd h
    match i, h with
    | 0, h =>
      cases h
      exact ⟨8, Demo.channelR, rfl, rfl, rfl⟩
    | _ + 1, h => cases h

/-- C16, at the failing input.  `disableAll()` on the newly constructed
channel at address 8 leaves the poller `Demo.pollerN` and the world
`Demo.worldR`: the channel is registered under its descriptor 5, its interest
mask is empty and the tables are consistent, but its slot holds 5 and not
`-5-1`, the branch of `updateChannel` for a new channel not looking at the
mask.  `removeChannel` of this registered channel with empty interest asserts
`pfd.fd == -channel->fd()-1` and does not return: the descriptor is not erased
and no slot is dropped.  With `-6` in the slot, what the other branch of
`updateChannel` writes for an empty mask, the same call returns, the
descriptor erased and the slot dropped. -/
theorem removeChannel_unflipped_slot :
    (Channel.disableAll 1 8 Demo.emptyPoller Demo.worldN).map Demo.pollView
        = some (Demo.pollView (Demo.pollerN, Demo.worldR))
      ∧ Demo.worldR.channels 8 = some Demo.channelR
      ∧ Demo.pollerN.channels_ Demo.channelR.fd_ = some 8
      ∧ Demo.channelR.events_ = 0
      ∧ Consistent Demo.pollerN Demo.worldR
      ∧ (removeChannel 1 8 Demo.pollerN Demo.worldR).isNone = true
      ∧ (removeChannel 1 8
            { Demo.pollerN with pollfds_ := [{ fd := -6, events := 0, revents := 0 }] }
            Demo.worldR).map Demo.pollView
        = some { pollfds := [], registered5 := none, channel8 := some Demo.channelR } :=
  ⟨by decide, rfl, rfl, rfl, pollerN_consistent, by decide, by decide⟩

end PollPoller

end Muduo
